import Mathlib

/-!
# Bounded associative cache: replacement manager, policies and bounded map

A shallow embedding of `cache_manager/base.h`, `cache_manager/replacement_iterator.h`,
`cache_manager/policy.h`, `cache_manager/cache_manager.h` and `limited/unordered_map.h`.

Nodes live in a memory indexed by addresses.  A `stored_node<T>` is the payload `first`
together with the `cache_node` fields `prev`, `next` and `weight`.  The replacement list is
the circular doubly-linked list threaded through these fields, closed by the manager's
sentinel node `_first`.  Values of `size_t` are natural numbers reduced modulo `2 ^ 64`.
Loops that follow pointers take a step budget and answer `none` when it runs out.
-/

set_option linter.dupNamespace false

namespace cache_manager

/-! ## base.h -/

/-- Address of a `stored_node<T>`; `0` is the null pointer. -/
abbrev Ptr := Nat

/-- Number of values of the machine word `size_t`. -/
def SIZE : Nat := 2 ^ 64

/-- Memory of `stored_node<T>` objects: `first` is the managed value, the other three
fields are the members of the `cache_node` stored in `second`. -/
structure Mem (T : Type) where
  first : Ptr → T
  prev : Ptr → Ptr
  next : Ptr → Ptr
  weight : Ptr → Nat

/-- The default weigher `weight<T>`: one for every value. -/
def weight {T : Type} (_ : T) : Nat := 1

/-- Accessor `__prev(node)`. -/
abbrev __prev {T : Type} (m : Mem T) (node : Ptr) : Ptr := m.prev node

/-- Accessor `__next(node)`. -/
abbrev __next {T : Type} (m : Mem T) (node : Ptr) : Ptr := m.next node

/-- Body of `__link(first, second)`: `__next(first) = second; __prev(second) = first;`. -/
def __link {T : Type} (m : Mem T) (first second : Ptr) : Mem T :=
  { m with
    next := Function.update m.next first second
    prev := Function.update m.prev second first }

/-! ## replacement_iterator.h -/

namespace iterator_operations

/-- Body of `iterator_operations::move(first, last, dest)`. -/
def move {T : Type} (m : Mem T) (first last dest : Ptr) : Mem T :=
  let before_ptr := __prev m first
  let first_ptr := first
  let last_ptr := __prev m last
  let after_ptr := last
  let d_before_ptr := __prev m dest
  let d_after_ptr := dest
  let m1 := __link m before_ptr after_ptr
  let m2 := __link m1 d_before_ptr first_ptr
  __link m2 last_ptr d_after_ptr

/-- Body of `iterator_operations::iter_swap(a, b)`. -/
def iter_swap {T : Type} (m : Mem T) (a b : Ptr) : Mem T :=
  let before_a_ptr := __prev m a
  let a_ptr := a
  let after_a_ptr := __next m a
  let before_b_ptr := __prev m b
  let b_ptr := b
  let after_b_ptr := __next m b
  if a_ptr = before_b_ptr then
    __link (__link (__link m before_a_ptr b_ptr) b_ptr a_ptr) a_ptr after_b_ptr
  else if a_ptr = after_b_ptr then
    __link (__link (__link m before_b_ptr a_ptr) a_ptr b_ptr) b_ptr after_a_ptr
  else if a_ptr ≠ b_ptr then
    __link (__link (__link (__link m before_b_ptr a_ptr) a_ptr after_b_ptr)
      before_a_ptr b_ptr) b_ptr after_a_ptr
  else m

/-- Body of `iterator_operations::swap_ranges(first1, last1, first2, last2)`. -/
def swap_ranges {T : Type} (m : Mem T) (first1 last1 first2 last2 : Ptr) : Mem T :=
  let before1_ptr := __prev m first1
  let first1_ptr := first1
  let last1_ptr := __prev m last1
  let after1_ptr := last1
  let before2_ptr := __prev m first2
  let first2_ptr := first2
  let last2_ptr := __prev m last2
  let after2_ptr := last2
  if first2_ptr = after1_ptr then
    __link (__link (__link m before1_ptr first2_ptr) last2_ptr first1_ptr) last1_ptr after2_ptr
  else if first1_ptr = after2_ptr then
    __link (__link (__link m before2_ptr first1_ptr) last1_ptr first2_ptr) last2_ptr after1_ptr
  else if first1_ptr ≠ first2_ptr ∨ last1_ptr ≠ last2_ptr then
    __link (__link (__link (__link m before1_ptr first2_ptr) last2_ptr after1_ptr)
      before2_ptr first1_ptr) last1_ptr after2_ptr
  else m

/-- The `while(cur_ptr != after_ptr)` loop of `iterator_operations::reverse`. -/
def reverse_loop {T : Type} (after_ptr : Ptr) : Nat → Mem T → Ptr → Option (Mem T)
  | 0, _, _ => none
  | fuel + 1, m, cur_ptr =>
    if cur_ptr ≠ after_ptr then
      let next_ptr := __next m cur_ptr
      reverse_loop after_ptr fuel (__link m cur_ptr (__prev m cur_ptr)) next_ptr
    else some m

/-- Body of `iterator_operations::reverse(first, last)`. -/
def reverse {T : Type} (fuel : Nat) (m : Mem T) (first last : Ptr) : Option (Mem T) :=
  let before_ptr := __prev m first
  let first_ptr := first
  let last_ptr := __prev m last
  let after_ptr := last
  match reverse_loop after_ptr fuel m (__next m first_ptr) with
  | none => none
  | some m1 => some (__link (__link m1 before_ptr last_ptr) first_ptr after_ptr)

/-- Body of `iterator_operations::rotate(first, n_first, last)`. -/
def rotate {T : Type} (m : Mem T) (first n_first last : Ptr) : Mem T :=
  move m first n_first last

end iterator_operations

/-! ## policy.h -/

namespace policy

/-- The policies of `policy.h` that define no `erase_position`: the ones a wrapper
accepts as its `ParentPolicy`. -/
inductive parent_policy where
  | fifo
  | lifo
  | lru
  | mru
  | swapping
  deriving DecidableEq, Repr

/-- A replacement policy `RepPolicy`: a plain policy, or one of the two adaptors around a
parent policy with their `Locker` functor. -/
inductive rep_policy (T : Type) where
  | plain (p : parent_policy)
  | locked_policy (parent : parent_policy) (locker : T → Bool)
  | priority_policy (parent : parent_policy) (locker : T → Nat)

/-- The policy whose `insert_position` and `access` members a policy has (its own, or
the ones inherited from `ParentPolicy`). -/
def rep_policy.parent {T : Type} : rep_policy T → parent_policy
  | .plain p => p
  | .locked_policy p _ => p
  | .priority_policy p _ => p

/-- The trait `provides_insert_v`. -/
def provides_insert_v {T : Type} (pol : rep_policy T) : Bool :=
  match pol.parent with
  | .fifo => false
  | .lifo => true
  | .lru => false
  | .mru => true
  | .swapping => true

/-- The trait `provides_erase_v`. -/
def provides_erase_v {T : Type} : rep_policy T → Bool
  | .plain _ => false
  | .locked_policy _ _ => true
  | .priority_policy _ _ => true

/-- The trait `provides_access_v`. -/
def provides_access_v {T : Type} (pol : rep_policy T) : Bool :=
  match pol.parent with
  | .fifo => false
  | .lifo => false
  | .lru => true
  | .mru => true
  | .swapping => true

/-- Member `lifo::insert_position`. -/
def lifo.insert_position (first _last : Ptr) : Ptr := first

/-- Member `mru::insert_position`. -/
def mru.insert_position (first _last : Ptr) : Ptr := first

/-- Member `swapping::insert_position`. -/
def swapping.insert_position (first _last : Ptr) : Ptr := first

/-- Member `lru::access`. -/
def lru.access {T : Type} (m : Mem T) (_first last accessed : Ptr) : Mem T :=
  let next := __next m accessed
  if next ≠ last then iterator_operations.move m accessed next last else m

/-- Member `mru::access`. -/
def mru.access {T : Type} (m : Mem T) (first _last accessed : Ptr) : Mem T :=
  if accessed ≠ first then
    let next := __next m accessed
    iterator_operations.move m accessed next first
  else m

/-- Member `swapping::access`. -/
def swapping.access {T : Type} (m : Mem T) (_first last accessed : Ptr) : Mem T :=
  let next := __next m accessed
  if next ≠ last then iterator_operations.iter_swap m next accessed else m

/-- Member `locked_policy::erase_position`: the loop
`for(auto it = first; it != last; ++it) if(!_locker(*it)) return it;` and `return last`. -/
def locked_policy.erase_position {T : Type} (locker : T → Bool) (m : Mem T) (last : Ptr) :
    Nat → Ptr → Option Ptr
  | 0, _ => none
  | fuel + 1, it =>
    if it ≠ last then
      if !locker (m.first it) then some it
      else locked_policy.erase_position locker m last fuel (__next m it)
    else some last

/-- The value `std::numeric_limits<size_t>::max()`. -/
def priority_max : Nat := SIZE - 1

/-- The value `std::numeric_limits<size_t>::min()`. -/
def priority_min : Nat := 0

/-- First loop of `priority_policy::erase_position`: skip the entries of priority `max()`.
The answer `Sum.inl last` is the early `return last`; `Sum.inr it` is the value of
`lowestPriorityIter` when the loop condition fails. -/
def priority_policy.skip_max {T : Type} (locker : T → Nat) (m : Mem T) (last : Ptr) :
    Nat → Ptr → Option (Ptr ⊕ Ptr)
  | 0, _ => none
  | fuel + 1, lowestPriorityIter =>
    if locker (m.first lowestPriorityIter) % SIZE = priority_max then
      let lowestPriorityIter := __next m lowestPriorityIter
      if lowestPriorityIter = last then some (Sum.inl last)
      else priority_policy.skip_max locker m last fuel lowestPriorityIter
    else some (Sum.inr lowestPriorityIter)

/-- Second loop of `priority_policy::erase_position`. -/
def priority_policy.scan {T : Type} (locker : T → Nat) (m : Mem T) (last : Ptr) :
    Nat → Ptr → Ptr → Nat → Option Ptr
  | 0, _, _, _ => none
  | fuel + 1, it, lowestPriorityIter, currentPriority =>
    if currentPriority > priority_min ∧ it ≠ last then
      let priority := locker (m.first it) % SIZE
      if priority < currentPriority then
        priority_policy.scan locker m last fuel (__next m it) it priority
      else
        priority_policy.scan locker m last fuel (__next m it) lowestPriorityIter
          (currentPriority - 1)
    else some lowestPriorityIter

/-- Member `priority_policy::erase_position`. -/
def priority_policy.erase_position {T : Type} (locker : T → Nat) (m : Mem T) (fuel : Nat)
    (first last : Ptr) : Option Ptr :=
  match priority_policy.skip_max locker m last fuel first with
  | none => none
  | some (Sum.inl r) => some r
  | some (Sum.inr lowestPriorityIter) =>
    priority_policy.scan locker m last fuel lowestPriorityIter lowestPriorityIter
      (locker (m.first lowestPriorityIter) % SIZE)

/-- The assertion `assert(first != last)` at the head of
`priority_policy::erase_position`. -/
def priority_policy.erase_position_assert (first last : Ptr) : Bool := decide (first ≠ last)

namespace policy_extractor

/-- Body of `policy_extractor::insert_position`. -/
def insert_position {T : Type} (pol : rep_policy T) (first last : Ptr) : Ptr :=
  if provides_insert_v pol then
    match pol.parent with
    | .lifo => lifo.insert_position first last
    | .mru => mru.insert_position first last
    | .swapping => swapping.insert_position first last
    | _ => last
  else last

/-- Body of `policy_extractor::erase_position`. -/
def erase_position {T : Type} (pol : rep_policy T) (m : Mem T) (fuel : Nat)
    (first last : Ptr) : Option Ptr :=
  if provides_erase_v pol then
    match pol with
    | .locked_policy _ locker => locked_policy.erase_position locker m last fuel first
    | .priority_policy _ locker => priority_policy.erase_position locker m fuel first last
    | .plain _ => some first
  else some first

/-- Whether the call `policy_extractor::erase_position(policy, first, last)` passes the
assertion of the policy it reaches; only `priority_policy::erase_position` has one. -/
def erase_position_asserts {T : Type} (pol : rep_policy T) (first last : Ptr) : Bool :=
  if provides_erase_v pol then
    match pol with
    | .locked_policy _ _ => true
    | .priority_policy _ _ => priority_policy.erase_position_assert first last
    | .plain _ => true
  else true

/-- Body of `policy_extractor::access`. -/
def access {T : Type} (pol : rep_policy T) (m : Mem T) (first last accessed : Ptr) : Mem T :=
  if provides_access_v pol then
    match pol.parent with
    | .lru => lru.access m first last accessed
    | .mru => mru.access m first last accessed
    | .swapping => swapping.access m first last accessed
    | _ => m
  else m

end policy_extractor

end policy

/-! ## cache_manager.h -/

/-- The data members of `cache_manager<T, Weight, RepPolicy>`.  The sentinel node `_first`
is part of the manager; what is recorded here is its address, its `cache_node` fields are
read from the memory like those of every other node. -/
structure cache_manager (T : Type) where
  _capacity : Nat
  _first : Ptr
  _weight : Nat
  _weigher : T → Nat
  _policy : policy.rep_policy T

namespace cache_manager

variable {T : Type}

/-- Constructor `cache_manager(capacity, weigher, policy)` for a manager stored at address
`self`: the sentinel is linked to itself. -/
def mk_empty (m : Mem T) (self : Ptr) (capacity : Nat) (weigher : T → Nat)
    (pol : policy.rep_policy T) : cache_manager T × Mem T :=
  ({ _capacity := capacity % SIZE, _first := self, _weight := 0, _weigher := weigher,
     _policy := pol },
   { m with
     prev := Function.update m.prev self self
     next := Function.update m.next self self })

/-- Member `begin()`: `++replacement_iterator<T>(&_first)`. -/
def begin (c : cache_manager T) (m : Mem T) : Ptr := __next m c._first

/-- Member `cbegin()`. -/
def cbegin (c : cache_manager T) (m : Mem T) : Ptr := __next m c._first

/-- Member `end()`: `replacement_iterator<T>(&_first)`. -/
def end_ (c : cache_manager T) : Ptr := c._first

/-- Member `cend()`. -/
def cend (c : cache_manager T) : Ptr := c._first

/-- Member `weight()`. -/
def weight (c : cache_manager T) : Nat := c._weight

/-- Member `capacity()`. -/
def capacity (c : cache_manager T) : Nat := c._capacity

/-- Member `calculate_weight(val)`: the result of the `Weight` functor, a `size_t`. -/
def calculate_weight (c : cache_manager T) (val : T) : Nat := c._weigher val % SIZE

/-- Member `calculate_weight(it)` (built without `CACHE_STORE_WEIGHT`). -/
def calculate_weight_it (c : cache_manager T) (m : Mem T) (it : Ptr) : Nat :=
  c._weigher (m.first it) % SIZE

/-- Member `can_fit(weight)`: `(_weight + weight) <= _capacity` in `size_t`. -/
def can_fit (c : cache_manager T) (weight : Nat) : Bool :=
  decide ((c._weight + weight) % SIZE ≤ c._capacity)

/-- Member `clear()`. -/
def clear (c : cache_manager T) (m : Mem T) : cache_manager T × Mem T :=
  ({ c with _weight := 0 }, __link m c._first c._first)

/-- Member `insert(node)`; the result is the manager, the memory and the returned
iterator. -/
def insert (c : cache_manager T) (m : Mem T) (node : Ptr) : cache_manager T × Mem T × Ptr :=
  let weight := c.calculate_weight (m.first node)
  let place := policy.policy_extractor.insert_position c._policy (c.begin m) c.end_
  let prev := __prev m place
  let next := place
  let m1 := __link m prev node
  let m2 := __link m1 node next
  let c1 := { c with _weight := (c._weight + weight) % SIZE }
  let m3 := { m2 with weight := Function.update m2.weight node weight }
  (c1, m3, node)

/-- Member `reinsert(it)`. -/
def reinsert (c : cache_manager T) (m : Mem T) (it : Ptr) : cache_manager T × Mem T :=
  let weight := c.calculate_weight_it m it
  let c1 := { c with _weight := (c._weight + weight) % SIZE }
  let prev := __prev m it
  let next := __next m it
  let m1 := __link m prev it
  let m2 := __link m1 it next
  (c1, m2)

/-- Member `update_weight(it, oldWeight, newWeight)`. -/
def update_weight (c : cache_manager T) (m : Mem T) (it : Ptr) (oldWeight newWeight : Nat) :
    cache_manager T × Mem T :=
  let w1 := (c._weight + SIZE - oldWeight % SIZE) % SIZE
  let w2 := (w1 + newWeight) % SIZE
  ({ c with _weight := w2 }, { m with weight := Function.update m.weight it newWeight })

/-- Member `erase(const stored_node<T>* node)`. -/
def erase_node (c : cache_manager T) (m : Mem T) (node : Ptr) : cache_manager T × Mem T :=
  let prev := __prev m node
  let next := __next m node
  let m1 := __link m prev next
  let weight := c.calculate_weight (m1.first node)
  ({ c with _weight := (c._weight + SIZE - weight) % SIZE }, m1)

/-- Member `erase(replacementIt)`; the last component is the returned iterator. -/
def erase (c : cache_manager T) (m : Mem T) (replacementIt : Ptr) :
    cache_manager T × Mem T × Ptr :=
  let next := __next m replacementIt
  let r := c.erase_node m replacementIt
  (r.1, r.2, next)

/-- The `while(first != last)` loop of `erase(first, last)`, which adds up the weights. -/
def erase_range_sum (c : cache_manager T) (m : Mem T) (last : Ptr) : Nat → Ptr → Nat → Option Nat
  | 0, _, _ => none
  | fuel + 1, first, sumWeight =>
    if first ≠ last then
      let weight := c.calculate_weight (m.first first)
      erase_range_sum c m last fuel (__next m first) ((sumWeight + weight) % SIZE)
    else some sumWeight

/-- Member `erase(first, last)`; the last component is the returned iterator. -/
def erase_range (c : cache_manager T) (m : Mem T) (fuel : Nat) (first last : Ptr) :
    Option (cache_manager T × Mem T × Ptr) :=
  let prev := __prev m first
  let next := last
  match c.erase_range_sum m last fuel first 0 with
  | none => none
  | some sumWeight =>
    some ({ c with _weight := (c._weight + SIZE - sumWeight) % SIZE }, __link m prev next, next)

/-- Member `access(replacementIt)`. -/
def access (c : cache_manager T) (m : Mem T) (replacementIt : Ptr) : Mem T :=
  policy.policy_extractor.access c._policy m (c.begin m) c.end_ replacementIt

/-- Member `next()`. -/
def next (c : cache_manager T) (m : Mem T) (fuel : Nat) : Option Ptr :=
  if c.cbegin m = c.cend then some c.cend
  else policy.policy_extractor.erase_position c._policy m fuel (c.cbegin m) c.cend

/-- Member `next(hint)`. -/
def next_hint (c : cache_manager T) (m : Mem T) (fuel : Nat) (hint : Ptr) : Option Ptr :=
  if hint = c.cend then some c.cend
  else policy.policy_extractor.erase_position c._policy m fuel hint c.cend

/-- Member `next_except(except)`; it relinks `except`, so the memory is part of the
result. -/
def next_except (c : cache_manager T) (m : Mem T) (fuel : Nat) (except : Ptr) :
    Option (Ptr × Mem T) :=
  if c.cbegin m = c.cend then some (c.cend, m)
  else
    let prev := __prev m except
    let next := __next m except
    let m1 := __link m prev next
    match policy.policy_extractor.erase_position c._policy m1 fuel (c.cbegin m1) c.cend with
    | none => none
    | some ret => some (ret, __link (__link m1 prev except) except next)

/-- Member `next_except(hint, except)`. -/
def next_except_hint (c : cache_manager T) (m : Mem T) (fuel : Nat) (hint except : Ptr) :
    Option (Ptr × Mem T) :=
  if c.cbegin m = c.cend then some (c.cend, m)
  else
    let hint1 := if hint = except then __next m hint else hint
    let prev := __prev m except
    let next := __next m except
    let m1 := __link m prev next
    match policy.policy_extractor.erase_position c._policy m1 fuel hint1 c.cend with
    | none => none
    | some ret => some (ret, __link (__link m1 prev except) except next)

/-- Whether the call of the policy inside `next_except(except)` passes the policy's
assertion; the policy is not called when the list is empty. -/
def next_except_asserts (c : cache_manager T) (m : Mem T) (except : Ptr) : Bool :=
  if c.cbegin m = c.cend then true
  else
    let prev := __prev m except
    let next := __next m except
    let m1 := __link m prev next
    policy.policy_extractor.erase_position_asserts c._policy (c.cbegin m1) c.cend

/-- Whether the call of the policy inside `next_except(hint, except)` passes the policy's
assertion. -/
def next_except_hint_asserts (c : cache_manager T) (m : Mem T) (hint except : Ptr) : Bool :=
  if c.cbegin m = c.cend then true
  else
    let hint1 := if hint = except then __next m hint else hint
    policy.policy_extractor.erase_position_asserts c._policy hint1 c.cend

/-- Member `_fix_first(otherFirst)`. -/
def _fix_first (c : cache_manager T) (m : Mem T) (otherFirst : Ptr) : Mem T :=
  if __next m c._first = otherFirst then __link m c._first c._first
  else
    let m1 := __link m c._first (__next m c._first)
    __link m1 (__prev m1 c._first) c._first

/-- The move constructor `cache_manager(cache_manager&& other)` for a manager built at
address `self`: the sentinel is copied from `other._first`, then fixed up. -/
def move_construct (other : cache_manager T) (m : Mem T) (self : Ptr) :
    cache_manager T × Mem T :=
  let m1 : Mem T :=
    { first := Function.update m.first self (m.first other._first)
      prev := Function.update m.prev self (m.prev other._first)
      next := Function.update m.next self (m.next other._first)
      weight := Function.update m.weight self (m.weight other._first) }
  let c : cache_manager T :=
    { _capacity := other._capacity, _first := self, _weight := other._weight,
      _weigher := other._weigher, _policy := other._policy }
  (c, c._fix_first m1 other._first)

/-- The move assignment `operator=(cache_manager&& other)`; the result is this manager, the
other manager and the memory. -/
def move_assign (c other : cache_manager T) (m : Mem T) :
    cache_manager T × cache_manager T × Mem T :=
  let m1 : Mem T :=
    { m with
      prev := Function.update m.prev c._first (m.prev other._first)
      next := Function.update m.next c._first (m.next other._first)
      weight := Function.update m.weight c._first (m.weight other._first) }
  let m2 := __link m1 other._first other._first
  let c1 : cache_manager T :=
    { _capacity := other._capacity, _first := c._first, _weight := other._weight,
      _weigher := other._weigher, _policy := other._policy }
  let other1 : cache_manager T := { other with _capacity := 0, _weight := 0 }
  (c1, other1, c1._fix_first m2 other._first)

/-- Member `swap(other)`; the result is this manager, the other manager and the memory. -/
def swap (c other : cache_manager T) (m : Mem T) :
    cache_manager T × cache_manager T × Mem T :=
  let m1 : Mem T :=
    { m with
      prev := Function.update (Function.update m.prev c._first (m.prev other._first))
        other._first (m.prev c._first)
      next := Function.update (Function.update m.next c._first (m.next other._first))
        other._first (m.next c._first)
      weight := Function.update (Function.update m.weight c._first (m.weight other._first))
        other._first (m.weight c._first) }
  let m2 := c._fix_first m1 other._first
  let m3 := other._fix_first m2 c._first
  ({ c with _capacity := other._capacity, _weight := other._weight,
            _weigher := other._weigher, _policy := other._policy },
   { other with _capacity := c._capacity, _weight := c._weight,
                _weigher := c._weigher, _policy := c._policy },
   m3)

end cache_manager

/-- The calls `erase(it)` on the entries of `E`, one after another. -/
def erase_each {T : Type} (c : cache_manager T) (m : Mem T) (E : List Ptr) :
    cache_manager T × Mem T :=
  E.foldl (fun r it => ((r.1.erase r.2 it).1, (r.1.erase r.2 it).2.1)) (c, m)

/-- The calls `reinsert(it)` on the entries of `E`, one after another. -/
def reinsert_each {T : Type} (c : cache_manager T) (m : Mem T) (E : List Ptr) :
    cache_manager T × Mem T :=
  E.foldl (fun r it => r.1.reinsert r.2 it) (c, m)

end cache_manager

/-! ## limited/base.h and limited/unordered_map.h -/

namespace extended_containers

namespace limited

open cache_manager

/-- The exceptions a member of the bounded map throws: `no_space_error` and
`std::out_of_range`. -/
inductive error where
  | no_space_error
  | out_of_range
  deriving DecidableEq, Repr

/-- The data members of `limited::unordered_map`: the index `_map` (the addresses of the
nodes it owns, in iteration order), the replacement manager and the node memory. -/
structure unordered_map (Key V : Type) where
  _map : List Ptr
  _manager : cache_manager.cache_manager (Key × V)
  mem : Mem (Key × V)

namespace unordered_map

variable {Key V : Type} [DecidableEq Key]

/-- Lookup `_map.find({key, {}})`: the hash and the equality wrappers look at the key
alone.  `none` is `_map.end()`. -/
def _map_find (s : unordered_map Key V) (key : Key) : Option Ptr :=
  s._map.find? (fun q => decide ((s.mem.first q).1 = key))

/-- Index insertion `_map.insert({value, {}})` when the index allocates the new node at
address `p`: the new node holds `value` and a default `cache_node`. -/
def _map_insert (s : unordered_map Key V) (p : Ptr) (value : Key × V) :
    unordered_map Key V × Ptr × Bool :=
  match s._map_find value.1 with
  | some q => (s, q, false)
  | none =>
    ({ s with
       _map := p :: s._map
       mem := { first := Function.update s.mem.first p value
                prev := Function.update s.mem.prev p 0
                next := Function.update s.mem.next p 0
                weight := Function.update s.mem.weight p 0 } }, p, true)

/-- Index removal `_map.erase(it)` and `_map.extract(it)`: the node leaves the index. -/
def _map_erase (s : unordered_map Key V) (it : Ptr) : unordered_map Key V :=
  { s with _map := s._map.erase it }

/-- Index removal by key `_map.erase(key)`; the second component is the count. -/
def _map_erase_key (s : unordered_map Key V) (key : Key) : unordered_map Key V × Nat :=
  match s._map_find key with
  | some q => (s._map_erase q, 1)
  | none => (s, 0)

/-- Index insertion of an extracted node `_map.insert(std::move(node))`. -/
def _map_insert_node (s : unordered_map Key V) (node : Ptr) : unordered_map Key V × Ptr × Bool :=
  match s._map_find (s.mem.first node).1 with
  | some q => (s, q, false)
  | none => ({ s with _map := node :: s._map }, node, true)

/-- Constructor `unordered_map(capacity, ...)` for a map whose manager sits at `self`. -/
def mk_empty (m : Mem (Key × V)) (self : Ptr) (capacity : Nat) (weigher : Key × V → Nat)
    (pol : policy.rep_policy (Key × V)) : unordered_map Key V :=
  let r := cache_manager.cache_manager.mk_empty m self capacity weigher pol
  { _map := [], _manager := r.1, mem := r.2 }

/-- The defaulted move constructor `unordered_map(unordered_map&&)` for a map whose manager
sits at `self`: each data member is move-constructed from the member of `other`.  The index
takes over the nodes of `other._map` and leaves that index empty; the manager is built by
the move constructor of `cache_manager`, which does not write to `other._manager`.  The
result is the new map and `other` as the call leaves it. -/
def move_construct (other : unordered_map Key V) (self : Ptr) :
    unordered_map Key V × unordered_map Key V :=
  let r := other._manager.move_construct other.mem self
  ({ _map := other._map, _manager := r.1, mem := r.2 },
   { _map := [], _manager := other._manager, mem := r.2 })

/-- Member `size()`. -/
def size (s : unordered_map Key V) : Nat := s._map.length

/-- Member `weight()`. -/
def weight (s : unordered_map Key V) : Nat := s._manager.weight

/-- Member `capacity()`. -/
def capacity (s : unordered_map Key V) : Nat := s._manager.capacity

/-- Member `replacement_begin()`. -/
def replacement_begin (s : unordered_map Key V) : Ptr := s._manager.begin s.mem

/-- Member `replacement_end()`. -/
def replacement_end (s : unordered_map Key V) : Ptr := s._manager.end_

/-- The call `_manager.erase(it)` on the state of the map; the second component is the
iterator it returns. -/
def manager_erase (s : unordered_map Key V) (it : Ptr) : unordered_map Key V × Ptr :=
  let r := s._manager.erase s.mem it
  ({ s with _manager := r.1, mem := r.2.1 }, r.2.2)

/-- The call `_manager.reinsert(it)` on the state of the map. -/
def manager_reinsert (s : unordered_map Key V) (it : Ptr) : unordered_map Key V :=
  let r := s._manager.reinsert s.mem it
  { s with _manager := r.1, mem := r.2 }

/-- The call `_manager.access(&*it)` on the state of the map. -/
def manager_access (s : unordered_map Key V) (it : Ptr) : unordered_map Key V :=
  { s with mem := s._manager.access s.mem it }

/-- Member `safeManagerInsert(it)`; the weigher and the policy do not throw. -/
def safeManagerInsert (s : unordered_map Key V) (it : Ptr) : unordered_map Key V :=
  let r := s._manager.insert s.mem it
  { s with _manager := r.1, mem := r.2.1 }

/-- The rewind loop of `freeSpace`:
`for(auto it = removed.rbegin(); it != removed.rend(); ++it) _manager.reinsert(*it);`. -/
def freeSpace_rewind (s : unordered_map Key V) (removed : List Ptr) : unordered_map Key V :=
  removed.reverse.foldl (fun s it => s.manager_reinsert it) s

/-- The final loop of `freeSpace`: `for(auto it : removed) _map.erase(*it);`. -/
def freeSpace_drop (s : unordered_map Key V) (removed : List Ptr) : unordered_map Key V :=
  removed.foldl (fun s it => (s._map_erase_key (s.mem.first it).1).1) s

/-- The `while(freedWeight < weight)` loop of `freeSpace(weight)` with what follows it.
`budget` bounds the pointer walks of the policy, `fuel` the iterations of this loop. -/
def freeSpace_loop (budget weight : Nat) :
    Nat → unordered_map Key V → Nat → List Ptr → Ptr → Option (Bool × unordered_map Key V)
  | 0, _, _, _, _ => none
  | fuel + 1, s, freedWeight, removed, next =>
    if freedWeight < weight then
      match (if next = s._manager.end_ then s._manager.next s.mem budget else some next) with
      | none => none
      | some next1 =>
        if next1 = s._manager.end_ then some (false, s.freeSpace_rewind removed)
        else
          let freedWeight1 := (freedWeight + s._manager.calculate_weight (s.mem.first next1)) % SIZE
          let removed1 := removed ++ [next1]
          let r := s.manager_erase next1
          match r.1._manager.next_hint r.1.mem budget r.2 with
          | none => none
          | some next2 => freeSpace_loop budget weight fuel r.1 freedWeight1 removed1 next2
    else some (true, s.freeSpace_drop removed)

/-- Member `freeSpace(weight)`. -/
def freeSpace (fuel : Nat) (s : unordered_map Key V) (weight : Nat) :
    Option (Bool × unordered_map Key V) :=
  if s._manager.weight < weight then some (false, s)
  else
    match s._manager.next s.mem fuel with
    | none => none
    | some next => freeSpace_loop fuel weight fuel s 0 [] next

/-- The loop of `freeSpace(weight, except)` with what follows it. -/
def freeSpace_except_loop (budget weight except : Nat) :
    Nat → unordered_map Key V → Nat → List Ptr → Ptr → Option (Bool × unordered_map Key V)
  | 0, _, _, _, _ => none
  | fuel + 1, s, freedWeight, removed, next =>
    if freedWeight < weight then
      match (if next = s._manager.end_ then s._manager.next_except s.mem budget except
             else some (next, s.mem)) with
      | none => none
      | some (next1, mem1) =>
        let s0 := { s with mem := mem1 }
        if next1 = s0._manager.end_ then some (false, s0.freeSpace_rewind removed)
        else
          let freedWeight1 :=
            (freedWeight + s0._manager.calculate_weight (s0.mem.first next1)) % SIZE
          let removed1 := removed ++ [next1]
          let r := s0.manager_erase next1
          match r.1._manager.next_except_hint r.1.mem budget r.2 except with
          | none => none
          | some (next2, mem2) =>
            freeSpace_except_loop budget weight except fuel { r.1 with mem := mem2 }
              freedWeight1 removed1 next2
    else some (true, s.freeSpace_drop removed)

/-- Member `freeSpace(weight, except)`. -/
def freeSpace_except (fuel : Nat) (s : unordered_map Key V) (weight : Nat) (except : Ptr) :
    Option (Bool × unordered_map Key V) :=
  if s._manager.weight < weight then some (false, s)
  else
    match s._manager.next_except s.mem fuel except with
    | none => none
    | some (next, mem1) =>
      freeSpace_except_loop fuel weight except fuel { s with mem := mem1 } 0 [] next

/-- Member `provideSpace(weight)`; the subtractions are those of `size_t`. -/
def provideSpace (fuel : Nat) (s : unordered_map Key V) (weight : Nat) :
    Option (Bool × unordered_map Key V) :=
  if weight > s._manager.capacity then some (false, s)
  else if (s._manager.capacity + SIZE - s._manager.weight) % SIZE ≥ weight then some (true, s)
  else
    freeSpace fuel s
      ((weight + SIZE - (s._manager.capacity + SIZE - s._manager.weight) % SIZE) % SIZE)

/-- Member `provideSpace(weight, except)`. -/
def provideSpace_except (fuel : Nat) (s : unordered_map Key V) (weight : Nat) (except : Ptr) :
    Option (Bool × unordered_map Key V) :=
  if weight > s._manager.capacity then some (false, s)
  else if (s._manager.capacity + SIZE - s._manager.weight) % SIZE ≥ weight then some (true, s)
  else
    freeSpace_except fuel s
      ((weight + SIZE - (s._manager.capacity + SIZE - s._manager.weight) % SIZE) % SIZE) except

/-- The loop of `freeSpace(weight, except)` in a build with assertions: `some false` when a
call it makes to the policy fails the policy's assertion, `some true` when the loop ends
without such a failure. -/
def freeSpace_except_loop_asserts (budget weight except : Nat) :
    Nat → unordered_map Key V → Nat → Ptr → Option Bool
  | 0, _, _, _ => none
  | fuel + 1, s, freedWeight, next =>
    if freedWeight < weight then
      if next = s._manager.end_ ∧ s._manager.next_except_asserts s.mem except = false then
        some false
      else
        match (if next = s._manager.end_ then s._manager.next_except s.mem budget except
               else some (next, s.mem)) with
        | none => none
        | some (next1, mem1) =>
          let s0 := { s with mem := mem1 }
          if next1 = s0._manager.end_ then some true
          else
            let freedWeight1 :=
              (freedWeight + s0._manager.calculate_weight (s0.mem.first next1)) % SIZE
            let r := s0.manager_erase next1
            if r.1._manager.next_except_hint_asserts r.1.mem r.2 except = false then some false
            else
              match r.1._manager.next_except_hint r.1.mem budget r.2 except with
              | none => none
              | some (next2, mem2) =>
                freeSpace_except_loop_asserts budget weight except fuel { r.1 with mem := mem2 }
                  freedWeight1 next2
    else some true

/-- Member `freeSpace(weight, except)` in a build with assertions: whether the calls it makes
to the policy pass the policy's assertion. -/
def freeSpace_except_asserts (fuel : Nat) (s : unordered_map Key V) (weight : Nat)
    (except : Ptr) : Option Bool :=
  if s._manager.weight < weight then some true
  else if s._manager.next_except_asserts s.mem except = false then some false
  else
    match s._manager.next_except s.mem fuel except with
    | none => none
    | some (next, mem1) =>
      freeSpace_except_loop_asserts fuel weight except fuel { s with mem := mem1 } 0 next

/-- Member `provideSpace(weight, except)` in a build with assertions. -/
def provideSpace_except_asserts (fuel : Nat) (s : unordered_map Key V) (weight : Nat)
    (except : Ptr) : Option Bool :=
  if weight > s._manager.capacity then some true
  else if (s._manager.capacity + SIZE - s._manager.weight) % SIZE ≥ weight then some true
  else
    freeSpace_except_asserts fuel s
      ((weight + SIZE - (s._manager.capacity + SIZE - s._manager.weight) % SIZE) % SIZE) except

/-- Member `indexInserted(it)`.  The result is `Except.error` when the member throws. -/
def indexInserted (fuel : Nat) (s : unordered_map Key V) (it : Ptr) :
    Option (Except error Unit × unordered_map Key V) :=
  match s.provideSpace fuel (s._manager.calculate_weight (s.mem.first it)) with
  | none => none
  | some (false, s1) => some (.error .no_space_error, s1._map_erase it)
  | some (true, s1) => some (.ok (), s1.safeManagerInsert it)

/-- Member `insert(const value_type& value)`; `p` is the address at which the index
allocates the node when the key is new. -/
def insert (fuel : Nat) (s : unordered_map Key V) (p : Ptr) (value : Key × V) :
    Option (Except error (Ptr × Bool) × unordered_map Key V) :=
  let it := s._map_insert p value
  if it.2.2 then
    match it.1.indexInserted fuel it.2.1 with
    | none => none
    | some (.error e, s1) => some (.error e, s1)
    | some (.ok _, s1) => some (.ok (it.2.1, it.2.2), s1)
  else some (.ok (it.2.1, it.2.2), it.1)

/-- Member `emplace(args...)`: the pair is built from the arguments and inserted. -/
def emplace (fuel : Nat) (s : unordered_map Key V) (p : Ptr) (key : Key) (value : V) :
    Option (Except error (Ptr × Bool) × unordered_map Key V) :=
  let it := s._map_insert p (key, value)
  if it.2.2 then
    match it.1.indexInserted fuel it.2.1 with
    | none => none
    | some (.error e, s1) => some (.error e, s1)
    | some (.ok _, s1) => some (.ok (it.2.1, it.2.2), s1)
  else some (.ok (it.2.1, it.2.2), it.1)

/-- Member `try_emplace(k, args...)`: it forwards to `emplace`. -/
def try_emplace (fuel : Nat) (s : unordered_map Key V) (p : Ptr) (k : Key) (value : V) :
    Option (Except error (Ptr × Bool) × unordered_map Key V) :=
  s.emplace fuel p k value

/-- The first loop of `insert(first, last)`: every element of the range is offered to the
index; the nodes actually added are collected in `inserted` and their weights added up in
`weight`, until the sum exceeds the capacity.  Each element comes with the address at which
the index allocates its node when the key is new. -/
def insert_range_index : unordered_map Key V → List (Ptr × (Key × V)) → List Ptr → Nat →
    unordered_map Key V × List Ptr × Nat
  | s, [], inserted, weight => (s, inserted, weight)
  | s, (p, value) :: rest, inserted, weight =>
    let ret := s._map_insert p value
    if ret.2.2 then
      let inserted1 := inserted ++ [ret.2.1]
      let weight1 := (weight + ret.1._manager.calculate_weight (ret.1.mem.first ret.2.1)) % SIZE
      if weight1 > ret.1._manager.capacity then (ret.1, inserted1, weight1)
      else insert_range_index ret.1 rest inserted1 weight1
    else insert_range_index ret.1 rest inserted weight

/-- Member `insert(InputIterator first, InputIterator last)`. -/
def insert_range (fuel : Nat) (s : unordered_map Key V) (range : List (Ptr × (Key × V))) :
    Option (Except error Unit × unordered_map Key V) :=
  let r := s.insert_range_index range [] 0
  match r.1.provideSpace fuel r.2.2 with
  | none => none
  | some (false, s1) =>
    some (.error .no_space_error,
      r.2.1.foldl (fun s i => (s._map_erase_key (s.mem.first i).1).1) s1)
  | some (true, s1) => some (.ok (), r.2.1.foldl (fun s it => s.safeManagerInsert it) s1)

/-- Member `extract(const_iterator pos)`; the result is the node handle. -/
def extract (s : unordered_map Key V) (pos : Ptr) : Ptr × unordered_map Key V :=
  (pos, (s.manager_erase pos).1._map_erase pos)

/-- Member `extract(const key_type& key)`; `none` is the empty node handle. -/
def extract_key (s : unordered_map Key V) (key : Key) : Option Ptr × unordered_map Key V :=
  match s._map_find key with
  | some it => (some it, (s.manager_erase it).1._map_erase it)
  | none => (none, s)

/-- Member `insert(node_type&& nh)`; `none` is the empty node handle.  The result is the
`insert_return_type`: position, `inserted` and the node handed back. -/
def insert_node (fuel : Nat) (s : unordered_map Key V) (nh : Option Ptr) :
    Option (Except error (Option Ptr × Bool × Option Ptr) × unordered_map Key V) :=
  match nh with
  | none => some (.ok (none, false, none), s)
  | some node =>
    let it := s._map_insert_node node
    if it.2.2 then
      match it.1.indexInserted fuel it.2.1 with
      | none => none
      | some (.error e, s1) => some (.error e, s1)
      | some (.ok _, s1) => some (.ok (some it.2.1, true, none), s1)
    else some (.ok (some it.2.1, false, some node), it.1)

/-- The end of `assign`: `_map.insert(std::move(node))`, `update_weight`, `access`. -/
def assign_finish (s : unordered_map Key V) (node : Ptr) (oldWeight newWeight : Nat) :
    Ptr × unordered_map Key V :=
  let ins := s._map_insert_node node
  let r := ins.1._manager.update_weight ins.1.mem node oldWeight newWeight
  let s1 : unordered_map Key V := { ins.1 with _manager := r.1, mem := r.2 }
  (ins.2.1, s1.manager_access node)

/-- Member `assign(iterator position, Obj&& obj)`. -/
def assign (fuel : Nat) (s : unordered_map Key V) (position : Ptr) (obj : V) :
    Option (Except error Ptr × unordered_map Key V) :=
  let repl_it := position
  let oldWeight := s._manager.calculate_weight_it s.mem repl_it
  let s1 := s._map_erase position
  let oldVal := (s1.mem.first position).2
  let s2 : unordered_map Key V :=
    { s1 with mem := { s1.mem with
        first := Function.update s1.mem.first position ((s1.mem.first position).1, obj) } }
  let newWeight := s2._manager.calculate_weight (s2.mem.first position)
  if newWeight > oldWeight then
    match s2.provideSpace_except fuel ((newWeight + SIZE - oldWeight) % SIZE) repl_it with
    | none => none
    | some (false, s3) =>
      let s4 : unordered_map Key V :=
        { s3 with mem := { s3.mem with
            first := Function.update s3.mem.first position ((s3.mem.first position).1, oldVal) } }
      some (.error .no_space_error, (s4._map_insert_node position).1)
    | some (true, s3) =>
      let r := s3.assign_finish position oldWeight newWeight
      some (.ok r.1, r.2)
  else
    let r := s2.assign_finish position oldWeight newWeight
    some (.ok r.1, r.2)

/-- Member `assign(iterator position, Obj&& obj)` in a build with assertions: whether the
calls its eviction makes to the policy pass the policy's assertion. -/
def assign_asserts (fuel : Nat) (s : unordered_map Key V) (position : Ptr) (obj : V) :
    Option Bool :=
  let repl_it := position
  let oldWeight := s._manager.calculate_weight_it s.mem repl_it
  let s1 := s._map_erase position
  let s2 : unordered_map Key V :=
    { s1 with mem := { s1.mem with
        first := Function.update s1.mem.first position ((s1.mem.first position).1, obj) } }
  let newWeight := s2._manager.calculate_weight (s2.mem.first position)
  if newWeight > oldWeight then
    s2.provideSpace_except_asserts fuel ((newWeight + SIZE - oldWeight) % SIZE) repl_it
  else some true

/-- Member `insert_or_assign(const key_type& k, Obj&& obj)`. -/
def insert_or_assign (fuel : Nat) (s : unordered_map Key V) (p : Ptr) (k : Key) (obj : V) :
    Option (Except error (Ptr × Bool) × unordered_map Key V) :=
  match s._map_find k with
  | none => s.emplace fuel p k obj
  | some it =>
    match s.assign fuel it obj with
    | none => none
    | some (.error e, s1) => some (.error e, s1)
    | some (.ok pos, s1) => some (.ok (pos, false), s1)

/-- Member `erase(const_iterator position)`; the result is the index iterator that follows
(`none` is `end()`). -/
def erase (s : unordered_map Key V) (position : Ptr) : Option Ptr × unordered_map Key V :=
  ((s._map.dropWhile (fun q => decide (q ≠ position))).tail.head?,
    (s.manager_erase position).1._map_erase position)

/-- Member `erase(const_replacement_iterator position)`; the result is the replacement
iterator that follows. -/
def erase_replacement (s : unordered_map Key V) (position : Ptr) : Ptr × unordered_map Key V :=
  let key := s.mem.first position
  let r := s.manager_erase position
  (r.2, (r.1._map_erase_key key.1).1)

/-- Member `erase(const key_type& key)`; the result is the number of erased elements. -/
def erase_key (s : unordered_map Key V) (key : Key) : Nat × unordered_map Key V :=
  match s._map_find key with
  | none => (0, s)
  | some it => (1, (s.manager_erase it).1._map_erase it)

/-- Member `erase(const_iterator first, const_iterator last)` on the nodes `range` that the
index iterators from `first` up to `last` run through. -/
def erase_index_range (s : unordered_map Key V) (range : List Ptr) : unordered_map Key V :=
  let s1 := range.foldl (fun s it => (s.manager_erase it).1) s
  { s1 with _map := s1._map.diff range }

/-- The loop of `erase(const_replacement_iterator first, const_replacement_iterator last)`
that extracts the nodes of the range from the index. -/
def erase_replacement_range_extract (last : Ptr) :
    Nat → unordered_map Key V → Ptr → Option (unordered_map Key V)
  | 0, _, _ => none
  | fuel + 1, s, it =>
    if it ≠ last then
      erase_replacement_range_extract last fuel (s._map_erase_key (s.mem.first it).1).1
        (__next s.mem it)
    else some s

/-- Member `erase(const_replacement_iterator first, const_replacement_iterator last)`. -/
def erase_replacement_range (fuel : Nat) (s : unordered_map Key V) (first last : Ptr) :
    Option (Ptr × unordered_map Key V) :=
  match erase_replacement_range_extract last fuel s first with
  | none => none
  | some s1 =>
    match s1._manager.erase_range s1.mem fuel first last with
    | none => none
    | some r => some (r.2.2, { s1 with _manager := r.1, mem := r.2.1 })

/-- Member `clear()`. -/
def clear (s : unordered_map Key V) : unordered_map Key V :=
  let r := s._manager.clear s.mem
  { _map := [], _manager := r.1, mem := r.2 }

/-- Member `provide_space(weight_type space)`. -/
def provide_space (fuel : Nat) (s : unordered_map Key V) (space : Nat) :
    Option (Except error Unit × unordered_map Key V) :=
  match s.provideSpace fuel space with
  | none => none
  | some (false, s1) => some (.error .no_space_error, s1)
  | some (true, s1) => some (.ok (), s1)

/-- Member `free_space(weight_type space)`. -/
def free_space (fuel : Nat) (s : unordered_map Key V) (space : Nat) :
    Option (Except error Unit × unordered_map Key V) :=
  match s.freeSpace fuel space with
  | none => none
  | some (false, s1) => some (.error .no_space_error, s1)
  | some (true, s1) => some (.ok (), s1)

/-- Member `access(const key_type& key)`. -/
def access_key (s : unordered_map Key V) (key : Key) : unordered_map Key V :=
  match s._map_find key with
  | some it => s.manager_access it
  | none => s

/-- Members `access(iterator pos)` and `access(replacement_iterator pos)`. -/
def access (s : unordered_map Key V) (pos : Ptr) : unordered_map Key V :=
  s.manager_access pos

/-- Member `find(const key_type& key)`; `none` is `end()`. -/
def find (s : unordered_map Key V) (key : Key) : Option Ptr × unordered_map Key V :=
  match s._map_find key with
  | some it => (some it, s.manager_access it)
  | none => (none, s)

/-- Member `quiet_find(const key_type& key)`. -/
def quiet_find (s : unordered_map Key V) (key : Key) : Option Ptr := s._map_find key

/-- Member `replacement_find(const key_type& key)`. -/
def replacement_find (s : unordered_map Key V) (key : Key) : Ptr × unordered_map Key V :=
  match s._map_find key with
  | some it => (it, s.manager_access it)
  | none => (s._manager.end_, s)

/-- Member `quiet_replacement_find(const key_type& key)`. -/
def quiet_replacement_find (s : unordered_map Key V) (key : Key) : Ptr :=
  match s._map_find key with
  | some it => it
  | none => s._manager.end_

/-- Member `count(const key_type& key)`. -/
def count (s : unordered_map Key V) (key : Key) : Nat × unordered_map Key V :=
  match s._map_find key with
  | some it => (1, s.manager_access it)
  | none => (0, s)

/-- Member `quiet_count(const key_type& key)`. -/
def quiet_count (s : unordered_map Key V) (key : Key) : Nat :=
  match s._map_find key with
  | some _ => 1
  | none => 0

/-- Member `contains(const key_type& key)`. -/
def contains (s : unordered_map Key V) (key : Key) : Bool × unordered_map Key V :=
  match s._map_find key with
  | some it => (true, s.manager_access it)
  | none => (false, s)

/-- Member `quiet_contains(const key_type& key)`. -/
def quiet_contains (s : unordered_map Key V) (key : Key) : Bool :=
  decide (s.quiet_count key > 0)

/-- Member `equal_range(const key_type& key)`: every element of the range of the index
(none or one) is accessed; the result is the range, as the nodes it holds. -/
def equal_range (s : unordered_map Key V) (key : Key) : List Ptr × unordered_map Key V :=
  let it := (s._map_find key).toList
  (it, it.foldl (fun s it1 => s.manager_access it1) s)

/-- Member `quiet_equal_range(const key_type& key)`. -/
def quiet_equal_range (s : unordered_map Key V) (key : Key) : List Ptr :=
  (s._map_find key).toList

/-- Member `operator[](const value_type& value)`. -/
def subscript_value (fuel : Nat) (s : unordered_map Key V) (p : Ptr) (value : Key × V) :
    Option (Except error V × unordered_map Key V) :=
  match s._map_find value.1 with
  | none =>
    match s.insert fuel p value with
    | none => none
    | some (.error e, s1) => some (.error e, s1)
    | some (.ok ret, s1) => some (.ok (s1.mem.first ret.1).2, s1)
  | some it =>
    let s1 := s.manager_access it
    some (.ok (s1.mem.first it).2, s1)

/-- Member `operator[](const key_type& key)`: `operator[]({key, {}})`. -/
def subscript [Inhabited V] (fuel : Nat) (s : unordered_map Key V) (p : Ptr) (key : Key) :
    Option (Except error V × unordered_map Key V) :=
  s.subscript_value fuel p (key, default)

/-- Member `at(const key_type& key)`. -/
def at_ (s : unordered_map Key V) (key : Key) : Except error V × unordered_map Key V :=
  match s._map_find key with
  | none => (.error .out_of_range, s)
  | some it =>
    let s1 := s.manager_access it
    (.ok (s1.mem.first it).2, s1)

/-- Member `quiet_at(const key_type& key)`. -/
def quiet_at (s : unordered_map Key V) (key : Key) : Except error V :=
  match s._map_find key with
  | none => .error .out_of_range
  | some it => .ok (s.mem.first it).2

end unordered_map

/-- The public operations of the bounded map that act on its state, with their arguments.
An address `p` is where the index allocates the node if the operation adds one. -/
inductive Op (Key V : Type) where
  | insert (p : Ptr) (value : Key × V)
  | emplace (p : Ptr) (key : Key) (value : V)
  | try_emplace (p : Ptr) (key : Key) (value : V)
  | insert_node (nh : Option Ptr)
  | insert_range (range : List (Ptr × (Key × V)))
  | insert_or_assign (p : Ptr) (k : Key) (obj : V)
  | assign (position : Ptr) (obj : V)
  | extract (pos : Ptr)
  | extract_key (key : Key)
  | erase (position : Ptr)
  | erase_replacement (position : Ptr)
  | erase_key (key : Key)
  | erase_index_range (range : List Ptr)
  | erase_replacement_range (first last : Ptr)
  | clear
  | provide_space (space : Nat)
  | free_space (space : Nat)
  | access_key (key : Key)
  | access (pos : Ptr)
  | find (key : Key)
  | replacement_find (key : Key)
  | count (key : Key)
  | contains (key : Key)
  | equal_range (key : Key)
  | subscript_value (p : Ptr) (value : Key × V)
  | subscript (p : Ptr) (key : Key)
  | at_ (key : Key)
  | quiet_find (key : Key)
  | quiet_replacement_find (key : Key)
  | quiet_count (key : Key)
  | quiet_contains (key : Key)
  | quiet_equal_range (key : Key)
  | quiet_at (key : Key)

/-- What a call left behind: the exception it threw, if any, and the state. -/
def outcome {α σ : Type} : Option (Except error α × σ) → Option (Option error × σ)
  | none => none
  | some (.error e, s) => some (some e, s)
  | some (.ok _, s) => some (none, s)

/-- The call of a public operation on a state; `none` when a loop ran out of fuel. -/
def step {Key V : Type} [DecidableEq Key] [Inhabited V] (fuel : Nat) (s : unordered_map Key V) :
    Op Key V → Option (Option error × unordered_map Key V)
  | .insert p value => outcome (s.insert fuel p value)
  | .emplace p key value => outcome (s.emplace fuel p key value)
  | .try_emplace p key value => outcome (s.try_emplace fuel p key value)
  | .insert_node nh => outcome (s.insert_node fuel nh)
  | .insert_range range => outcome (s.insert_range fuel range)
  | .insert_or_assign p k obj => outcome (s.insert_or_assign fuel p k obj)
  | .assign position obj => outcome (s.assign fuel position obj)
  | .extract pos => some (none, (s.extract pos).2)
  | .extract_key key => some (none, (s.extract_key key).2)
  | .erase position => some (none, (s.erase position).2)
  | .erase_replacement position => some (none, (s.erase_replacement position).2)
  | .erase_key key => some (none, (s.erase_key key).2)
  | .erase_index_range range => some (none, s.erase_index_range range)
  | .erase_replacement_range first last =>
    (s.erase_replacement_range fuel first last).map (fun r => (none, r.2))
  | .clear => some (none, s.clear)
  | .provide_space space => outcome (s.provide_space fuel space)
  | .free_space space => outcome (s.free_space fuel space)
  | .access_key key => some (none, s.access_key key)
  | .access pos => some (none, s.access pos)
  | .find key => some (none, (s.find key).2)
  | .replacement_find key => some (none, (s.replacement_find key).2)
  | .count key => some (none, (s.count key).2)
  | .contains key => some (none, (s.contains key).2)
  | .equal_range key => some (none, (s.equal_range key).2)
  | .subscript_value p value => outcome (s.subscript_value fuel p value)
  | .subscript p key => outcome (s.subscript fuel p key)
  | .at_ key => outcome (some (s.at_ key))
  | .quiet_find _ => some (none, s)
  | .quiet_replacement_find _ => some (none, s)
  | .quiet_count _ => some (none, s)
  | .quiet_contains _ => some (none, s)
  | .quiet_equal_range _ => some (none, s)
  | .quiet_at key => outcome (some (s.quiet_at key, s))

/-- The quiet lookups among the operations. -/
def Op.quiet {Key V : Type} : Op Key V → Bool
  | .quiet_find _ => true
  | .quiet_replacement_find _ => true
  | .quiet_count _ => true
  | .quiet_contains _ => true
  | .quiet_equal_range _ => true
  | .quiet_at _ => true
  | _ => false

/-- A sequence of calls, each on the state the previous one left, whether it returned or
threw; `none` when a loop ran out of fuel. -/
def run {Key V : Type} [DecidableEq Key] [Inhabited V] (fuel : Nat) :
    unordered_map Key V → List (Op Key V) → Option (unordered_map Key V)
  | s, [] => some s
  | s, op :: ops =>
    match step fuel s op with
    | none => none
    | some r => run fuel r.2 ops

/-- The arguments a call may be given in a state whose replacement order is `L`: a new node
is allocated at an address that is neither the sentinel nor a node of the index (the
addresses of a range being distinct), a node handle holds such a node, an iterator points to
an element, and a pair of iterators delimits a range of the sequence it iterates. -/
def Op.admissible {Key V : Type} (s : unordered_map Key V) (L : List Ptr) : Op Key V → Prop
  | .insert p _ => p ∉ s._manager._first :: s._map
  | .emplace p _ _ => p ∉ s._manager._first :: s._map
  | .try_emplace p _ _ => p ∉ s._manager._first :: s._map
  | .insert_or_assign p _ _ => p ∉ s._manager._first :: s._map
  | .subscript_value p _ => p ∉ s._manager._first :: s._map
  | .subscript p _ => p ∉ s._manager._first :: s._map
  | .insert_node nh => ∀ node, nh = some node → node ∉ s._manager._first :: s._map
  | .insert_range range =>
    (range.map Prod.fst).Nodup ∧ ∀ p ∈ range.map Prod.fst, p ∉ s._manager._first :: s._map
  | .assign position _ => position ∈ s._map
  | .extract pos => pos ∈ s._map
  | .erase position => position ∈ s._map
  | .erase_replacement position => position ∈ s._map
  | .access pos => pos ∈ s._map
  | .erase_index_range range => ∃ A B, s._map = A ++ range ++ B
  | .erase_replacement_range first last =>
    ∃ A R B, L = A ++ R ++ B ∧ (R ++ B ++ [s._manager._first]).head? = some first ∧
      (B ++ [s._manager._first]).head? = some last
  | _ => True

end limited

end extended_containers

/-! ## Representation of the replacement list -/

namespace cache_manager

variable {T : Type}

/-- Consecutive nodes of the sequence are linked in both directions: `next` of the one is
the other and `prev` of the other is the one. -/
def Linked (m : Mem T) : List Ptr → Prop
  | a :: b :: l => (m.next a = b ∧ m.prev b = a) ∧ Linked m (b :: l)
  | _ => True

/-- Decision procedure for `Linked`. -/
instance Linked.decidable (m : Mem T) : (l : List Ptr) → Decidable (Linked m l)
  | [] => isTrue trivial
  | [_] => isTrue trivial
  | a :: b :: l =>
    @instDecidableAnd _ _ (inferInstanceAs (Decidable (m.next a = b ∧ m.prev b = a)))
      (Linked.decidable m (b :: l))

/-- The circular list closed by the sentinel `s` holds exactly the nodes `L`, in this
order: the links run `s, L, s` and no node occurs twice. -/
def IsList (m : Mem T) (s : Ptr) (L : List Ptr) : Prop :=
  Linked m (s :: L ++ [s]) ∧ (s :: L).Nodup

/-- Decision procedure for `IsList`. -/
instance IsList.decidable (m : Mem T) (s : Ptr) (L : List Ptr) : Decidable (IsList m s L) :=
  inferInstanceAs (Decidable (Linked m (s :: L ++ [s]) ∧ (s :: L).Nodup))

/-- Walk from `it` along `next` until `last`, collecting the nodes met. -/
def walk (m : Mem T) (last : Ptr) : Nat → Ptr → Option (List Ptr)
  | 0, _ => none
  | fuel + 1, it =>
    if it = last then some []
    else (walk m last fuel (m.next it)).map (fun l => it :: l)

/-- The replacement order of a manager: the nodes from `begin()` to `end()`. -/
def cache_manager.order (c : cache_manager T) (m : Mem T) (fuel : Nat) : Option (List Ptr) :=
  walk m c.end_ fuel (c.begin m)

/-- Sum of the weights the manager's weigher gives to the values of the nodes `L`. -/
def cache_manager.total (c : cache_manager T) (m : Mem T) (L : List Ptr) : Nat :=
  (L.map (fun q => c.calculate_weight (m.first q))).sum

/-- A memory with three nodes `1, 2, 3` threaded in this order around the sentinel `9`;
the value of a node is its address. -/
def mem123 : Mem Nat :=
  { first := fun q => q
    prev := fun q => match q with
      | 9 => 3
      | 1 => 9
      | 2 => 1
      | 3 => 2
      | _ => 0
    next := fun q => match q with
      | 9 => 1
      | 1 => 2
      | 2 => 3
      | 3 => 9
      | _ => 0
    weight := fun _ => 1 }

/-- A manager of capacity `5` and weight `3` with sentinel `9`, unit weights. -/
def mgr123 (pol : policy.parent_policy) : cache_manager Nat :=
  { _capacity := 5, _first := 9, _weight := 3, _weigher := weight, _policy := .plain pol }

/-- A memory with two threadings: the nodes `1, 2, 3` around the sentinel `9` and the nodes
`4, 5` around the sentinel `8`; the value of a node is its address. -/
def mem123_45 : Mem Nat :=
  { first := fun q => q
    prev := fun q => match q with
      | 9 => 3
      | 1 => 9
      | 2 => 1
      | 3 => 2
      | 8 => 5
      | 4 => 8
      | 5 => 4
      | _ => 0
    next := fun q => match q with
      | 9 => 1
      | 1 => 2
      | 2 => 3
      | 3 => 9
      | 8 => 4
      | 4 => 5
      | 5 => 8
      | _ => 0
    weight := fun _ => 1 }

/-- A manager of capacity `7` and weight `2` with sentinel `8`, unit weights. -/
def mgr45 (pol : policy.parent_policy) : cache_manager Nat :=
  { _capacity := 7, _first := 8, _weight := 2, _weigher := weight, _policy := .plain pol }

/-- The manager of the example threading under any policy. -/
def mgr123_with (pol : policy.rep_policy Nat) : cache_manager Nat :=
  { _capacity := 5, _first := 9, _weight := 3, _weigher := weight, _policy := pol }

/-- A memory with five nodes `1, 2, 3, 4, 5` threaded in this order around the sentinel `9`;
the value of a node is its address. -/
def mem5 : Mem Nat :=
  { first := fun q => q
    prev := fun q => match q with
      | 9 => 5
      | 1 => 9
      | 2 => 1
      | 3 => 2
      | 4 => 3
      | 5 => 4
      | _ => 0
    next := fun q => match q with
      | 9 => 1
      | 1 => 2
      | 2 => 3
      | 3 => 4
      | 4 => 5
      | 5 => 9
      | _ => 0
    weight := fun _ => 1 }

/-- A manager of capacity `5` and weight `5` with sentinel `9`, unit weights. -/
def mgr5_with (pol : policy.rep_policy Nat) : cache_manager Nat :=
  { _capacity := 5, _first := 9, _weight := 5, _weigher := weight, _policy := pol }

/-- The examination loop of the priority eviction algorithm in the words of the
specification, on the priorities of the entries that follow the candidate: `idx` is the
position of the examined entry; the candidate is replaced when the examined priority is
below `cur_prio`, otherwise `cur_prio` decreases by one; the loop stops when `cur_prio`
reaches `MIN` or the list ends. -/
def spec_priority_scan : List Nat → Nat → Nat → Nat → Nat
  | [], _, candidate, _ => candidate
  | p :: rest, idx, candidate, cur_prio =>
    if cur_prio = policy.priority_min then candidate
    else if p < cur_prio then spec_priority_scan rest (idx + 1) idx p
    else spec_priority_scan rest (idx + 1) candidate (cur_prio - 1)

/-- The priority eviction algorithm in the words of the specification, on the list of the
priorities in replacement order: skip the leading `MAX` entries (`none`, the end, if none
is left), take the first remaining entry as candidate with `cur_prio` its priority, then
examine the entries that follow it.  The result is the position of the victim. -/
def spec_priority_victim (prios : List Nat) : Option Nat :=
  let k := (prios.takeWhile (fun p => decide (p = policy.priority_max))).length
  match prios.drop k with
  | [] => none
  | p :: rest => some (spec_priority_scan rest (k + 1) k p)

end cache_manager

/-! ## Invariants of the bounded map -/

namespace extended_containers

namespace limited

namespace unordered_map

open cache_manager

variable {Key V : Type} [DecidableEq Key]

/-- The keys of the nodes of the index, in iteration order. -/
def keys (s : unordered_map Key V) : List Key := s._map.map (fun q => (s.mem.first q).1)

/-- Structural invariant with replacement order `L`: the replacement list is the valid
circular list `L`, its nodes are exactly the nodes of the index, no key occurs twice in the
index, and the two counters of the manager are machine words. -/
def Valid (s : unordered_map Key V) (L : List Ptr) : Prop :=
  IsList s.mem s._manager._first L ∧ L.Perm s._map ∧ s.keys.Nodup ∧
    s._manager._weight < SIZE ∧ s._manager._capacity < SIZE

/-- Decision procedure for `Valid`. -/
instance Valid.decidable (s : unordered_map Key V) (L : List Ptr) : Decidable (s.Valid L) :=
  inferInstanceAs (Decidable (IsList s.mem s._manager._first L ∧ L.Perm s._map ∧
    s.keys.Nodup ∧ s._manager._weight < SIZE ∧ s._manager._capacity < SIZE))

/-- Well-formedness with replacement order `L`, whatever nodes the index holds: the
replacement list is the valid circular list `L`, no key occurs twice in the index, the
sentinel is no node of the index, and the two counters are machine words. -/
def Wf (s : unordered_map Key V) (L : List Ptr) : Prop :=
  IsList s.mem s._manager._first L ∧ s.keys.Nodup ∧ s._manager._first ∉ s._map ∧
    s._manager._weight < SIZE ∧ s._manager._capacity < SIZE

/-- Weight accounting for the replacement order `L`: the counter `_weight` is the sum of the
weights of the entries and does not exceed the capacity. -/
def Accounted (s : unordered_map Key V) (L : List Ptr) : Prop :=
  s._manager._weight = s._manager.total s.mem L ∧ s._manager._weight ≤ s._manager._capacity

/-- Decision procedure for `Accounted`. -/
instance Accounted.decidable (s : unordered_map Key V) (L : List Ptr) :
    Decidable (s.Accounted L) :=
  inferInstanceAs (Decidable (s._manager._weight = s._manager.total s.mem L ∧
    s._manager._weight ≤ s._manager._capacity))

/-- The entry (key and value) held by each node of a list of nodes. -/
def entries (s : unordered_map Key V) (L : List Ptr) : List (Key × V) := L.map s.mem.first

/-- The replacement order as observed through `replacement_begin()` and
`replacement_end()`. -/
def replacement_order (s : unordered_map Key V) (fuel : Nat) : Option (List Ptr) :=
  walk s.mem s.replacement_end fuel s.replacement_begin

end unordered_map

end limited

end extended_containers

/-! ## Observations on results and example states -/

namespace extended_containers

namespace limited

open cache_manager

/-- Whether a call ended by throwing `no_space_error`. -/
def throws_no_space {α σ : Type} : Option (Except error α × σ) → Bool
  | some (.error .no_space_error, _) => true
  | _ => false

/-- The state a call left behind, when the call returned or threw. -/
def state_after {α σ : Type} : Option (Except error α × σ) → Option σ
  | some (_, s) => some s
  | none => none

/-- Memory of the example maps: the node at address `q` holds the key `q` and the value `0`;
the nodes `2, 3, 1` are threaded in this order around the sentinel `9`. -/
def mem231 : Mem (Nat × Nat) :=
  { first := fun q => (q, 0)
    prev := fun q => match q with
      | 9 => 1
      | 2 => 9
      | 3 => 2
      | 1 => 3
      | _ => 0
    next := fun q => match q with
      | 9 => 2
      | 2 => 3
      | 3 => 1
      | 1 => 9
      | _ => 0
    weight := fun _ => 1 }

/-- A full map of capacity `3` with unit weights whose replacement order is `[2, 3, 1]`. -/
def map231 (pol : policy.rep_policy (Nat × Nat)) : unordered_map Nat Nat :=
  { _map := [1, 2, 3]
    _manager := { _capacity := 3, _first := 9, _weight := 3, _weigher := weight, _policy := pol }
    mem := mem231 }

/-- Memory with the nodes `1, 2` threaded in this order around the sentinel `9`. -/
def mem12 : Mem (Nat × Nat) :=
  { first := fun q => (q, 0)
    prev := fun q => match q with
      | 9 => 2
      | 1 => 9
      | 2 => 1
      | _ => 0
    next := fun q => match q with
      | 9 => 1
      | 1 => 2
      | 2 => 9
      | _ => 0
    weight := fun _ => 1 }

/-- A full map of capacity `2` with unit weights and replacement order `[1, 2]`. -/
def map12 (pol : policy.rep_policy (Nat × Nat)) : unordered_map Nat Nat :=
  { _map := [2, 1]
    _manager := { _capacity := 2, _first := 9, _weight := 2, _weigher := weight, _policy := pol }
    mem := mem12 }

/-- Memory of an example map: the node at address `q` holds the key `q` and the value `0`;
the nodes `1, 2, 3` are threaded in this order around the sentinel `9`. -/
def mem123kv : Mem (Nat × Nat) :=
  { first := fun q => (q, 0)
    prev := fun q => match q with
      | 9 => 3
      | 1 => 9
      | 2 => 1
      | 3 => 2
      | _ => 0
    next := fun q => match q with
      | 9 => 1
      | 1 => 2
      | 2 => 3
      | 3 => 9
      | _ => 0
    weight := fun _ => 1 }

/-- A full map of capacity `3` with unit weights and the replacement order `1, 2, 3`. -/
def map123 (pol : policy.rep_policy (Nat × Nat)) : unordered_map Nat Nat :=
  { _map := [3, 2, 1]
    _manager := { _capacity := 3, _first := 9, _weight := 3, _weigher := weight, _policy := pol }
    mem := mem123kv }

/-- Memory of an example map whose weigher reads the value: the nodes `1` and `2` hold the
entries `(1, 4)` and `(2, 4)` and are threaded in this order around the sentinel `9`. -/
def mem44 : Mem (Nat × Nat) :=
  { first := fun q => match q with
      | 1 => (1, 4)
      | 2 => (2, 4)
      | _ => (0, 0)
    prev := fun q => match q with
      | 9 => 2
      | 1 => 9
      | 2 => 1
      | _ => 0
    next := fun q => match q with
      | 9 => 1
      | 1 => 2
      | 2 => 9
      | _ => 0
    weight := fun q => match q with
      | 1 => 4
      | 2 => 4
      | _ => 0 }

/-- A map of capacity `3` with unit weights that holds the entries `1, 2` in this replacement
order and has room for one more. -/
def map12_cap3 (pol : policy.rep_policy (Nat × Nat)) : unordered_map Nat Nat :=
  { _map := [2, 1]
    _manager := { _capacity := 3, _first := 9, _weight := 2, _weigher := weight, _policy := pol }
    mem := mem12 }

/-- The entries a range insert adds, in the words of the specification: the elements of the
range whose key is neither among the keys `seen` (those resident before the call) nor given
by an earlier element of the range, in range order; each comes with its node address. -/
def spec_range_new_entries {Key V : Type} [DecidableEq Key] :
    List Key → List (Ptr × (Key × V)) → List (Ptr × (Key × V))
  | _, [] => []
  | seen, (p, value) :: rest =>
    if value.1 ∈ seen then spec_range_new_entries seen rest
    else (p, value) :: spec_range_new_entries (value.1 :: seen) rest

/-- A map of capacity `10` whose weigher returns the value of the entry, holding the single
entry `(1, 4)`. -/
def map4 (pol : policy.rep_policy (Nat × Nat)) : unordered_map Nat Nat :=
  { _map := [1]
    _manager := { _capacity := 10, _first := 9, _weight := 4, _weigher := fun value => value.2,
                  _policy := pol }
    mem :=
      { first := fun q => match q with
          | 1 => (1, 4)
          | _ => (0, 0)
        prev := fun q => match q with
          | 9 => 1
          | 1 => 9
          | _ => 0
        next := fun q => match q with
          | 9 => 1
          | 1 => 9
          | _ => 0
        weight := fun q => match q with
          | 1 => 4
          | _ => 0 } }

/-- A map of capacity `10` whose weigher returns the value of the entry, holding `(1, 4)`
and `(2, 4)` in this replacement order. -/
def map44 (pol : policy.rep_policy (Nat × Nat)) : unordered_map Nat Nat :=
  { _map := [2, 1]
    _manager := { _capacity := 10, _first := 9, _weight := 8, _weigher := fun value => value.2,
                  _policy := pol }
    mem := mem44 }

/-- Example: the empty map of capacity `10` under LRU whose weigher returns the value of the
entry; the manager sits at address `9`. -/
def empty10 : unordered_map Nat Nat :=
  unordered_map.mk_empty
    { first := fun _ => (0, 0), prev := fun _ => 0, next := fun _ => 0, weight := fun _ => 0 }
    9 10 (fun value => value.2) (.plain .lru)

end limited

end extended_containers
/-! ## Lemmas on links -/

set_option linter.unusedSectionVars false

namespace cache_manager

variable {T : Type}

theorem link_next (m : Mem T) (a b q : Ptr) :
    (__link m a b).next q = if q = a then b else m.next q := by
  simp [__link, Function.update_apply]

theorem link_prev (m : Mem T) (a b q : Ptr) :
    (__link m a b).prev q = if q = b then a else m.prev q := by
  simp [__link, Function.update_apply]

theorem link_first (m : Mem T) (a b : Ptr) : (__link m a b).first = m.first := rfl

theorem link_weight (m : Mem T) (a b : Ptr) : (__link m a b).weight = m.weight := rfl

end cache_manager

namespace cache_manager

variable {T : Type}

theorem linked_cons_cons (m : Mem T) (a b : Ptr) (l : List Ptr) :
    Linked m (a :: b :: l) ↔ (m.next a = b ∧ m.prev b = a) ∧ Linked m (b :: l) := Iff.rfl

theorem linked_iff_chain (m : Mem T) (l : List Ptr) :
    Linked m l ↔ List.Chain' (fun u v => m.next u = v ∧ m.prev v = u) l := by
  induction l with
  | nil => simp [Linked]
  | cons a l ih =>
    cases l with
    | nil => simp [Linked]
    | cons b l => rw [linked_cons_cons, List.chain'_cons, ih]

theorem linked_append (m : Mem T) (l1 l2 : List Ptr) :
    Linked m (l1 ++ l2) ↔ Linked m l1 ∧ Linked m l2 ∧
      ∀ a ∈ l1.getLast?, ∀ b ∈ l2.head?, m.next a = b ∧ m.prev b = a := by
  simp only [linked_iff_chain]
  exact List.chain'_append

theorem linked_frame (m m' : Mem T) (l : List Ptr)
    (hn : ∀ u ∈ l.dropLast, m'.next u = m.next u)
    (hp : ∀ v ∈ l.tail, m'.prev v = m.prev v)
    (h : Linked m l) : Linked m' l := by
  induction l with
  | nil => trivial
  | cons a l ih =>
    cases l with
    | nil => trivial
    | cons b l =>
      rw [linked_cons_cons] at h ⊢
      refine ⟨⟨?_, ?_⟩, ih ?_ ?_ h.2⟩
      · rw [hn a (by simp [List.dropLast]), h.1.1]
      · rw [hp b (by simp), h.1.2]
      · intro u hu
        exact hn u (by simp [List.dropLast_cons₂] at hu ⊢; right; exact hu)
      · intro v hv
        exact hp v (by simp at hv ⊢; right; exact hv)

theorem mem_of_head? {l : List Ptr} {a : Ptr} (h : l.head? = some a) : a ∈ l := by
  cases l with
  | nil => simp at h
  | cons b l => simp at h; simp [h]

theorem mem_of_getLast? {l : List Ptr} {a : Ptr} (h : l.getLast? = some a) : a ∈ l :=
  List.mem_of_getLast?_eq_some h

theorem eq_cons_of_head? {l : List Ptr} {a : Ptr} (h : l.head? = some a) : l = a :: l.tail := by
  cases l with
  | nil => simp at h
  | cons b l => simp at h; simp [h]

theorem eq_concat_of_getLast? {l : List Ptr} {a : Ptr} (h : l.getLast? = some a) :
    l = l.dropLast ++ [a] := by
  rcases List.eq_nil_or_concat l with rfl | ⟨L, b, rfl⟩
  · simp at h
  · simp at h; simp [h]

theorem linked_append_of (m : Mem T) (l1 l2 : List Ptr) (a b : Ptr)
    (h1 : l1.getLast? = some a) (h2 : l2.head? = some b) :
    Linked m (l1 ++ l2) ↔ Linked m l1 ∧ Linked m l2 ∧ m.next a = b ∧ m.prev b = a := by
  rw [linked_append]
  simp [h1, h2]

/-- Exchange of two adjacent blocks `X` and `Y` standing between the nodes `u` and `w`. -/
theorem linked_swap (m m' : Mem T) (P X Y Q : List Ptr) (u w x0 x1 y0 y1 : Ptr)
    (hx0 : X.head? = some x0) (hx1 : X.getLast? = some x1)
    (hy0 : Y.head? = some y0) (hy1 : Y.getLast? = some y1)
    (hd : (P ++ u :: (X ++ (Y ++ w :: Q))).dropLast.Nodup)
    (ht : (P ++ u :: (X ++ (Y ++ w :: Q))).tail.Nodup)
    (h : Linked m (P ++ u :: (X ++ (Y ++ w :: Q))))
    (hn : ∀ q, m'.next q =
      if q = u then y0 else if q = y1 then x0 else if q = x1 then w else m.next q)
    (hp : ∀ q, m'.prev q =
      if q = y0 then u else if q = x0 then y1 else if q = w then x1 else m.prev q) :
    Linked m' (P ++ u :: (Y ++ (X ++ w :: Q))) := by
  have eX0 := eq_cons_of_head? hx0
  have eX1 := eq_concat_of_getLast? hx1
  have eY0 := eq_cons_of_head? hy0
  have eY1 := eq_concat_of_getLast? hy1
  have hXne : X ≠ [] := by rintro rfl; simp at hx0
  have hYne : Y ≠ [] := by rintro rfl; simp at hy0
  -- the shape of the two sequences
  have e1 : P ++ u :: (X ++ (Y ++ w :: Q)) = (P ++ [u]) ++ (X ++ (Y ++ w :: Q)) := by simp
  have e2 : P ++ u :: (Y ++ (X ++ w :: Q)) = (P ++ [u]) ++ (Y ++ (X ++ w :: Q)) := by simp
  rw [e1] at h hd ht
  rw [e2]
  rw [linked_append_of m _ _ u x0 (by simp) (by simp [hx0]),
    linked_append_of m _ _ x1 y0 hx1 (by simp [hy0]),
    linked_append_of m _ _ y1 w hy1 (by simp)] at h
  obtain ⟨hA, ⟨hX, ⟨hY, hB, hyw⟩, hxy⟩, hux⟩ := h
  -- distinctness of the nodes whose `next` is written
  have hd' : (P ++ [u] ++ (X.dropLast ++ [x1] ++ (Y.dropLast ++ [y1] ++ (w :: Q).dropLast))).Nodup := by
    rw [← eX1, ← eY1]
    have : (P ++ [u] ++ (X ++ (Y ++ w :: Q))).dropLast
        = P ++ [u] ++ (X ++ (Y ++ (w :: Q).dropLast)) := by
      rw [List.dropLast_append_of_ne_nil _ (by simp), List.dropLast_append_of_ne_nil _ (by simp),
        List.dropLast_append_of_ne_nil _ (by simp)]
    rw [this] at hd
    exact hd
  have ht' : ((P ++ [u]).tail ++ (x0 :: X.tail ++ (y0 :: Y.tail ++ w :: Q))).Nodup := by
    rw [← eX0, ← eY0]
    rw [List.tail_append_of_ne_nil (by simp)] at ht
    exact ht
  simp only [List.nodup_append, List.nodup_cons, List.disjoint_left, List.mem_append,
    List.mem_cons, List.mem_singleton] at hd' ht'
  rw [linked_append_of m' _ _ u y0 (by simp) (by simp [hy0]),
    linked_append_of m' _ _ y1 x0 hy1 (by simp [hx0]),
    linked_append_of m' _ _ x1 w hx1 (by simp)]
  simp only [List.not_mem_nil, or_false, not_false_eq_true, List.nodup_nil, and_true,
    true_and] at hd' ht'
  clear eX0 eX1 eY0 eY1 e1 e2 hd ht
  obtain ⟨⟨hP, hPu⟩, ⟨⟨hXd, hXx1⟩, ⟨⟨hYd, hYy1⟩, hBd, hYB⟩, hXYB⟩, hPall⟩ := hd'
  obtain ⟨hAt, ⟨⟨hx0t, hXt⟩, ⟨⟨hy0t, hYt⟩, ⟨hwQ, hQ⟩, hYQ⟩, hXQ⟩, hAall⟩ := ht'
  have hu_x1 : u ≠ x1 := fun e => hPall (Or.inr rfl) (Or.inl (Or.inr e))
  have hu_y1 : u ≠ y1 := fun e => hPall (Or.inr rfl) (Or.inr (Or.inl (Or.inr e)))
  have hx1_y1 : x1 ≠ y1 := fun e => hXYB (Or.inr rfl) (Or.inl (Or.inr e))
  have hx0_y0 : x0 ≠ y0 := fun e => hXQ (Or.inl rfl) (Or.inl (Or.inl e))
  have hx0_w : x0 ≠ w := fun e => hXQ (Or.inl rfl) (Or.inr (Or.inl e))
  have hy0_w : y0 ≠ w := fun e => hYQ (Or.inl rfl) (Or.inl e)
  refine ⟨?_, ⟨?_, ⟨?_, ?_, ?_, ?_⟩, ?_, ?_⟩, ?_, ?_⟩
  · refine linked_frame m m' _ ?_ ?_ hA
    · intro q hq
      have hq' : q ∈ P := by simpa using hq
      have h1 : q ≠ u := fun e => hPu hq' e
      have h2 : q ≠ y1 := fun e => hPall (Or.inl hq') (Or.inr (Or.inl (Or.inr e)))
      have h3 : q ≠ x1 := fun e => hPall (Or.inl hq') (Or.inl (Or.inr e))
      rw [hn, if_neg h1, if_neg h2, if_neg h3]
    · intro q hq
      have h1 : q ≠ y0 := fun e => hAall hq (Or.inr (Or.inl (Or.inl e)))
      have h2 : q ≠ x0 := fun e => hAall hq (Or.inl (Or.inl e))
      have h3 : q ≠ w := fun e => hAall hq (Or.inr (Or.inr (Or.inl e)))
      rw [hp, if_neg h1, if_neg h2, if_neg h3]
  · refine linked_frame m m' _ ?_ ?_ hY
    · intro q hq
      have h1 : q ≠ u := fun e => hPall (Or.inr rfl) (Or.inr (Or.inl (Or.inl (e ▸ hq))))
      have h2 : q ≠ y1 := fun e => hYy1 hq e
      have h3 : q ≠ x1 := fun e => hXYB (Or.inr rfl) (Or.inl (Or.inl (e ▸ hq)))
      rw [hn, if_neg h1, if_neg h2, if_neg h3]
    · intro q hq
      have h1 : q ≠ y0 := fun e => hy0t (e ▸ hq)
      have h2 : q ≠ x0 := fun e => hXQ (Or.inl rfl) (Or.inl (Or.inr (e ▸ hq)))
      have h3 : q ≠ w := fun e => hYQ (Or.inr hq) (Or.inl e)
      rw [hp, if_neg h1, if_neg h2, if_neg h3]
  · refine linked_frame m m' _ ?_ ?_ hX
    · intro q hq
      have h1 : q ≠ u := fun e => hPall (Or.inr rfl) (Or.inl (Or.inl (e ▸ hq)))
      have h2 : q ≠ y1 := fun e => hXYB (Or.inl hq) (Or.inl (Or.inr e))
      have h3 : q ≠ x1 := fun e => hXx1 hq e
      rw [hn, if_neg h1, if_neg h2, if_neg h3]
    · intro q hq
      have h1 : q ≠ y0 := fun e => hXQ (Or.inr hq) (Or.inl (Or.inl e))
      have h2 : q ≠ x0 := fun e => hx0t (e ▸ hq)
      have h3 : q ≠ w := fun e => hXQ (Or.inr hq) (Or.inr (Or.inl e))
      rw [hp, if_neg h1, if_neg h2, if_neg h3]
  · refine linked_frame m m' _ ?_ ?_ hB
    · intro q hq
      have h1 : q ≠ u := fun e => hPall (Or.inr rfl) (Or.inr (Or.inr (e ▸ hq)))
      have h2 : q ≠ y1 := fun e => hYB (Or.inr rfl) (e ▸ hq)
      have h3 : q ≠ x1 := fun e => hXYB (Or.inr rfl) (Or.inr (e ▸ hq))
      rw [hn, if_neg h1, if_neg h2, if_neg h3]
    · intro q hq
      have hq' : q ∈ Q := by simpa using hq
      have h1 : q ≠ y0 := fun e => hYQ (Or.inl rfl) (Or.inr (e ▸ hq'))
      have h2 : q ≠ x0 := fun e => hXQ (Or.inl rfl) (Or.inr (Or.inr (e ▸ hq')))
      have h3 : q ≠ w := fun e => hwQ (e ▸ hq')
      rw [hp, if_neg h1, if_neg h2, if_neg h3]
  · rw [hn, if_neg hu_x1.symm, if_neg hx1_y1, if_pos rfl]
  · rw [hp, if_neg hy0_w.symm, if_neg hx0_w.symm, if_pos rfl]
  · rw [hn, if_neg hu_y1.symm, if_pos rfl]
  · rw [hp, if_neg hx0_y0, if_pos rfl]
  · rw [hn, if_pos rfl]
  · rw [hp, if_pos rfl]

/-- Removal of the node `x` standing between the end of `l1` and the start of `l2`. -/
theorem linked_unlink (m m' : Mem T) (l1 l2 : List Ptr) (u x w : Ptr)
    (h1 : l1.getLast? = some u) (h2 : l2.head? = some w)
    (hd : (l1 ++ x :: l2).dropLast.Nodup) (ht : (l1 ++ x :: l2).tail.Nodup)
    (h : Linked m (l1 ++ x :: l2))
    (hn : ∀ q, m'.next q = if q = u then w else m.next q)
    (hp : ∀ q, m'.prev q = if q = w then u else m.prev q) :
    Linked m' (l1 ++ l2) := by
  have e1 := eq_concat_of_getLast? h1
  have e2 := eq_cons_of_head? h2
  have hne1 : l1 ≠ [] := by rintro rfl; simp at h1
  have hne2 : l2 ≠ [] := by rintro rfl; simp at h2
  rw [linked_append_of m _ _ u x h1 (by simp)] at h
  obtain ⟨hA, hxB, -⟩ := h
  have hB : Linked m l2 := by
    have : x :: l2 = [x] ++ l2 := rfl
    rw [this, linked_append_of m _ _ x w (by simp) h2] at hxB
    exact hxB.2.1
  have hd' : (l1.dropLast ++ [u] ++ (x :: l2.dropLast)).Nodup := by
    rw [← e1]
    rw [List.dropLast_append_of_ne_nil _ (by simp), List.dropLast_cons_of_ne_nil hne2] at hd
    exact hd
  have ht' : (l1.tail ++ (x :: w :: l2.tail)).Nodup := by
    rw [← e2]
    rw [List.tail_append_of_ne_nil hne1] at ht
    exact ht
  simp only [List.nodup_append, List.nodup_cons, List.disjoint_left, List.mem_append,
    List.mem_cons, List.mem_singleton, List.not_mem_nil, or_false, not_false_eq_true,
    List.nodup_nil, and_true, true_and] at hd' ht'
  clear e1 e2 hd ht
  obtain ⟨⟨hAd, hAu⟩, ⟨hxB', hBd⟩, hAB⟩ := hd'
  obtain ⟨hAt, ⟨hxw, ⟨hwt, hBt⟩⟩, hAll⟩ := ht'
  rw [linked_append_of m' _ _ u w h1 h2]
  refine ⟨?_, ?_, ?_, ?_⟩
  · refine linked_frame m m' _ ?_ ?_ hA
    · intro q hq
      have h1 : q ≠ u := fun e => hAu hq e
      rw [hn, if_neg h1]
    · intro q hq
      have h1 : q ≠ w := fun e => hAll hq (Or.inr (Or.inl e))
      rw [hp, if_neg h1]
  · refine linked_frame m m' _ ?_ ?_ hB
    · intro q hq
      have h1 : q ≠ u := fun e => hAB (Or.inr rfl) (Or.inr (e ▸ hq))
      rw [hn, if_neg h1]
    · intro q hq
      have h1 : q ≠ w := fun e => hwt (e ▸ hq)
      rw [hp, if_neg h1]
  · rw [hn, if_pos rfl]
  · rw [hp, if_pos rfl]

/-- Insertion of the node `x` between the end of `l1` and the start of `l2`. -/
theorem linked_splice (m m' : Mem T) (l1 l2 : List Ptr) (u x w : Ptr)
    (h1 : l1.getLast? = some u) (h2 : l2.head? = some w)
    (hd : (l1 ++ x :: l2).dropLast.Nodup) (ht : (l1 ++ x :: l2).tail.Nodup)
    (h : Linked m (l1 ++ l2))
    (hn : ∀ q, m'.next q = if q = u then x else if q = x then w else m.next q)
    (hp : ∀ q, m'.prev q = if q = x then u else if q = w then x else m.prev q) :
    Linked m' (l1 ++ x :: l2) := by
  have e1 := eq_concat_of_getLast? h1
  have e2 := eq_cons_of_head? h2
  have hne1 : l1 ≠ [] := by rintro rfl; simp at h1
  have hne2 : l2 ≠ [] := by rintro rfl; simp at h2
  rw [linked_append_of m _ _ u w h1 h2] at h
  obtain ⟨hA, hB, -⟩ := h
  have hd' : (l1.dropLast ++ [u] ++ (x :: l2.dropLast)).Nodup := by
    rw [← e1]
    rw [List.dropLast_append_of_ne_nil _ (by simp), List.dropLast_cons_of_ne_nil hne2] at hd
    exact hd
  have ht' : (l1.tail ++ (x :: w :: l2.tail)).Nodup := by
    rw [← e2]
    rw [List.tail_append_of_ne_nil hne1] at ht
    exact ht
  simp only [List.nodup_append, List.nodup_cons, List.disjoint_left, List.mem_append,
    List.mem_cons, List.mem_singleton, List.not_mem_nil, or_false, not_false_eq_true,
    List.nodup_nil, and_true, true_and] at hd' ht'
  clear e1 e2 hd ht
  obtain ⟨⟨hAd, hAu⟩, ⟨hxB', hBd⟩, hAB⟩ := hd'
  obtain ⟨hAt, ⟨hxw, ⟨hwt, hBt⟩⟩, hAll⟩ := ht'
  have hux : u ≠ x := fun e => hAB (Or.inr rfl) (Or.inl e)
  have hxw' : x ≠ w := fun e => hxw (Or.inl e)
  have e3 : x :: l2 = [x] ++ l2 := rfl
  rw [linked_append_of m' _ _ u x h1 (by simp), e3, linked_append_of m' _ _ x w (by simp) h2]
  refine ⟨?_, ⟨trivial, ?_, ?_, ?_⟩, ?_, ?_⟩
  · refine linked_frame m m' _ ?_ ?_ hA
    · intro q hq
      have h1 : q ≠ u := fun e => hAu hq e
      have h2 : q ≠ x := fun e => hAB (Or.inl hq) (Or.inl e)
      rw [hn, if_neg h1, if_neg h2]
    · intro q hq
      have h1 : q ≠ x := fun e => hAll hq (Or.inl e)
      have h2 : q ≠ w := fun e => hAll hq (Or.inr (Or.inl e))
      rw [hp, if_neg h1, if_neg h2]
  · refine linked_frame m m' _ ?_ ?_ hB
    · intro q hq
      have h1 : q ≠ u := fun e => hAB (Or.inr rfl) (Or.inr (e ▸ hq))
      have h2 : q ≠ x := fun e => hxB' (e ▸ hq)
      rw [hn, if_neg h1, if_neg h2]
    · intro q hq
      have h1 : q ≠ x := fun e => hxw (Or.inr (e ▸ hq))
      have h2 : q ≠ w := fun e => hwt (e ▸ hq)
      rw [hp, if_neg h1, if_neg h2]
  · rw [hn, if_neg hux.symm, if_pos rfl]
  · rw [hp, if_neg hxw'.symm, if_pos rfl]
  · rw [hn, if_pos rfl]
  · rw [hp, if_pos rfl]

theorem isList_seq (s : Ptr) (A B : List Ptr) (x : Ptr) :
    s :: (A ++ x :: B) ++ [s] = (s :: A) ++ x :: (B ++ [s]) := by simp

theorem isList_nodup_seq {m : Mem T} {s : Ptr} {L : List Ptr} (h : IsList m s L) :
    (s :: L ++ [s]).dropLast.Nodup ∧ (s :: L ++ [s]).tail.Nodup := by
  have h2 := h.2
  constructor
  · have : (s :: L ++ [s]).dropLast = s :: L := by
      rw [show s :: L ++ [s] = (s :: L) ++ [s] from rfl, List.dropLast_concat]
    rw [this]; exact h2
  · simp only [List.cons_append, List.tail_cons]
    rw [List.nodup_append_comm]
    simpa using h2

/-- The neighbours of a node of the list are the nodes standing next to it. -/
theorem isList_mid {m : Mem T} {s : Ptr} {A B : List Ptr} {x : Ptr}
    (h : IsList m s (A ++ x :: B)) :
    (s :: A).getLast? = some (m.prev x) ∧ (B ++ [s]).head? = some (m.next x) := by
  have hl := h.1
  rw [isList_seq, linked_append] at hl
  obtain ⟨-, hxB, hj⟩ := hl
  constructor
  · obtain ⟨u, hu⟩ : ∃ u, (s :: A).getLast? = some u := by
      rcases List.eq_nil_or_concat (s :: A) with e | ⟨P, u, e⟩
      · simp at e
      · exact ⟨u, by rw [e]; simp⟩
    have := hj u hu x (by simp)
    rw [hu, this.2]
  · obtain ⟨w, hw⟩ : ∃ w, (B ++ [s]).head? = some w := by
      cases B with
      | nil => exact ⟨s, rfl⟩
      | cons b B => exact ⟨b, rfl⟩
    have e : x :: (B ++ [s]) = [x] ++ (B ++ [s]) := rfl
    rw [e, linked_append] at hxB
    have := hxB.2.2 x (by simp) w hw
    rw [hw, this.1]

/-- The neighbours of the sentinel are the first and the last node of the list. -/
theorem isList_sentinel {m : Mem T} {s : Ptr} {L : List Ptr} (h : IsList m s L) :
    (L ++ [s]).head? = some (m.next s) ∧ (s :: L).getLast? = some (m.prev s) := by
  have hl := h.1
  constructor
  · obtain ⟨w, hw⟩ : ∃ w, (L ++ [s]).head? = some w := by
      cases L with
      | nil => exact ⟨s, rfl⟩
      | cons b B => exact ⟨b, rfl⟩
    have e : s :: L ++ [s] = [s] ++ (L ++ [s]) := rfl
    rw [e, linked_append] at hl
    have := hl.2.2 s (by simp) w hw
    rw [hw, this.1]
  · obtain ⟨u, hu⟩ : ∃ u, (s :: L).getLast? = some u := by
      rcases List.eq_nil_or_concat (s :: L) with e | ⟨P, u, e⟩
      · simp at e
      · exact ⟨u, by rw [e]; simp⟩
    have e : s :: L ++ [s] = (s :: L) ++ [s] := rfl
    rw [e, linked_append] at hl
    have := hl.2.2 u hu s (by simp)
    rw [hu, this.2]

/-- Unlinking a node of the list removes it from the order and keeps the rest. -/
theorem isList_unlink {m : Mem T} {s : Ptr} {A B : List Ptr} {x : Ptr}
    (h : IsList m s (A ++ x :: B)) :
    IsList (__link m (m.prev x) (m.next x)) s (A ++ B) := by
  obtain ⟨hu, hw⟩ := isList_mid h
  obtain ⟨hd, ht⟩ := isList_nodup_seq h
  constructor
  · rw [isList_seq] at hd ht
    have hl := h.1
    rw [isList_seq] at hl
    have := linked_unlink m (__link m (m.prev x) (m.next x)) (s :: A) (B ++ [s])
      (m.prev x) x (m.next x) hu hw hd ht hl (fun q => link_next _ _ _ _)
      (fun q => link_prev _ _ _ _)
    simpa using this
  · have h2 := h.2
    simp only [List.nodup_cons, List.mem_append, List.mem_cons, List.nodup_append,
      List.disjoint_left] at h2 ⊢
    refine ⟨fun hc => h2.1 (hc.elim Or.inl (fun hb => Or.inr (Or.inr hb))), h2.2.1,
      h2.2.2.1.2, fun a ha hb => h2.2.2.2 ha (Or.inr hb)⟩

theorem link_comm (m : Mem T) (a b c d : Ptr) (h1 : a ≠ c) (h2 : b ≠ d) :
    __link (__link m a b) c d = __link (__link m c d) a b := by
  simp only [__link]
  congr 1
  · exact Function.update_comm h2 _ _ _
  · exact Function.update_comm h1 _ _ _

/-- The boundary nodes of two adjacent blocks are pairwise different. -/
theorem swap_distinct (P X Y Q : List Ptr) (u w x0 x1 y0 y1 : Ptr)
    (hx0 : X.head? = some x0) (hx1 : X.getLast? = some x1)
    (hy0 : Y.head? = some y0) (hy1 : Y.getLast? = some y1)
    (hd : (P ++ u :: (X ++ (Y ++ w :: Q))).dropLast.Nodup)
    (ht : (P ++ u :: (X ++ (Y ++ w :: Q))).tail.Nodup) :
    (u ≠ x1 ∧ u ≠ y1 ∧ x1 ≠ y1) ∧ (x0 ≠ y0 ∧ x0 ≠ w ∧ y0 ≠ w) := by
  have eX0 := eq_cons_of_head? hx0
  have eX1 := eq_concat_of_getLast? hx1
  have eY0 := eq_cons_of_head? hy0
  have eY1 := eq_concat_of_getLast? hy1
  have e1 : P ++ u :: (X ++ (Y ++ w :: Q)) = (P ++ [u]) ++ (X ++ (Y ++ w :: Q)) := by simp
  rw [e1] at hd ht
  have hd' : (P ++ [u] ++ (X.dropLast ++ [x1] ++ (Y.dropLast ++ [y1] ++ (w :: Q).dropLast))).Nodup := by
    rw [← eX1, ← eY1]
    have : (P ++ [u] ++ (X ++ (Y ++ w :: Q))).dropLast
        = P ++ [u] ++ (X ++ (Y ++ (w :: Q).dropLast)) := by
      rw [List.dropLast_append_of_ne_nil _ (by simp), List.dropLast_append_of_ne_nil _ (by simp),
        List.dropLast_append_of_ne_nil _ (by simp)]
    rw [this] at hd
    exact hd
  have ht' : ((P ++ [u]).tail ++ (x0 :: X.tail ++ (y0 :: Y.tail ++ w :: Q))).Nodup := by
    rw [← eX0, ← eY0]
    rw [List.tail_append_of_ne_nil (by simp)] at ht
    exact ht
  simp only [List.nodup_append, List.nodup_cons, List.disjoint_left, List.mem_append,
    List.mem_cons, List.mem_singleton, List.not_mem_nil, or_false, not_false_eq_true,
    List.nodup_nil, and_true, true_and] at hd' ht'
  clear eX0 eX1 eY0 eY1 e1 hd ht
  obtain ⟨⟨hP, hPu⟩, ⟨⟨hXd, hXx1⟩, ⟨⟨hYd, hYy1⟩, hBd, hYB⟩, hXYB⟩, hPall⟩ := hd'
  obtain ⟨hAt, ⟨⟨hx0t, hXt⟩, ⟨⟨hy0t, hYt⟩, ⟨hwQ, hQ⟩, hYQ⟩, hXQ⟩, hAall⟩ := ht'
  exact ⟨⟨fun e => hPall (Or.inr rfl) (Or.inl (Or.inr e)),
    fun e => hPall (Or.inr rfl) (Or.inr (Or.inl (Or.inr e))),
    fun e => hXYB (Or.inr rfl) (Or.inl (Or.inr e))⟩,
    fun e => hXQ (Or.inl rfl) (Or.inl (Or.inl e)),
    fun e => hXQ (Or.inl rfl) (Or.inr (Or.inl e)),
    fun e => hYQ (Or.inl rfl) (Or.inl e)⟩

/-- The three links `(u, y0)`, `(y1, x0)`, `(x1, w)` exchange the adjacent blocks `X` and `Y`
standing between `u` and `w`. -/
theorem linked_swap_links (m : Mem T) (P X Y Q : List Ptr) (u w x0 x1 y0 y1 : Ptr)
    (hx0 : X.head? = some x0) (hx1 : X.getLast? = some x1)
    (hy0 : Y.head? = some y0) (hy1 : Y.getLast? = some y1)
    (hd : (P ++ u :: (X ++ (Y ++ w :: Q))).dropLast.Nodup)
    (ht : (P ++ u :: (X ++ (Y ++ w :: Q))).tail.Nodup)
    (h : Linked m (P ++ u :: (X ++ (Y ++ w :: Q)))) :
    Linked (__link (__link (__link m u y0) y1 x0) x1 w) (P ++ u :: (Y ++ (X ++ w :: Q))) := by
  obtain ⟨⟨h1, h2, h3⟩, h4, h5, h6⟩ := swap_distinct P X Y Q u w x0 x1 y0 y1 hx0 hx1 hy0 hy1 hd ht
  refine linked_swap m _ P X Y Q u w x0 x1 y0 y1 hx0 hx1 hy0 hy1 hd ht h ?_ ?_
  · intro q
    simp only [link_next]
    by_cases e1 : q = u
    · subst e1; simp [h1, h2]
    · by_cases e2 : q = y1
      · subst e2; simp [e1, h3.symm]
      · simp [e1, e2]
  · intro q
    simp only [link_prev]
    by_cases e1 : q = y0
    · subst e1; simp [h4.symm, h6]
    · by_cases e2 : q = x0
      · subst e2; simp [e1, h5]
      · simp [e1, e2]

end cache_manager

namespace cache_manager

variable {T : Type}

theorem isList_congr {m m' : Mem T} {s : Ptr} {L : List Ptr} (hn : m'.next = m.next)
    (hp : m'.prev = m.prev) (h : IsList m s L) : IsList m' s L :=
  ⟨linked_frame m m' _ (fun u _ => by rw [hn]) (fun v _ => by rw [hp]) h.1, h.2⟩

theorem isList_not_mem {m : Mem T} {s : Ptr} {L : List Ptr} (h : IsList m s L) : s ∉ L :=
  (List.nodup_cons.1 h.2).1

/-- `lru::access` on the node `x` of a valid list: `x` goes to the tail. -/
theorem lru_access_isList {m : Mem T} {s : Ptr} {A B : List Ptr} {x : Ptr}
    (h : IsList m s (A ++ x :: B)) (first : Ptr) :
    IsList (policy.lru.access m first s x) s (A ++ B ++ [x]) ∧
      (B = [] → policy.lru.access m first s x = m) := by
  obtain ⟨hu, hw⟩ := isList_mid h
  cases B with
  | nil =>
    have hx : m.next x = s := by simpa using hw.symm
    have e : policy.lru.access m first s x = m := by simp [policy.lru.access, hx]
    exact ⟨by rw [e]; simpa using h, fun _ => e⟩
  | cons y B =>
    have hy : m.next x = y := by simpa using hw.symm
    have hys : y ≠ s := by
      rintro rfl
      exact isList_not_mem h (by simp)
    refine ⟨?_, fun e => by simp at e⟩
    -- the pointers read by `move`
    have hpy : m.prev y = x := by
      have h' : IsList m s ((A ++ [x]) ++ y :: B) := by simpa using h
      have := (isList_mid h').1
      have e : (s :: (A ++ [x])).getLast? = some x := by
        rw [show s :: (A ++ [x]) = (s :: A) ++ [x] from rfl, List.getLast?_concat]
      rw [e] at this
      exact (Option.some.inj this).symm
    obtain ⟨y1, hy1⟩ : ∃ y1, (y :: B).getLast? = some y1 := by
      rcases List.eq_nil_or_concat (y :: B) with e | ⟨R, t, e⟩
      · simp at e
      · exact ⟨t, by rw [e]; simp⟩
    have hps : m.prev s = y1 := by
      have := (isList_sentinel h).2
      have e : (s :: (A ++ x :: y :: B)).getLast? = some y1 := by
        have : s :: (A ++ x :: y :: B) = (s :: A ++ [x]) ++ (y :: B) := by simp
        rw [this, List.getLast?_append, hy1]; rfl
      rw [e] at this
      exact (Option.some.inj this).symm
    obtain ⟨P, hP⟩ := List.getLast?_eq_some_iff.1 hu
    have eold : s :: (A ++ x :: y :: B) ++ [s]
        = P ++ m.prev x :: ([x] ++ ((y :: B) ++ s :: [])) := by
      have : s :: (A ++ x :: y :: B) ++ [s] = (s :: A) ++ (x :: y :: B ++ [s]) := by simp
      rw [this, hP]; simp
    have enew : s :: (A ++ y :: B ++ [x]) ++ [s]
        = P ++ m.prev x :: ((y :: B) ++ ([x] ++ s :: [])) := by
      have : s :: (A ++ y :: B ++ [x]) ++ [s] = (s :: A) ++ (y :: B ++ [x] ++ [s]) := by simp
      rw [this, hP]; simp
    obtain ⟨hd, ht⟩ := isList_nodup_seq h
    have hl := h.1
    rw [eold] at hd ht hl
    have key := linked_swap_links m P [x] (y :: B) [] (m.prev x) s x x y y1 rfl rfl rfl hy1
      hd ht hl
    constructor
    · rw [enew]
      have e : policy.lru.access m first s x
          = __link (__link (__link m (m.prev x) y) y1 x) x s := by
        simp [policy.lru.access, iterator_operations.move, hy, hys, hpy, hps]
      rw [e]; exact key
    · have h2 := h.2
      have hperm : (s :: (A ++ y :: B ++ [x])).Perm (s :: (A ++ x :: y :: B)) := by
        refine List.Perm.cons _ ?_
        have : A ++ y :: B ++ [x] = A ++ (y :: B ++ [x]) := by simp
        rw [this]
        exact List.Perm.append_left _ (List.perm_append_singleton x (y :: B))
      exact hperm.nodup_iff.2 h2

theorem isList_adjacent {m : Mem T} {s : Ptr} {A B : List Ptr} {x y : Ptr}
    (h : IsList m s (A ++ x :: y :: B)) : m.next x = y ∧ m.prev y = x := by
  constructor
  · have := (isList_mid h).2
    simpa using this.symm
  · have h' : IsList m s ((A ++ [x]) ++ y :: B) := by simpa using h
    have := (isList_mid h').1
    have e : (s :: (A ++ [x])).getLast? = some x := by
      rw [show s :: (A ++ [x]) = (s :: A) ++ [x] from rfl, List.getLast?_concat]
    rw [e] at this
    exact (Option.some.inj this).symm

theorem isList_head {m : Mem T} {s : Ptr} {L : List Ptr} {a : Ptr}
    (h : IsList m s (a :: L)) : m.next s = a ∧ m.prev a = s := by
  constructor
  · have := (isList_sentinel h).1
    simpa using this.symm
  · have h' : IsList m s ([] ++ a :: L) := h
    have := (isList_mid h').1
    simpa using this.symm

theorem isList_last {m : Mem T} {s : Ptr} {L : List Ptr} {z : Ptr}
    (h : IsList m s (L ++ [z])) : m.prev s = z ∧ m.next z = s := by
  constructor
  · have := (isList_sentinel h).2
    have e : (s :: (L ++ [z])).getLast? = some z := by
      rw [show s :: (L ++ [z]) = (s :: L) ++ [z] from rfl, List.getLast?_concat]
    rw [e] at this
    exact (Option.some.inj this).symm
  · have := (isList_mid h).2
    simpa using this.symm

theorem isList_nil {m : Mem T} {s : Ptr} (h : IsList m s []) : m.next s = s ∧ m.prev s = s := by
  have := h.1
  simpa [Linked] using this

/-- `mru::access` on the node `x` of a valid list: `x` goes to the head. -/
theorem mru_access_isList {m : Mem T} {s : Ptr} {A B : List Ptr} {x : Ptr}
    (h : IsList m s (A ++ x :: B)) (last : Ptr) :
    IsList (policy.mru.access m (m.next s) last x) s (x :: (A ++ B)) ∧
      (A = [] → policy.mru.access m (m.next s) last x = m) := by
  obtain ⟨hu, hw⟩ := isList_mid h
  cases A with
  | nil =>
    have hx : m.next s = x := (isList_head h).1
    have e : policy.mru.access m (m.next s) last x = m := by simp [policy.mru.access, hx]
    exact ⟨by rw [e]; simpa using h, fun _ => e⟩
  | cons a A =>
    have ha : m.next s = a ∧ m.prev a = s := isList_head h
    have hxa : x ≠ a := by
      rintro rfl
      have := h.2
      simp at this
    refine ⟨?_, fun e => by simp at e⟩
    obtain ⟨w, Q, hQ⟩ : ∃ w Q, B ++ [s] = w :: Q := by
      cases B with
      | nil => exact ⟨s, [], rfl⟩
      | cons b B => exact ⟨b, B ++ [s], rfl⟩
    have hnx : m.next x = w := by
      rw [hQ] at hw
      simpa using hw.symm
    have hpw : m.prev w = x := by
      cases B with
      | nil =>
        simp at hQ
        rw [← hQ.1]
        have h' : IsList m s ((a :: A) ++ [x]) := h
        exact (isList_last h').1
      | cons b B =>
        simp at hQ
        rw [← hQ.1]
        exact (isList_adjacent h).2
    have hx1 : (a :: A).getLast? = some (m.prev x) := by
      rw [← hu]; simp
    have eold : s :: ((a :: A) ++ x :: B) ++ [s]
        = [] ++ s :: ((a :: A) ++ ([x] ++ w :: Q)) := by
      rw [← hQ]; simp
    have enew : s :: (x :: ((a :: A) ++ B)) ++ [s]
        = [] ++ s :: ([x] ++ ((a :: A) ++ w :: Q)) := by
      rw [← hQ]; simp
    obtain ⟨hd, ht⟩ := isList_nodup_seq h
    have hl := h.1
    rw [eold] at hd ht hl
    have key := linked_swap_links m [] (a :: A) [x] Q s w a (m.prev x) x x rfl hx1 rfl rfl
      hd ht hl
    obtain ⟨⟨h1, h2, h3⟩, h4, h5, h6⟩ :=
      swap_distinct [] (a :: A) [x] Q s w a (m.prev x) x x rfl hx1 rfl rfl hd ht
    constructor
    · rw [enew]
      have e : policy.mru.access m (m.next s) last x
          = __link (__link (__link m s x) x a) (m.prev x) w := by
        simp only [policy.mru.access, iterator_operations.move, ha.1, hnx, hpw, ha.2]
        rw [if_pos hxa]
        rw [link_comm m (m.prev x) w s x h1.symm h6.symm,
          link_comm (__link m s x) (m.prev x) w x a h3 h5.symm]
      rw [e]; exact key
    · have h2' := h.2
      have hperm : (s :: (x :: ((a :: A) ++ B))).Perm (s :: ((a :: A) ++ x :: B)) :=
        List.Perm.cons _ List.perm_middle.symm
      exact hperm.nodup_iff.2 h2'

/-- `swapping::access` on the node `x` of a valid list: `x` changes place with its
successor. -/
theorem swapping_access_isList {m : Mem T} {s : Ptr} {A B : List Ptr} {x y : Ptr}
    (h : IsList m s (A ++ x :: y :: B)) (first : Ptr) :
    IsList (policy.swapping.access m first s x) s (A ++ y :: x :: B) := by
  obtain ⟨hu, -⟩ := isList_mid h
  obtain ⟨hxy, hyx⟩ := isList_adjacent h
  have hys : y ≠ s := by
    rintro rfl
    exact isList_not_mem h (by simp)
  obtain ⟨w, Q, hQ⟩ : ∃ w Q, B ++ [s] = w :: Q := by
    cases B with
    | nil => exact ⟨s, [], rfl⟩
    | cons b B => exact ⟨b, B ++ [s], rfl⟩
  have hny : m.next y = w := by
    have h' : IsList m s ((A ++ [x]) ++ y :: B) := by simpa using h
    have := (isList_mid h').2
    rw [hQ] at this
    simpa using this.symm
  obtain ⟨P, hP⟩ := List.getLast?_eq_some_iff.1 hu
  have eold : s :: (A ++ x :: y :: B) ++ [s]
      = P ++ m.prev x :: ([x] ++ ([y] ++ w :: Q)) := by
    have : s :: (A ++ x :: y :: B) ++ [s] = (s :: A) ++ (x :: y :: (B ++ [s])) := by simp
    rw [this, hP, hQ]; simp
  have enew : s :: (A ++ y :: x :: B) ++ [s]
      = P ++ m.prev x :: ([y] ++ ([x] ++ w :: Q)) := by
    have : s :: (A ++ y :: x :: B) ++ [s] = (s :: A) ++ (y :: x :: (B ++ [s])) := by simp
    rw [this, hP, hQ]; simp
  obtain ⟨hd, ht⟩ := isList_nodup_seq h
  have hl := h.1
  rw [eold] at hd ht hl
  have key := linked_swap_links m P [x] [y] Q (m.prev x) w x x y y rfl rfl rfl rfl hd ht hl
  obtain ⟨⟨h1, h2, h3⟩, h4, h5, h6⟩ :=
    swap_distinct P [x] [y] Q (m.prev x) w x x y y rfl rfl rfl rfl hd ht
  constructor
  · rw [enew]
    have e : policy.swapping.access m first s x
        = __link (__link (__link m (m.prev x) y) y x) x w := by
      simp only [policy.swapping.access, iterator_operations.iter_swap, hxy, hny, hyx]
      rw [if_pos hys, if_neg h2.symm]
      simp
    rw [e]; exact key
  · have h2' := h.2
    have hperm : (s :: (A ++ y :: x :: B)).Perm (s :: (A ++ x :: y :: B)) :=
      List.Perm.cons _ (List.Perm.append_left _ (List.Perm.swap _ _ _))
    exact hperm.nodup_iff.2 h2'

/-- `swapping::access` on the last node of a valid list changes nothing. -/
theorem swapping_access_last {m : Mem T} {s : Ptr} {A : List Ptr} {x : Ptr}
    (h : IsList m s (A ++ [x])) (first : Ptr) :
    policy.swapping.access m first s x = m := by
  have := (isList_last h).2
  simp [policy.swapping.access, this]

/-- Linking a new node `x` in front of `place` inserts it there. -/
theorem isList_splice {m : Mem T} {s : Ptr} {A B : List Ptr} {x place : Ptr}
    (h : IsList m s (A ++ B)) (hplace : (B ++ [s]).head? = some place)
    (hx : x ∉ s :: (A ++ B)) :
    IsList (__link (__link m (m.prev place) x) x place) s (A ++ x :: B) := by
  have hl := h.1
  have e0 : s :: (A ++ B) ++ [s] = (s :: A) ++ (B ++ [s]) := by simp
  rw [e0] at hl
  obtain ⟨u, hu⟩ : ∃ u, (s :: A).getLast? = some u := by
    rcases List.eq_nil_or_concat (s :: A) with e | ⟨P, u, e⟩
    · simp at e
    · exact ⟨u, by rw [e]; simp⟩
  have hup : m.prev place = u := ((linked_append m _ _).1 hl).2.2 u hu place hplace |>.2
  have hnd : (s :: (A ++ x :: B)).Nodup := by
    have hperm : (s :: (A ++ x :: B)).Perm (x :: s :: (A ++ B)) :=
      (List.Perm.cons _ List.perm_middle).trans (List.Perm.swap _ _ _)
    exact hperm.nodup_iff.2 (List.nodup_cons.2 ⟨hx, h.2⟩)
  have hux : u ≠ x := by
    rintro rfl
    apply hx
    have := List.mem_of_getLast?_eq_some hu
    simp at this ⊢
    rcases this with e | e
    · exact Or.inl e
    · exact Or.inr (Or.inl e)
  have hxw : x ≠ place := by
    rintro rfl
    apply hx
    have := List.mem_of_mem_head? (show x ∈ (B ++ [s]).head? from hplace)
    simp at this ⊢
    rcases this with e | e
    · exact Or.inr (Or.inr e)
    · exact Or.inl e
  refine ⟨?_, hnd⟩
  have hseq : (s :: (A ++ x :: B) ++ [s]) = (s :: A) ++ x :: (B ++ [s]) := by simp
  have hd : ((s :: A) ++ x :: (B ++ [s])).dropLast.Nodup := by
    rw [← hseq]
    have : (s :: (A ++ x :: B) ++ [s]).dropLast = s :: (A ++ x :: B) := by
      rw [show s :: (A ++ x :: B) ++ [s] = (s :: (A ++ x :: B)) ++ [s] from rfl,
        List.dropLast_concat]
    rw [this]; exact hnd
  have ht : ((s :: A) ++ x :: (B ++ [s])).tail.Nodup := by
    rw [← hseq]
    simp only [List.cons_append, List.tail_cons]
    rw [List.nodup_append_comm]
    simpa using hnd
  rw [hseq]
  refine linked_splice m _ (s :: A) (B ++ [s]) u x place hu hplace hd ht hl ?_ ?_
  · intro q
    rw [hup]
    simp only [link_next]
    by_cases e1 : q = u
    · subst e1; simp [hux]
    · simp [e1]
  · intro q
    rw [hup]
    simp only [link_prev]
    by_cases e1 : q = x
    · subst e1; simp [hxw]
    · simp [e1]

/-- Walking a valid list from `begin()` to `end()` meets exactly its nodes, in order. -/
theorem walk_linked (m : Mem T) (s : Ptr) (fuel : Nat) :
    ∀ (L : List Ptr) (a : Ptr), Linked m (a :: L ++ [s]) → s ∉ L → L.length < fuel →
      walk m s fuel (m.next a) = some L := by
  induction fuel with
  | zero => intro L a _ _ h; simp at h
  | succ fuel ih =>
    intro L a hl hs hlen
    cases L with
    | nil =>
      have : m.next a = s := by
        simp only [List.nil_append, List.cons_append] at hl
        exact hl.1.1
      simp [walk, this]
    | cons b L =>
      have hb : m.next a = b := by
        simp only [List.cons_append] at hl
        exact hl.1.1
      have hbs : b ≠ s := by
        rintro rfl
        exact hs (by simp)
      have hl' : Linked m (b :: L ++ [s]) := by
        simp only [List.cons_append] at hl
        exact hl.2
      have := ih L b hl' (fun hc => hs (by simp [hc])) (by simpa using hlen)
      simp [walk, hb, hbs, this]

theorem walk_isList {m : Mem T} {s : Ptr} {L : List Ptr} (h : IsList m s L) (fuel : Nat)
    (hf : L.length < fuel) : walk m s fuel (m.next s) = some L :=
  walk_linked m s fuel L s h.1 (isList_not_mem h) hf

end cache_manager

namespace cache_manager

variable {T : Type}

theorem erase_of_split {A B : List Ptr} {x : Ptr} (h : (A ++ x :: B).Nodup) :
    (A ++ x :: B).erase x = A ++ B := by
  have hx : x ∉ A := by
    intro hc
    have := List.nodup_append.1 h
    exact (List.disjoint_left.1 this.2.2) hc (by simp)
  rw [List.erase_append_right _ hx, List.erase_cons_head]

end cache_manager

namespace cache_manager

variable {T : Type}

theorem insert_position_tail (pol : policy.rep_policy T) (first last : Ptr)
    (h : pol.parent = .fifo ∨ pol.parent = .lru) :
    policy.policy_extractor.insert_position pol first last = last := by
  rcases h with h | h <;> simp [policy.policy_extractor.insert_position, policy.provides_insert_v, h]

theorem insert_position_head (pol : policy.rep_policy T) (first last : Ptr)
    (h : pol.parent = .lifo ∨ pol.parent = .mru ∨ pol.parent = .swapping) :
    policy.policy_extractor.insert_position pol first last = first := by
  rcases h with h | h | h <;>
    simp [policy.policy_extractor.insert_position, policy.provides_insert_v, h,
      policy.lifo.insert_position, policy.mru.insert_position, policy.swapping.insert_position]

theorem insert_position_cases (pol : policy.rep_policy T) (first last : Ptr) :
    policy.policy_extractor.insert_position pol first last = last ∨
      policy.policy_extractor.insert_position pol first last = first := by
  cases hp : pol.parent
  · exact Or.inl (insert_position_tail pol first last (Or.inl hp))
  · exact Or.inr (insert_position_head pol first last (Or.inl hp))
  · exact Or.inl (insert_position_tail pol first last (Or.inr hp))
  · exact Or.inr (insert_position_head pol first last (Or.inr (Or.inl hp)))
  · exact Or.inr (insert_position_head pol first last (Or.inr (Or.inr hp)))

/-- The memory after `insert(node)` when the policy inserts before `place`. -/
theorem insert_mem (c : cache_manager T) (m : Mem T) (node : Ptr) :
    (c.insert m node).2.1.next
      = (__link (__link m
          (m.prev (policy.policy_extractor.insert_position c._policy (c.begin m) c.end_)) node)
          node (policy.policy_extractor.insert_position c._policy (c.begin m) c.end_)).next ∧
    (c.insert m node).2.1.prev
      = (__link (__link m
          (m.prev (policy.policy_extractor.insert_position c._policy (c.begin m) c.end_)) node)
          node (policy.policy_extractor.insert_position c._policy (c.begin m) c.end_)).prev ∧
    (c.insert m node).2.1.first = m.first := by
  simp [cache_manager.insert, __link]

/-- `insert(node)` at the tail of the list. -/
theorem insert_isList_tail (c : cache_manager T) (m : Mem T) (L : List Ptr) (x : Ptr)
    (hL : IsList m c._first L) (hx : x ∉ c._first :: L)
    (hp : c._policy.parent = .fifo ∨ c._policy.parent = .lru) :
    IsList (c.insert m x).2.1 c._first (L ++ [x]) := by
  obtain ⟨h1, h2, -⟩ := insert_mem c m x
  refine isList_congr h1 h2 ?_
  rw [insert_position_tail _ _ _ hp]
  have hL' : IsList m c._first (L ++ []) := by simpa using hL
  exact isList_splice hL' (by simp [cache_manager.end_]) (by simpa using hx)

/-- `insert(node)` at the head of the list. -/
theorem insert_isList_head (c : cache_manager T) (m : Mem T) (L : List Ptr) (x : Ptr)
    (hL : IsList m c._first L) (hx : x ∉ c._first :: L)
    (hp : c._policy.parent = .lifo ∨ c._policy.parent = .mru ∨ c._policy.parent = .swapping) :
    IsList (c.insert m x).2.1 c._first (x :: L) := by
  obtain ⟨h1, h2, -⟩ := insert_mem c m x
  refine isList_congr h1 h2 ?_
  rw [insert_position_head _ _ _ hp]
  have hL' : IsList m c._first ([] ++ L) := hL
  exact isList_splice hL' (isList_sentinel hL).1 (by simpa using hx)

theorem insert_weight (c : cache_manager T) (m : Mem T) (x : Ptr) :
    (c.insert m x).1._weight = (c._weight + c.calculate_weight (m.first x)) % SIZE := rfl

end cache_manager

namespace cache_manager

variable {T : Type}

theorem linked_tail {m : Mem T} {a : Ptr} {l : List Ptr} (h : Linked m (a :: l)) : Linked m l := by
  cases l with
  | nil => trivial
  | cons b l => exact h.2

theorem linked_suffix {m : Mem T} (A : List Ptr) {l : List Ptr} (h : Linked m (A ++ l)) :
    Linked m l := by
  induction A with
  | nil => exact h
  | cons a A ih => exact ih (linked_tail h)

theorem linked_next_head {m : Mem T} {a s : Ptr} {R : List Ptr} (h : Linked m (a :: R ++ [s])) :
    (R ++ [s]).head? = some (m.next a) := by
  cases R with
  | nil => simp [h.1.1]
  | cons b R => simp [h.1.1]

/-- The scan of `locked_policy::erase_position` along a linked run of nodes ends on one of
them or on `last`. -/
theorem locked_erase_run (locker : T → Bool) (m : Mem T) (s : Ptr) :
    ∀ (R : List Ptr) (fuel : Nat) (it : Ptr), (R ++ [s]).head? = some it →
      Linked m (R ++ [s]) → s ∉ R → R.length < fuel →
      ∃ r, policy.locked_policy.erase_position locker m s fuel it = some r ∧ (r ∈ R ∨ r = s) := by
  intro R
  induction R with
  | nil =>
    intro fuel it hit _ _ hf
    cases fuel with
    | zero => simp at hf
    | succ fuel =>
      have : it = s := by simpa using hit.symm
      exact ⟨s, by simp [policy.locked_policy.erase_position, this], Or.inr rfl⟩
  | cons a R ih =>
    intro fuel it hit hl hs hf
    cases fuel with
    | zero => simp at hf
    | succ fuel =>
      have hita : it = a := by simpa using hit.symm
      subst hita
      have has : it ≠ s := by
        rintro rfl
        exact hs (by simp)
      simp only [policy.locked_policy.erase_position]
      rw [if_pos has]
      by_cases hlock : locker (m.first it) = true
      · simp only [hlock, Bool.not_true, Bool.false_eq_true, if_false]
        obtain ⟨r, hr, hmem⟩ := ih fuel (m.next it) (linked_next_head hl) (linked_tail hl)
          (fun hc => hs (by simp [hc])) (by simpa using hf)
        refine ⟨r, hr, ?_⟩
        rcases hmem with h | h
        · exact Or.inl (by simp [h])
        · exact Or.inr h
      · refine ⟨it, ?_, Or.inl (by simp)⟩
        simp [hlock]

/-- The first loop of `priority_policy::erase_position` along a linked run of nodes ends
with `return last` or on one of the nodes. -/
theorem priority_skip_run (locker : T → Nat) (m : Mem T) (s : Ptr) :
    ∀ (R : List Ptr) (fuel : Nat) (a : Ptr),
      Linked m (a :: R ++ [s]) → s ∉ R → R.length < fuel →
      ∃ r, policy.priority_policy.skip_max locker m s fuel a = some r ∧
        (r = Sum.inl s ∨ ∃ q, r = Sum.inr q ∧ q ∈ a :: R) := by
  intro R
  induction R with
  | nil =>
    intro fuel a hl _ hf
    cases fuel with
    | zero => simp at hf
    | succ fuel =>
      have hn : m.next a = s := hl.1.1
      simp only [policy.priority_policy.skip_max]
      by_cases hmax : locker (m.first a) % SIZE = policy.priority_max
      · exact ⟨Sum.inl s, by simp [hmax, hn], Or.inl rfl⟩
      · exact ⟨Sum.inr a, by simp [hmax], Or.inr ⟨a, rfl, by simp⟩⟩
  | cons b R ih =>
    intro fuel a hl hs hf
    cases fuel with
    | zero => simp at hf
    | succ fuel =>
      have hn : m.next a = b := hl.1.1
      have hbs : b ≠ s := by
        rintro rfl
        exact hs (by simp)
      simp only [policy.priority_policy.skip_max]
      by_cases hmax : locker (m.first a) % SIZE = policy.priority_max
      · obtain ⟨r, hr, hmem⟩ := ih fuel b (linked_tail hl) (fun hc => hs (by simp [hc]))
          (by simpa using hf)
        refine ⟨r, by simp [hmax, hn, hbs, hr], ?_⟩
        rcases hmem with h | ⟨q, hq, hq'⟩
        · exact Or.inl h
        · exact Or.inr ⟨q, hq, by simp [hq']⟩
      · exact ⟨Sum.inr a, by simp [hmax], Or.inr ⟨a, rfl, by simp⟩⟩

/-- The second loop of `priority_policy::erase_position` along a linked run of nodes ends on
the candidate it was given or on one of the nodes. -/
theorem priority_scan_run (locker : T → Nat) (m : Mem T) (s : Ptr) :
    ∀ (R : List Ptr) (fuel : Nat) (it lowest cur : Nat), (R ++ [s]).head? = some it →
      Linked m (R ++ [s]) → s ∉ R → R.length < fuel →
      ∃ r, policy.priority_policy.scan locker m s fuel it lowest cur = some r ∧
        (r = lowest ∨ r ∈ R) := by
  intro R
  induction R with
  | nil =>
    intro fuel it lowest cur hit _ _ hf
    cases fuel with
    | zero => simp at hf
    | succ fuel =>
      have : it = s := by simpa using hit.symm
      exact ⟨lowest, by simp [policy.priority_policy.scan, this], Or.inl rfl⟩
  | cons a R ih =>
    intro fuel it lowest cur hit hl hs hf
    cases fuel with
    | zero => simp at hf
    | succ fuel =>
      have hita : it = a := by simpa using hit.symm
      subst hita
      simp only [policy.priority_policy.scan]
      by_cases hc : cur > policy.priority_min ∧ it ≠ s
      · rw [if_pos hc]
        by_cases hp : locker (m.first it) % SIZE < cur
        · rw [if_pos hp]
          obtain ⟨r, hr, hmem⟩ := ih fuel (m.next it) it (locker (m.first it) % SIZE)
            (linked_next_head hl) (linked_tail hl) (fun hc => hs (by simp [hc]))
            (by simpa using hf)
          refine ⟨r, hr, ?_⟩
          rcases hmem with h | h
          · exact Or.inr (by simp [h])
          · exact Or.inr (by simp [h])
        · rw [if_neg hp]
          obtain ⟨r, hr, hmem⟩ := ih fuel (m.next it) lowest (cur - 1)
            (linked_next_head hl) (linked_tail hl) (fun hc => hs (by simp [hc]))
            (by simpa using hf)
          refine ⟨r, hr, ?_⟩
          rcases hmem with h | h
          · exact Or.inl h
          · exact Or.inr (by simp [h])
      · rw [if_neg hc]
        exact ⟨lowest, rfl, Or.inl rfl⟩

end cache_manager

namespace cache_manager

variable {T : Type}

theorem mem_ext {m m' : Mem T} (h1 : m'.first = m.first) (h2 : m'.prev = m.prev)
    (h3 : m'.next = m.next) (h4 : m'.weight = m.weight) : m' = m := by
  cases m; cases m'; simp_all

theorem unlink_prev_self (m : Mem T) (x : Ptr) :
    (__link m (m.prev x) (m.next x)).prev x = m.prev x := by
  rw [link_prev]; split <;> rfl

theorem unlink_next_self (m : Mem T) (x : Ptr) :
    (__link m (m.prev x) (m.next x)).next x = m.next x := by
  rw [link_next]; split <;> rfl

/-- Linking a node back between the neighbours it was unlinked from restores the memory. -/
theorem relink_unlink (m : Mem T) (x : Ptr) (h1 : m.next (m.prev x) = x)
    (h2 : m.prev (m.next x) = x) :
    __link (__link (__link m (m.prev x) (m.next x)) (m.prev x) x) x (m.next x) = m := by
  refine mem_ext rfl ?_ ?_ rfl
  · funext q
    simp only [link_prev]
    by_cases e1 : q = m.next x
    · subst e1; simp [h2]
    · by_cases e2 : q = x
      · subst e2; simp [e1]
      · simp [e1, e2]
  · funext q
    simp only [link_next]
    by_cases e1 : q = x
    · subst e1; simp
    · by_cases e2 : q = m.prev x
      · subst e2; simp [e1, h1]
      · simp [e1, e2]

/-- The links of a node of a valid list are symmetric. -/
theorem isList_symm {m : Mem T} {s : Ptr} {L : List Ptr} {x : Ptr} (h : IsList m s L)
    (hx : x ∈ L) : m.next (m.prev x) = x ∧ m.prev (m.next x) = x := by
  obtain ⟨A, B, rfl⟩ := List.append_of_mem hx
  have hl := h.1
  rw [isList_seq] at hl
  obtain ⟨hu, hw⟩ := isList_mid h
  have h1 := ((linked_append m _ _).1 hl).2.2 (m.prev x) hu x (by simp)
  have hl2 : Linked m ([x] ++ (B ++ [s])) := linked_suffix (s :: A) hl
  have h2 := ((linked_append m _ _).1 hl2).2.2 x (by simp) (m.next x) hw
  exact ⟨h1.1, h2.2⟩

/-- On a valid list every built-in `erase_position` answers, and its answer is a node of the
list or `last`. -/
theorem erase_position_good (pol : policy.rep_policy T) {m : Mem T} {s : Ptr} {L : List Ptr}
    (h : IsList m s L) (first : Ptr) (hfirst : first ∈ L ∨ first = s) (fuel : Nat)
    (hf : L.length < fuel) :
    ∃ r, policy.policy_extractor.erase_position pol m fuel first s = some r ∧
      (r ∈ L ∨ r = s) := by
  have hs : s ∉ L := isList_not_mem h
  -- the run of nodes from a node of the list to the sentinel
  have run : ∀ q, q ∈ L → ∃ A B, L = A ++ q :: B ∧ Linked m (q :: B ++ [s]) ∧ s ∉ q :: B ∧
      (q :: B).length ≤ L.length := by
    intro q hq
    obtain ⟨A, B, rfl⟩ := List.append_of_mem hq
    refine ⟨A, B, rfl, ?_, ?_, by simp⟩
    · have hl := h.1
      rw [isList_seq] at hl
      exact linked_suffix (s :: A) hl
    · intro hc
      exact hs (by simp at hc ⊢; tauto)
  cases pol with
  | plain p =>
    exact ⟨first, by simp [policy.policy_extractor.erase_position, policy.provides_erase_v],
      hfirst⟩
  | locked_policy p locker =>
    simp only [policy.policy_extractor.erase_position, policy.provides_erase_v, if_true]
    rcases hfirst with hq | rfl
    · obtain ⟨A, B, hAB, hl, hsB, hlen⟩ := run first hq
      obtain ⟨r, hr, hmem⟩ := locked_erase_run locker m s (first :: B) fuel first (by simp) hl hsB
        (by omega)
      refine ⟨r, hr, ?_⟩
      rcases hmem with h1 | h1
      · left; rw [hAB]; simp at h1 ⊢; tauto
      · exact Or.inr h1
    · obtain ⟨r, hr, hmem⟩ := locked_erase_run locker m first [] fuel first (by simp) trivial
        (by simp) (by simp; omega)
      refine ⟨r, hr, ?_⟩
      rcases hmem with h1 | h1
      · simp at h1
      · exact Or.inr h1
  | priority_policy p locker =>
    simp only [policy.policy_extractor.erase_position, policy.provides_erase_v, if_true,
      policy.priority_policy.erase_position]
    -- the second loop started on a node of the list
    have scan : ∀ q, q ∈ L → ∃ r, policy.priority_policy.scan locker m s fuel q q
        (locker (m.first q) % SIZE) = some r ∧ (r ∈ L ∨ r = s) := by
      intro q hq
      obtain ⟨A, B, hAB, hl, hsB, hlen⟩ := run q hq
      obtain ⟨r, hr, hmem⟩ := priority_scan_run locker m s (q :: B) fuel q q
        (locker (m.first q) % SIZE) (by simp) hl hsB (by omega)
      refine ⟨r, hr, Or.inl ?_⟩
      rcases hmem with h1 | h1
      · rw [h1]; exact hq
      · rw [hAB]; simp at h1 ⊢; tauto
    rcases hfirst with hq | rfl
    · obtain ⟨A, B, hAB, hl, hsB, hlen⟩ := run first hq
      obtain ⟨r, hr, hmem⟩ := priority_skip_run locker m s B fuel first hl
        (fun hc => hsB (by simp [hc])) (by simp at hlen; omega)
      rw [hr]
      rcases hmem with h1 | ⟨q, h1, h2⟩
      · subst h1; exact ⟨s, rfl, Or.inr rfl⟩
      · subst h1
        exact scan q (by rw [hAB]; simp at h2 ⊢; tauto)
    · obtain ⟨r, hr, hmem⟩ := priority_skip_run locker m first L fuel first h.1 hs hf
      rw [hr]
      rcases hmem with h1 | ⟨q, h1, h2⟩
      · subst h1; exact ⟨first, rfl, Or.inr rfl⟩
      · subst h1
        rcases List.mem_cons.1 h2 with h3 | h3
        · subst h3
          obtain ⟨r, hr, hmem⟩ := priority_scan_run locker m q [] fuel q q
            (locker (m.first q) % SIZE) (by simp) trivial (by simp) (by simp; omega)
          refine ⟨r, hr, Or.inr ?_⟩
          rcases hmem with h1 | h1
          · exact h1
          · simp at h1
        · exact scan q h3

end cache_manager

namespace cache_manager

variable {T : Type}

theorem calculate_weight_lt (c : cache_manager T) (v : T) : c.calculate_weight v < SIZE :=
  Nat.mod_lt _ (by decide)

theorem sub_add_mod (W w : Nat) (hW : W < SIZE) (hw : w < SIZE) :
    ((W + SIZE - w) % SIZE + w) % SIZE = W := by
  have h1 : ((W + SIZE - w) % SIZE + w) % SIZE = (W + SIZE - w + w) % SIZE := by
    rw [Nat.add_mod, Nat.mod_mod, ← Nat.add_mod]
  rw [h1, Nat.sub_add_cancel (by omega), Nat.add_mod_right, Nat.mod_eq_of_lt hW]

/-- `reinsert` undoes the `erase` that immediately precedes it. -/
theorem reinsert_erase (c : cache_manager T) (m : Mem T) (x : Ptr) (hW : c._weight < SIZE)
    (h1 : m.next (m.prev x) = x) (h2 : m.prev (m.next x) = x) :
    (c.erase m x).1.reinsert (c.erase m x).2.1 x = (c, m) := by
  simp only [cache_manager.erase, cache_manager.erase_node, cache_manager.reinsert,
    cache_manager.calculate_weight_it, cache_manager.calculate_weight, __prev, __next,
    link_first, unlink_prev_self, unlink_next_self]
  rw [relink_unlink m x h1 h2, sub_add_mod _ _ hW (Nat.mod_lt _ (by decide))]

theorem erase_fields (c : cache_manager T) (m : Mem T) (x : Ptr) :
    (c.erase m x).2.2 = m.next x ∧
      (c.erase m x).2.1 = __link m (m.prev x) (m.next x) ∧
      (c.erase m x).1 =
        { c with _weight := (c._weight + SIZE - c.calculate_weight (m.first x)) % SIZE } := by
  simp [cache_manager.erase, cache_manager.erase_node, link_first]

theorem next_good (c : cache_manager T) {m : Mem T} {L : List Ptr}
    (h : IsList m c._first L) (fuel : Nat) (hf : L.length < fuel) :
    ∃ r, c.next m fuel = some r ∧ (r ∈ L ∨ r = c._first) := by
  unfold cache_manager.next
  by_cases hb : c.cbegin m = c.cend
  · rw [if_pos hb]; exact ⟨c._first, rfl, Or.inr rfl⟩
  · rw [if_neg hb]
    refine erase_position_good c._policy h _ ?_ fuel hf
    have := (isList_sentinel h).1
    have hmem := List.mem_of_mem_head? (show c.cbegin m ∈ (L ++ [c._first]).head? from this)
    simpa [or_comm] using hmem

theorem next_hint_good (c : cache_manager T) {m : Mem T} {L : List Ptr}
    (h : IsList m c._first L) (fuel : Nat) (hf : L.length < fuel) (hint : Ptr)
    (hh : hint ∈ L ∨ hint = c._first) :
    ∃ r, c.next_hint m fuel hint = some r ∧ (r ∈ L ∨ r = c._first) := by
  unfold cache_manager.next_hint
  by_cases hb : hint = c.cend
  · rw [if_pos hb]; exact ⟨c._first, rfl, Or.inr rfl⟩
  · rw [if_neg hb]
    exact erase_position_good c._policy h _ hh fuel hf

end cache_manager

namespace extended_containers

namespace limited

namespace unordered_map

open cache_manager

variable {Key V : Type} [DecidableEq Key]

theorem rewind_snoc (s : unordered_map Key V) (removed : List Ptr) (x : Ptr) :
    s.freeSpace_rewind (removed ++ [x]) = (s.manager_reinsert x).freeSpace_rewind removed := by
  simp [freeSpace_rewind]

/-- One `erase` of the eviction loop followed by the matching `reinsert` gives back the
state. -/
theorem reinsert_erase_state (s : unordered_map Key V) (x : Ptr)
    (hW : s._manager._weight < SIZE)
    (h1 : s.mem.next (s.mem.prev x) = x) (h2 : s.mem.prev (s.mem.next x) = x) :
    (s.manager_erase x).1.manager_reinsert x = s := by
  simp only [manager_erase, manager_reinsert]
  rw [reinsert_erase s._manager s.mem x hW h1 h2]

theorem manager_erase_fields (s : unordered_map Key V) (x : Ptr) :
    (s.manager_erase x).2 = s.mem.next x ∧
      (s.manager_erase x).1.mem = __link s.mem (s.mem.prev x) (s.mem.next x) ∧
      (s.manager_erase x).1._manager =
        { s._manager with
          _weight := (s._manager._weight + SIZE - s._manager.calculate_weight (s.mem.first x))
            % SIZE } ∧
      (s.manager_erase x).1._map = s._map := by
  simp [manager_erase, cache_manager.erase, cache_manager.erase_node, link_first]

/-- The eviction loop of `freeSpace(weight)` on a valid list: it returns; when it reports
failure the state is the one the removed nodes were unlinked from, and when it reports
success the nodes removed are dropped from the index and the others still form a valid
list. -/
theorem freeSpace_loop_spec (s0 : unordered_map Key V) (budget weight : Nat) :
    ∀ (fuel : Nat) (s : unordered_map Key V) (freed : Nat) (removed : List Ptr) (next : Ptr)
      (L : List Ptr),
      IsList s.mem s._manager._first L → s._manager._weight < SIZE →
      (next ∈ L ∨ next = s._manager._first) → L.length < fuel → L.length < budget →
      s.freeSpace_rewind removed = s0 →
      ∃ b s', freeSpace_loop budget weight fuel s freed removed next = some (b, s') ∧
        (b = false → s' = s0) ∧
        (b = true → ∃ (s1 : unordered_map Key V) (E L1 : List Ptr),
          s' = s1.freeSpace_drop (removed ++ E) ∧
          IsList s1.mem s1._manager._first L1 ∧ (E ++ L1).Perm L ∧ L1.Sublist L ∧
          s1._map = s._map ∧ s1.mem.first = s.mem.first ∧
          ∃ w, w < SIZE ∧ s1._manager = { s._manager with _weight := w }) := by
  intro fuel
  induction fuel with
  | zero => intro s freed removed next L _ _ _ hf; simp at hf
  | succ fuel ih =>
    intro s freed removed next L hL hW hnext hf hb hrew
    unfold freeSpace_loop
    by_cases hfw : freed < weight
    · rw [if_pos hfw]
      -- the candidate after the retry without hint
      obtain ⟨next1, hn1, hmem1⟩ : ∃ next1,
          (if next = s._manager.end_ then s._manager.next s.mem budget else some next)
            = some next1 ∧ (next1 ∈ L ∨ next1 = s._manager._first) := by
        by_cases he : next = s._manager.end_
        · rw [if_pos he]; exact next_good s._manager hL budget hb
        · rw [if_neg he]; exact ⟨next, rfl, hnext⟩
      rw [hn1]
      by_cases he1 : next1 = s._manager.end_
      · simp only [he1, if_true]
        exact ⟨false, _, rfl, fun _ => hrew, fun h => by simp at h⟩
      · simp only [he1, if_false]
        have hx : next1 ∈ L := hmem1.resolve_right he1
        obtain ⟨A, B, rfl⟩ := List.append_of_mem hx
        obtain ⟨hef, hem, hec, hemap⟩ := manager_erase_fields s next1
        have hfirst1 : (s.manager_erase next1).1._manager._first = s._manager._first := by
          rw [hec]
        have hL1 : IsList (s.manager_erase next1).1.mem
            (s.manager_erase next1).1._manager._first (A ++ B) := by
          rw [hem, hfirst1]; exact isList_unlink hL
        have hhint : (s.manager_erase next1).2 ∈ A ++ B ∨
            (s.manager_erase next1).2 = (s.manager_erase next1).1._manager._first := by
          rw [hef, hfirst1]
          have := List.mem_of_mem_head?
            (show s.mem.next next1 ∈ (B ++ [s._manager._first]).head? from (isList_mid hL).2)
          simp at this ⊢
          tauto
        obtain ⟨next2, hn2, hmem2⟩ := next_hint_good (s.manager_erase next1).1._manager
          hL1 budget (by simp at hb ⊢; omega) _ hhint
        simp only [hn2]
        obtain ⟨h1, h2⟩ := isList_symm hL hx
        have hrew1 : (s.manager_erase next1).1.freeSpace_rewind (removed ++ [next1]) = s0 := by
          rw [rewind_snoc, reinsert_erase_state s next1 hW h1 h2]
          exact hrew
        have hW1 : (s.manager_erase next1).1._manager._weight < SIZE := by
          rw [hec]; exact Nat.mod_lt _ (by decide)
        obtain ⟨b, s', hres, hfalse, htrue⟩ := ih (s.manager_erase next1).1
          ((freed + s._manager.calculate_weight (s.mem.first next1)) % SIZE)
          (removed ++ [next1]) next2 (A ++ B) hL1 hW1 hmem2 (by simp at hf ⊢; omega)
          (by simp at hb ⊢; omega) hrew1
        refine ⟨b, s', hres, hfalse, ?_⟩
        intro hbt
        obtain ⟨s1, E, L1, hs', hl1, hperm, hsub, hmap, hfst, w, hw, hmgr⟩ := htrue hbt
        refine ⟨s1, next1 :: E, L1, ?_, hl1, ?_, ?_, ?_, ?_, w, hw, ?_⟩
        · rw [hs']; simp
        · have : (next1 :: E ++ L1).Perm (next1 :: (A ++ B)) := List.Perm.cons _ hperm
          exact this.trans List.perm_middle.symm
        · exact hsub.trans (List.Sublist.append_left (List.sublist_cons_self _ _) _)
        · rw [hmap, hemap]
        · rw [hfst, hem]; rfl
        · rw [hmgr, hec]
    · rw [if_neg hfw]
      refine ⟨true, _, rfl, fun h => by simp at h, fun _ => ?_⟩
      exact ⟨s, [], L, by simp, hL, by simp, List.Sublist.refl _, rfl, rfl,
        s._manager._weight, hW, rfl⟩

end unordered_map

end limited

end extended_containers


namespace extended_containers

namespace limited

namespace unordered_map

open cache_manager

variable {Key V : Type} [DecidableEq Key]

theorem find_key_self {α β : Type} [DecidableEq β] (f : α → β) :
    ∀ (l : List α) (x : α), (l.map f).Nodup → x ∈ l →
      l.find? (fun q => decide (f q = f x)) = some x := by
  intro l
  induction l with
  | nil => intro x _ hx; simp at hx
  | cons a l ih =>
    intro x hnd hx
    rw [List.map_cons, List.nodup_cons] at hnd
    rcases List.mem_cons.1 hx with rfl | hx'
    · simp
    · have hne : f a ≠ f x := by
        intro e
        exact hnd.1 (e ▸ List.mem_map_of_mem f hx')
      rw [List.find?_cons_of_neg _ (by simpa using hne)]
      exact ih x hnd.2 hx'

theorem _map_find_self (s : unordered_map Key V) (x : Ptr) (hk : s.keys.Nodup)
    (hx : x ∈ s._map) : s._map_find (s.mem.first x).1 = some x :=
  find_key_self (fun q => (s.mem.first q).1) s._map x hk hx

theorem _map_find_none (s : unordered_map Key V) (key : Key) :
    s._map_find key = none ↔ key ∉ s.keys := by
  simp [_map_find, keys, List.find?_eq_none]

theorem _map_find_some (s : unordered_map Key V) (key : Key) (q : Ptr)
    (h : s._map_find key = some q) : q ∈ s._map ∧ (s.mem.first q).1 = key := by
  unfold _map_find at h
  have h1 := List.mem_of_find?_eq_some h
  have h2 := List.find?_some h
  exact ⟨h1, by simpa using h2⟩

/-- The final loop of `freeSpace` removes from the index exactly the nodes it is given. -/
theorem freeSpace_drop_eq : ∀ (R : List Ptr) (s : unordered_map Key V), s.keys.Nodup →
    (∀ x ∈ R, x ∈ s._map) → R.Nodup →
    s.freeSpace_drop R = { s with _map := s._map.diff R } := by
  intro R
  induction R with
  | nil => intro s _ _ _; simp [freeSpace_drop]
  | cons x R ih =>
    intro s hk hR hnd
    have hx : x ∈ s._map := hR x (by simp)
    have hstep : (s._map_erase_key (s.mem.first x).1).1 = s._map_erase x := by
      simp [_map_erase_key, _map_find_self s x hk hx]
    have hk' : (s._map_erase x).keys.Nodup := by
      refine List.Nodup.sublist ?_ hk
      exact List.Sublist.map _ (List.erase_sublist _ _)
    have hR' : ∀ y ∈ R, y ∈ (s._map_erase x)._map := by
      intro y hy
      have hyx : y ≠ x := by
        rintro rfl
        exact (List.nodup_cons.1 hnd).1 hy
      exact (List.mem_erase_of_ne hyx).2 (hR y (by simp [hy]))
    have := ih (s._map_erase x) hk' hR' (List.nodup_cons.1 hnd).2
    simp only [freeSpace_drop, List.foldl_cons] at this ⊢
    rw [hstep, this]
    simp [_map_erase, List.diff_cons]

theorem isList_frame {T : Type} {m m' : Mem T} {s : Ptr} {L : List Ptr}
    (h : IsList m s L) (hn : ∀ q ∈ s :: L, m'.next q = m.next q)
    (hp : ∀ q ∈ s :: L, m'.prev q = m.prev q) : IsList m' s L := by
  refine ⟨linked_frame m m' _ ?_ ?_ h.1, h.2⟩
  · intro u hu
    have : (s :: L ++ [s]).dropLast = s :: L := by
      rw [show s :: L ++ [s] = (s :: L) ++ [s] from rfl, List.dropLast_concat]
    rw [this] at hu
    exact hn u hu
  · intro v hv
    simp only [List.cons_append, List.tail_cons, List.mem_append, List.mem_singleton] at hv
    exact hp v (by simp; tauto)

/-- Member `freeSpace(weight)` on a valid list. -/
theorem freeSpace_spec (fuel : Nat) (s : unordered_map Key V) (weight : Nat) (L : List Ptr)
    (hL : IsList s.mem s._manager._first L) (hW : s._manager._weight < SIZE)
    (hf : L.length < fuel) :
    ∃ b s', s.freeSpace fuel weight = some (b, s') ∧
      (b = false → s' = s) ∧
      (b = true → ∃ (s1 : unordered_map Key V) (E L1 : List Ptr),
        s' = s1.freeSpace_drop E ∧
        IsList s1.mem s1._manager._first L1 ∧ (E ++ L1).Perm L ∧ L1.Sublist L ∧
        s1._map = s._map ∧ s1.mem.first = s.mem.first ∧
        ∃ w, w < SIZE ∧ s1._manager = { s._manager with _weight := w }) := by
  unfold freeSpace
  by_cases h1 : s._manager.weight < weight
  · rw [if_pos h1]
    exact ⟨false, s, rfl, fun _ => rfl, fun h => by simp at h⟩
  · rw [if_neg h1]
    obtain ⟨next, hn, hmem⟩ := next_good s._manager hL fuel hf
    rw [hn]
    obtain ⟨b, s', hres, hfalse, htrue⟩ := freeSpace_loop_spec s fuel weight fuel s 0 [] next L
      hL hW hmem hf hf (by simp [freeSpace_rewind])
    exact ⟨b, s', hres, hfalse, fun hb => by simpa using htrue hb⟩

/-- Member `provideSpace(weight)` on a valid list. -/
theorem provideSpace_spec (fuel : Nat) (s : unordered_map Key V) (weight : Nat) (L : List Ptr)
    (hL : IsList s.mem s._manager._first L) (hW : s._manager._weight < SIZE)
    (hf : L.length < fuel) :
    ∃ b s', s.provideSpace fuel weight = some (b, s') ∧
      (b = false → s' = s) ∧
      (b = true → ∃ (s1 : unordered_map Key V) (E L1 : List Ptr),
        s' = s1.freeSpace_drop E ∧
        IsList s1.mem s1._manager._first L1 ∧ (E ++ L1).Perm L ∧ L1.Sublist L ∧
        s1._map = s._map ∧ s1.mem.first = s.mem.first ∧
        ∃ w, w < SIZE ∧ s1._manager = { s._manager with _weight := w }) := by
  unfold provideSpace
  by_cases h1 : weight > s._manager.capacity
  · rw [if_pos h1]
    exact ⟨false, s, rfl, fun _ => rfl, fun h => by simp at h⟩
  · rw [if_neg h1]
    by_cases h2 : (s._manager.capacity + SIZE - s._manager.weight) % SIZE ≥ weight
    · rw [if_pos h2]
      refine ⟨true, s, rfl, fun h => by simp at h, fun _ => ?_⟩
      exact ⟨s, [], L, by simp [freeSpace_drop], hL, by simp, List.Sublist.refl _, rfl, rfl,
        s._manager._weight, hW, rfl⟩
    · rw [if_neg h2]
      exact freeSpace_spec fuel s _ L hL hW hf

end unordered_map

end limited

end extended_containers


namespace extended_containers

namespace limited

namespace unordered_map

open cache_manager

variable {Key V : Type} [DecidableEq Key]

/-- What is left of the index after dropping the evicted nodes is a permutation of what is
left of the list. -/
theorem perm_diff_of_split {L idx E L1 : List Ptr} (h1 : (E ++ L1).Perm L) (h2 : L.Perm idx)
    (hnd : L.Nodup) : L1.Perm (idx.diff E) ∧ E.Nodup ∧ (∀ x ∈ E, x ∈ idx) ∧
      (∀ x ∈ L1, x ∈ L ∧ x ∉ E) := by
  have hnd' : (E ++ L1).Nodup := h1.nodup_iff.2 hnd
  have hidx : idx.Nodup := h2.nodup_iff.1 hnd
  obtain ⟨hE, hL1, hdis⟩ := List.nodup_append.1 hnd'
  refine ⟨?_, hE, ?_, ?_⟩
  · rw [List.perm_ext_iff_of_nodup hL1 (hidx.diff)]
    intro a
    rw [List.Nodup.mem_diff_iff hidx]
    constructor
    · intro ha
      exact ⟨h2.subset (h1.subset (by simp [ha])), fun hc => hdis hc ha⟩
    · rintro ⟨ha, hna⟩
      have := h1.symm.subset (h2.symm.subset ha)
      simp at this
      tauto
  · intro x hx
    exact h2.subset (h1.subset (by simp [hx]))
  · intro x hx
    exact ⟨h1.subset (by simp [hx]), fun hc => hdis hc hx⟩

theorem valid_nodup_map {s : unordered_map Key V} {L : List Ptr} (h : s.Valid L) :
    s._map.Nodup ∧ s._manager._first ∉ s._map := by
  obtain ⟨hl, hp, -⟩ := h
  have := hl.2
  rw [List.nodup_cons] at this
  exact ⟨hp.nodup_iff.1 this.2, fun hc => this.1 (hp.symm.subset hc)⟩

/-- C6 for `insert`: the result and the state when the key is present. -/
theorem insert_present (fuel : Nat) (s : unordered_map Key V) (p : Ptr) (value : Key × V)
    (q : Ptr) (h : s._map_find value.1 = some q) :
    s.insert fuel p value = some (.ok (q, false), s) := by
  simp [insert, _map_insert, h]

theorem _map_insert_absent (s : unordered_map Key V) (p : Ptr) (value : Key × V)
    (h : s._map_find value.1 = none) :
    s._map_insert p value =
      ({ s with
         _map := p :: s._map
         mem := { first := Function.update s.mem.first p value
                  prev := Function.update s.mem.prev p 0
                  next := Function.update s.mem.next p 0
                  weight := Function.update s.mem.weight p 0 } }, p, true) := by
  simp [_map_insert, h]

/-- The state after the index has taken a new node still has the replacement list of
before, and its keys are those of before with the new key. -/
theorem _map_insert_valid (s : unordered_map Key V) (L : List Ptr) (p : Ptr) (value : Key × V)
    (hv : s.Valid L) (hk : s._map_find value.1 = none)
    (hp : p ∉ s._manager._first :: s._map) :
    IsList (s._map_insert p value).1.mem s._manager._first L ∧
      (s._map_insert p value).1.keys = value.1 :: s.keys ∧
      (s._map_insert p value).1.keys.Nodup ∧
      (s._map_insert p value).1.mem.first p = value := by
  rw [_map_insert_absent s p value hk]
  obtain ⟨hl, hperm, hkeys, -⟩ := hv
  have hpL : ∀ q ∈ s._manager._first :: L, q ≠ p := by
    rintro q hq rfl
    apply hp
    simp at hq ⊢
    rcases hq with h | h
    · exact Or.inl h
    · exact Or.inr (hperm.subset h)
  have hkeq : (List.map (fun q => (Function.update s.mem.first p value q).1) s._map)
      = s.keys := by
    unfold keys
    apply List.map_congr_left
    intro q hq
    have : q ≠ p := by
      rintro rfl
      exact hp (by simp [hq])
    simp [Function.update_apply, this]
  refine ⟨?_, ?_, ?_, ?_⟩
  · refine isList_frame hl ?_ ?_
    · intro q hq; simp [Function.update_apply, hpL q hq]
    · intro q hq; simp [Function.update_apply, hpL q hq]
  · simp [keys, hkeq]
  · simp only [keys, List.map_cons, Function.update_same, hkeq]
    exact List.nodup_cons.2 ⟨(_map_find_none s value.1).1 hk, hkeys⟩
  · simp

end unordered_map

end limited

end extended_containers


namespace extended_containers

namespace limited

namespace unordered_map

open cache_manager

variable {Key V : Type} [DecidableEq Key]

theorem insert_unfold (fuel : Nat) (s : unordered_map Key V) (p : Ptr) (value : Key × V)
    (hk : s._map_find value.1 = none) :
    s.insert fuel p value =
      match (s._map_insert p value).1.provideSpace fuel
          ((s._map_insert p value).1._manager.calculate_weight
            ((s._map_insert p value).1.mem.first p)) with
      | none => none
      | some (false, s1) => some (.error .no_space_error, s1._map_erase p)
      | some (true, s1) => some (.ok (p, true), s1.safeManagerInsert p) := by
  have e := _map_insert_absent s p value hk
  simp only [insert, indexInserted, e]
  simp only [if_true]
  cases h : provideSpace fuel { s with
         _map := p :: s._map
         mem := { first := Function.update s.mem.first p value
                  prev := Function.update s.mem.prev p 0
                  next := Function.update s.mem.next p 0
                  weight := Function.update s.mem.weight p 0 } }
      (s._manager.calculate_weight (Function.update s.mem.first p value p)) with
  | none => rfl
  | some r =>
    obtain ⟨b, s1⟩ := r
    cases b <;> rfl

/-- The end of a successful insert: when `provideSpace` has evicted the nodes `E` and left
the valid list `L1`, the new node is threaded into the list at the place the policy chooses
and the state is valid again. -/
theorem insert_of_provide_true (fuel : Nat) (s : unordered_map Key V) (L : List Ptr) (p : Ptr)
    (value : Key × V) (hv : s.Valid L) (hk : s._map_find value.1 = none)
    (hp : p ∉ s._manager._first :: s._map)
    (s1 : unordered_map Key V) (E L1 : List Ptr) (w : Nat)
    (hres : (s._map_insert p value).1.provideSpace fuel
      (s._manager.calculate_weight value) = some (true, s1.freeSpace_drop E))
    (hl1 : IsList s1.mem s1._manager._first L1) (hsplit : (E ++ L1).Perm L)
    (hmap1 : s1._map = p :: s._map)
    (hfirst1 : s1.mem.first = (s._map_insert p value).1.mem.first)
    (hmgr1 : s1._manager = { s._manager with _weight := w }) :
    ∃ s' L', s.insert fuel p value = some (.ok (p, true), s') ∧ s'.Valid L' ∧
      (s._manager._policy.parent = .fifo ∨ s._manager._policy.parent = .lru →
        L' = L1 ++ [p]) ∧
      (s._manager._policy.parent = .lifo ∨ s._manager._policy.parent = .mru ∨
        s._manager._policy.parent = .swapping → L' = p :: L1) ∧
      s'._map = p :: s._map.diff E ∧ s'.mem.first p = value ∧
      (∀ q, q ≠ p → s'.mem.first q = s.mem.first q) ∧
      s'._manager =
        { s._manager with _weight := (w + s._manager.calculate_weight value) % SIZE } := by
  rw [insert_unfold fuel s p value hk]
  obtain ⟨hIn, hkeysIn, hkndIn, hfirstp⟩ := _map_insert_valid s L p value hv hk hp
  have e := _map_insert_absent s p value hk
  have hmapIn : (s._map_insert p value).1._map = p :: s._map := by rw [e]
  have hmgrIn : (s._map_insert p value).1._manager = s._manager := by rw [e]
  have hmemIn : ∀ q, q ≠ p →
      (s._map_insert p value).1.mem.first q = s.mem.first q := by
    intro q hq
    rw [e]
    simp [Function.update_apply, hq]
  obtain ⟨hl, hperm, hkeys, hW, hC⟩ := hv
  have hpmap : p ∉ s._map := fun hc => hp (by simp [hc])
  have hpfirst : p ≠ s._manager._first := fun hc => hp (by simp [hc])
  rw [hmgrIn, hfirstp, hres]
  simp only []
  obtain ⟨hpermd, hEnd, hEidx, hL1mem⟩ := perm_diff_of_split hsplit hperm
    (List.nodup_cons.1 hl.2).2
  have hk1 : s1.keys.Nodup := by
    have : s1.keys = (s._map_insert p value).1.keys := by
      simp [keys, hmap1, hfirst1, hmapIn]
    rw [this]; exact hkndIn
  have hdrop : s1.freeSpace_drop E = { s1 with _map := s1._map.diff E } := by
    refine freeSpace_drop_eq E s1 hk1 ?_ hEnd
    intro x hx
    rw [hmap1]
    simp [hEidx x hx]
  have hpE : p ∉ E := fun hc => hpmap (hEidx p hc)
  have hmap2 : (s1.freeSpace_drop E)._map = p :: s._map.diff E := by
    rw [hdrop]
    simp only []
    rw [hmap1, List.cons_diff_of_not_mem hpE]
  have hfirst1' : s1._manager._first = s._manager._first := by rw [hmgr1]
  have hpL1 : p ∉ s1._manager._first :: L1 := by
    rw [hfirst1']
    intro hc
    rcases List.mem_cons.1 hc with h | h
    · exact hpfirst h
    · exact hpmap (hperm.subset (hL1mem p h).1)
  have hs3map : ((s1.freeSpace_drop E).safeManagerInsert p)._map = p :: s._map.diff E := by
    simp [safeManagerInsert, hmap2]
  have hs3mgr : ((s1.freeSpace_drop E).safeManagerInsert p)._manager
      = (s1._manager.insert s1.mem p).1 := by
    rw [hdrop]; rfl
  have hs3mem : ((s1.freeSpace_drop E).safeManagerInsert p).mem
      = (s1._manager.insert s1.mem p).2.1 := by
    rw [hdrop]; rfl
  obtain ⟨hin1, hin2, hin3⟩ := insert_mem s1._manager s1.mem p
  have hfirst3 : ((s1.freeSpace_drop E).safeManagerInsert p).mem.first
      = (s._map_insert p value).1.mem.first := by
    rw [hs3mem, hin3, hfirst1]
  have hmgr3 : ((s1.freeSpace_drop E).safeManagerInsert p)._manager =
      { s._manager with _weight := (w + s._manager.calculate_weight value) % SIZE } := by
    rw [hs3mgr, hmgr1]
    simp only [cache_manager.insert, cache_manager.calculate_weight]
    rw [hfirst1, hfirstp]
  have hpol : s1._manager._policy = s._manager._policy := by rw [hmgr1]
  have key : ∀ L', IsList ((s1.freeSpace_drop E).safeManagerInsert p).mem s._manager._first L' →
      (L' = L1 ++ [p] ∨ L' = p :: L1) →
      ((s1.freeSpace_drop E).safeManagerInsert p).Valid L' := by
    intro L' hL' hshape
    refine ⟨?_, ?_, ?_, ?_, ?_⟩
    · rw [hmgr3]; exact hL'
    · rw [hs3map]
      rcases hshape with h | h
      · rw [h]
        exact (List.perm_append_singleton p L1).trans (List.Perm.cons _ hpermd)
      · rw [h]; exact List.Perm.cons _ hpermd
    · have : ((s1.freeSpace_drop E).safeManagerInsert p).keys.Sublist
          (s._map_insert p value).1.keys := by
        simp only [keys, hs3map, hfirst3, hmapIn]
        exact List.Sublist.map _ (List.Sublist.cons₂ _ (List.diff_sublist _ _))
      exact List.Nodup.sublist this hkndIn
    · rw [hmgr3]; exact Nat.mod_lt _ (by decide)
    · rw [hmgr3]; exact hC
  cases hpar : s._manager._policy.parent with
  | fifo =>
    have hL' := insert_isList_tail s1._manager s1.mem L1 p hl1 hpL1 (by rw [hpol]; simp [hpar])
    rw [hfirst1', ← hs3mem] at hL'
    exact ⟨_, L1 ++ [p], rfl, key _ hL' (Or.inl rfl), fun _ => rfl, fun h => by simp at h,
      hs3map, by rw [hfirst3]; exact hfirstp, fun q hq => by rw [hfirst3]; exact hmemIn q hq,
      hmgr3⟩
  | lru =>
    have hL' := insert_isList_tail s1._manager s1.mem L1 p hl1 hpL1 (by rw [hpol]; simp [hpar])
    rw [hfirst1', ← hs3mem] at hL'
    exact ⟨_, L1 ++ [p], rfl, key _ hL' (Or.inl rfl), fun _ => rfl, fun h => by simp at h,
      hs3map, by rw [hfirst3]; exact hfirstp, fun q hq => by rw [hfirst3]; exact hmemIn q hq,
      hmgr3⟩
  | lifo =>
    have hL' := insert_isList_head s1._manager s1.mem L1 p hl1 hpL1 (by rw [hpol]; simp [hpar])
    rw [hfirst1', ← hs3mem] at hL'
    exact ⟨_, p :: L1, rfl, key _ hL' (Or.inr rfl), fun h => by simp at h, fun _ => rfl,
      hs3map, by rw [hfirst3]; exact hfirstp, fun q hq => by rw [hfirst3]; exact hmemIn q hq,
      hmgr3⟩
  | mru =>
    have hL' := insert_isList_head s1._manager s1.mem L1 p hl1 hpL1 (by rw [hpol]; simp [hpar])
    rw [hfirst1', ← hs3mem] at hL'
    exact ⟨_, p :: L1, rfl, key _ hL' (Or.inr rfl), fun h => by simp at h, fun _ => rfl,
      hs3map, by rw [hfirst3]; exact hfirstp, fun q hq => by rw [hfirst3]; exact hmemIn q hq,
      hmgr3⟩
  | swapping =>
    have hL' := insert_isList_head s1._manager s1.mem L1 p hl1 hpL1 (by rw [hpol]; simp [hpar])
    rw [hfirst1', ← hs3mem] at hL'
    exact ⟨_, p :: L1, rfl, key _ hL' (Or.inr rfl), fun h => by simp at h, fun _ => rfl,
      hs3map, by rw [hfirst3]; exact hfirstp, fun q hq => by rw [hfirst3]; exact hmemIn q hq,
      hmgr3⟩

/-- Insert of an absent key into a valid map, for every policy: the call returns; either it
throws `no_space_error` and the index, the manager and every node but the transient one are
untouched, or the new node is in the index and in the replacement list at the place the
policy chooses, after the nodes `E` have been evicted. -/
theorem insert_absent_spec (fuel : Nat) (s : unordered_map Key V) (L : List Ptr) (p : Ptr)
    (value : Key × V) (hv : s.Valid L) (hk : s._map_find value.1 = none)
    (hp : p ∉ s._manager._first :: s._map) (hf : L.length < fuel) :
    ∃ r s', s.insert fuel p value = some (r, s') ∧
      ((r = .error .no_space_error ∧ s'._map = s._map ∧ s'._manager = s._manager ∧
          ∀ q, q ≠ p → s'.mem.first q = s.mem.first q ∧ s'.mem.prev q = s.mem.prev q ∧
            s'.mem.next q = s.mem.next q ∧ s'.mem.weight q = s.mem.weight q) ∨
        (r = .ok (p, true) ∧ ∃ E L1 L', s'.Valid L' ∧ (E ++ L1).Perm L ∧ L1.Sublist L ∧
          (s._manager._policy.parent = .fifo ∨ s._manager._policy.parent = .lru →
            L' = L1 ++ [p]) ∧
          (s._manager._policy.parent = .lifo ∨ s._manager._policy.parent = .mru ∨
            s._manager._policy.parent = .swapping → L' = p :: L1) ∧
          s'._map = p :: s._map.diff E ∧ s'.mem.first p = value ∧
          (∀ q, q ≠ p → s'.mem.first q = s.mem.first q) ∧
          ∃ w, s'._manager = { s._manager with _weight := w })) := by
  obtain ⟨hIn, -, -, hfirstp⟩ := _map_insert_valid s L p value hv hk hp
  have e := _map_insert_absent s p value hk
  have hmapIn : (s._map_insert p value).1._map = p :: s._map := by rw [e]
  have hmgrIn : (s._map_insert p value).1._manager = s._manager := by rw [e]
  have hmemIn : ∀ q, q ≠ p →
      (s._map_insert p value).1.mem.first q = s.mem.first q ∧
      (s._map_insert p value).1.mem.prev q = s.mem.prev q ∧
      (s._map_insert p value).1.mem.next q = s.mem.next q ∧
      (s._map_insert p value).1.mem.weight q = s.mem.weight q := by
    intro q hq
    rw [e]
    simp [Function.update_apply, hq]
  obtain ⟨b, s2, hres, hfalse, htrue⟩ := provideSpace_spec fuel (s._map_insert p value).1
    (s._manager.calculate_weight value) L (by rw [hmgrIn]; exact hIn)
    (by rw [hmgrIn]; exact hv.2.2.2.1) hf
  cases b with
  | false =>
    have hs2 := hfalse rfl
    subst hs2
    rw [insert_unfold fuel s p value hk, hmgrIn, hfirstp, hres]
    refine ⟨_, _, rfl, Or.inl ⟨rfl, ?_, ?_, ?_⟩⟩
    · simp [_map_erase, hmapIn]
    · simp [_map_erase, hmgrIn]
    · intro q hq
      simpa [_map_erase] using hmemIn q hq
  | true =>
    obtain ⟨s1, E, L1, hs2, hl1, hsplit, hsub, hmap1, hfirst1, w, -, hmgr1⟩ := htrue rfl
    subst hs2
    obtain ⟨s', L', h1, h2, h3, h4, h5, h6, h7, h8⟩ := insert_of_provide_true fuel s L p value
      hv hk hp s1 E L1 w hres hl1 hsplit (by rw [hmap1, hmapIn]) hfirst1
      (by rw [hmgr1, hmgrIn])
    exact ⟨_, s', h1, Or.inr ⟨rfl, E, L1, L', h2, hsplit, hsub, h3, h4, h5, h6, h7, _, h8⟩⟩

end unordered_map

end limited

end extended_containers


namespace extended_containers

namespace limited

namespace unordered_map

open cache_manager

variable {Key V : Type} [DecidableEq Key]

theorem replacement_order_valid {s : unordered_map Key V} {L : List Ptr} (h : s.Valid L)
    (fuel : Nat) (hf : L.length < fuel) : s.replacement_order fuel = some L :=
  walk_isList h.1 fuel hf

/-- A state that differs from a valid one only in the memory of a node outside the index
and the sentinel is valid with the same replacement order and holds the same entries. -/
theorem valid_of_agree {s s' : unordered_map Key V} {L : List Ptr} (p : Ptr) (hv : s.Valid L)
    (hp : p ∉ s._manager._first :: s._map) (hmap : s'._map = s._map)
    (hmgr : s'._manager = s._manager)
    (hmem : ∀ q, q ≠ p → s'.mem.first q = s.mem.first q ∧ s'.mem.prev q = s.mem.prev q ∧
      s'.mem.next q = s.mem.next q ∧ s'.mem.weight q = s.mem.weight q) :
    s'.Valid L ∧ s'.entries s._map = s.entries s._map := by
  obtain ⟨hl, hperm, hkeys, hW, hC⟩ := hv
  have hne : ∀ q ∈ s._manager._first :: L, q ≠ p := by
    rintro q hq rfl
    apply hp
    simp at hq ⊢
    rcases hq with h | h
    · exact Or.inl h
    · exact Or.inr (hperm.subset h)
  have hne' : ∀ q ∈ s._map, q ≠ p := by
    rintro q hq rfl
    exact hp (by simp [hq])
  refine ⟨⟨?_, ?_, ?_, ?_, ?_⟩, ?_⟩
  · rw [hmgr]
    exact isList_frame hl (fun q hq => (hmem q (hne q hq)).2.2.1)
      (fun q hq => (hmem q (hne q hq)).2.1)
  · rw [hmap]; exact hperm
  · have : s'.keys = s.keys := by
      simp only [keys, hmap]
      exact List.map_congr_left (fun q hq => by rw [(hmem q (hne' q hq)).1])
    rw [this]; exact hkeys
  · rw [hmgr]; exact hW
  · rw [hmgr]; exact hC
  · simp only [entries]
    exact List.map_congr_left (fun q hq => (hmem q (hne' q hq)).1)

end unordered_map

end limited

end extended_containers


namespace extended_containers

namespace limited

namespace unordered_map

open cache_manager

variable {Key V : Type} [DecidableEq Key]

theorem total_cons {T : Type} (c : cache_manager.cache_manager T) (m : Mem T) (x : Ptr)
    (L : List Ptr) : c.total m (x :: L) = c.calculate_weight (m.first x) + c.total m L := by
  simp [cache_manager.total]

theorem total_nil {T : Type} (c : cache_manager.cache_manager T) (m : Mem T) :
    c.total m [] = 0 := rfl

theorem total_congr {T : Type} (c c' : cache_manager.cache_manager T) (m m' : Mem T)
    (L : List Ptr) (hc : c'._weigher = c._weigher) (hm : m'.first = m.first) :
    c'.total m' L = c.total m L := by
  simp [cache_manager.total, cache_manager.calculate_weight, hc, hm]

theorem total_append {T : Type} (c : cache_manager.cache_manager T) (m : Mem T)
    (L1 L2 : List Ptr) : c.total m (L1 ++ L2) = c.total m L1 + c.total m L2 := by
  simp [cache_manager.total]

theorem next_hint_plain {T : Type} (c : cache_manager.cache_manager T) (m : Mem T) (fuel : Nat)
    (hint : Ptr) (par : policy.parent_policy) (hpol : c._policy = .plain par) :
    c.next_hint m fuel hint = some hint := by
  unfold cache_manager.next_hint
  by_cases h : hint = c.cend
  · rw [if_pos h, h]
  · rw [if_neg h]
    simp [policy.policy_extractor.erase_position, policy.provides_erase_v, hpol]

theorem next_plain {T : Type} (c : cache_manager.cache_manager T) (m : Mem T) (fuel : Nat)
    (par : policy.parent_policy) (hpol : c._policy = .plain par) :
    c.next m fuel = some (m.next c._first) := by
  unfold cache_manager.next
  by_cases h : c.cbegin m = c.cend
  · rw [if_pos h, ← h]; rfl
  · rw [if_neg h]
    simp [policy.policy_extractor.erase_position, policy.provides_erase_v, hpol,
      cache_manager.cbegin]

/-- The eviction loop under a policy without `erase_position`, started at the head of a
valid and accounted list that holds enough weight: it evicts the shortest initial segment
whose weight reaches `weight` and reports success. -/
theorem freeSpace_loop_plain (budget weight : Nat) (par : policy.parent_policy) :
    ∀ (L : List Ptr) (fuel : Nat) (s : unordered_map Key V) (freed : Nat)
      (removed : List Ptr) (next : Ptr),
      IsList s.mem s._manager._first L → s._manager._policy = .plain par →
      s._manager._weight = s._manager.total s.mem L →
      freed + s._manager.total s.mem L < SIZE →
      (L ++ [s._manager._first]).head? = some next → L.length < fuel →
      weight ≤ freed + s._manager.total s.mem L →
      ∃ (k : Nat) (s1 : unordered_map Key V), k ≤ L.length ∧
        weight ≤ freed + s._manager.total s.mem (L.take k) ∧
        (∀ j, j < k → freed + s._manager.total s.mem (L.take j) < weight) ∧
        freeSpace_loop budget weight fuel s freed removed next
          = some (true, s1.freeSpace_drop (removed ++ L.take k)) ∧
        IsList s1.mem s1._manager._first (L.drop k) ∧ s1._map = s._map ∧
        s1.mem.first = s.mem.first ∧
        s1._manager = { s._manager with _weight := s._manager.total s.mem (L.drop k) } := by
  intro L
  induction L with
  | nil =>
    intro fuel s freed removed next hL hpol hW hlt hnext hf hweight
    cases fuel with
    | zero => simp at hf
    | succ fuel =>
      have hnf : ¬ freed < weight := by
        rw [total_nil] at hweight; omega
      refine ⟨0, s, le_refl _, by simpa [total_nil] using hweight, fun j hj => by omega, ?_,
        by simpa using hL, rfl, rfl, ?_⟩
      · unfold freeSpace_loop
        rw [if_neg hnf]; simp
      · rw [List.drop_zero, ← hW]
  | cons x L ih =>
    intro fuel s freed removed next hL hpol hW hlt hnext hf hweight
    cases fuel with
    | zero => simp at hf
    | succ fuel =>
      by_cases hfw : freed < weight
      · have hx : next = x := by simpa using hnext.symm
        subst hx
        have hxs : next ≠ s._manager._first := by
          rintro e
          exact isList_not_mem hL (by rw [← e]; simp)
        obtain ⟨hef, hem, hec, hemap⟩ := manager_erase_fields s next
        have hfirst1 : (s.manager_erase next).1._manager._first = s._manager._first := by
          rw [hec]
        have hL' : IsList s.mem s._manager._first ([] ++ next :: L) := hL
        have hL1 : IsList (s.manager_erase next).1.mem
            (s.manager_erase next).1._manager._first L := by
          rw [hem, hfirst1]; exact isList_unlink hL'
        have hpol1 : (s.manager_erase next).1._manager._policy = .plain par := by
          rw [hec]; exact hpol
        have htot1 : ∀ M, (s.manager_erase next).1._manager.total
            (s.manager_erase next).1.mem M = s._manager.total s.mem M := by
          intro M
          refine total_congr _ _ _ _ M (by rw [hec]) (by rw [hem]; rfl)
        have hwx : s._manager.calculate_weight (s.mem.first next) + s._manager.total s.mem L
            = s._manager.total s.mem (next :: L) := (total_cons _ _ _ _).symm
        have hW1 : (s.manager_erase next).1._manager._weight
            = (s.manager_erase next).1._manager.total (s.manager_erase next).1.mem L := by
          rw [htot1, hec]
          simp only []
          rw [hW, ← hwx]
          have : s._manager.calculate_weight (s.mem.first next) + s._manager.total s.mem L
              + SIZE - s._manager.calculate_weight (s.mem.first next)
              = s._manager.total s.mem L + SIZE := by omega
          rw [this, Nat.add_mod_right]
          exact Nat.mod_eq_of_lt (by omega)
        have hfreed1 : (freed + s._manager.calculate_weight (s.mem.first next)) % SIZE
            = freed + s._manager.calculate_weight (s.mem.first next) :=
          Nat.mod_eq_of_lt (by omega)
        have hnext1 : (L ++ [(s.manager_erase next).1._manager._first]).head?
            = some (s.manager_erase next).2 := by
          rw [hef, hfirst1]
          exact (isList_mid hL').2
        obtain ⟨k, s1, hk, hge, hmin, hres, hl1, hmap1, hfst1, hmgr1⟩ := ih fuel
          (s.manager_erase next).1
          (freed + s._manager.calculate_weight (s.mem.first next)) (removed ++ [next])
          (s.manager_erase next).2 hL1 hpol1 hW1 (by rw [htot1]; omega) hnext1
          (by simpa using hf) (by rw [htot1]; omega)
        refine ⟨k + 1, s1, by simpa using hk, ?_, ?_, ?_, ?_, ?_, ?_, ?_⟩
        · rw [List.take_succ_cons, total_cons]
          rw [htot1] at hge
          omega
        · intro j hj
          cases j with
          | zero => simpa [total_nil] using hfw
          | succ j =>
            rw [List.take_succ_cons, total_cons]
            have := hmin j (by omega)
            rw [htot1] at this
            omega
        · unfold freeSpace_loop
          rw [if_pos hfw]
          have hne : ¬ next = s._manager.end_ := hxs
          simp only [hne, if_false]
          rw [next_hint_plain _ _ _ _ par hpol1, hfreed1]
          simp only []
          rw [hres]
          simp
        · have : s1._manager._first = s._manager._first := by rw [hmgr1]; exact hfirst1
          rw [this] at hl1 ⊢
          simpa using hl1
        · rw [hmap1, hemap]
        · rw [hfst1, hem]; rfl
        · rw [hmgr1, htot1, hec]
          simp
      · refine ⟨0, s, by simp, by simp [total_nil]; omega, fun j hj => by omega, ?_,
          by simpa using hL, rfl, rfl, ?_⟩
        · unfold freeSpace_loop
          rw [if_neg hfw]; simp
        · rw [List.drop_zero, ← hW]

end unordered_map

end limited

end extended_containers


namespace extended_containers

namespace limited

namespace unordered_map

open cache_manager

variable {Key V : Type} [DecidableEq Key]

theorem total_congr_on {T : Type} (c c' : cache_manager.cache_manager T) (m m' : Mem T)
    (L : List Ptr) (hc : c'._weigher = c._weigher) (hm : ∀ q ∈ L, m'.first q = m.first q) :
    c'.total m' L = c.total m L := by
  simp only [cache_manager.total, cache_manager.calculate_weight, hc]
  congr 1
  exact List.map_congr_left (fun q hq => by rw [hm q hq])

theorem total_take_drop {T : Type} (c : cache_manager.cache_manager T) (m : Mem T)
    (L : List Ptr) (k : Nat) : c.total m (L.take k) + c.total m (L.drop k) = c.total m L := by
  rw [← total_append, List.take_append_drop]

/-- Member `provideSpace(weight)` under a policy without `erase_position`, on a valid and
accounted list, for a weight that does not exceed the capacity: it evicts the shortest
initial segment of the list whose weight reaches the shortfall and reports success. -/
theorem provideSpace_plain (fuel : Nat) (s : unordered_map Key V) (wt : Nat) (L : List Ptr)
    (par : policy.parent_policy)
    (hL : IsList s.mem s._manager._first L) (hpol : s._manager._policy = .plain par)
    (hW : s._manager._weight = s._manager.total s.mem L)
    (hWC : s._manager._weight ≤ s._manager._capacity) (hC : s._manager._capacity < SIZE)
    (hwt : wt ≤ s._manager._capacity) (hf : L.length < fuel) :
    ∃ (k : Nat) (s1 : unordered_map Key V), k ≤ L.length ∧
      wt - (s._manager._capacity - s._manager._weight) ≤ s._manager.total s.mem (L.take k) ∧
      (∀ j, j < k → s._manager.total s.mem (L.take j)
        < wt - (s._manager._capacity - s._manager._weight)) ∧
      s.provideSpace fuel wt = some (true, s1.freeSpace_drop (L.take k)) ∧
      IsList s1.mem s1._manager._first (L.drop k) ∧ s1._map = s._map ∧
      s1.mem.first = s.mem.first ∧
      s1._manager = { s._manager with _weight := s._manager.total s.mem (L.drop k) } := by
  have hsub : (s._manager._capacity + SIZE - s._manager._weight) % SIZE
      = s._manager._capacity - s._manager._weight := by
    have : s._manager._capacity + SIZE - s._manager._weight
        = (s._manager._capacity - s._manager._weight) + SIZE := by omega
    rw [this, Nat.add_mod_right]
    exact Nat.mod_eq_of_lt (by omega)
  unfold provideSpace
  rw [if_neg (by simpa [cache_manager.cache_manager.capacity] using hwt)]
  simp only [cache_manager.cache_manager.capacity, cache_manager.cache_manager.weight, hsub]
  by_cases h2 : s._manager._capacity - s._manager._weight ≥ wt
  · rw [if_pos h2]
    refine ⟨0, s, by simp, by simp [total_nil]; omega, fun j hj => by omega, ?_, by simpa using hL,
      rfl, rfl, ?_⟩
    · simp [freeSpace_drop]
    · rw [List.drop_zero, ← hW]
  · rw [if_neg h2]
    have hneed : (wt + SIZE - (s._manager._capacity - s._manager._weight)) % SIZE
        = wt - (s._manager._capacity - s._manager._weight) := by
      have : wt + SIZE - (s._manager._capacity - s._manager._weight)
          = (wt - (s._manager._capacity - s._manager._weight)) + SIZE := by omega
      rw [this, Nat.add_mod_right]
      exact Nat.mod_eq_of_lt (by omega)
    rw [hneed]
    unfold freeSpace
    rw [if_neg (by simp only [cache_manager.cache_manager.weight]; omega)]
    rw [next_plain _ _ _ par hpol]
    simp only []
    obtain ⟨k, s1, hk, hge, hmin, hres, hrest⟩ := freeSpace_loop_plain fuel
      (wt - (s._manager._capacity - s._manager._weight)) par L fuel s 0 []
      (s.mem.next s._manager._first) hL hpol hW (by omega) (isList_sentinel hL).1 hf (by omega)
    refine ⟨k, s1, hk, by simpa using hge, fun j hj => by simpa using hmin j hj, ?_, hrest⟩
    simpa using hres

/-- Insert of an absent key under a policy without `erase_position`, in a valid and
accounted map: it throws exactly when the weight of the entry exceeds the capacity, and
otherwise evicts the shortest initial segment of the replacement order that makes room and
threads the new node in. -/
theorem insert_plain_spec (fuel : Nat) (s : unordered_map Key V) (L : List Ptr) (p : Ptr)
    (value : Key × V) (par : policy.parent_policy)
    (hv : s.Valid L) (ha : s.Accounted L) (hpol : s._manager._policy = .plain par)
    (hk : s._map_find value.1 = none) (hp : p ∉ s._manager._first :: s._map)
    (hf : L.length < fuel) :
    (s._manager.calculate_weight value > s._manager._capacity →
      ∃ s', s.insert fuel p value = some (.error .no_space_error, s')) ∧
    (s._manager.calculate_weight value ≤ s._manager._capacity →
      ∃ (k : Nat) (s' : unordered_map Key V) (L' : List Ptr), k ≤ L.length ∧
        s._manager.calculate_weight value - (s._manager._capacity - s._manager._weight)
          ≤ s._manager.total s.mem (L.take k) ∧
        (∀ j, j < k → s._manager.total s.mem (L.take j)
          < s._manager.calculate_weight value - (s._manager._capacity - s._manager._weight)) ∧
        s.insert fuel p value = some (.ok (p, true), s') ∧ s'.Valid L' ∧ s'.Accounted L' ∧
        (par = .fifo ∨ par = .lru → L' = L.drop k ++ [p]) ∧
        (par = .lifo ∨ par = .mru ∨ par = .swapping → L' = p :: L.drop k) ∧
        s'._map = p :: s._map.diff (L.take k) ∧ s'.mem.first p = value ∧
        (∀ q, q ≠ p → s'.mem.first q = s.mem.first q) ∧
        s'._manager = { s._manager with
          _weight := s._manager._weight - s._manager.total s.mem (L.take k)
            + s._manager.calculate_weight value }) := by
  obtain ⟨hIn, -, -, hfirstp⟩ := _map_insert_valid s L p value hv hk hp
  have e := _map_insert_absent s p value hk
  have hmapIn : (s._map_insert p value).1._map = p :: s._map := by rw [e]
  have hmgrIn : (s._map_insert p value).1._manager = s._manager := by rw [e]
  have hmemIn : ∀ q, q ≠ p → (s._map_insert p value).1.mem.first q = s.mem.first q := by
    intro q hq
    rw [e]
    simp [Function.update_apply, hq]
  have hpar : s._manager._policy.parent = par := by rw [hpol]; rfl
  constructor
  · intro hbig
    rw [insert_unfold fuel s p value hk, hmgrIn, hfirstp]
    unfold provideSpace
    rw [if_pos (by rw [hmgrIn]; exact hbig)]
    exact ⟨_, rfl⟩
  · intro hsmall
    obtain ⟨hl, hperm, hkeys, hW, hC⟩ := hv
    obtain ⟨hacc, hWC⟩ := ha
    have hpL : ∀ q ∈ L, q ≠ p := by
      rintro q hq rfl
      exact hp (by simp [hperm.subset hq])
    have htotIn : ∀ M, (∀ q ∈ M, q ∈ L) →
        (s._map_insert p value).1._manager.total (s._map_insert p value).1.mem M
          = s._manager.total s.mem M := by
      intro M hM
      exact total_congr_on _ _ _ _ M (by rw [hmgrIn]) (fun q hq => hmemIn q (hpL q (hM q hq)))
    obtain ⟨k, s1, hk', hge, hmin, hres, hl1, hmap1, hfirst1, hmgr1⟩ := provideSpace_plain fuel
      (s._map_insert p value).1 (s._manager.calculate_weight value) L par
      (by rw [hmgrIn]; exact hIn) (by rw [hmgrIn]; exact hpol)
      (by rw [htotIn L (fun q hq => hq), hmgrIn]; exact hacc)
      (by rw [hmgrIn]; exact hWC) (by rw [hmgrIn]; exact hC) (by rw [hmgrIn]; exact hsmall) hf
    have htake : (s._map_insert p value).1._manager.total (s._map_insert p value).1.mem
        (L.take k) = s._manager.total s.mem (L.take k) :=
      htotIn _ (fun q hq => List.mem_of_mem_take hq)
    have hdropt : (s._map_insert p value).1._manager.total (s._map_insert p value).1.mem
        (L.drop k) = s._manager.total s.mem (L.drop k) :=
      htotIn _ (fun q hq => List.mem_of_mem_drop hq)
    rw [htake, hmgrIn] at hge
    have hmin' : ∀ j, j < k → s._manager.total s.mem (L.take j)
        < s._manager.calculate_weight value - (s._manager._capacity - s._manager._weight) := by
      intro j hj
      have := hmin j hj
      rwa [htotIn _ (fun q hq => List.mem_of_mem_take hq), hmgrIn] at this
    rw [hdropt, hmgrIn] at hmgr1
    obtain ⟨s', L', h1, h2, h3, h4, h5, h6, h7, h8⟩ := insert_of_provide_true fuel s L p value
      ⟨hl, hperm, hkeys, hW, hC⟩ hk hp s1 (L.take k) (L.drop k)
      (s._manager.total s.mem (L.drop k)) hres hl1 (by rw [List.take_append_drop])
      (by rw [hmap1, hmapIn]) hfirst1 hmgr1
    have hsum := total_take_drop s._manager s.mem L k
    have hfit : s._manager.total s.mem (L.drop k) + s._manager.calculate_weight value
        ≤ s._manager._capacity := by omega
    have hwnew : (s._manager.total s.mem (L.drop k) + s._manager.calculate_weight value) % SIZE
        = s._manager._weight - s._manager.total s.mem (L.take k)
          + s._manager.calculate_weight value := by
      rw [Nat.mod_eq_of_lt (by omega)]
      omega
    rw [hwnew] at h8
    have hshape : L' = L.drop k ++ [p] ∨ L' = p :: L.drop k := by
      cases par with
      | fifo => exact Or.inl (h3 (Or.inl hpar))
      | lifo => exact Or.inr (h4 (Or.inl hpar))
      | lru => exact Or.inl (h3 (Or.inr hpar))
      | mru => exact Or.inr (h4 (Or.inr (Or.inl hpar)))
      | swapping => exact Or.inr (h4 (Or.inr (Or.inr hpar)))
    have htot' : s'._manager.total s'.mem L'
        = s._manager.total s.mem (L.drop k) + s._manager.calculate_weight value := by
      have hd : s'._manager.total s'.mem (L.drop k) = s._manager.total s.mem (L.drop k) :=
        total_congr_on _ _ _ _ _ (by rw [h8])
          (fun q hq => h7 q (hpL q (List.mem_of_mem_drop hq)))
      have hpw : s'._manager.calculate_weight (s'.mem.first p)
          = s._manager.calculate_weight value := by
        rw [h6, h8]; rfl
      rcases hshape with h | h
      · rw [h, total_append, hd, total_cons, total_nil, hpw]; omega
      · rw [h, total_cons, hd, hpw]; omega
    refine ⟨k, s', L', hk', hge, hmin', h1, h2, ⟨?_, ?_⟩, ?_, ?_, h5, h6, h7, h8⟩
    · rw [htot', h8]; simp only []; omega
    · rw [h8]; simp only []; omega
    · intro h; exact h3 (by rw [hpar]; exact h)
    · intro h; exact h4 (by rw [hpar]; exact h)

end unordered_map

end limited

end extended_containers

namespace extended_containers

namespace limited

namespace unordered_map

open cache_manager

variable {Key V : Type} [DecidableEq Key]

/-! ## Preservation of the structural invariant -/

theorem wf_map_nodup {s : unordered_map Key V} {L : List Ptr} (h : s.Wf L) : s._map.Nodup :=
  List.Nodup.of_map _ h.2.1

theorem valid_iff_wf (s : unordered_map Key V) (L : List Ptr) :
    s.Valid L ↔ s.Wf L ∧ ∀ x, x ∈ L ↔ x ∈ s._map := by
  constructor
  · intro h
    refine ⟨⟨h.1, h.2.2.1, (valid_nodup_map h).2, h.2.2.2⟩, fun x => h.2.1.mem_iff⟩
  · rintro ⟨h, hm⟩
    refine ⟨h.1, ?_, h.2.1, h.2.2.2⟩
    rw [List.perm_ext_iff_of_nodup (List.nodup_cons.1 h.1.2).2 (wf_map_nodup h)]
    exact hm

theorem wf_of_valid {s : unordered_map Key V} {L : List Ptr} (h : s.Valid L) : s.Wf L :=
  ((valid_iff_wf s L).1 h).1

/-- Eviction result on a well-formed state all of whose listed nodes are in the index: the
evicted nodes `E` leave the list and the index. -/
theorem wf_drop {s s1 : unordered_map Key V} {L E L1 : List Ptr} (h : s.Wf L)
    (hsub : ∀ x ∈ E, x ∈ s._map)
    (hl1 : IsList s1.mem s1._manager._first L1) (hsplit : (E ++ L1).Perm L)
    (hmap : s1._map = s._map) (hfirst : s1.mem.first = s.mem.first) (w : Nat) (hw : w < SIZE)
    (hmgr : s1._manager = { s._manager with _weight := w }) :
    (s1.freeSpace_drop E).Wf L1 ∧ (s1.freeSpace_drop E)._map = s._map.diff E ∧
      (s1.freeSpace_drop E).mem = s1.mem ∧ (s1.freeSpace_drop E)._manager = s1._manager := by
  have hnd : (E ++ L1).Nodup := hsplit.nodup_iff.2 (List.nodup_cons.1 h.1.2).2
  have hk1 : s1.keys = s.keys := by simp [keys, hmap, hfirst]
  have heq := freeSpace_drop_eq E s1 (by rw [hk1]; exact h.2.1)
    (fun x hx => by rw [hmap]; exact hsub x hx) (List.nodup_append.1 hnd).1
  rw [heq]
  refine ⟨⟨hl1, ?_, ?_, ?_, ?_⟩, by simp [hmap], rfl, rfl⟩
  · have : (s1._map.diff E).Sublist s._map := by rw [hmap]; exact List.diff_sublist _ _
    simp only [keys, hfirst]
    exact List.Nodup.sublist (this.map _) h.2.1
  · intro hc
    simp only [hmgr, hmap] at hc
    exact h.2.2.1 (List.diff_subset _ _ hc)
  · simp [hmgr, hw]
  · simp [hmgr, h.2.2.2.2]

theorem wf_provideSpace (fuel : Nat) (s : unordered_map Key V) (weight : Nat) (L : List Ptr)
    (h : s.Wf L) (hsub : ∀ x ∈ L, x ∈ s._map) (hf : L.length < fuel) :
    ∃ b s', s.provideSpace fuel weight = some (b, s') ∧
      (b = false → s' = s) ∧
      (b = true → ∃ (E L1 : List Ptr) (w : Nat), s'.Wf L1 ∧ (E ++ L1).Perm L ∧
        s'._map = s._map.diff E ∧ s'.mem.first = s.mem.first ∧
        s'._manager = { s._manager with _weight := w }) := by
  obtain ⟨b, s', hr, hfalse, htrue⟩ := provideSpace_spec fuel s weight L h.1 h.2.2.2.1 hf
  refine ⟨b, s', hr, hfalse, fun hb => ?_⟩
  obtain ⟨s1, E, L1, hs', hl1, hsplit, -, hmap, hfirst, w, hw, hmgr⟩ := htrue hb
  have hd := wf_drop h (fun x hx => hsub x (hsplit.subset (by simp [hx]))) hl1 hsplit hmap
    hfirst w hw hmgr
  rw [← hs'] at hd
  refine ⟨E, L1, w, hd.1, hsplit, hd.2.1, ?_, ?_⟩
  · rw [hd.2.2.1, hfirst]
  · rw [hd.2.2.2, hmgr]

theorem wf_freeSpace (fuel : Nat) (s : unordered_map Key V) (weight : Nat) (L : List Ptr)
    (h : s.Wf L) (hsub : ∀ x ∈ L, x ∈ s._map) (hf : L.length < fuel) :
    ∃ b s', s.freeSpace fuel weight = some (b, s') ∧
      (b = false → s' = s) ∧
      (b = true → ∃ (E L1 : List Ptr) (w : Nat), s'.Wf L1 ∧ (E ++ L1).Perm L ∧
        s'._map = s._map.diff E ∧ s'.mem.first = s.mem.first ∧
        s'._manager = { s._manager with _weight := w }) := by
  obtain ⟨b, s', hr, hfalse, htrue⟩ := freeSpace_spec fuel s weight L h.1 h.2.2.2.1 hf
  refine ⟨b, s', hr, hfalse, fun hb => ?_⟩
  obtain ⟨s1, E, L1, hs', hl1, hsplit, -, hmap, hfirst, w, hw, hmgr⟩ := htrue hb
  have hd := wf_drop h (fun x hx => hsub x (hsplit.subset (by simp [hx]))) hl1 hsplit hmap
    hfirst w hw hmgr
  rw [← hs'] at hd
  refine ⟨E, L1, w, hd.1, hsplit, hd.2.1, ?_, ?_⟩
  · rw [hd.2.2.1, hfirst]
  · rw [hd.2.2.2, hmgr]

/-- After an eviction on a valid state the state is valid again. -/
theorem valid_of_evicted {s s' : unordered_map Key V} {L E L1 : List Ptr} (hv : s.Valid L)
    (hwf : s'.Wf L1) (hsplit : (E ++ L1).Perm L) (hmap : s'._map = s._map.diff E) :
    s'.Valid L1 := by
  refine ⟨hwf.1, ?_, hwf.2.1, hwf.2.2.2⟩
  rw [hmap]
  exact (perm_diff_of_split hsplit hv.2.1 (List.nodup_cons.1 hv.1.2).2).1

end unordered_map

end limited

end extended_containers

namespace extended_containers

namespace limited

namespace unordered_map

open cache_manager

variable {Key V : Type} [DecidableEq Key]

theorem parent_cases (par : policy.parent_policy) :
    (par = .fifo ∨ par = .lru) ∨ (par = .lifo ∨ par = .mru ∨ par = .swapping) := by
  cases par <;> simp

/-- Linking a node that is not on the list keeps the state well formed and adds the node
to the replacement order. -/
theorem wf_safeManagerInsert {s : unordered_map Key V} {L : List Ptr} (h : s.Wf L) (x : Ptr)
    (hx : x ∉ s._manager._first :: L) :
    ∃ L', (s.safeManagerInsert x).Wf L' ∧ L'.Perm (x :: L) ∧
      (s.safeManagerInsert x)._map = s._map ∧
      (s.safeManagerInsert x).mem.first = s.mem.first ∧
      ∃ w, (s.safeManagerInsert x)._manager = { s._manager with _weight := w } := by
  have hfirst : (s.safeManagerInsert x).mem.first = s.mem.first :=
    (cache_manager.insert_mem s._manager s.mem x).2.2
  have hmgr : (s.safeManagerInsert x)._manager = { s._manager with
      _weight := (s._manager._weight + s._manager.calculate_weight (s.mem.first x)) % SIZE } :=
    rfl
  have hrest : ∀ L', IsList (s._manager.insert s.mem x).2.1 s._manager._first L' →
      (s.safeManagerInsert x).Wf L' := by
    intro L' hl
    refine ⟨by rw [hmgr]; exact hl, ?_, ?_, ?_, ?_⟩
    · have : (s.safeManagerInsert x).keys = s.keys := by
        simp only [keys, hfirst]
        rfl
      rw [this]
      exact h.2.1
    · rw [hmgr]
      exact h.2.2.1
    · rw [hmgr]
      exact Nat.mod_lt _ (by decide)
    · rw [hmgr]
      exact h.2.2.2.2
  rcases parent_cases s._manager._policy.parent with hp | hp
  · exact ⟨L ++ [x], hrest _ (insert_isList_tail s._manager s.mem L x h.1 hx hp),
      List.perm_append_singleton x L, rfl, hfirst, _, hmgr⟩
  · exact ⟨x :: L, hrest _ (insert_isList_head s._manager s.mem L x h.1 hx hp),
      List.Perm.refl _, rfl, hfirst, _, hmgr⟩

/-- Unlinking a node of the list keeps the state well formed and removes the node from the
replacement order. -/
theorem wf_manager_erase {s : unordered_map Key V} {L : List Ptr} (h : s.Wf L) (x : Ptr)
    (hx : x ∈ L) :
    (s.manager_erase x).1.Wf (L.erase x) ∧ (s.manager_erase x).1._map = s._map ∧
      (s.manager_erase x).1.mem.first = s.mem.first ∧
      ∃ w, (s.manager_erase x).1._manager = { s._manager with _weight := w } := by
  obtain ⟨-, hmem, hmgr, hmap⟩ := manager_erase_fields s x
  have hfirst : (s.manager_erase x).1.mem.first = s.mem.first := by
    rw [hmem]
    simp [link_first]
  refine ⟨⟨?_, ?_, ?_, ?_, ?_⟩, hmap, hfirst, _, hmgr⟩
  · obtain ⟨A, B, rfl⟩ := List.append_of_mem hx
    rw [erase_of_split (List.nodup_cons.1 h.1.2).2, hmem, hmgr]
    exact isList_unlink h.1
  · have : (s.manager_erase x).1.keys = s.keys := by
      simp only [keys, hfirst, hmap]
    rw [this]
    exact h.2.1
  · rw [hmgr, hmap]
    exact h.2.2.1
  · rw [hmgr]
    exact Nat.mod_lt _ (by decide)
  · rw [hmgr]
    exact h.2.2.2.2

/-- Removing a node from the index keeps the state well formed. -/
theorem wf_map_erase {s : unordered_map Key V} {L : List Ptr} (h : s.Wf L) (x : Ptr) :
    (s._map_erase x).Wf L := by
  refine ⟨h.1, ?_, fun hc => h.2.2.1 (List.mem_of_mem_erase hc), h.2.2.2⟩
  exact List.Nodup.sublist ((List.erase_sublist x s._map).map _) h.2.1

/-- Erasing from the index by the key of a node of the index removes that node. -/
theorem _map_erase_key_of_mem (s : unordered_map Key V) (x : Ptr) (hk : s.keys.Nodup)
    (hx : x ∈ s._map) : s._map_erase_key (s.mem.first x).1 = (s._map_erase x, 1) := by
  simp [_map_erase_key, _map_find_self s x hk hx]

/-- The access hook keeps the list valid and permutes the replacement order. -/
theorem access_isList {T : Type} (c : cache_manager.cache_manager T) {m : Mem T}
    {L : List Ptr} (h : IsList m c._first L) (x : Ptr) (hx : x ∈ L) :
    ∃ L', IsList (c.access m x) c._first L' ∧ L'.Perm L := by
  obtain ⟨A, B, rfl⟩ := List.append_of_mem hx
  unfold cache_manager.cache_manager.access policy.policy_extractor.access
  by_cases hpa : policy.provides_access_v c._policy = true
  · rw [if_pos hpa]
    cases hpar : c._policy.parent with
    | fifo => exact ⟨_, h, List.Perm.refl _⟩
    | lifo => exact ⟨_, h, List.Perm.refl _⟩
    | lru =>
      refine ⟨_, (lru_access_isList h _).1, ?_⟩
      simp only [List.append_assoc]
      exact List.Perm.append_left A (List.perm_append_singleton x B)
    | mru =>
      refine ⟨_, (mru_access_isList h _).1, ?_⟩
      exact List.perm_middle.symm
    | swapping =>
      cases B with
      | nil =>
        refine ⟨_, ?_, List.Perm.refl _⟩
        simp only [cache_manager.cache_manager.end_]
        rw [swapping_access_last h]
        exact h
      | cons y B =>
        refine ⟨_, swapping_access_isList h _, ?_⟩
        exact List.Perm.append_left A (List.Perm.swap x y B)
  · rw [if_neg hpa]
    exact ⟨_, h, List.Perm.refl _⟩

theorem iter_swap_first {T : Type} (m : Mem T) (a b : Ptr) :
    (iterator_operations.iter_swap m a b).first = m.first := by
  unfold iterator_operations.iter_swap
  simp only
  split_ifs <;> rfl

theorem access_first {T : Type} (c : cache_manager.cache_manager T) (m : Mem T) (x : Ptr) :
    (c.access m x).first = m.first := by
  unfold cache_manager.cache_manager.access policy.policy_extractor.access
  split
  · split
    · unfold policy.lru.access
      simp only
      split_ifs <;> rfl
    · unfold policy.mru.access
      simp only
      split_ifs <;> rfl
    · unfold policy.swapping.access
      simp only
      split_ifs
      · exact iter_swap_first _ _ _
      · rfl
    · rfl
  · rfl

/-- The call of the access hook on a node of the list keeps the state well formed. -/
theorem wf_manager_access {s : unordered_map Key V} {L : List Ptr} (h : s.Wf L) (x : Ptr)
    (hx : x ∈ L) :
    ∃ L', (s.manager_access x).Wf L' ∧ L'.Perm L ∧ (s.manager_access x)._map = s._map ∧
      (s.manager_access x).mem.first = s.mem.first ∧
      (s.manager_access x)._manager = s._manager := by
  obtain ⟨L', hl, hp⟩ := access_isList s._manager h.1 x hx
  have hfirst := access_first s._manager s.mem x
  refine ⟨L', ⟨hl, ?_, h.2.2.1, h.2.2.2⟩, hp, rfl, hfirst, rfl⟩
  have : (s.manager_access x).keys = s.keys := by
    simp only [keys, manager_access, hfirst]
  rw [this]
  exact h.2.1

end unordered_map

end limited

end extended_containers

namespace extended_containers

namespace limited

namespace unordered_map

open cache_manager

variable {Key V : Type} [DecidableEq Key]

/-- Removal of an element from both structures keeps the map valid. -/
theorem valid_erase_node {s : unordered_map Key V} {L : List Ptr} (hv : s.Valid L) (x : Ptr)
    (hx : x ∈ s._map) : ((s.manager_erase x).1._map_erase x).Valid (L.erase x) := by
  obtain ⟨hwf, hm⟩ := (valid_iff_wf s L).1 hv
  obtain ⟨hwf1, hmap1, -, -⟩ := wf_manager_erase hwf x ((hm x).2 hx)
  refine (valid_iff_wf _ _).2 ⟨wf_map_erase hwf1 x, fun y => ?_⟩
  have hmap : ((s.manager_erase x).1._map_erase x)._map = s._map.erase x := by
    simp [_map_erase, hmap1]
  rw [hmap, (List.nodup_cons.1 hwf.1.2).2.mem_erase_iff, (wf_map_nodup hwf).mem_erase_iff, hm y]

/-- The access hook on an element keeps the map valid. -/
theorem valid_manager_access {s : unordered_map Key V} {L : List Ptr} (hv : s.Valid L)
    (x : Ptr) (hx : x ∈ s._map) : ∃ L', (s.manager_access x).Valid L' := by
  obtain ⟨hwf, hm⟩ := (valid_iff_wf s L).1 hv
  obtain ⟨L', hwf1, hp, hmap1, -, -⟩ := wf_manager_access hwf x ((hm x).2 hx)
  exact ⟨L', (valid_iff_wf _ _).2 ⟨hwf1, fun y => by rw [hp.mem_iff, hmap1, hm y]⟩⟩

/-- Member `clear()` leaves the empty valid map. -/
theorem valid_clear {s : unordered_map Key V} {L : List Ptr} (hv : s.Valid L) :
    s.clear.Valid [] := by
  refine ⟨⟨?_, by simp⟩, List.Perm.refl _, by simp [keys, clear], ?_, hv.2.2.2.2⟩
  · simp [clear, cache_manager.cache_manager.clear, Linked, link_next, link_prev]
  · simp [clear, cache_manager.cache_manager.clear, SIZE]

/-- The constructor gives the empty valid map. -/
theorem valid_mk_empty (m : Mem (Key × V)) (self : Ptr) (capacity : Nat)
    (weigher : Key × V → Nat) (pol : policy.rep_policy (Key × V)) :
    (mk_empty m self capacity weigher pol).Valid [] := by
  refine ⟨⟨?_, by simp⟩, List.Perm.refl _, by simp [keys, mk_empty], by simp [mk_empty,
    cache_manager.cache_manager.mk_empty, SIZE], ?_⟩
  · simp [mk_empty, cache_manager.cache_manager.mk_empty, Linked]
  · simp only [mk_empty, cache_manager.cache_manager.mk_empty]
    exact Nat.mod_lt _ (by decide)

theorem valid_provideSpace (fuel : Nat) (s : unordered_map Key V) (weight : Nat)
    (L : List Ptr) (hv : s.Valid L) (hf : L.length < fuel) :
    ∃ b s' L', s.provideSpace fuel weight = some (b, s') ∧ s'.Valid L' := by
  obtain ⟨hwf, hm⟩ := (valid_iff_wf s L).1 hv
  obtain ⟨b, s', hr, hfalse, htrue⟩ := wf_provideSpace fuel s weight L hwf
    (fun x hx => (hm x).1 hx) hf
  cases b with
  | false => exact ⟨false, s', L, hr, by rw [hfalse rfl]; exact hv⟩
  | true =>
    obtain ⟨E, L1, w, hwf1, hsplit, hmap, -, -⟩ := htrue rfl
    exact ⟨true, s', L1, hr, valid_of_evicted hv hwf1 hsplit hmap⟩

theorem valid_freeSpace (fuel : Nat) (s : unordered_map Key V) (weight : Nat)
    (L : List Ptr) (hv : s.Valid L) (hf : L.length < fuel) :
    ∃ b s' L', s.freeSpace fuel weight = some (b, s') ∧ s'.Valid L' := by
  obtain ⟨hwf, hm⟩ := (valid_iff_wf s L).1 hv
  obtain ⟨b, s', hr, hfalse, htrue⟩ := wf_freeSpace fuel s weight L hwf
    (fun x hx => (hm x).1 hx) hf
  cases b with
  | false => exact ⟨false, s', L, hr, by rw [hfalse rfl]; exact hv⟩
  | true =>
    obtain ⟨E, L1, w, hwf1, hsplit, hmap, -, -⟩ := htrue rfl
    exact ⟨true, s', L1, hr, valid_of_evicted hv hwf1 hsplit hmap⟩

/-- Insert of a value keeps the map valid, whether it returns or throws. -/
theorem valid_insert (fuel : Nat) (s : unordered_map Key V) (L : List Ptr) (p : Ptr)
    (value : Key × V) (hv : s.Valid L) (hp : p ∉ s._manager._first :: s._map)
    (hf : L.length < fuel) :
    ∃ r s' L', s.insert fuel p value = some (r, s') ∧ s'.Valid L' := by
  cases hk : s._map_find value.1 with
  | some q => exact ⟨_, s, L, insert_present fuel s p value q hk, hv⟩
  | none =>
    obtain ⟨r, s', hr, hcase⟩ := insert_absent_spec fuel s L p value hv hk hp hf
    rcases hcase with ⟨-, hmap, hmgr, hmem⟩ | ⟨-, E, L1, L', hv', -⟩
    · exact ⟨r, s', L, hr, (valid_of_agree p hv hp hmap hmgr hmem).1⟩
    · exact ⟨r, s', L', hr, hv'⟩

end unordered_map

end limited

end extended_containers

namespace extended_containers

namespace limited

namespace unordered_map

open cache_manager

variable {Key V : Type} [DecidableEq Key]

/-- Membership in the two parts of a split of a duplicate-free list. -/
theorem mem_split_iff {L E L1 : List Ptr} (hsplit : (E ++ L1).Perm L) (hnd : L.Nodup)
    (y : Ptr) : y ∈ L1 ↔ y ∈ L ∧ y ∉ E := by
  have hnd' : (E ++ L1).Nodup := hsplit.nodup_iff.2 hnd
  have hdis := (List.nodup_append.1 hnd').2.2
  constructor
  · intro hy
    exact ⟨hsplit.subset (by simp [hy]), fun hc => hdis hc hy⟩
  · rintro ⟨hy, hne⟩
    have := hsplit.symm.subset hy
    simp only [List.mem_append] at this
    tauto

/-- Member `indexInserted` on a node that the index has just received: the map is valid
afterwards, whether the node was linked or removed again. -/
theorem valid_indexInserted (fuel : Nat) (s0 : unordered_map Key V) (L : List Ptr) (x : Ptr)
    (h : s0.Wf L) (hm : ∀ y, y ∈ s0._map ↔ y = x ∨ y ∈ L) (hx : x ∉ L)
    (hf : L.length < fuel) :
    ∃ r s' L', s0.indexInserted fuel x = some (r, s') ∧ s'.Valid L' := by
  have hLnd : L.Nodup := (List.nodup_cons.1 h.1.2).2
  obtain ⟨b, s1, hr, hfalse, htrue⟩ := wf_provideSpace fuel s0
    (s0._manager.calculate_weight (s0.mem.first x)) L h (fun y hy => (hm y).2 (Or.inr hy)) hf
  unfold indexInserted
  rw [hr]
  cases b with
  | false =>
    refine ⟨_, _, L, rfl, (valid_iff_wf _ _).2 ⟨wf_map_erase (by rw [hfalse rfl]; exact h) x,
      fun y => ?_⟩⟩
    rw [hfalse rfl]
    simp only [_map_erase]
    rw [(wf_map_nodup h).mem_erase_iff, hm y]
    constructor
    · intro hy
      exact ⟨fun hc => hx (hc ▸ hy), Or.inr hy⟩
    · rintro ⟨hne, hy | hy⟩
      · exact absurd hy hne
      · exact hy
  | true =>
    obtain ⟨E, L1, w, hwf1, hsplit, hmap, hfirst, hmgr⟩ := htrue rfl
    have hxL1 : x ∉ L1 := fun hc => hx (((mem_split_iff hsplit hLnd x).1 hc).1)
    have hxs : x ≠ s0._manager._first := fun hc =>
      h.2.2.1 (hc ▸ (hm x).2 (Or.inl rfl))
    have hx1 : x ∉ s1._manager._first :: L1 := by
      rw [hmgr]
      simp only [List.mem_cons, not_or]
      exact ⟨hxs, hxL1⟩
    obtain ⟨L', hwf', hp', hmap', -, -⟩ := wf_safeManagerInsert hwf1 x hx1
    refine ⟨_, _, L', rfl, (valid_iff_wf _ _).2 ⟨hwf', fun y => ?_⟩⟩
    rw [hp'.mem_iff, hmap', hmap, (wf_map_nodup h).mem_diff_iff, hm y, List.mem_cons,
      mem_split_iff hsplit hLnd y]
    have hxE : x ∉ E := fun hc => hx (hsplit.subset (by simp [hc]))
    constructor
    · rintro (rfl | ⟨hy, hne⟩)
      · exact ⟨Or.inl rfl, hxE⟩
      · exact ⟨Or.inr hy, hne⟩
    · rintro ⟨rfl | hy, hne⟩
      · exact Or.inl rfl
      · exact Or.inr ⟨hy, hne⟩

/-- Member `insert(node_type&& nh)` keeps the map valid. -/
theorem valid_insert_node (fuel : Nat) (s : unordered_map Key V) (L : List Ptr)
    (nh : Option Ptr) (hv : s.Valid L)
    (hp : ∀ node, nh = some node → node ∉ s._manager._first :: s._map)
    (hf : L.length < fuel) :
    ∃ r s' L', s.insert_node fuel nh = some (r, s') ∧ s'.Valid L' := by
  obtain ⟨hwf, hm⟩ := (valid_iff_wf s L).1 hv
  cases nh with
  | none => exact ⟨_, s, L, rfl, hv⟩
  | some node =>
    have hnode := hp node rfl
    simp only [List.mem_cons, not_or] at hnode
    unfold insert_node
    simp only
    cases hk : s._map_find (s.mem.first node).1 with
    | some q =>
      simp only [_map_insert_node, hk]
      exact ⟨_, s, L, rfl, hv⟩
    | none =>
      simp only [_map_insert_node, hk, if_true]
      have hwf0 : ({ s with _map := node :: s._map } : unordered_map Key V).Wf L := by
        refine ⟨hwf.1, ?_, ?_, hwf.2.2.2⟩
        · simp only [keys, List.map_cons, List.nodup_cons]
          exact ⟨(_map_find_none s _).1 hk, hwf.2.1⟩
        · simp only [List.mem_cons, not_or]
          exact ⟨fun hc => hnode.1 hc.symm, hwf.2.2.1⟩
      obtain ⟨r, s', L', hr, hv'⟩ := valid_indexInserted fuel _ L node hwf0
        (fun y => by simp [hm y]) (fun hc => hnode.2 ((hm node).1 hc)) hf
      rw [hr]
      cases r with
      | error e => exact ⟨_, s', L', rfl, hv'⟩
      | ok u => exact ⟨_, s', L', rfl, hv'⟩

end unordered_map

end limited

end extended_containers

namespace extended_containers

namespace limited

namespace unordered_map

open cache_manager

variable {Key V : Type} [DecidableEq Key]

/-- The index receives a new node at a fresh address: the state stays well formed with the
same replacement order. -/
theorem wf_map_insert {s : unordered_map Key V} {L : List Ptr} (h : s.Wf L) (p : Ptr)
    (value : Key × V) (hk : s._map_find value.1 = none)
    (hp : p ∉ s._manager._first :: s._map) (hpL : p ∉ L) :
    (s._map_insert p value).1.Wf L ∧ (s._map_insert p value).1._map = p :: s._map ∧
      (s._map_insert p value).1._manager = s._manager ∧
      (s._map_insert p value).2 = (p, true) := by
  simp only [List.mem_cons, not_or] at hp
  rw [_map_insert_absent s p value hk]
  refine ⟨⟨?_, ?_, ?_, h.2.2.2⟩, rfl, rfl, rfl⟩
  · refine isList_frame h.1 (fun q hq => ?_) (fun q hq => ?_)
    · have : q ≠ p := by
        rintro rfl
        rcases List.mem_cons.1 hq with hq | hq
        · exact hp.1 hq
        · exact hpL hq
      simp [Function.update_noteq this]
    · have : q ≠ p := by
        rintro rfl
        rcases List.mem_cons.1 hq with hq | hq
        · exact hp.1 hq
        · exact hpL hq
      simp [Function.update_noteq this]
  · simp only [keys, List.map_cons, Function.update_same, List.nodup_cons]
    have hmap : s._map.map (fun q => (Function.update s.mem.first p value q).1) = s.keys := by
      simp only [keys]
      apply List.map_congr_left
      intro q hq
      have : q ≠ p := fun hc => hp.2 (hc ▸ hq)
      rw [Function.update_noteq this]
    rw [hmap]
    exact ⟨(_map_find_none s _).1 hk, h.2.1⟩
  · simp only [List.mem_cons, not_or]
    exact ⟨fun hc => hp.1 hc.symm, h.2.2.1⟩

/-- The first loop of the range insert: the nodes collected in `inserted` are new nodes of
the index, and the replacement list is untouched. -/
theorem insert_range_index_spec (L : List Ptr) :
    ∀ (range : List (Ptr × (Key × V))) (s : unordered_map Key V) (I : List Ptr) (weight : Nat),
      s.Wf L → (∀ y, y ∈ s._map ↔ y ∈ I ∨ y ∈ L) → I.Nodup → (∀ y ∈ I, y ∉ L) →
      (range.map Prod.fst).Nodup →
      (∀ p ∈ range.map Prod.fst, p ∉ s._manager._first :: s._map) →
      (s.insert_range_index range I weight).1.Wf L ∧
        (∀ y, y ∈ (s.insert_range_index range I weight).1._map ↔
          y ∈ (s.insert_range_index range I weight).2.1 ∨ y ∈ L) ∧
        (s.insert_range_index range I weight).2.1.Nodup ∧
        (∀ y ∈ (s.insert_range_index range I weight).2.1, y ∉ L) := by
  intro range
  induction range with
  | nil =>
    intro s I weight h hm hI hdis _ _
    exact ⟨h, hm, hI, hdis⟩
  | cons a range ih =>
    intro s I weight h hm hI hdis hnd hfresh
    obtain ⟨p, value⟩ := a
    simp only [List.map_cons, List.nodup_cons] at hnd
    have hp : p ∉ s._manager._first :: s._map := hfresh p (by simp)
    have hp' := hp
    simp only [List.mem_cons, not_or] at hp'
    have hpL : p ∉ L := fun hc => hp'.2 ((hm p).2 (Or.inr hc))
    have hpI : p ∉ I := fun hc => hp'.2 ((hm p).2 (Or.inl hc))
    unfold insert_range_index
    cases hk : s._map_find value.1 with
    | some q =>
      have e : s._map_insert p value = (s, q, false) := by simp [_map_insert, hk]
      simp only [e]
      exact ih s I weight h hm hI hdis hnd.2
        (fun p' hp'' => hfresh p' (by simp only [List.map_cons, List.mem_cons]; exact Or.inr hp''))
    | none =>
      obtain ⟨hwf1, hmap1, hmgr1, hret⟩ := wf_map_insert h p value hk hp hpL
      have hm1 : ∀ y, y ∈ (s._map_insert p value).1._map ↔ y ∈ (I ++ [p]) ∨ y ∈ L := by
        intro y
        rw [hmap1, List.mem_cons, hm y, List.mem_append, List.mem_singleton]
        tauto
      have hI1 : (I ++ [p]).Nodup := by
        rw [List.nodup_append]
        refine ⟨hI, by simp, ?_⟩
        intro a ha hb
        rw [List.mem_singleton] at hb
        exact hpI (hb ▸ ha)
      have hdis1 : ∀ y ∈ I ++ [p], y ∉ L := by
        intro y hy
        rcases List.mem_append.1 hy with hy | hy
        · exact hdis y hy
        · rw [List.mem_singleton] at hy
          exact hy ▸ hpL
      simp only [hret, if_true]
      split
      · exact ⟨hwf1, hm1, hI1, hdis1⟩
      · refine ih _ _ _ hwf1 hm1 hI1 hdis1 hnd.2 ?_
        intro p' hp''
        rw [hmgr1, hmap1]
        have := hfresh p' (by simp only [List.map_cons, List.mem_cons]; exact Or.inr hp'')
        simp only [List.mem_cons, not_or] at this ⊢
        exact ⟨this.1, fun hc => hnd.1 (hc ▸ hp''), this.2⟩

/-- The last loop of the range insert links every collected node. -/
theorem wf_foldl_insert :
    ∀ (I : List Ptr) (s : unordered_map Key V) (L : List Ptr), s.Wf L → I.Nodup →
      (∀ y ∈ I, y ∉ s._manager._first :: L) →
      ∃ L', (I.foldl (fun s it => s.safeManagerInsert it) s).Wf L' ∧
        (∀ y, y ∈ L' ↔ y ∈ I ∨ y ∈ L) ∧
        (I.foldl (fun s it => s.safeManagerInsert it) s)._map = s._map := by
  intro I
  induction I with
  | nil =>
    intro s L h _ _
    exact ⟨L, h, by simp, rfl⟩
  | cons x I ih =>
    intro s L h hnd hfresh
    rw [List.nodup_cons] at hnd
    obtain ⟨L1, hwf1, hp1, hmap1, -, w, hmgr1⟩ := wf_safeManagerInsert h x
      (hfresh x (by simp))
    obtain ⟨L', hwf', hm', hmap'⟩ := ih (s.safeManagerInsert x) L1 hwf1 hnd.2 (by
      intro y hy
      have := hfresh y (List.mem_cons_of_mem _ hy)
      rw [hmgr1]
      simp only [List.mem_cons, not_or] at this ⊢
      refine ⟨this.1, fun hc => ?_⟩
      rcases List.mem_cons.1 (hp1.subset hc) with hc | hc
      · exact hnd.1 (hc ▸ hy)
      · exact this.2 hc)
    refine ⟨L', hwf', fun y => ?_, by rw [List.foldl_cons, hmap', hmap1]⟩
    rw [hm' y, hp1.mem_iff, List.mem_cons, List.mem_cons]
    tauto

/-- Member `insert(first, last)` keeps the map valid, whether it returns or throws. -/
theorem valid_insert_range (fuel : Nat) (s : unordered_map Key V) (L : List Ptr)
    (range : List (Ptr × (Key × V))) (hv : s.Valid L) (hnd : (range.map Prod.fst).Nodup)
    (hfresh : ∀ p ∈ range.map Prod.fst, p ∉ s._manager._first :: s._map)
    (hf : L.length < fuel) :
    ∃ r s' L', s.insert_range fuel range = some (r, s') ∧ s'.Valid L' := by
  obtain ⟨hwf, hm⟩ := (valid_iff_wf s L).1 hv
  have hLnd : L.Nodup := (List.nodup_cons.1 hwf.1.2).2
  obtain ⟨hwf0, hm0, hI, hdis⟩ := insert_range_index_spec L range s [] 0 hwf
    (fun y => by simp [hm y]) List.nodup_nil (by simp) hnd hfresh
  obtain ⟨b, s1, hr, hfalse, htrue⟩ := wf_provideSpace fuel _
    (s.insert_range_index range [] 0).2.2 L hwf0 (fun y hy => (hm0 y).2 (Or.inr hy)) hf
  unfold insert_range
  simp only [hr]
  cases b with
  | false =>
    refine ⟨_, _, L, rfl, ?_⟩
    rw [hfalse rfl]
    have heq := freeSpace_drop_eq (s.insert_range_index range [] 0).2.1
      (s.insert_range_index range [] 0).1 hwf0.2.1 (fun x hx => (hm0 x).2 (Or.inl hx)) hI
    unfold freeSpace_drop at heq
    rw [heq]
    refine (valid_iff_wf _ _).2 ⟨⟨hwf0.1, ?_, ?_, hwf0.2.2.2⟩, fun y => ?_⟩
    · exact List.Nodup.sublist ((List.diff_sublist _ _).map _) hwf0.2.1
    · exact fun hc => hwf0.2.2.1 (List.diff_subset _ _ hc)
    · simp only
      rw [(wf_map_nodup hwf0).mem_diff_iff, hm0 y]
      constructor
      · intro hy
        exact ⟨Or.inr hy, fun hc => hdis y hc hy⟩
      · rintro ⟨hy | hy, hne⟩
        · exact absurd hy hne
        · exact hy
  | true =>
    obtain ⟨E, L1, w, hwf1, hsplit, hmap, hfirst, hmgr⟩ := htrue rfl
    obtain ⟨L', hwf', hm', hmap'⟩ := wf_foldl_insert (s.insert_range_index range [] 0).2.1 s1
      L1 hwf1 hI (by
        intro y hy
        rw [hmgr]
        simp only [List.mem_cons, not_or]
        refine ⟨fun hc => hwf0.2.2.1 (hc ▸ (hm0 y).2 (Or.inl hy)), fun hc => ?_⟩
        exact hdis y hy ((mem_split_iff hsplit hLnd y).1 hc).1)
    refine ⟨_, _, L', rfl, (valid_iff_wf _ _).2 ⟨hwf', fun y => ?_⟩⟩
    rw [hm' y, hmap', hmap, (wf_map_nodup hwf0).mem_diff_iff, hm0 y,
      mem_split_iff hsplit hLnd y]
    constructor
    · rintro (hy | ⟨hy, hne⟩)
      · exact ⟨Or.inl hy, fun hc => hdis y hy (hsplit.subset (by simp [hc]))⟩
      · exact ⟨Or.inr hy, hne⟩
    · rintro ⟨hy | hy, hne⟩
      · exact Or.inl hy
      · exact Or.inr ⟨hy, hne⟩

end unordered_map

end limited

end extended_containers

namespace cache_manager

variable {T : Type}

/-- Membership in a list with one element taken out. -/
theorem mem_split_ne {A B : List Ptr} {x r : Ptr} (hnd : (A ++ x :: B).Nodup)
    (hr : r ∈ A ++ B) : r ∈ A ++ x :: B ∧ r ≠ x := by
  refine ⟨by simp only [List.mem_append, List.mem_cons] at hr ⊢; tauto, ?_⟩
  rintro rfl
  have := List.nodup_middle.1 hnd
  exact (List.nodup_cons.1 this).1 hr

/-- The search of `next_except` from a position `hint1` of the list without `except`: it
returns a node other than `except`, or `end`, and leaves the memory as it was. -/
theorem next_except_core (c : cache_manager T) {m : Mem T} {A B : List Ptr} {x : Ptr}
    (h : IsList m c._first (A ++ x :: B)) (fuel : Nat) (hf : (A ++ x :: B).length < fuel)
    (hint1 : Ptr) (hh : hint1 ∈ A ++ B ∨ hint1 = c._first) :
    ∃ r, (match policy.policy_extractor.erase_position c._policy
            (__link m (__prev m x) (__next m x)) fuel hint1 c.cend with
          | none => none
          | some ret => some (ret, __link (__link (__link m (__prev m x) (__next m x))
              (__prev m x) x) x (__next m x))) = some (r, m) ∧
      ((r ∈ A ++ x :: B ∧ r ≠ x) ∨ r = c._first) := by
  have hm1 : IsList (__link m (m.prev x) (m.next x)) c._first (A ++ B) := isList_unlink h
  obtain ⟨r, hr, hmem⟩ := erase_position_good c._policy hm1 hint1 hh fuel
    (by simp at hf ⊢; omega)
  obtain ⟨h1, h2⟩ := isList_symm h (show x ∈ A ++ x :: B by simp)
  refine ⟨r, ?_, ?_⟩
  · show (match policy.policy_extractor.erase_position c._policy
        (__link m (m.prev x) (m.next x)) fuel hint1 c._first with
      | none => none
      | some ret => some (ret, __link (__link (__link m (m.prev x) (m.next x))
          (m.prev x) x) x (m.next x))) = some (r, m)
    rw [hr, relink_unlink m x h1 h2]
  · rcases hmem with hmem | hmem
    · exact Or.inl (mem_split_ne (List.nodup_cons.1 h.2).2 hmem)
    · exact Or.inr hmem

theorem next_except_good (c : cache_manager T) {m : Mem T} {L : List Ptr}
    (h : IsList m c._first L) (except : Ptr) (hx : except ∈ L) (fuel : Nat)
    (hf : L.length < fuel) :
    ∃ r, c.next_except m fuel except = some (r, m) ∧
      ((r ∈ L ∧ r ≠ except) ∨ r = c._first) := by
  unfold cache_manager.next_except
  by_cases hb : c.cbegin m = c.cend
  · rw [if_pos hb]
    exact ⟨c._first, rfl, Or.inr rfl⟩
  · rw [if_neg hb]
    obtain ⟨A, B, rfl⟩ := List.append_of_mem hx
    refine next_except_core c h fuel hf _ ?_
    have hm1 : IsList (__link m (m.prev except) (m.next except)) c._first (A ++ B) :=
      isList_unlink h
    have := List.mem_of_mem_head? (show _ ∈ ((A ++ B) ++ [c._first]).head? from
      (isList_sentinel hm1).1)
    simp only [List.mem_append, List.mem_singleton] at this ⊢
    exact this

theorem next_except_hint_good (c : cache_manager T) {m : Mem T} {L : List Ptr}
    (h : IsList m c._first L) (except : Ptr) (hx : except ∈ L) (fuel : Nat)
    (hf : L.length < fuel) (hint : Ptr) (hh : hint ∈ L ∨ hint = c._first) :
    ∃ r, c.next_except_hint m fuel hint except = some (r, m) ∧
      ((r ∈ L ∧ r ≠ except) ∨ r = c._first) := by
  unfold cache_manager.next_except_hint
  by_cases hb : c.cbegin m = c.cend
  · rw [if_pos hb]
    exact ⟨c._first, rfl, Or.inr rfl⟩
  · rw [if_neg hb]
    obtain ⟨A, B, rfl⟩ := List.append_of_mem hx
    refine next_except_core c h fuel hf _ ?_
    by_cases he : hint = except
    · rw [if_pos he, he]
      have := List.mem_of_mem_head?
        (show m.next except ∈ (B ++ [c._first]).head? from (isList_mid h).2)
      simp only [List.mem_append, List.mem_singleton] at this ⊢
      tauto
    · rw [if_neg he]
      rcases hh with hh | hh
      · simp only [List.mem_append, List.mem_cons] at hh ⊢
        tauto
      · exact Or.inr hh

end cache_manager

namespace extended_containers

namespace limited

namespace unordered_map

open cache_manager

variable {Key V : Type} [DecidableEq Key]

/-- The eviction loop of `freeSpace(weight, except)` on a valid list that holds `except`,
under any built-in policy: it returns; on failure the state is the one the rewind of
`removed` gives; on success the evicted nodes `E` have left the list and `except` stays. -/
theorem freeSpace_except_loop_spec (s0 : unordered_map Key V) (budget weight except : Nat) :
    ∀ (fuel : Nat) (s : unordered_map Key V) (freed : Nat) (removed : List Ptr) (next : Ptr)
      (L : List Ptr),
      IsList s.mem s._manager._first L → s._manager._weight < SIZE → except ∈ L →
      ((next ∈ L ∧ next ≠ except) ∨ next = s._manager._first) →
      L.length < fuel → L.length < budget →
      s.freeSpace_rewind removed = s0 →
      ∃ b s', freeSpace_except_loop budget weight except fuel s freed removed next
          = some (b, s') ∧
        (b = false → s' = s0) ∧
        (b = true → ∃ (s1 : unordered_map Key V) (E L1 : List Ptr),
          s' = s1.freeSpace_drop (removed ++ E) ∧
          IsList s1.mem s1._manager._first L1 ∧ (E ++ L1).Perm L ∧ except ∈ L1 ∧
          s1._map = s._map ∧ s1.mem.first = s.mem.first ∧
          ∃ w, w < SIZE ∧ s1._manager = { s._manager with _weight := w }) := by
  intro fuel
  induction fuel with
  | zero => intro s freed removed next L _ _ _ _ hf; simp at hf
  | succ fuel ih =>
    intro s freed removed next L hL hW hex hnext hf hb hrew
    unfold freeSpace_except_loop
    by_cases hfw : freed < weight
    · rw [if_pos hfw]
      obtain ⟨next1, hn1, hmem1⟩ : ∃ next1,
          (if next = s._manager.end_ then s._manager.next_except s.mem budget except
            else some (next, s.mem)) = some (next1, s.mem) ∧
            ((next1 ∈ L ∧ next1 ≠ except) ∨ next1 = s._manager._first) := by
        by_cases he : next = s._manager.end_
        · rw [if_pos he]; exact next_except_good s._manager hL except hex budget hb
        · rw [if_neg he]; exact ⟨next, rfl, hnext⟩
      rw [hn1]
      have eta : ({ s with mem := s.mem } : unordered_map Key V) = s := rfl
      simp only [eta]
      by_cases he1 : next1 = s._manager.end_
      · simp only [he1, if_true]
        exact ⟨false, _, rfl, fun _ => hrew, fun h => by simp at h⟩
      · simp only [he1, if_false]
        have hx : next1 ∈ L ∧ next1 ≠ except := hmem1.resolve_right he1
        obtain ⟨A, B, rfl⟩ := List.append_of_mem hx.1
        obtain ⟨hef, hem, hec, hemap⟩ := manager_erase_fields s next1
        have hfirst1 : (s.manager_erase next1).1._manager._first = s._manager._first := by
          rw [hec]
        have hL1 : IsList (s.manager_erase next1).1.mem
            (s.manager_erase next1).1._manager._first (A ++ B) := by
          rw [hem, hfirst1]; exact isList_unlink hL
        have hex1 : except ∈ A ++ B := by
          simp only [List.mem_append, List.mem_cons] at hex ⊢
          rcases hex with hex | hex | hex
          · exact Or.inl hex
          · exact absurd hex.symm hx.2
          · exact Or.inr hex
        have hhint : (s.manager_erase next1).2 ∈ A ++ B ∨
            (s.manager_erase next1).2 = (s.manager_erase next1).1._manager._first := by
          rw [hef, hfirst1]
          have := List.mem_of_mem_head?
            (show s.mem.next next1 ∈ (B ++ [s._manager._first]).head? from (isList_mid hL).2)
          simp at this ⊢
          tauto
        obtain ⟨next2, hn2, hmem2⟩ := next_except_hint_good (s.manager_erase next1).1._manager
          hL1 except hex1 budget (by simp at hb ⊢; omega) _ hhint
        simp only [hn2]
        have eta1 : ({ (s.manager_erase next1).1 with mem := (s.manager_erase next1).1.mem } :
            unordered_map Key V) = (s.manager_erase next1).1 := rfl
        simp only [eta1]
        obtain ⟨h1, h2⟩ := isList_symm hL hx.1
        have hrew1 : (s.manager_erase next1).1.freeSpace_rewind (removed ++ [next1]) = s0 := by
          rw [rewind_snoc, reinsert_erase_state s next1 hW h1 h2]
          exact hrew
        have hW1 : (s.manager_erase next1).1._manager._weight < SIZE := by
          rw [hec]; exact Nat.mod_lt _ (by decide)
        obtain ⟨b, s', hres, hfalse, htrue⟩ := ih (s.manager_erase next1).1
          ((freed + s._manager.calculate_weight (s.mem.first next1)) % SIZE)
          (removed ++ [next1]) next2 (A ++ B) hL1 hW1 hex1 hmem2 (by simp at hf ⊢; omega)
          (by simp at hb ⊢; omega) hrew1
        refine ⟨b, s', hres, hfalse, ?_⟩
        intro hbt
        obtain ⟨s1, E, L1, hs', hl1, hperm, hexL1, hmap, hfst, w, hw, hmgr⟩ := htrue hbt
        refine ⟨s1, next1 :: E, L1, ?_, hl1, ?_, hexL1, ?_, ?_, w, hw, ?_⟩
        · rw [hs']; simp
        · have : (next1 :: E ++ L1).Perm (next1 :: (A ++ B)) := List.Perm.cons _ hperm
          exact this.trans List.perm_middle.symm
        · rw [hmap, hemap]
        · rw [hfst, hem]; rfl
        · rw [hmgr, hec]
    · rw [if_neg hfw]
      refine ⟨true, _, rfl, fun h => by simp at h, fun _ => ?_⟩
      exact ⟨s, [], L, by simp, hL, by simp, hex, rfl, rfl, s._manager._weight, hW, rfl⟩

theorem freeSpace_except_spec (fuel : Nat) (s : unordered_map Key V) (weight : Nat)
    (except : Ptr) (L : List Ptr) (hL : IsList s.mem s._manager._first L)
    (hW : s._manager._weight < SIZE) (hex : except ∈ L) (hf : L.length < fuel) :
    ∃ b s', s.freeSpace_except fuel weight except = some (b, s') ∧
      (b = false → s' = s) ∧
      (b = true → ∃ (s1 : unordered_map Key V) (E L1 : List Ptr),
        s' = s1.freeSpace_drop E ∧
        IsList s1.mem s1._manager._first L1 ∧ (E ++ L1).Perm L ∧ except ∈ L1 ∧
        s1._map = s._map ∧ s1.mem.first = s.mem.first ∧
        ∃ w, w < SIZE ∧ s1._manager = { s._manager with _weight := w }) := by
  unfold freeSpace_except
  by_cases hw : s._manager.weight < weight
  · rw [if_pos hw]
    exact ⟨false, s, rfl, fun _ => rfl, fun h => by simp at h⟩
  · rw [if_neg hw]
    obtain ⟨next, hn, hmem⟩ := next_except_good s._manager hL except hex fuel hf
    rw [hn]
    have eta : ({ s with mem := s.mem } : unordered_map Key V) = s := rfl
    simp only [eta]
    obtain ⟨b, s', hres, hfalse, htrue⟩ := freeSpace_except_loop_spec s fuel weight except
      fuel s 0 [] next L hL hW hex hmem hf hf rfl
    refine ⟨b, s', hres, hfalse, fun hb => ?_⟩
    simpa using htrue hb

theorem provideSpace_except_spec (fuel : Nat) (s : unordered_map Key V) (weight : Nat)
    (except : Ptr) (L : List Ptr) (hL : IsList s.mem s._manager._first L)
    (hW : s._manager._weight < SIZE) (hex : except ∈ L) (hf : L.length < fuel) :
    ∃ b s', s.provideSpace_except fuel weight except = some (b, s') ∧
      (b = false → s' = s) ∧
      (b = true → ∃ (s1 : unordered_map Key V) (E L1 : List Ptr),
        s' = s1.freeSpace_drop E ∧
        IsList s1.mem s1._manager._first L1 ∧ (E ++ L1).Perm L ∧ except ∈ L1 ∧
        s1._map = s._map ∧ s1.mem.first = s.mem.first ∧
        ∃ w, w < SIZE ∧ s1._manager = { s._manager with _weight := w }) := by
  unfold provideSpace_except
  split_ifs with h1 h2
  · exact ⟨false, s, rfl, fun _ => rfl, fun h => by simp at h⟩
  · refine ⟨true, s, rfl, fun h => by simp at h, fun _ => ?_⟩
    exact ⟨s, [], L, rfl, hL, by simp, hex, rfl, rfl, s._manager._weight, hW, rfl⟩
  · exact freeSpace_except_spec fuel s _ except L hL hW hex hf

end unordered_map

end limited

end extended_containers

namespace extended_containers

namespace limited

namespace unordered_map

open cache_manager

variable {Key V : Type} [DecidableEq Key]

theorem wf_provideSpace_except (fuel : Nat) (s : unordered_map Key V) (weight : Nat)
    (except : Ptr) (L : List Ptr) (h : s.Wf L) (hex : except ∈ L)
    (hsub : ∀ x ∈ L, x ≠ except → x ∈ s._map) (hf : L.length < fuel) :
    ∃ b s', s.provideSpace_except fuel weight except = some (b, s') ∧
      (b = false → s' = s) ∧
      (b = true → ∃ (E L1 : List Ptr) (w : Nat), s'.Wf L1 ∧ (E ++ L1).Perm L ∧
        except ∈ L1 ∧ s'._map = s._map.diff E ∧ s'.mem.first = s.mem.first ∧
        s'._manager = { s._manager with _weight := w }) := by
  obtain ⟨b, s', hr, hfalse, htrue⟩ := provideSpace_except_spec fuel s weight except L h.1
    h.2.2.2.1 hex hf
  refine ⟨b, s', hr, hfalse, fun hb => ?_⟩
  obtain ⟨s1, E, L1, hs', hl1, hsplit, hexL1, hmap, hfirst, w, hw, hmgr⟩ := htrue hb
  have hLnd : L.Nodup := (List.nodup_cons.1 h.1.2).2
  have hd := wf_drop h (fun x hx => hsub x (hsplit.subset (by simp [hx]))
    (fun hc => ((mem_split_iff hsplit hLnd except).1 hexL1).2 (hc ▸ hx))) hl1 hsplit hmap
    hfirst w hw hmgr
  rw [← hs'] at hd
  refine ⟨E, L1, w, hd.1, hsplit, hexL1, hd.2.1, ?_, ?_⟩
  · rw [hd.2.2.1, hfirst]
  · rw [hd.2.2.2, hmgr]

/-- Writing the value of a node that is not in the index keeps the state well formed. -/
theorem wf_set_value {s : unordered_map Key V} {L : List Ptr} (h : s.Wf L) (x : Ptr)
    (v : Key × V) (hx : x ∉ s._map) :
    ({ s with mem := { s.mem with first := Function.update s.mem.first x v } } :
      unordered_map Key V).Wf L := by
  refine ⟨isList_congr (m := s.mem) rfl rfl h.1, ?_, h.2.2.1, h.2.2.2⟩
  have : ({ s with mem := { s.mem with first := Function.update s.mem.first x v } } :
      unordered_map Key V).keys = s.keys := by
    simp only [keys]
    apply List.map_congr_left
    intro q hq
    have : q ≠ x := fun hc => hx (hc ▸ hq)
    rw [Function.update_noteq this]
  rw [this]
  exact h.2.1

/-- The key of a node of the index is the key of no other node of the index. -/
theorem key_not_mem_erase {s : unordered_map Key V} (hk : s.keys.Nodup) (x : Ptr)
    (hx : x ∈ s._map) :
    (s.mem.first x).1 ∉ (s._map.erase x).map (fun q => (s.mem.first q).1) := by
  have hnd : s._map.Nodup := List.Nodup.of_map _ hk
  obtain ⟨A, B, e⟩ := List.append_of_mem hx
  rw [e] at hnd
  simp only [keys, e, List.map_append, List.map_cons] at hk
  rw [e, erase_of_split hnd, List.map_append]
  have := List.nodup_middle.1 hk
  exact (List.nodup_cons.1 this).1

/-- A node of the list whose key the index does not hold goes back into the index. -/
theorem valid_reinsert_index {s : unordered_map Key V} {L : List Ptr} (h : s.Wf L) (x : Ptr)
    (hxL : x ∈ L) (hm : ∀ y, y ∈ s._map ↔ y ∈ L ∧ y ≠ x)
    (hk : (s.mem.first x).1 ∉ s.keys) :
    s._map_insert_node x = ({ s with _map := x :: s._map }, x, true) ∧
      ({ s with _map := x :: s._map } : unordered_map Key V).Valid L := by
  have hfind := (_map_find_none s _).2 hk
  refine ⟨by simp [_map_insert_node, hfind], (valid_iff_wf _ _).2 ⟨⟨h.1, ?_, ?_, h.2.2.2⟩,
    fun y => ?_⟩⟩
  · simp only [keys, List.map_cons, List.nodup_cons]
    exact ⟨hk, h.2.1⟩
  · simp only [List.mem_cons, not_or]
    refine ⟨fun hc => ?_, h.2.2.1⟩
    exact isList_not_mem h.1 (hc ▸ hxL)
  · simp only [List.mem_cons, hm y]
    constructor
    · intro hy
      by_cases e : y = x
      · exact Or.inl e
      · exact Or.inr ⟨hy, e⟩
    · rintro (rfl | hy)
      · exact hxL
      · exact hy.1

/-- The member `update_weight` keeps the map valid. -/
theorem valid_update_weight {s : unordered_map Key V} {L : List Ptr} (hv : s.Valid L)
    (it : Ptr) (oldWeight newWeight : Nat) :
    ({ s with _manager := (s._manager.update_weight s.mem it oldWeight newWeight).1,
              mem := (s._manager.update_weight s.mem it oldWeight newWeight).2 } :
      unordered_map Key V).Valid L := by
  refine ⟨isList_congr (m := s.mem) rfl rfl hv.1, hv.2.1, hv.2.2.1, ?_, hv.2.2.2.2⟩
  exact Nat.mod_lt _ (by decide)

/-- The end of `assign` on a state whose list holds the node and whose index does not. -/
theorem valid_assign_finish {s : unordered_map Key V} {L : List Ptr} (h : s.Wf L) (x : Ptr)
    (hxL : x ∈ L) (hm : ∀ y, y ∈ s._map ↔ y ∈ L ∧ y ≠ x)
    (hk : (s.mem.first x).1 ∉ s.keys) (oldWeight newWeight : Nat) :
    ∃ L', (s.assign_finish x oldWeight newWeight).2.Valid L' := by
  obtain ⟨hins, hv⟩ := valid_reinsert_index h x hxL hm hk
  unfold assign_finish
  simp only [hins]
  have hv2 := valid_update_weight hv x oldWeight newWeight
  exact valid_manager_access hv2 x (by simp)

/-- Member `assign` keeps the map valid, whether it returns or throws. -/
theorem valid_assign (fuel : Nat) (s : unordered_map Key V) (L : List Ptr) (position : Ptr)
    (obj : V) (hv : s.Valid L) (hp : position ∈ s._map) (hf : L.length < fuel) :
    ∃ r s' L', s.assign fuel position obj = some (r, s') ∧ s'.Valid L' := by
  obtain ⟨hwf, hm⟩ := (valid_iff_wf s L).1 hv
  have hLnd : L.Nodup := (List.nodup_cons.1 hwf.1.2).2
  have hxL : position ∈ L := (hm position).2 hp
  have hmnd := wf_map_nodup hwf
  have hwf1 : (s._map_erase position).Wf L := wf_map_erase hwf position
  have hnot : position ∉ (s._map_erase position)._map := by
    simp only [_map_erase]
    exact fun hc => (hmnd.mem_erase_iff.1 hc).1 rfl
  have hm1 : ∀ y, y ∈ (s._map_erase position)._map ↔ y ∈ L ∧ y ≠ position := by
    intro y
    simp only [_map_erase]
    rw [hmnd.mem_erase_iff, hm y, and_comm]
  have hwf2 := wf_set_value hwf1 position (((s._map_erase position).mem.first position).1, obj)
    hnot
  have hkey := key_not_mem_erase hwf.2.1 position hp
  have hkeys2 : ({ s._map_erase position with mem := { (s._map_erase position).mem with
      first := Function.update (s._map_erase position).mem.first position
        (((s._map_erase position).mem.first position).1, obj) } } :
      unordered_map Key V).keys = (s._map.erase position).map (fun q => (s.mem.first q).1) := by
    simp only [keys, _map_erase]
    apply List.map_congr_left
    intro q hq
    have : q ≠ position := fun hc => (hmnd.mem_erase_iff.1 hq).1 hc
    rw [Function.update_noteq this]
  unfold assign
  simp only []
  split_ifs with hgrow
  · obtain ⟨b, s3, hr, hfalse, htrue⟩ := wf_provideSpace_except fuel _
      ((cache_manager.cache_manager.calculate_weight (s._map_erase position)._manager
          (((s._map_erase position).mem.first position).1, obj) + SIZE -
        s._manager.calculate_weight_it s.mem position) % SIZE) position L hwf2 hxL
      (fun y hy hne => (hm1 y).2 ⟨hy, hne⟩) hf
    simp only [Function.update_same] at hr ⊢
    rw [hr]
    cases b with
    | false =>
      have e3 := hfalse rfl
      subst e3
      simp only []
      have hwf4 := wf_set_value hwf2 position
        (((s._map_erase position).mem.first position).1,
          ((s._map_erase position).mem.first position).2) hnot
      obtain ⟨hins, hv4⟩ := valid_reinsert_index hwf4 position hxL hm1 (by
        simp only [keys, Function.update_same, Function.update_idem]
        have : (s._map_erase position)._map.map (fun q =>
            (Function.update (s._map_erase position).mem.first position
              (((s._map_erase position).mem.first position).1,
               ((s._map_erase position).mem.first position).2) q).1)
            = (s._map.erase position).map (fun q => (s.mem.first q).1) := by
          simp only [_map_erase]
          apply List.map_congr_left
          intro q hq
          have : q ≠ position := fun hc => (hmnd.mem_erase_iff.1 hq).1 hc
          rw [Function.update_noteq this]
        rw [this]
        exact hkey)
      simp only [Function.update_same, Function.update_idem] at hins hv4 ⊢
      rw [hins]
      exact ⟨_, _, L, rfl, hv4⟩
    | true =>
      obtain ⟨E, L1, w, hwf3, hsplit, hexL1, hmap3, hfirst3, hmgr3⟩ := htrue rfl
      simp only []
      obtain ⟨L', hv'⟩ := valid_assign_finish hwf3 position hexL1 (by
          intro y
          rw [hmap3, (wf_map_nodup hwf2).mem_diff_iff, hm1 y, mem_split_iff hsplit hLnd y]
          tauto) (by
          simp only [keys, hfirst3, hmap3, Function.update_same]
          intro hc
          have hsubl : (List.map (fun q => (Function.update (s._map_erase position).mem.first
              position (((s._map_erase position).mem.first position).1, obj) q).1)
              ((s._map_erase position)._map.diff E)).Sublist
              (List.map (fun q => (Function.update (s._map_erase position).mem.first
              position (((s._map_erase position).mem.first position).1, obj) q).1)
              (s._map_erase position)._map) := (List.diff_sublist _ _).map _
          have := hsubl.subset hc
          have hk2 := hkeys2
          simp only [keys] at hk2
          rw [hk2] at this
          exact hkey this)
        (s._manager.calculate_weight_it s.mem position)
        (cache_manager.cache_manager.calculate_weight (s._map_erase position)._manager
          (((s._map_erase position).mem.first position).1, obj))
      exact ⟨_, _, L', rfl, hv'⟩
  · obtain ⟨L', hv'⟩ := valid_assign_finish hwf2 position hxL hm1 (by
        rw [hkeys2]
        simp only [Function.update_same]
        exact hkey)
      (s._manager.calculate_weight_it s.mem position)
      (cache_manager.cache_manager.calculate_weight (s._map_erase position)._manager
        (((s._map_erase position).mem.first position).1, obj))
    simp only [Function.update_same] at hv' ⊢
    exact ⟨_, _, L', rfl, hv'⟩

end unordered_map

end limited

end extended_containers

namespace cache_manager

variable {T : Type}

/-- Linking the node before a block to the node after it removes the block. -/
theorem isList_unlink_block {m : Mem T} {s : Ptr} {A R B : List Ptr} {first last : Ptr}
    (h : IsList m s (A ++ R ++ B)) (hfirst : (R ++ B ++ [s]).head? = some first)
    (hlast : (B ++ [s]).head? = some last) :
    IsList (__link m (m.prev first) last) s (A ++ B) := by
  have hnd := h.2
  have hl : Linked m ((s :: A) ++ (R ++ B ++ [s])) := by
    have := h.1
    simpa using this
  obtain ⟨u, hu⟩ : ∃ u, (s :: A).getLast? = some u := by
    rcases List.eq_nil_or_concat (s :: A) with e | ⟨P, u, e⟩
    · simp at e
    · exact ⟨u, by rw [e]; simp⟩
  obtain ⟨hlA, hlRB, hj⟩ := (linked_append m _ _).1 hl
  have hprev : m.prev first = u := (hj u hu first hfirst).2
  have hlB : Linked m (B ++ [s]) := by
    have : Linked m (R ++ (B ++ [s])) := by simpa using hlRB
    exact linked_suffix R this
  have hndAB : (s :: A ++ B).Nodup := by
    refine List.Nodup.sublist ?_ hnd
    simp only [List.cons_append, List.append_assoc]
    exact List.Sublist.cons₂ _ (List.Sublist.append_left
      (List.sublist_append_right R B) A)
  have huA : u ∈ s :: A := List.mem_of_getLast?_eq_some hu
  have hlastB : last ∈ B ++ [s] := List.mem_of_mem_head? hlast
  have hsB : s ∉ B := by
    have : s ∉ A ++ B := (List.nodup_cons.1 hndAB).1
    exact fun hc => this (List.mem_append_right _ hc)
  have hdisj : ∀ a ∈ A, a ∉ B := by
    have := (List.nodup_cons.1 hndAB).2
    exact fun a ha hb => (List.nodup_append.1 this).2.2 ha hb
  rw [hprev]
  refine ⟨?_, hndAB⟩
  have goal : Linked (__link m u last) ((s :: A) ++ (B ++ [s])) := by
    rw [linked_append_of _ _ _ u last hu hlast]
    refine ⟨?_, ?_, ?_, ?_⟩
    · refine linked_frame m _ _ (fun q hq => ?_) (fun q hq => ?_) hlA
      · have : q ≠ u := by
          rintro rfl
          have e := eq_concat_of_getLast? hu
          have hndA : (s :: A).Nodup := by
            refine List.Nodup.sublist ?_ hndAB
            simp
          rw [e] at hndA hq
          rw [List.dropLast_concat] at hq
          exact (List.nodup_append.1 hndA).2.2 hq (by simp)
        rw [link_next]
        simp [this]
      · have : q ≠ last := by
          rintro rfl
          simp only [List.tail_cons] at hq
          rcases List.mem_append.1 hlastB with hb | hb
          · exact hdisj q hq hb
          · rw [List.mem_singleton] at hb
            have : s ∉ A ++ B := (List.nodup_cons.1 hndAB).1
            exact this (List.mem_append_left _ (hb ▸ hq))
        rw [link_prev]
        simp [this]
    · refine linked_frame m _ _ (fun q hq => ?_) (fun q hq => ?_) hlB
      · have : q ≠ u := by
          rintro rfl
          rw [List.dropLast_concat] at hq
          rcases List.mem_cons.1 huA with ha | ha
          · exact hsB (ha ▸ hq)
          · exact hdisj q ha hq
        rw [link_next]
        simp [this]
      · have : q ≠ last := by
          rintro rfl
          have e := eq_cons_of_head? hlast
          have hndB : (B ++ [s]).Nodup := by
            rw [List.nodup_append]
            exact ⟨(List.nodup_append.1 (List.nodup_cons.1 hndAB).2).2.1, by simp,
              fun a ha hb => hsB (List.mem_singleton.1 hb ▸ ha)⟩
          rw [e] at hndB
          rw [e, List.tail_cons] at hq
          exact (List.nodup_cons.1 hndB).1 hq
        rw [link_prev]
        simp [this]
    · rw [link_next]
      simp
    · rw [link_prev]
      simp
  simpa using goal

/-- The summing loop of `erase(first, last)` returns on a linked run of nodes. -/
theorem erase_range_sum_run (c : cache_manager T) (m : Mem T) (last : Ptr) :
    ∀ (R : List Ptr) (rest : List Ptr) (fuel : Nat) (it : Ptr) (acc : Nat),
      Linked m (R ++ last :: rest) → last ∉ R → (R ++ [last]).head? = some it →
      R.length < fuel → ∃ sum, c.erase_range_sum m last fuel it acc = some sum := by
  intro R
  induction R with
  | nil =>
    intro rest fuel it acc _ _ hit hf
    obtain ⟨fuel, rfl⟩ : ∃ k, fuel = k + 1 := ⟨fuel - 1, by simp at hf; omega⟩
    simp only [List.nil_append, List.head?_cons, Option.some.injEq] at hit
    unfold cache_manager.erase_range_sum
    simp [hit]
  | cons x R ih =>
    intro rest fuel it acc hl hnot hit hf
    obtain ⟨fuel, rfl⟩ : ∃ k, fuel = k + 1 := ⟨fuel - 1, by simp at hf; omega⟩
    simp only [List.cons_append, List.head?_cons, Option.some.injEq] at hit
    subst hit
    have hne : x ≠ last := fun hc => hnot (hc ▸ List.mem_cons_self _ _)
    unfold cache_manager.erase_range_sum
    rw [if_pos hne]
    refine ih rest fuel _ _ (linked_tail hl) (fun hc => hnot (List.mem_cons_of_mem _ hc)) ?_
      (by simp at hf ⊢; omega)
    cases R with
    | nil => simp [hl.1.1]
    | cons y R => simp [hl.1.1]

end cache_manager

namespace extended_containers

namespace limited

namespace unordered_map

open cache_manager

variable {Key V : Type} [DecidableEq Key]

/-- The loop of `erase(const_iterator first, const_iterator last)` unlinks every node of
the range. -/
theorem wf_foldl_erase :
    ∀ (R : List Ptr) (s : unordered_map Key V) (L : List Ptr), s.Wf L → R.Nodup →
      (∀ y ∈ R, y ∈ L) →
      (R.foldl (fun s it => (s.manager_erase it).1) s).Wf (L.diff R) ∧
        (R.foldl (fun s it => (s.manager_erase it).1) s)._map = s._map := by
  intro R
  induction R with
  | nil =>
    intro s L h _ _
    exact ⟨h, rfl⟩
  | cons x R ih =>
    intro s L h hnd hsub
    rw [List.nodup_cons] at hnd
    obtain ⟨hwf1, hmap1, -, -⟩ := wf_manager_erase h x (hsub x (by simp))
    have hLnd : L.Nodup := (List.nodup_cons.1 h.1.2).2
    obtain ⟨hwf2, hmap2⟩ := ih (s.manager_erase x).1 (L.erase x) hwf1 hnd.2 (by
      intro y hy
      rw [hLnd.mem_erase_iff]
      exact ⟨fun hc => hnd.1 (hc ▸ hy), hsub y (List.mem_cons_of_mem _ hy)⟩)
    rw [List.foldl_cons, List.diff_cons]
    exact ⟨hwf2, by rw [hmap2, hmap1]⟩

/-- Member `erase(const_iterator first, const_iterator last)` keeps the map valid. -/
theorem valid_erase_index_range (s : unordered_map Key V) (L : List Ptr) (range : List Ptr)
    (hv : s.Valid L) (hr : ∃ A B, s._map = A ++ range ++ B) :
    (s.erase_index_range range).Valid (L.diff range) := by
  obtain ⟨hwf, hm⟩ := (valid_iff_wf s L).1 hv
  have hmnd := wf_map_nodup hwf
  have hLnd : L.Nodup := (List.nodup_cons.1 hwf.1.2).2
  obtain ⟨A, B, e⟩ := hr
  have hRnd : range.Nodup := by
    rw [e] at hmnd
    exact (List.nodup_append.1 (List.nodup_append.1 hmnd).1).2.1
  have hRsub : ∀ y ∈ range, y ∈ L := by
    intro y hy
    rw [hm y, e]
    simp [hy]
  obtain ⟨hwf1, hmap1⟩ := wf_foldl_erase range s L hwf hRnd hRsub
  unfold erase_index_range
  simp only [hmap1]
  refine (valid_iff_wf _ _).2 ⟨⟨hwf1.1, ?_, ?_, hwf1.2.2.2⟩, fun y => ?_⟩
  · have hk := hwf1.2.1
    simp only [keys, hmap1] at hk ⊢
    exact List.Nodup.sublist ((List.diff_sublist _ _).map _) hk
  · intro hc
    exact hwf1.2.2.1 (by rw [hmap1]; exact List.diff_subset _ _ hc)
  · simp only
    rw [hLnd.mem_diff_iff, hmnd.mem_diff_iff, hm y]

/-- The extraction loop of the replacement-range erase removes the nodes of the range from
the index and nothing else. -/
theorem erase_replacement_range_extract_run (m : Mem (Key × V)) (last : Ptr) :
    ∀ (R : List Ptr) (rest : List Ptr) (fuel : Nat) (s : unordered_map Key V) (it : Ptr),
      s.mem = m → s.keys.Nodup → (∀ y ∈ R, y ∈ s._map) → R.Nodup →
      Linked m (R ++ last :: rest) → last ∉ R → (R ++ [last]).head? = some it →
      R.length < fuel →
      erase_replacement_range_extract last fuel s it =
        some { s with _map := s._map.diff R } := by
  intro R
  induction R with
  | nil =>
    intro rest fuel s it _ _ _ _ _ _ hit hf
    obtain ⟨fuel, rfl⟩ : ∃ k, fuel = k + 1 := ⟨fuel - 1, by simp at hf; omega⟩
    simp only [List.nil_append, List.head?_cons, Option.some.injEq] at hit
    unfold erase_replacement_range_extract
    simp [hit]
  | cons x R ih =>
    intro rest fuel s it hmem hk hsub hnd hl hnot hit hf
    obtain ⟨fuel, rfl⟩ : ∃ k, fuel = k + 1 := ⟨fuel - 1, by simp at hf; omega⟩
    simp only [List.cons_append, List.head?_cons, Option.some.injEq] at hit
    subst hit
    rw [List.nodup_cons] at hnd
    have hne : x ≠ last := fun hc => hnot (hc ▸ List.mem_cons_self _ _)
    have hmnd : s._map.Nodup := List.Nodup.of_map _ hk
    unfold erase_replacement_range_extract
    rw [if_pos hne, _map_erase_key_of_mem s x hk (hsub x (by simp))]
    have hnext : (R ++ [last]).head? = some (__next s.mem x) := by
      rw [hmem]
      cases R with
      | nil => simp [hl.1.1]
      | cons y R => simp [hl.1.1]
    rw [ih rest fuel (s._map_erase x) _ hmem
      (List.Nodup.sublist ((List.erase_sublist x s._map).map _) hk)
      (by
        intro y hy
        simp only [_map_erase]
        rw [hmnd.mem_erase_iff]
        exact ⟨fun hc => hnd.1 (hc ▸ hy), hsub y (List.mem_cons_of_mem _ hy)⟩)
      hnd.2 (linked_tail hl) (fun hc => hnot (List.mem_cons_of_mem _ hc)) hnext
      (by simp at hf ⊢; omega)]
    simp [_map_erase, List.diff_cons]

/-- Member `erase(const_replacement_iterator first, const_replacement_iterator last)`
returns and keeps the map valid. -/
theorem valid_erase_replacement_range (fuel : Nat) (s : unordered_map Key V) (L : List Ptr)
    (first last : Ptr) (hv : s.Valid L)
    (hr : ∃ A R B, L = A ++ R ++ B ∧ (R ++ B ++ [s._manager._first]).head? = some first ∧
      (B ++ [s._manager._first]).head? = some last)
    (hf : L.length < fuel) :
    ∃ r s' L', s.erase_replacement_range fuel first last = some (r, s') ∧ s'.Valid L' := by
  obtain ⟨hwf, hm⟩ := (valid_iff_wf s L).1 hv
  have hmnd := wf_map_nodup hwf
  obtain ⟨A, R, B, rfl, hfirst, hlast⟩ := hr
  have hnd := hwf.1.2
  have hLnd : (A ++ R ++ B).Nodup := (List.nodup_cons.1 hnd).2
  obtain ⟨rest, hrest⟩ : ∃ rest, B ++ [s._manager._first] = last :: rest :=
    ⟨_, eq_cons_of_head? hlast⟩
  have hl : Linked s.mem (R ++ last :: rest) := by
    have h1 : Linked s.mem ((s._manager._first :: A) ++ (R ++ (B ++ [s._manager._first]))) := by
      have := hwf.1.1
      simpa using this
    have := linked_suffix _ h1
    rwa [hrest] at this
  have hRnd : R.Nodup := (List.nodup_append.1 (List.nodup_append.1 hLnd).1).2.1
  have hnot : last ∉ R := by
    intro hc
    have hmemB : last ∈ B ++ [s._manager._first] := List.mem_of_mem_head? hlast
    rcases List.mem_append.1 hmemB with hb | hb
    · exact (List.nodup_append.1 hLnd).2.2 (List.mem_append_right _ hc) hb
    · rw [List.mem_singleton] at hb
      exact (List.nodup_cons.1 hnd).1 (by rw [← hb]; simp [hc])
  have hit : (R ++ [last]).head? = some first := by
    cases R with
    | nil =>
      simp only [List.nil_append] at hfirst ⊢
      rw [hlast] at hfirst
      simpa using hfirst
    | cons x R => simpa using hfirst
  have hlen : R.length < fuel := by
    simp at hf
    omega
  have hext := erase_replacement_range_extract_run s.mem last R rest fuel s first rfl hwf.2.1
    (fun y hy => (hm y).1 (by simp [hy])) hRnd hl hnot hit hlen
  obtain ⟨sum, hsum⟩ := erase_range_sum_run s._manager s.mem last R rest fuel first 0
    hl hnot hit hlen
  unfold erase_replacement_range
  rw [hext]
  simp only [cache_manager.cache_manager.erase_range, hsum]
  refine ⟨_, _, A ++ B, rfl, (valid_iff_wf _ _).2 ⟨⟨?_, ?_, ?_, ?_, hwf.2.2.2.2⟩, fun y => ?_⟩⟩
  · exact isList_unlink_block hwf.1 hfirst hlast
  · have hk := hwf.2.1
    simp only [keys] at hk ⊢
    exact List.Nodup.sublist ((List.diff_sublist _ _).map _) hk
  · exact fun hc => hwf.2.2.1 (List.diff_subset _ _ hc)
  · exact Nat.mod_lt _ (by decide)
  · simp only
    rw [hmnd.mem_diff_iff, ← hm y]
    have hdis := List.nodup_append.1 hLnd
    have hdis2 := List.nodup_append.1 hdis.1
    simp only [List.mem_append]
    constructor
    · rintro (hy | hy)
      · exact ⟨Or.inl (Or.inl hy), fun hc => hdis2.2.2 hy hc⟩
      · exact ⟨Or.inr hy, fun hc => hdis.2.2 (List.mem_append_right _ hc) hy⟩
    · rintro ⟨(hy | hy) | hy, hne⟩
      · exact Or.inl hy
      · exact absurd hy hne
      · exact Or.inr hy

end unordered_map

end limited

end extended_containers

namespace extended_containers

namespace limited

open cache_manager

variable {Key V : Type} [DecidableEq Key]

theorem outcome_some {α σ : Type} (r : Except error α) (s : σ) :
    ∃ e, outcome (some (r, s)) = some (e, s) := by
  cases r with
  | error e => exact ⟨some e, rfl⟩
  | ok a => exact ⟨none, rfl⟩

theorem emplace_eq_insert (fuel : Nat) (s : unordered_map Key V) (p : Ptr) (key : Key)
    (value : V) : s.emplace fuel p key value = s.insert fuel p (key, value) := rfl

/-- A lookup that calls the access hook on a hit keeps the map valid. -/
theorem valid_access_found {s : unordered_map Key V} {L : List Ptr} (hv : s.Valid L)
    (key : Key) :
    ∃ L', (match s._map_find key with
      | some it => s.manager_access it
      | none => s).Valid L' := by
  cases hk : s._map_find key with
  | none => exact ⟨L, hv⟩
  | some it => exact unordered_map.valid_manager_access hv it (s._map_find_some key it hk).1

theorem valid_subscript_value (fuel : Nat) (s : unordered_map Key V) (L : List Ptr) (p : Ptr)
    (value : Key × V) (hv : s.Valid L) (hp : p ∉ s._manager._first :: s._map)
    (hf : L.length < fuel) :
    ∃ r s' L', s.subscript_value fuel p value = some (r, s') ∧ s'.Valid L' := by
  unfold unordered_map.subscript_value
  cases hk : s._map_find value.1 with
  | none =>
    obtain ⟨r, s', L', hr, hv'⟩ := unordered_map.valid_insert fuel s L p value hv hp hf
    simp only [hr]
    cases r with
    | error e => exact ⟨_, s', L', rfl, hv'⟩
    | ok u => exact ⟨_, s', L', rfl, hv'⟩
  | some it =>
    obtain ⟨L', hv'⟩ := unordered_map.valid_manager_access hv it (s._map_find_some _ it hk).1
    exact ⟨_, _, L', rfl, hv'⟩

theorem valid_insert_or_assign (fuel : Nat) (s : unordered_map Key V) (L : List Ptr) (p : Ptr)
    (k : Key) (obj : V) (hv : s.Valid L) (hp : p ∉ s._manager._first :: s._map)
    (hf : L.length < fuel) :
    ∃ r s' L', s.insert_or_assign fuel p k obj = some (r, s') ∧ s'.Valid L' := by
  unfold unordered_map.insert_or_assign
  cases hk : s._map_find k with
  | none => exact unordered_map.valid_insert fuel s L p (k, obj) hv hp hf
  | some it =>
    obtain ⟨r, s', L', hr, hv'⟩ := unordered_map.valid_assign fuel s L it obj hv
      (s._map_find_some _ it hk).1 hf
    simp only [hr]
    cases r with
    | error e => exact ⟨_, s', L', rfl, hv'⟩
    | ok u => exact ⟨_, s', L', rfl, hv'⟩

/-- Every public operation, called with admissible arguments on a valid map with enough
fuel, returns or throws and leaves a valid map. -/
theorem step_valid [Inhabited V] (fuel : Nat) (s : unordered_map Key V) (L : List Ptr)
    (op : Op Key V) (hv : s.Valid L) (ha : op.admissible s L) (hf : L.length < fuel) :
    ∃ r s' L', step fuel s op = some (r, s') ∧ s'.Valid L' := by
  have wrap : ∀ {α : Type} (x : Option (Except error α × unordered_map Key V)),
      (∃ r s' L', x = some (r, s') ∧ s'.Valid L') →
      ∃ r s' L', outcome x = some (r, s') ∧ s'.Valid L' := by
    rintro α x ⟨r, s', L', rfl, hv'⟩
    obtain ⟨e, he⟩ := outcome_some r s'
    exact ⟨e, s', L', he, hv'⟩
  cases op with
  | insert p value => exact wrap _ (unordered_map.valid_insert fuel s L p value hv ha hf)
  | emplace p key value =>
    exact wrap _ (unordered_map.valid_insert fuel s L p (key, value) hv ha hf)
  | try_emplace p key value =>
    exact wrap _ (unordered_map.valid_insert fuel s L p (key, value) hv ha hf)
  | insert_node nh => exact wrap _ (unordered_map.valid_insert_node fuel s L nh hv ha hf)
  | insert_range range =>
    exact wrap _ (unordered_map.valid_insert_range fuel s L range hv ha.1 ha.2 hf)
  | insert_or_assign p k obj => exact wrap _ (valid_insert_or_assign fuel s L p k obj hv ha hf)
  | assign position obj =>
    exact wrap _ (unordered_map.valid_assign fuel s L position obj hv ha hf)
  | extract pos => exact ⟨none, _, _, rfl, unordered_map.valid_erase_node hv pos ha⟩
  | extract_key key =>
    cases hk : s._map_find key with
    | none => exact ⟨none, s, L, by simp [step, unordered_map.extract_key, hk], hv⟩
    | some it =>
      exact ⟨none, _, _, by simp [step, unordered_map.extract_key, hk],
        unordered_map.valid_erase_node hv it (s._map_find_some _ it hk).1⟩
  | erase position => exact ⟨none, _, _, rfl, unordered_map.valid_erase_node hv position ha⟩
  | erase_replacement position =>
    refine ⟨none, _, L.erase position, rfl, ?_⟩
    have hv1 := unordered_map.valid_erase_node hv position ha
    have hk : (s.manager_erase position).1.keys.Nodup := by
      have := (unordered_map.wf_manager_erase (unordered_map.wf_of_valid hv) position
        (hv.2.1.symm.subset ha)).1
      exact this.2.1
    have hmem : position ∈ (s.manager_erase position).1._map := by
      rw [(unordered_map.manager_erase_fields s position).2.2.2]
      exact ha
    have hfst : (s.manager_erase position).1.mem.first position = s.mem.first position := by
      rw [(unordered_map.manager_erase_fields s position).2.1]
      rfl
    have := unordered_map._map_erase_key_of_mem (s.manager_erase position).1 position hk hmem
    rw [hfst] at this
    simp only [unordered_map.erase_replacement, this]
    exact hv1
  | erase_key key =>
    cases hk : s._map_find key with
    | none => exact ⟨none, s, L, by simp [step, unordered_map.erase_key, hk], hv⟩
    | some it =>
      exact ⟨none, _, _, by simp [step, unordered_map.erase_key, hk],
        unordered_map.valid_erase_node hv it (s._map_find_some _ it hk).1⟩
  | erase_index_range range =>
    exact ⟨none, _, _, rfl, unordered_map.valid_erase_index_range s L range hv ha⟩
  | erase_replacement_range first last =>
    obtain ⟨r, s', L', hr, hv'⟩ :=
      unordered_map.valid_erase_replacement_range fuel s L first last hv ha hf
    exact ⟨none, s', L', by simp [step, hr], hv'⟩
  | clear => exact ⟨none, _, _, rfl, unordered_map.valid_clear hv⟩
  | provide_space space =>
    apply wrap
    obtain ⟨b, s', L', hr, hv'⟩ := unordered_map.valid_provideSpace fuel s space L hv hf
    unfold unordered_map.provide_space
    rw [hr]
    cases b with
    | false => exact ⟨_, s', L', rfl, hv'⟩
    | true => exact ⟨_, s', L', rfl, hv'⟩
  | free_space space =>
    apply wrap
    obtain ⟨b, s', L', hr, hv'⟩ := unordered_map.valid_freeSpace fuel s space L hv hf
    unfold unordered_map.free_space
    rw [hr]
    cases b with
    | false => exact ⟨_, s', L', rfl, hv'⟩
    | true => exact ⟨_, s', L', rfl, hv'⟩
  | access_key key =>
    obtain ⟨L', hv'⟩ := valid_access_found hv key
    exact ⟨none, _, L', rfl, hv'⟩
  | access pos =>
    obtain ⟨L', hv'⟩ := unordered_map.valid_manager_access hv pos ha
    exact ⟨none, _, L', rfl, hv'⟩
  | find key =>
    obtain ⟨L', hv'⟩ := valid_access_found hv key
    refine ⟨none, _, L', rfl, ?_⟩
    simp only [unordered_map.find]
    cases hk : s._map_find key <;> simpa [hk] using hv'
  | replacement_find key =>
    obtain ⟨L', hv'⟩ := valid_access_found hv key
    refine ⟨none, _, L', rfl, ?_⟩
    simp only [unordered_map.replacement_find]
    cases hk : s._map_find key <;> simpa [hk] using hv'
  | count key =>
    obtain ⟨L', hv'⟩ := valid_access_found hv key
    refine ⟨none, _, L', rfl, ?_⟩
    simp only [unordered_map.count]
    cases hk : s._map_find key <;> simpa [hk] using hv'
  | contains key =>
    obtain ⟨L', hv'⟩ := valid_access_found hv key
    refine ⟨none, _, L', rfl, ?_⟩
    simp only [unordered_map.contains]
    cases hk : s._map_find key <;> simpa [hk] using hv'
  | equal_range key =>
    obtain ⟨L', hv'⟩ := valid_access_found hv key
    refine ⟨none, _, L', rfl, ?_⟩
    simp only [unordered_map.equal_range]
    cases hk : s._map_find key <;> simpa [hk] using hv'
  | subscript_value p value => exact wrap _ (valid_subscript_value fuel s L p value hv ha hf)
  | subscript p key =>
    exact wrap _ (valid_subscript_value fuel s L p (key, default) hv ha hf)
  | at_ key =>
    apply wrap
    obtain ⟨L', hv'⟩ := valid_access_found hv key
    refine ⟨_, _, L', rfl, ?_⟩
    simp only [unordered_map.at_]
    cases hk : s._map_find key <;> simpa [hk] using hv'
  | quiet_find key => exact ⟨none, s, L, rfl, hv⟩
  | quiet_replacement_find key => exact ⟨none, s, L, rfl, hv⟩
  | quiet_count key => exact ⟨none, s, L, rfl, hv⟩
  | quiet_contains key => exact ⟨none, s, L, rfl, hv⟩
  | quiet_equal_range key => exact ⟨none, s, L, rfl, hv⟩
  | quiet_at key => exact wrap _ ⟨_, s, L, rfl, hv⟩

end limited

end extended_containers

namespace cache_manager

variable {T : Type}

/-! ## The Locked policy -/

/-- The scan of `locked_policy::erase_position` along a linked run of nodes returns the
first node whose value is not locked, and `last` when there is none. -/
theorem locked_erase_run_eq (locker : T → Bool) (m : Mem T) (s : Ptr) :
    ∀ (R : List Ptr) (fuel : Nat) (it : Ptr), (R ++ [s]).head? = some it →
      Linked m (R ++ [s]) → s ∉ R → R.length < fuel →
      policy.locked_policy.erase_position locker m s fuel it
        = some ((R.find? (fun q => !locker (m.first q))).getD s) := by
  intro R
  induction R with
  | nil =>
    intro fuel it hit _ _ hf
    cases fuel with
    | zero => simp at hf
    | succ fuel =>
      have : it = s := by simpa using hit.symm
      simp [policy.locked_policy.erase_position, this]
  | cons a R ih =>
    intro fuel it hit hl hs hf
    cases fuel with
    | zero => simp at hf
    | succ fuel =>
      have hita : it = a := by simpa using hit.symm
      subst hita
      have has : it ≠ s := by
        rintro rfl
        exact hs (by simp)
      simp only [policy.locked_policy.erase_position]
      rw [if_pos has]
      by_cases hlock : locker (m.first it) = true
      · simp only [hlock, Bool.not_true, Bool.false_eq_true, if_false]
        rw [ih fuel (m.next it) (linked_next_head hl) (linked_tail hl)
          (fun hc => hs (by simp [hc])) (by simpa using hf)]
        rw [List.find?_cons_of_neg _ (by simp [hlock])]
      · simp [hlock]

theorem next_locked (c : cache_manager T) (par : policy.parent_policy) (locker : T → Bool)
    (hpol : c._policy = .locked_policy par locker) {m : Mem T} {L : List Ptr}
    (h : IsList m c._first L) (fuel : Nat) (hf : L.length < fuel) :
    c.next m fuel = some ((L.find? (fun q => !locker (m.first q))).getD c._first) := by
  unfold cache_manager.next
  have hhead := (isList_sentinel h).1
  by_cases hb : c.cbegin m = c.cend
  · rw [if_pos hb]
    have : L = [] := by
      cases L with
      | nil => rfl
      | cons a L =>
        exfalso
        have e : a = c._first := by
          have h1 : a = m.next c._first := by simpa using hhead
          rw [h1]
          exact hb
        exact isList_not_mem h (by rw [e]; simp)
    subst this
    rfl
  · rw [if_neg hb]
    simp only [policy.policy_extractor.erase_position, policy.provides_erase_v, hpol, if_true]
    exact locked_erase_run_eq locker m c._first L fuel _ hhead (linked_tail h.1)
      (isList_not_mem h) hf

theorem next_hint_locked (c : cache_manager T) (par : policy.parent_policy) (locker : T → Bool)
    (hpol : c._policy = .locked_policy par locker) {m : Mem T} {B : List Ptr}
    (hl : Linked m (B ++ [c._first])) (hs : c._first ∉ B) (hint : Ptr)
    (hhint : (B ++ [c._first]).head? = some hint) (fuel : Nat) (hf : B.length < fuel) :
    c.next_hint m fuel hint
      = some ((B.find? (fun q => !locker (m.first q))).getD c._first) := by
  unfold cache_manager.next_hint
  by_cases hb : hint = c.cend
  · rw [if_pos hb]
    have : B = [] := by
      cases B with
      | nil => rfl
      | cons a B =>
        exfalso
        have e : a = c._first := by
          have h1 : a = hint := by simpa using hhint
          rw [h1]
          exact hb
        exact hs (by rw [e]; simp)
    subst this
    rfl
  · rw [if_neg hb]
    simp only [policy.policy_extractor.erase_position, policy.provides_erase_v, hpol, if_true]
    exact locked_erase_run_eq locker m c._first B fuel _ hhint hl hs hf

end cache_manager

namespace cache_manager

variable {T : Type}

/-! ## The Priority policy -/

/-- The first loop of `priority_policy::erase_position` on a run of nodes that all have
priority `max()` ends with `return last`. -/
theorem priority_skip_all (locker : T → Nat) (m : Mem T) (s : Ptr) :
    ∀ (R : List Ptr) (fuel : Nat) (a : Ptr),
      Linked m (a :: R ++ [s]) → s ∉ R → R.length < fuel →
      (∀ q ∈ a :: R, locker (m.first q) % SIZE = policy.priority_max) →
      policy.priority_policy.skip_max locker m s fuel a = some (Sum.inl s) := by
  intro R
  induction R with
  | nil =>
    intro fuel a hl _ hf hall
    cases fuel with
    | zero => simp at hf
    | succ fuel =>
      have hn : m.next a = s := hl.1.1
      simp [policy.priority_policy.skip_max, hall a (by simp), hn]
  | cons b R ih =>
    intro fuel a hl hs hf hall
    cases fuel with
    | zero => simp at hf
    | succ fuel =>
      have hn : m.next a = b := hl.1.1
      have hbs : b ≠ s := by
        rintro rfl
        exact hs (by simp)
      simp only [policy.priority_policy.skip_max]
      rw [if_pos (hall a (by simp))]
      simp only [hn, hbs, if_false]
      exact ih fuel b (linked_tail hl) (fun hc => hs (by simp [hc])) (by simpa using hf)
        (fun q hq => hall q (List.mem_cons_of_mem _ hq))

/-- The first loop of `priority_policy::erase_position` stops on the first node whose
priority is not `max()`. -/
theorem priority_skip_first (locker : T → Nat) (m : Mem T) (s : Ptr) :
    ∀ (A : List Ptr) (x : Ptr) (B : List Ptr) (fuel : Nat) (a : Ptr),
      (A ++ x :: B).head? = some a →
      Linked m (A ++ x :: B ++ [s]) → s ∉ A ++ x :: B → (A ++ x :: B).length ≤ fuel →
      (∀ q ∈ A, locker (m.first q) % SIZE = policy.priority_max) →
      locker (m.first x) % SIZE ≠ policy.priority_max →
      policy.priority_policy.skip_max locker m s fuel a = some (Sum.inr x) := by
  intro A
  induction A with
  | nil =>
    intro x B fuel a ha hl _ hf _ hx
    cases fuel with
    | zero => simp at hf
    | succ fuel =>
      have : a = x := by simpa using ha.symm
      subst this
      simp [policy.priority_policy.skip_max, hx]
  | cons b A ih =>
    intro x B fuel a ha hl hs hf hall hx
    cases fuel with
    | zero => simp at hf
    | succ fuel =>
      have : a = b := by simpa using ha.symm
      subst this
      have hl' : Linked m (a :: (A ++ x :: B) ++ [s]) := by simpa using hl
      have hnext : ((A ++ x :: B) ++ [s]).head? = some (m.next a) := linked_next_head hl'
      have hnext' : (A ++ x :: B).head? = some (m.next a) := by
        cases A with
        | nil => simpa using hnext
        | cons y A => simpa using hnext
      have hns : m.next a ≠ s := by
        intro hc
        rw [hc] at hnext'
        exact hs (List.mem_cons_of_mem _ (List.mem_of_mem_head? hnext'))
      simp only [policy.priority_policy.skip_max]
      rw [if_pos (hall a (by simp))]
      simp only [hns, if_false]
      exact ih x B fuel (m.next a) hnext' (by simpa using linked_tail hl')
        (fun hc => hs (List.mem_cons_of_mem _ hc)) (by simpa using hf)
        (fun q hq => hall q (List.mem_cons_of_mem _ hq)) hx

/-- The second loop of `priority_policy::erase_position` returns the candidate it was
given or a later node whose priority is below the current priority. -/
theorem priority_scan_lower (locker : T → Nat) (m : Mem T) (s : Ptr) :
    ∀ (R : List Ptr) (fuel : Nat) (it lowest cur : Nat), (R ++ [s]).head? = some it →
      Linked m (R ++ [s]) → s ∉ R → R.length < fuel →
      ∃ r, policy.priority_policy.scan locker m s fuel it lowest cur = some r ∧
        (r = lowest ∨ (r ∈ R ∧ locker (m.first r) % SIZE < cur)) := by
  intro R
  induction R with
  | nil =>
    intro fuel it lowest cur hit _ _ hf
    cases fuel with
    | zero => simp at hf
    | succ fuel =>
      have : it = s := by simpa using hit.symm
      exact ⟨lowest, by simp [policy.priority_policy.scan, this], Or.inl rfl⟩
  | cons a R ih =>
    intro fuel it lowest cur hit hl hs hf
    cases fuel with
    | zero => simp at hf
    | succ fuel =>
      have hita : it = a := by simpa using hit.symm
      subst hita
      simp only [policy.priority_policy.scan]
      by_cases hc : cur > policy.priority_min ∧ it ≠ s
      · rw [if_pos hc]
        by_cases hp : locker (m.first it) % SIZE < cur
        · rw [if_pos hp]
          obtain ⟨r, hr, hmem⟩ := ih fuel (m.next it) it (locker (m.first it) % SIZE)
            (linked_next_head hl) (linked_tail hl) (fun hc => hs (by simp [hc]))
            (by simpa using hf)
          refine ⟨r, hr, ?_⟩
          rcases hmem with h | ⟨h, hlt⟩
          · exact Or.inr ⟨by simp [h], by rw [h]; exact hp⟩
          · exact Or.inr ⟨by simp [h], by omega⟩
        · rw [if_neg hp]
          obtain ⟨r, hr, hmem⟩ := ih fuel (m.next it) lowest (cur - 1)
            (linked_next_head hl) (linked_tail hl) (fun hc => hs (by simp [hc]))
            (by simpa using hf)
          refine ⟨r, hr, ?_⟩
          rcases hmem with h | ⟨h, hlt⟩
          · exact Or.inl h
          · exact Or.inr ⟨by simp [h], by omega⟩
      · rw [if_neg hc]
        exact ⟨lowest, rfl, Or.inl rfl⟩

/-- The second loop of `priority_policy::erase_position` along a block of nodes whose
priorities are not below the current priority, which is greater than the length of the
block: the candidate stays and the current priority drops by one per node. -/
theorem priority_scan_block (locker : T → Nat) (m : Mem T) (s : Ptr) :
    ∀ (Ps : List Ptr) (rest : List Ptr) (fuel : Nat) (it it1 lowest cur : Nat),
      (Ps ++ rest).head? = some it → rest.head? = some it1 →
      Linked m (Ps ++ rest) → s ∉ Ps → Ps.length < fuel → Ps.length < cur →
      (∀ q ∈ Ps, cur ≤ locker (m.first q) % SIZE) →
      policy.priority_policy.scan locker m s fuel it lowest cur
        = policy.priority_policy.scan locker m s (fuel - Ps.length) it1 lowest
            (cur - Ps.length) := by
  intro Ps
  induction Ps with
  | nil =>
    intro rest fuel it it1 lowest cur hit hit1 _ _ _ _ _
    simp only [List.nil_append] at hit
    rw [hit] at hit1
    simp only [Option.some.injEq] at hit1
    subst hit1
    simp
  | cons a Ps ih =>
    intro rest fuel it it1 lowest cur hit hit1 hl hs hf hcur hall
    cases fuel with
    | zero => simp at hf
    | succ fuel =>
      have hita : it = a := by simpa using hit.symm
      subst hita
      have has : it ≠ s := by
        rintro rfl
        exact hs (by simp)
      have hnext : (Ps ++ rest).head? = some (m.next it) := by
        cases hPr : Ps ++ rest with
        | nil =>
          exfalso
          have : rest = [] := (List.append_eq_nil.1 hPr).2
          rw [this] at hit1
          simp at hit1
        | cons y Y =>
          have hl' : Linked m (it :: y :: Y) := by
            rw [← hPr]
            exact hl
          simp [hl'.1.1]
      have hl1 : Linked m (Ps ++ rest) := linked_tail hl
      simp only [List.length_cons] at hf hcur
      simp only [policy.priority_policy.scan]
      rw [if_pos ⟨by simp [policy.priority_min]; omega, has⟩]
      have hp : ¬ locker (m.first it) % SIZE < cur := by
        have := hall it (by simp)
        omega
      rw [if_neg hp]
      rw [ih rest fuel (m.next it) it1 lowest (cur - 1) hnext hit1 hl1
        (fun hc => hs (List.mem_cons_of_mem _ hc)) (by omega) (by omega)
        (fun q hq => by
          have := hall q (List.mem_cons_of_mem _ hq)
          omega)]
      simp only [List.length_cons]
      congr 1
      · omega
      · omega

end cache_manager

namespace cache_manager

variable {T : Type}

/-- One iteration of the second loop of `priority_policy::erase_position`. -/
theorem priority_scan_succ (locker : T → Nat) (m : Mem T) (s : Ptr) (fuel : Nat)
    (it lowest cur : Nat) :
    policy.priority_policy.scan locker m s (fuel + 1) it lowest cur =
      if cur > policy.priority_min ∧ it ≠ s then
        if locker (m.first it) % SIZE < cur then
          policy.priority_policy.scan locker m s fuel (m.next it) it
            (locker (m.first it) % SIZE)
        else policy.priority_policy.scan locker m s fuel (m.next it) lowest (cur - 1)
      else some lowest := rfl

end cache_manager

namespace extended_containers

namespace limited

namespace unordered_map

open cache_manager

variable {Key V : Type} [DecidableEq Key]

/-! ## The eviction loop under the Locked policy -/

/-- Taking the nodes `x :: T` out of a list `A ++ x :: B` without repetition. -/
theorem filter_not_mem_cons {A B T : List Ptr} {x : Ptr} (hnd : (A ++ x :: B).Nodup) :
    (A ++ x :: B).filter (fun q => decide (q ∉ x :: T))
      = (A ++ B).filter (fun q => decide (q ∉ T)) := by
  have hx : x ∉ A ++ B := by
    have := List.nodup_middle.1 hnd
    exact (List.nodup_cons.1 this).1
  have hcongr : ∀ (M : List Ptr), x ∉ M →
      M.filter (fun q => decide (q ∉ x :: T)) = M.filter (fun q => decide (q ∉ T)) := by
    intro M hM
    apply List.filter_congr
    intro q hq
    have : q ≠ x := fun hc => hM (hc ▸ hq)
    simp [this]
  rw [List.filter_append, List.filter_append, List.filter_cons_of_neg (by simp),
    hcongr A (fun hc => hx (List.mem_append_left _ hc)),
    hcongr B (fun hc => hx (List.mem_append_right _ hc))]

/-- The eviction loop under the Locked policy on a valid and accounted list, entered with
the first entry that is not locked (or `end`): it succeeds if and only if the entries that
are not locked hold the missing weight, and then it evicts the shortest initial segment of
them that reaches `weight`; otherwise it rewinds. -/
theorem freeSpace_loop_locked (s0 : unordered_map Key V) (budget weight : Nat)
    (par : policy.parent_policy) (locker : Key × V → Bool) (val : Ptr → Key × V) :
    ∀ (n : Nat) (L : List Ptr) (fuel : Nat) (s : unordered_map Key V) (freed : Nat)
      (removed : List Ptr) (next : Ptr),
      (L.filter (fun q => !locker (val q))).length = n →
      IsList s.mem s._manager._first L →
      s._manager._policy = .locked_policy par locker → s.mem.first = val →
      s._manager._weight = s._manager.total s.mem L →
      freed + s._manager.total s.mem L < SIZE →
      next = (L.find? (fun q => !locker (val q))).getD s._manager._first →
      L.length < fuel → L.length < budget → s.freeSpace_rewind removed = s0 →
      (weight ≤ freed + s._manager.total s.mem (L.filter (fun q => !locker (val q))) →
        ∃ (k : Nat) (s1 : unordered_map Key V),
          k ≤ (L.filter (fun q => !locker (val q))).length ∧
          weight ≤ freed +
            s._manager.total s.mem ((L.filter (fun q => !locker (val q))).take k) ∧
          (∀ j, j < k → freed +
            s._manager.total s.mem ((L.filter (fun q => !locker (val q))).take j) < weight) ∧
          freeSpace_loop budget weight fuel s freed removed next
            = some (true, s1.freeSpace_drop
                (removed ++ (L.filter (fun q => !locker (val q))).take k)) ∧
          IsList s1.mem s1._manager._first (L.filter (fun q =>
            decide (q ∉ (L.filter (fun q => !locker (val q))).take k))) ∧
          s1._map = s._map ∧ s1.mem.first = s.mem.first ∧
          s1._manager = { s._manager with _weight := s._manager.total s.mem (L.filter
            (fun q => decide (q ∉ (L.filter (fun q => !locker (val q))).take k))) }) ∧
      (freed + s._manager.total s.mem (L.filter (fun q => !locker (val q))) < weight →
        freeSpace_loop budget weight fuel s freed removed next = some (false, s0)) := by
  intro n
  induction n with
  | zero =>
    intro L fuel s freed removed next hn hL hpol hval hW hlt hnext hf hb hrew
    obtain ⟨fuel, rfl⟩ : ∃ k, fuel = k + 1 := ⟨fuel - 1, by omega⟩
    have hU : L.filter (fun q => !locker (val q)) = [] := List.length_eq_zero.1 hn
    have hfind : L.find? (fun q => !locker (val q)) = none := by
      rw [List.find?_eq_none]
      exact fun x hx => (List.filter_eq_nil_iff.1 hU) x hx
    rw [hU, total_nil]
    constructor
    · intro hw
      have hnf : ¬ freed < weight := by omega
      refine ⟨0, s, le_refl _, by simpa [total_nil] using hw, fun j hj => by omega, ?_, ?_,
        rfl, rfl, ?_⟩
      · unfold freeSpace_loop
        rw [if_neg hnf]
        simp
      · simpa using hL
      · simp [← hW]
    · intro hw
      have hfw : freed < weight := by omega
      unfold freeSpace_loop
      rw [if_pos hfw]
      have hne : next = s._manager.end_ := by rw [hnext, hfind]; rfl
      rw [if_pos hne, next_locked s._manager par locker hpol hL budget hb, hval, hfind]
      simp only [Option.getD_none]
      rw [if_pos (show s._manager._first = s._manager.end_ from rfl), hrew]
  | succ n ih =>
    intro L fuel s freed removed next hn hL hpol hval hW hlt hnext hf hb hrew
    obtain ⟨fuel, rfl⟩ : ∃ k, fuel = k + 1 := ⟨fuel - 1, by omega⟩
    by_cases hfw : freed < weight
    · -- the first entry that is not locked
      obtain ⟨x, hfind⟩ : ∃ x, L.find? (fun q => !locker (val q)) = some x := by
        cases hfind : L.find? (fun q => !locker (val q)) with
        | some x => exact ⟨x, rfl⟩
        | none =>
          exfalso
          have : L.filter (fun q => !locker (val q)) = [] := by
            rw [List.filter_eq_nil_iff]
            exact List.find?_eq_none.1 hfind
          rw [this] at hn
          simp at hn
      obtain ⟨hpx, A, B, rfl, hA⟩ := List.find?_eq_some.1 hfind
      have hAf : A.filter (fun q => !locker (val q)) = [] := by
        rw [List.filter_eq_nil_iff]
        intro a ha
        have := hA a ha
        simpa using this
      have hUeq : (A ++ x :: B).filter (fun q => !locker (val q))
          = x :: B.filter (fun q => !locker (val q)) := by
        rw [List.filter_append, hAf, List.nil_append]
        simp only [List.filter_cons, hpx, if_true]
      have hU' : (A ++ B).filter (fun q => !locker (val q))
          = B.filter (fun q => !locker (val q)) := by
        rw [List.filter_append, hAf, List.nil_append]
      have hfind' : (A ++ B).find? (fun q => !locker (val q))
          = B.find? (fun q => !locker (val q)) := by
        rw [List.find?_append]
        have : A.find? (fun q => !locker (val q)) = none := by
          rw [List.find?_eq_none]
          exact List.filter_eq_nil_iff.1 hAf
        rw [this]
        rfl
      have hnx : next = x := by rw [hnext, hfind]; rfl
      subst hnx
      have hxL : next ∈ A ++ next :: B := by simp
      have hxs : next ≠ s._manager._first := fun e => isList_not_mem hL (e ▸ hxL)
      have hnd : (A ++ next :: B).Nodup := (List.nodup_cons.1 hL.2).2
      obtain ⟨hef, hem, hec, hemap⟩ := manager_erase_fields s next
      have hfirst1 : (s.manager_erase next).1._manager._first = s._manager._first := by
        rw [hec]
      have hL1 : IsList (s.manager_erase next).1.mem
          (s.manager_erase next).1._manager._first (A ++ B) := by
        rw [hem, hfirst1]; exact isList_unlink hL
      have hpol1 : (s.manager_erase next).1._manager._policy = .locked_policy par locker := by
        rw [hec]; exact hpol
      have hval1 : (s.manager_erase next).1.mem.first = val := by
        rw [hem]; exact hval
      have htot1 : ∀ M, (s.manager_erase next).1._manager.total
          (s.manager_erase next).1.mem M = s._manager.total s.mem M := by
        intro M
        refine total_congr _ _ _ _ M (by rw [hec]) (by rw [hem]; rfl)
      have htotL : s._manager.total s.mem (A ++ next :: B)
          = s._manager.calculate_weight (s.mem.first next) + s._manager.total s.mem (A ++ B) := by
        rw [total_append, total_cons, total_append]
        omega
      have hW1 : (s.manager_erase next).1._manager._weight
          = (s.manager_erase next).1._manager.total (s.manager_erase next).1.mem (A ++ B) := by
        rw [htot1, hec]
        simp only []
        rw [hW, htotL]
        have : s._manager.calculate_weight (s.mem.first next) + s._manager.total s.mem (A ++ B)
            + SIZE - s._manager.calculate_weight (s.mem.first next)
            = s._manager.total s.mem (A ++ B) + SIZE := by omega
        rw [this, Nat.add_mod_right]
        exact Nat.mod_eq_of_lt (by omega)
      have hfreed1 : (freed + s._manager.calculate_weight (s.mem.first next)) % SIZE
          = freed + s._manager.calculate_weight (s.mem.first next) :=
        Nat.mod_eq_of_lt (by omega)
      have hlB : Linked (s.manager_erase next).1.mem
          (B ++ [(s.manager_erase next).1._manager._first]) := by
        have h1 : Linked (s.manager_erase next).1.mem
            ((s._manager._first :: A) ++ (B ++ [(s.manager_erase next).1._manager._first])) := by
          have := hL1.1
          rw [hfirst1] at this ⊢
          simpa using this
        exact linked_suffix _ h1
      have hsB : (s.manager_erase next).1._manager._first ∉ B := by
        rw [hfirst1]
        exact fun hc => isList_not_mem hL (by simp [hc])
      have hhint : (B ++ [(s.manager_erase next).1._manager._first]).head?
          = some (s.manager_erase next).2 := by
        rw [hef, hfirst1]
        exact (isList_mid hL).2
      have hnext2 := next_hint_locked (s.manager_erase next).1._manager par locker hpol1 hlB
        hsB (s.manager_erase next).2 hhint budget (by simp at hb; omega)
      rw [hval1] at hnext2
      obtain ⟨h1, h2⟩ := isList_symm hL hxL
      have hrew1 : (s.manager_erase next).1.freeSpace_rewind (removed ++ [next]) = s0 := by
        rw [rewind_snoc, reinsert_erase_state s next (by rw [hW]; omega) h1 h2]
        exact hrew
      have hn1 : ((A ++ B).filter (fun q => !locker (val q))).length = n := by
        rw [hU']
        rw [hUeq] at hn
        simpa using hn
      obtain ⟨ihs, ihf⟩ := ih (A ++ B) fuel (s.manager_erase next).1
        (freed + s._manager.calculate_weight (s.mem.first next)) (removed ++ [next])
        ((B.find? (fun q => !locker (val q))).getD (s.manager_erase next).1._manager._first)
        hn1 hL1 hpol1 hval1 hW1 (by rw [htot1]; omega)
        (by rw [hfind']) (by simp at hf ⊢; omega) (by simp at hb ⊢; omega) hrew1
      have hloop : freeSpace_loop budget weight (fuel + 1) s freed removed next
          = freeSpace_loop budget weight fuel (s.manager_erase next).1
              (freed + s._manager.calculate_weight (s.mem.first next)) (removed ++ [next])
              ((B.find? (fun q => !locker (val q))).getD
                (s.manager_erase next).1._manager._first) := by
        rw [freeSpace_loop]
        rw [if_pos hfw]
        have hne : ¬ next = s._manager.end_ := hxs
        simp only [hne, if_false]
        rw [hnext2, hfreed1]
      rw [hloop, hUeq]
      constructor
      · intro hw
        rw [total_cons] at hw
        obtain ⟨k, s1, hk, hge, hmin, hres, hl1, hmap1, hfst1, hmgr1⟩ := ihs (by
          rw [htot1, hU']; omega)
        rw [hU'] at hk hge hmin hres hl1 hmgr1
        rw [htot1] at hge
        refine ⟨k + 1, s1, by simpa using hk, ?_, ?_, ?_, ?_, ?_, ?_, ?_⟩
        · rw [List.take_succ_cons, total_cons]
          omega
        · intro j hj
          cases j with
          | zero => simpa [total_nil] using hfw
          | succ j =>
            rw [List.take_succ_cons, total_cons]
            have := hmin j (by omega)
            rw [htot1] at this
            omega
        · rw [hres]
          simp
        · have : s1._manager._first = s._manager._first := by rw [hmgr1]; exact hfirst1
          rw [this, List.take_succ_cons, filter_not_mem_cons hnd]
          rw [this] at hl1
          exact hl1
        · rw [hmap1, hemap]
        · rw [hfst1, hem]; rfl
        · rw [hmgr1, htot1, hec, List.take_succ_cons, filter_not_mem_cons hnd]
      · intro hw
        rw [total_cons] at hw
        exact ihf (by rw [htot1, hU']; omega)
    · constructor
      · intro hw
        refine ⟨0, s, by simp, by simp [total_nil]; omega, fun j hj => by omega, ?_, ?_,
          rfl, rfl, ?_⟩
        · unfold freeSpace_loop
          rw [if_neg hfw]
          simp
        · simpa using hL
        · simp [← hW]
      · intro hw
        omega

end unordered_map

end limited

end extended_containers

namespace extended_containers

namespace limited

namespace unordered_map

open cache_manager

variable {Key V : Type} [DecidableEq Key]

theorem total_filter_le {T : Type} (c : cache_manager.cache_manager T) (m : Mem T)
    (p : Ptr → Bool) : ∀ (L : List Ptr), c.total m (L.filter p) ≤ c.total m L := by
  intro L
  induction L with
  | nil => simp
  | cons a L ih =>
    by_cases h : p a = true
    · rw [List.filter_cons_of_pos h, total_cons, total_cons]
      omega
    · rw [List.filter_cons_of_neg h, total_cons]
      omega

theorem total_perm {T : Type} (c : cache_manager.cache_manager T) (m : Mem T)
    {L L' : List Ptr} (h : L.Perm L') : c.total m L = c.total m L' := by
  simp only [cache_manager.total]
  exact (h.map _).sum_eq

/-- A list without repetition splits into the nodes `E` taken out of it and the rest, which
keeps its order. -/
theorem perm_filter_not_mem {L E : List Ptr} (hL : L.Nodup) (hE : E.Nodup)
    (hsub : ∀ x ∈ E, x ∈ L) : (E ++ L.filter (fun q => decide (q ∉ E))).Perm L := by
  rw [List.perm_ext_iff_of_nodup _ hL]
  · intro a
    simp only [List.mem_append, List.mem_filter, decide_eq_true_eq]
    constructor
    · rintro (h | h)
      · exact hsub a h
      · exact h.1
    · intro h
      by_cases ha : a ∈ E
      · exact Or.inl ha
      · exact Or.inr ⟨h, ha⟩
  · rw [List.nodup_append]
    refine ⟨hE, hL.filter _, ?_⟩
    intro a ha hb
    simp only [List.mem_filter, decide_eq_true_eq] at hb
    exact hb.2 ha

/-- Member `freeSpace(weight)` under the Locked policy on a valid and accounted list. -/
theorem freeSpace_locked (fuel : Nat) (s : unordered_map Key V) (weight : Nat)
    (L : List Ptr) (par : policy.parent_policy) (locker : Key × V → Bool)
    (hL : IsList s.mem s._manager._first L)
    (hpol : s._manager._policy = .locked_policy par locker)
    (hW : s._manager._weight = s._manager.total s.mem L) (hlt : s._manager._weight < SIZE)
    (hf : L.length < fuel) :
    (weight ≤ s._manager.total s.mem (L.filter (fun q => !locker (s.mem.first q))) →
      ∃ (k : Nat) (s1 : unordered_map Key V),
        k ≤ (L.filter (fun q => !locker (s.mem.first q))).length ∧
        weight ≤
          s._manager.total s.mem ((L.filter (fun q => !locker (s.mem.first q))).take k) ∧
        (∀ j, j < k →
          s._manager.total s.mem ((L.filter (fun q => !locker (s.mem.first q))).take j)
            < weight) ∧
        s.freeSpace fuel weight
          = some (true, s1.freeSpace_drop
              ((L.filter (fun q => !locker (s.mem.first q))).take k)) ∧
        IsList s1.mem s1._manager._first (L.filter (fun q =>
          decide (q ∉ (L.filter (fun q => !locker (s.mem.first q))).take k))) ∧
        s1._map = s._map ∧ s1.mem.first = s.mem.first ∧
        s1._manager = { s._manager with _weight := s._manager.total s.mem (L.filter
          (fun q => decide (q ∉ (L.filter (fun q => !locker (s.mem.first q))).take k))) }) ∧
    (s._manager.total s.mem (L.filter (fun q => !locker (s.mem.first q))) < weight →
      s.freeSpace fuel weight = some (false, s)) := by
  have hle := total_filter_le s._manager s.mem (fun q => !locker (s.mem.first q)) L
  unfold freeSpace
  by_cases hw : s._manager.weight < weight
  · rw [if_pos hw]
    have hw' : s._manager._weight < weight := hw
    exact ⟨fun h => by omega, fun _ => rfl⟩
  · rw [if_neg hw, next_locked s._manager par locker hpol hL fuel hf]
    simp only []
    obtain ⟨hs, hfail⟩ := freeSpace_loop_locked s fuel weight par locker s.mem.first _ L fuel s
      0 [] _ rfl hL hpol rfl hW (by omega) rfl hf hf rfl
    constructor
    · intro h
      obtain ⟨k, s1, h1, h2, h3, h4, h5⟩ := hs (by omega)
      refine ⟨k, s1, h1, by omega, fun j hj => by have := h3 j hj; omega, ?_, h5⟩
      simpa using h4
    · intro h
      exact hfail (by omega)

end unordered_map

end limited

end extended_containers

namespace extended_containers

namespace limited

namespace unordered_map

open cache_manager

variable {Key V : Type} [DecidableEq Key]

theorem total_unit {T : Type} (c : cache_manager.cache_manager T) (m : Mem T) :
    ∀ (M : List Ptr), (∀ q ∈ M, c.calculate_weight (m.first q) = 1) →
      c.total m M = M.length := by
  intro M
  induction M with
  | nil => intro _; rfl
  | cons a M ih =>
    intro h
    rw [total_cons, h a (by simp), ih (fun q hq => h q (List.mem_cons_of_mem _ hq))]
    simp
    omega

end unordered_map

end limited

end extended_containers

namespace cache_manager

variable {T : Type}

/-! ## Round trips of the manager -/

theorem erase_each_cons (c : cache_manager T) (m : Mem T) (x : Ptr) (E : List Ptr) :
    erase_each c m (x :: E) = erase_each (c.erase m x).1 (c.erase m x).2.1 E := rfl

theorem reinsert_each_append (c : cache_manager T) (m : Mem T) (E : List Ptr) (x : Ptr) :
    reinsert_each c m (E ++ [x])
      = (reinsert_each c m E).1.reinsert (reinsert_each c m E).2 x := by
  simp [reinsert_each, List.foldl_append]

/-- Erasing the entries of `E` one after another unlinks them and keeps the others in
their order; re-inserting them in the opposite order gives the manager and the memory
back. -/
theorem erase_each_reinsert_each :
    ∀ (E : List Ptr) (c : cache_manager T) (m : Mem T) (L : List Ptr),
      IsList m c._first L → c._weight < SIZE → E.Nodup → (∀ x ∈ E, x ∈ L) →
      IsList (erase_each c m E).2 c._first (L.diff E) ∧
        (erase_each c m E).1._first = c._first ∧
        reinsert_each (erase_each c m E).1 (erase_each c m E).2 E.reverse = (c, m) := by
  intro E
  induction E with
  | nil =>
    intro c m L h _ _ _
    exact ⟨h, rfl, rfl⟩
  | cons x E ih =>
    intro c m L h hW hnd hsub
    rw [List.nodup_cons] at hnd
    have hx : x ∈ L := hsub x (by simp)
    obtain ⟨hef, hem, hec⟩ := erase_fields c m x
    have hLnd : L.Nodup := (List.nodup_cons.1 h.2).2
    have hl1 : IsList (c.erase m x).2.1 (c.erase m x).1._first (L.erase x) := by
      obtain ⟨A, B, rfl⟩ := List.append_of_mem hx
      rw [erase_of_split hLnd, hem, hec]
      exact isList_unlink h
    have hW1 : (c.erase m x).1._weight < SIZE := by
      rw [hec]
      exact Nat.mod_lt _ (by decide)
    obtain ⟨hl2, hf2, hr2⟩ := ih (c.erase m x).1 (c.erase m x).2.1 (L.erase x) hl1 hW1 hnd.2
      (fun y hy => (hLnd.mem_erase_iff).2
        ⟨fun hc => hnd.1 (hc ▸ hy), hsub y (List.mem_cons_of_mem _ hy)⟩)
    obtain ⟨h1, h2⟩ := isList_symm h hx
    rw [erase_each_cons, List.reverse_cons, reinsert_each_append, hr2, List.diff_cons]
    refine ⟨?_, ?_, reinsert_erase c m x hW h1 h2⟩
    · have : (c.erase m x).1._first = c._first := by rw [hec]
      rw [← this]
      exact hl2
    · rw [hf2, hec]

/-- On an empty range every built-in `erase_position` answers `last`. -/
theorem erase_position_empty (pol : policy.rep_policy T) (m : Mem T) (s : Ptr) (fuel : Nat)
    (hs : m.next s = s) (hf : 0 < fuel) :
    policy.policy_extractor.erase_position pol m fuel s s = some s := by
  obtain ⟨fuel, rfl⟩ : ∃ k, fuel = k + 1 := ⟨fuel - 1, by omega⟩
  unfold policy.policy_extractor.erase_position
  cases pol with
  | plain par => simp [policy.provides_erase_v]
  | locked_policy par locker =>
    simp [policy.provides_erase_v, policy.locked_policy.erase_position]
  | priority_policy par locker =>
    simp only [policy.provides_erase_v, if_true, policy.priority_policy.erase_position]
    by_cases hmax : locker (m.first s) % SIZE = policy.priority_max
    · simp [policy.priority_policy.skip_max, hmax, hs]
    · simp [policy.priority_policy.skip_max, hmax, policy.priority_policy.scan]

/-- The weight of an entry of a list is part of the total. -/
theorem total_mem_le (c : cache_manager T) (m : Mem T) {L : List Ptr} {x : Ptr}
    (hx : x ∈ L) : c.calculate_weight (m.first x) ≤ c.total m L := by
  obtain ⟨A, B, rfl⟩ := List.append_of_mem hx
  simp only [cache_manager.total, List.map_append, List.map_cons, List.sum_append,
    List.sum_cons]
  omega

theorem total_erase (c : cache_manager T) (m : Mem T) {L : List Ptr} {x : Ptr}
    (hx : x ∈ L) (hnd : L.Nodup) :
    c.total m (L.erase x) + c.calculate_weight (m.first x) = c.total m L := by
  obtain ⟨A, B, rfl⟩ := List.append_of_mem hx
  rw [erase_of_split hnd]
  simp only [cache_manager.total, List.map_append, List.map_cons, List.sum_append,
    List.sum_cons]
  omega

end cache_manager

namespace extended_containers

namespace limited

namespace unordered_map

open cache_manager

variable {Key V : Type} [DecidableEq Key]

/-! ## Removal and return of one entry -/

/-- Removal of an element from both structures on a valid and accounted map. -/
theorem erase_node_accounted {s : unordered_map Key V} {L : List Ptr} (hv : s.Valid L)
    (ha : s.Accounted L) (x : Ptr) (hx : x ∈ s._map) :
    ((s.manager_erase x).1._map_erase x).Valid (L.erase x) ∧
      ((s.manager_erase x).1._map_erase x).Accounted (L.erase x) ∧
      ((s.manager_erase x).1._map_erase x)._map = s._map.erase x ∧
      ((s.manager_erase x).1._map_erase x).mem.first = s.mem.first ∧
      ((s.manager_erase x).1._map_erase x)._manager = { s._manager with
        _weight := s._manager._weight - s._manager.calculate_weight (s.mem.first x) } ∧
      s._manager.calculate_weight (s.mem.first x) ≤ s._manager._weight := by
  obtain ⟨-, hmem, hmgr, hmap⟩ := manager_erase_fields s x
  have hxL : x ∈ L := hv.2.1.symm.subset hx
  have hLnd : L.Nodup := (List.nodup_cons.1 hv.1.2).2
  have hle : s._manager.calculate_weight (s.mem.first x) ≤ s._manager._weight := by
    rw [ha.1]
    exact total_mem_le _ _ hxL
  have hlt : s._manager._weight < SIZE := hv.2.2.2.1
  have hw : (s._manager._weight + SIZE - s._manager.calculate_weight (s.mem.first x)) % SIZE
      = s._manager._weight - s._manager.calculate_weight (s.mem.first x) := by
    have : s._manager._weight + SIZE - s._manager.calculate_weight (s.mem.first x)
        = (s._manager._weight - s._manager.calculate_weight (s.mem.first x)) + SIZE := by
      omega
    rw [this, Nat.add_mod_right]
    exact Nat.mod_eq_of_lt (by omega)
  have hmgr' : ((s.manager_erase x).1._map_erase x)._manager = { s._manager with
      _weight := s._manager._weight - s._manager.calculate_weight (s.mem.first x) } := by
    show (s.manager_erase x).1._manager = _
    rw [hmgr, hw]
  have hfirst : ((s.manager_erase x).1._map_erase x).mem.first = s.mem.first := by
    show (s.manager_erase x).1.mem.first = _
    rw [hmem]
    rfl
  refine ⟨valid_erase_node hv x hx, ⟨?_, ?_⟩, by simp [_map_erase, hmap], hfirst, hmgr', hle⟩
  · rw [hmgr']
    have := total_erase s._manager s.mem hxL hLnd
    have ht : cache_manager.total { s._manager with
        _weight := s._manager._weight - s._manager.calculate_weight (s.mem.first x) }
        ((s.manager_erase x).1._map_erase x).mem (L.erase x)
        = s._manager.total s.mem (L.erase x) := total_congr _ _ _ _ _ rfl hfirst
    rw [ht]
    simp only []
    rw [ha.1]
    omega
  · rw [hmgr']
    simp only []
    have := ha.2
    omega

/-- Member `provideSpace(weight)` when the free space suffices. -/
theorem provideSpace_fits (fuel : Nat) (s : unordered_map Key V) (weight : Nat)
    (hWC : s._manager._weight ≤ s._manager._capacity) (hC : s._manager._capacity < SIZE)
    (hfit : weight ≤ s._manager._capacity - s._manager._weight) :
    s.provideSpace fuel weight = some (true, s) := by
  have hsub : (s._manager._capacity + SIZE - s._manager._weight) % SIZE
      = s._manager._capacity - s._manager._weight := by
    have : s._manager._capacity + SIZE - s._manager._weight
        = (s._manager._capacity - s._manager._weight) + SIZE := by omega
    rw [this, Nat.add_mod_right]
    exact Nat.mod_eq_of_lt (by omega)
  unfold provideSpace
  simp only [cache_manager.cache_manager.capacity, cache_manager.cache_manager.weight, hsub]
  rw [if_neg (by omega), if_pos hfit]

/-- Member `insert(node_type&& nh)` of a node whose key is absent and whose weight fits
into the free space: the node is linked at the position the policy chooses and nothing is
evicted. -/
theorem insert_node_fits (fuel : Nat) (s : unordered_map Key V) (L : List Ptr) (x : Ptr)
    (hv : s.Valid L) (ha : s.Accounted L) (hx : x ∉ s._manager._first :: s._map)
    (hk : s._map_find (s.mem.first x).1 = none)
    (hfit : s._manager.calculate_weight (s.mem.first x)
      ≤ s._manager._capacity - s._manager._weight) :
    ∃ s2, s.insert_node fuel (some x) = some (.ok (some x, true, none), s2) ∧
      (s._manager._policy.parent = .fifo ∨ s._manager._policy.parent = .lru →
        s2.Valid (L ++ [x]) ∧ s2.Accounted (L ++ [x])) ∧
      (s._manager._policy.parent = .lifo ∨ s._manager._policy.parent = .mru ∨
        s._manager._policy.parent = .swapping → s2.Valid (x :: L) ∧ s2.Accounted (x :: L)) ∧
      s2._map = x :: s._map ∧ s2.mem.first = s.mem.first ∧
      s2._manager = { s._manager with
        _weight := s._manager._weight + s._manager.calculate_weight (s.mem.first x) } := by
  have hx' := hx
  simp only [List.mem_cons, not_or] at hx'
  have hxL : x ∉ s._manager._first :: L := by
    simp only [List.mem_cons, not_or]
    exact ⟨hx'.1, fun hc => hx'.2 (hv.2.1.subset hc)⟩
  have hfirst : (s._manager.insert s.mem x).2.1.first = s.mem.first :=
    (cache_manager.insert_mem s._manager s.mem x).2.2
  have hw : (s._manager._weight + s._manager.calculate_weight (s.mem.first x)) % SIZE
      = s._manager._weight + s._manager.calculate_weight (s.mem.first x) := by
    apply Nat.mod_eq_of_lt
    have := ha.2
    have := hv.2.2.2.2
    omega
  have hprov := provideSpace_fits fuel ({ s with _map := x :: s._map } : unordered_map Key V)
    (s._manager.calculate_weight (s.mem.first x)) ha.2 hv.2.2.2.2 hfit
  have hres : s.insert_node fuel (some x) = some (.ok (some x, true, none),
      ({ s with _map := x :: s._map } : unordered_map Key V).safeManagerInsert x) := by
    simp only [insert_node, _map_insert_node, hk, if_true, indexInserted]
    rw [hprov]
  have hmgr : (({ s with _map := x :: s._map } : unordered_map Key V).safeManagerInsert
      x)._manager = { s._manager with
        _weight := s._manager._weight + s._manager.calculate_weight (s.mem.first x) } := by
    show { s._manager with _weight :=
      (s._manager._weight + s._manager.calculate_weight (s.mem.first x)) % SIZE } = _
    rw [hw]
  have hval : ∀ L', IsList (s._manager.insert s.mem x).2.1 s._manager._first L' →
      L'.Perm (x :: L) →
      (({ s with _map := x :: s._map } : unordered_map Key V).safeManagerInsert x).Valid L' ∧
      (({ s with _map := x :: s._map } : unordered_map Key V).safeManagerInsert
        x).Accounted L' := by
    intro L' hl hp
    refine ⟨⟨by rw [hmgr]; exact hl, hp.trans (List.Perm.cons x hv.2.1), ?_, ?_, ?_⟩, ?_, ?_⟩
    · show (List.map (fun q => ((s._manager.insert s.mem x).2.1.first q).1)
        (x :: s._map)).Nodup
      rw [hfirst]
      simp only [List.map_cons, List.nodup_cons]
      exact ⟨(_map_find_none s _).1 hk, hv.2.2.1⟩
    · rw [hmgr]
      simp only []
      have := ha.2
      have := hv.2.2.2.2
      omega
    · rw [hmgr]
      exact hv.2.2.2.2
    · rw [hmgr]
      have ht : cache_manager.total { s._manager with
          _weight := s._manager._weight + s._manager.calculate_weight (s.mem.first x) }
          (({ s with _map := x :: s._map } : unordered_map Key V).safeManagerInsert x).mem L'
          = s._manager.total s.mem L' := total_congr _ _ _ _ _ rfl hfirst
      rw [ht, total_perm _ _ hp, total_cons]
      simp only []
      rw [ha.1]
      omega
    · rw [hmgr]
      simp only []
      have := ha.2
      omega
  refine ⟨_, hres, ?_, ?_, rfl, hfirst, hmgr⟩
  · intro hp
    exact hval _ (insert_isList_tail s._manager s.mem L x hv.1 hxL hp)
      (List.perm_append_singleton x L)
  · intro hp
    exact hval _ (insert_isList_head s._manager s.mem L x hv.1 hxL hp) (List.Perm.refl _)

end unordered_map

end limited

end extended_containers

namespace extended_containers

namespace limited

namespace unordered_map

open cache_manager

variable {Key V : Type} [DecidableEq Key]

/-- Taking the elements of a duplicate-free list `J` out of `J.reverse ++ M` leaves `M`. -/
theorem diff_reverse_append : ∀ (J M : List Ptr), J.Nodup →
    (J.reverse ++ M).diff J = M := by
  intro J
  induction J with
  | nil => intro M _; simp
  | cons a J ih =>
    intro M hnd
    rw [List.nodup_cons] at hnd
    rw [List.diff_cons, List.reverse_cons, List.append_assoc]
    have h1 : (J.reverse ++ ([a] ++ M)).erase a = J.reverse ++ M := by
      rw [List.erase_append_right _ (by simpa using hnd.1)]
      simp
    rw [h1]
    exact ih M hnd.2

/-- The first loop of the range insert, as a frame: the manager is untouched, the nodes
collected are pushed in front of the index in the order of the range, they are addresses of
the range, and the memory changes at addresses of the range only. -/
theorem insert_range_index_frame :
    ∀ (range : List (Ptr × (Key × V))) (s : unordered_map Key V) (I : List Ptr) (weight : Nat),
      ∃ J, (s.insert_range_index range I weight).2.1 = I ++ J ∧
        (s.insert_range_index range I weight).1._map = J.reverse ++ s._map ∧
        (s.insert_range_index range I weight).1._manager = s._manager ∧
        J.Sublist (range.map Prod.fst) ∧
        ∀ q, q ∉ range.map Prod.fst →
          (s.insert_range_index range I weight).1.mem.first q = s.mem.first q ∧
          (s.insert_range_index range I weight).1.mem.prev q = s.mem.prev q ∧
          (s.insert_range_index range I weight).1.mem.next q = s.mem.next q ∧
          (s.insert_range_index range I weight).1.mem.weight q = s.mem.weight q := by
  intro range
  induction range with
  | nil =>
    intro s I weight
    exact ⟨[], by simp [insert_range_index], by simp [insert_range_index], rfl, by simp,
      fun q _ => ⟨rfl, rfl, rfl, rfl⟩⟩
  | cons a range ih =>
    intro s I weight
    obtain ⟨p, value⟩ := a
    unfold insert_range_index
    cases hk : s._map_find value.1 with
    | some q =>
      have e : s._map_insert p value = (s, q, false) := by simp [_map_insert, hk]
      simp only [e]
      obtain ⟨J, h1, h2, h3, h4, h5⟩ := ih s I weight
      refine ⟨J, h1, h2, h3, ?_, fun q hq => h5 q (fun hc => hq ?_)⟩
      · exact h4.trans (by simp)
      · simp [hc]
    | none =>
      rw [_map_insert_absent s p value hk]
      simp only [if_true]
      split_ifs with hbreak
      · refine ⟨[p], rfl, rfl, rfl, by simp, fun q hq => ?_⟩
        have hne : q ≠ p := fun hc => hq (by simp [hc])
        simp [Function.update_noteq hne]
      · obtain ⟨J, h1, h2, h3, h4, h5⟩ := ih
          ({ s with
             _map := p :: s._map
             mem := { first := Function.update s.mem.first p value
                      prev := Function.update s.mem.prev p 0
                      next := Function.update s.mem.next p 0
                      weight := Function.update s.mem.weight p 0 } })
          (I ++ [p]) ((weight + s._manager.calculate_weight
            (Function.update s.mem.first p value p)) % SIZE)
        refine ⟨p :: J, ?_, ?_, ?_, ?_, fun q hq => ?_⟩
        · rw [h1]; simp
        · rw [h2]; simp
        · rw [h3]
        · simpa using h4
        · have hne : q ≠ p := fun hc => hq (by simp [hc])
          have hq' : q ∉ range.map Prod.fst := fun hc => hq (by
            simp only [List.map_cons, List.mem_cons]
            exact Or.inr hc)
          obtain ⟨a1, a2, a3, a4⟩ := h5 q hq'
          rw [a1, a2, a3, a4]
          simp [Function.update_noteq hne]

end unordered_map

end limited

end extended_containers

namespace extended_containers

namespace limited

namespace unordered_map

open cache_manager

variable {Key V : Type} [DecidableEq Key]

/-! ## The eviction loop with its weights, for every policy -/

end unordered_map

end limited

end extended_containers

namespace cache_manager

variable {T : Type}

/-! ## `next_except` under a policy without `erase_position` -/

/-- When the list without `e` starts with `x`, the list itself starts with `x` or with `e`
followed by `x`. -/
theorem erase_head_split {A B X : List Ptr} {x e : Ptr} (hnd : (A ++ x :: B).Nodup)
    (hxe : x ≠ e) (h : (A ++ x :: B).erase e = x :: X) : A = [] ∨ A = [e] := by
  have hxA : x ∉ A := fun hc =>
    (List.disjoint_left.1 (List.nodup_append.1 hnd).2.2) hc (by simp)
  cases A with
  | nil => exact Or.inl rfl
  | cons a A =>
    right
    by_cases hae : a = e
    · subst hae
      rw [List.cons_append, List.erase_cons_head] at h
      cases A with
      | nil => rfl
      | cons b A =>
        rw [List.cons_append, List.cons.injEq] at h
        exact absurd (by simp [h.1]) hxA
    · rw [List.cons_append, List.erase_cons_tail (by simpa using hae), List.cons.injEq] at h
      exact absurd (by simp [h.1]) hxA

/-- The position after an evicted node, moved past `e` when it is `e`, is the head of the
list without `e`. -/
theorem skip_except {m : Mem T} {s : Ptr} {A B : List Ptr} {e h : Ptr}
    (hL : IsList m s (A ++ B)) (hA : A = [] ∨ A = [e]) (he : e ∈ A ++ B)
    (hh : (B ++ [s]).head? = some h) :
    ((A ++ B).erase e ++ [s]).head? = some (if h = e then m.next e else h) := by
  rcases hA with rfl | rfl
  · simp only [List.nil_append] at hL he ⊢
    cases B with
    | nil => simp at he
    | cons b B =>
      have hb : b = h := by simpa using hh
      subst hb
      by_cases hbe : b = e
      · subst hbe
        rw [if_pos rfl, List.erase_cons_head]
        have hL' : IsList m s ([] ++ b :: B) := hL
        exact (isList_mid hL').2
      · rw [if_neg hbe, List.erase_cons_tail (by simpa using hbe)]
        rfl
  · have hne : h ≠ e := by
      intro hc
      have hmem := List.mem_of_mem_head? (show h ∈ (B ++ [s]).head? from hh)
      rw [hc] at hmem
      have hnd := hL.2
      simp only [List.singleton_append, List.nodup_cons, List.mem_cons, not_or] at hnd
      rcases List.mem_append.1 hmem with hmem | hmem
      · exact hnd.2.1 hmem
      · exact hnd.1.1 (List.mem_singleton.1 hmem).symm
    rw [if_neg hne, List.singleton_append, List.erase_cons_head]
    exact hh

theorem next_except_plain (c : cache_manager T) {m : Mem T} {L : List Ptr}
    (par : policy.parent_policy) (hpol : c._policy = .plain par)
    (h : IsList m c._first L) (e : Ptr) (he : e ∈ L) (fuel : Nat) (hf : L.length < fuel) :
    ∃ r, c.next_except m fuel e = some (r, m) ∧ (L.erase e ++ [c._first]).head? = some r := by
  obtain ⟨A, B, rfl⟩ := List.append_of_mem he
  have hm1 : IsList (__link m (m.prev e) (m.next e)) c._first (A ++ B) := isList_unlink h
  have hhead := (isList_sentinel hm1).1
  have hb : ¬ c.cbegin m = c.cend := by
    intro hc
    have h0 := (isList_sentinel h).1
    have hmem := List.mem_of_mem_head? (show m.next c._first ∈ _ from h0)
    have hc' : m.next c._first = c._first := hc
    rw [hc'] at h0
    cases A with
    | nil =>
      simp only [List.nil_append, List.cons_append, List.head?_cons, Option.some.injEq] at h0
      exact isList_not_mem h (by simp [h0])
    | cons a A =>
      simp only [List.cons_append, List.head?_cons, Option.some.injEq] at h0
      exact isList_not_mem h (by simp [h0])
  obtain ⟨r, hr, -⟩ := next_except_core c h fuel hf
    ((__link m (__prev m e) (__next m e)).next c._first) (by
      have := List.mem_of_mem_head? (show _ ∈ ((A ++ B) ++ [c._first]).head? from hhead)
      simp only [List.mem_append, List.mem_singleton] at this ⊢
      exact this)
  refine ⟨(__link m (m.prev e) (m.next e)).next c._first, ?_, ?_⟩
  · unfold cache_manager.next_except
    rw [if_neg hb]
    simp only [policy.policy_extractor.erase_position, policy.provides_erase_v, hpol] at hr ⊢
    simp only [Bool.false_eq_true, if_false, Option.some.injEq, Prod.mk.injEq] at hr ⊢
    exact ⟨rfl, hr.2⟩
  · rw [erase_of_split (List.nodup_cons.1 h.2).2]
    exact hhead

theorem next_except_hint_plain (c : cache_manager T) {m : Mem T} {L : List Ptr}
    (par : policy.parent_policy) (hpol : c._policy = .plain par)
    (h : IsList m c._first L) (e : Ptr) (he : e ∈ L) (fuel : Nat) (hf : L.length < fuel)
    (hint : Ptr) (hh : hint ∈ L ∨ hint = c._first) :
    c.next_except_hint m fuel hint e = some (if hint = e then m.next e else hint, m) := by
  obtain ⟨A, B, rfl⟩ := List.append_of_mem he
  have hb : ¬ c.cbegin m = c.cend := by
    intro hc
    have h0 := (isList_sentinel h).1
    have hc' : m.next c._first = c._first := hc
    rw [hc'] at h0
    cases A with
    | nil =>
      simp only [List.nil_append, List.cons_append, List.head?_cons, Option.some.injEq] at h0
      exact isList_not_mem h (by simp [h0])
    | cons a A =>
      simp only [List.cons_append, List.head?_cons, Option.some.injEq] at h0
      exact isList_not_mem h (by simp [h0])
  obtain ⟨r, hr, -⟩ := next_except_core c h fuel hf
    (if hint = e then __next m hint else hint) (by
      by_cases hc : hint = e
      · rw [if_pos hc, hc]
        have := List.mem_of_mem_head?
          (show m.next e ∈ (B ++ [c._first]).head? from (isList_mid h).2)
        simp only [List.mem_append, List.mem_singleton] at this ⊢
        tauto
      · rw [if_neg hc]
        rcases hh with hh | hh
        · simp only [List.mem_append, List.mem_cons] at hh ⊢
          tauto
        · exact Or.inr hh)
  unfold cache_manager.next_except_hint
  rw [if_neg hb]
  simp only [policy.policy_extractor.erase_position, policy.provides_erase_v, hpol] at hr ⊢
  simp only [Bool.false_eq_true, if_false, Option.some.injEq, Prod.mk.injEq] at hr ⊢
  refine ⟨?_, hr.2⟩
  by_cases hc : hint = e
  · simp [hc, __next]
  · simp [hc]

end cache_manager

namespace extended_containers

namespace limited

namespace unordered_map

open cache_manager

variable {Key V : Type} [DecidableEq Key]

/-! ## The eviction loop that spares one entry, under a policy without `erase_position` -/

/-- The loop of `freeSpace(weight, except)` under a policy without `erase_position`, on a
valid list that holds `e`, entered at the head of the list without `e`; `X` is the list
without `e` and the weight counter is `base` plus the weight of `X`.  When `X` holds enough
weight the loop evicts the shortest initial segment of `X` that reaches `weight`. -/
theorem freeSpace_except_loop_plain (budget weight e base : Nat)
    (par : policy.parent_policy) :
    ∀ (X L : List Ptr) (fuel : Nat) (s : unordered_map Key V) (freed : Nat)
      (removed : List Ptr) (next : Ptr),
      IsList s.mem s._manager._first L → e ∈ L → L.erase e = X →
      s._manager._policy = .plain par →
      s._manager._weight = base + s._manager.total s.mem X →
      freed + base + s._manager.total s.mem X < SIZE →
      (X ++ [s._manager._first]).head? = some next → L.length < fuel → L.length < budget →
      weight ≤ freed + s._manager.total s.mem X →
      ∃ (k : Nat) (s1 : unordered_map Key V) (L1 : List Ptr), k ≤ X.length ∧
        weight ≤ freed + s._manager.total s.mem (X.take k) ∧
        (∀ j, j < k → freed + s._manager.total s.mem (X.take j) < weight) ∧
        freeSpace_except_loop budget weight e fuel s freed removed next
          = some (true, s1.freeSpace_drop (removed ++ X.take k)) ∧
        IsList s1.mem s1._manager._first L1 ∧ L1.Sublist L ∧ e ∈ L1 ∧
        L1.erase e = X.drop k ∧ s1._map = s._map ∧ s1.mem.first = s.mem.first ∧
        s1._manager
          = { s._manager with _weight := base + s._manager.total s.mem (X.drop k) } := by
  intro X
  induction X with
  | nil =>
    intro L fuel s freed removed next hL he hX hpol hW hlt hnext hf hb hweight
    cases fuel with
    | zero => simp at hf
    | succ fuel =>
      have hnf : ¬ freed < weight := by
        rw [total_nil] at hweight; omega
      refine ⟨0, s, L, le_refl _, by simpa [total_nil] using hweight, fun j hj => by omega,
        ?_, hL, List.Sublist.refl _, he, by simpa using hX, rfl, rfl, ?_⟩
      · unfold freeSpace_except_loop
        rw [if_neg hnf]; simp
      · rw [List.drop_zero, ← hW]
  | cons x X ih =>
    intro L fuel s freed removed next hL he hX hpol hW hlt hnext hf hb hweight
    cases fuel with
    | zero => simp at hf
    | succ fuel =>
      by_cases hfw : freed < weight
      · have hx : next = x := by simpa using hnext.symm
        subst hx
        have hLnd : L.Nodup := (List.nodup_cons.1 hL.2).2
        have hxX : next ∈ L.erase e := by rw [hX]; simp
        have hxL : next ∈ L := List.mem_of_mem_erase hxX
        have hxe : next ≠ e := (hLnd.mem_erase_iff.1 hxX).1
        have hxs : next ≠ s._manager._first := fun hc => isList_not_mem hL (hc ▸ hxL)
        obtain ⟨A, B, rfl⟩ := List.append_of_mem hxL
        have hA := erase_head_split hLnd hxe hX
        obtain ⟨hef, hem, hec, hemap⟩ := manager_erase_fields s next
        have hfirst1 : (s.manager_erase next).1._manager._first = s._manager._first := by
          rw [hec]
        have hL1 : IsList (s.manager_erase next).1.mem
            (s.manager_erase next).1._manager._first (A ++ B) := by
          rw [hem, hfirst1]; exact isList_unlink hL
        have he1 : e ∈ A ++ B := by
          simp only [List.mem_append, List.mem_cons] at he ⊢
          rcases he with he | he | he
          · exact Or.inl he
          · exact absurd he.symm hxe
          · exact Or.inr he
        have hX1 : (A ++ B).erase e = X := by
          rw [← erase_of_split hLnd, List.erase_comm, hX, List.erase_cons_head]
        have hpol1 : (s.manager_erase next).1._manager._policy = .plain par := by
          rw [hec]; exact hpol
        have htot1 : ∀ M, (s.manager_erase next).1._manager.total
            (s.manager_erase next).1.mem M = s._manager.total s.mem M := by
          intro M
          refine total_congr _ _ _ _ M (by rw [hec]) (by rw [hem]; rfl)
        have hwx : s._manager.calculate_weight (s.mem.first next) + s._manager.total s.mem X
            = s._manager.total s.mem (next :: X) := (total_cons _ _ _ _).symm
        have hW1 : (s.manager_erase next).1._manager._weight
            = base + (s.manager_erase next).1._manager.total (s.manager_erase next).1.mem X := by
          rw [htot1, hec]
          simp only []
          rw [hW, ← hwx]
          have : base + (s._manager.calculate_weight (s.mem.first next)
              + s._manager.total s.mem X)
              + SIZE - s._manager.calculate_weight (s.mem.first next)
              = base + s._manager.total s.mem X + SIZE := by omega
          rw [this, Nat.add_mod_right]
          exact Nat.mod_eq_of_lt (by omega)
        have hfreed1 : (freed + s._manager.calculate_weight (s.mem.first next)) % SIZE
            = freed + s._manager.calculate_weight (s.mem.first next) :=
          Nat.mod_eq_of_lt (by omega)
        have hhint : (B ++ [(s.manager_erase next).1._manager._first]).head?
            = some (s.manager_erase next).2 := by
          rw [hef, hfirst1]
          exact (isList_mid hL).2
        have hnext1 := skip_except hL1 hA he1 hhint
        rw [hX1] at hnext1
        have hhmem : (s.manager_erase next).2 ∈ A ++ B ∨
            (s.manager_erase next).2 = (s.manager_erase next).1._manager._first := by
          have := List.mem_of_mem_head? (show _ ∈ _ from hhint)
          simp only [List.mem_append, List.mem_singleton] at this ⊢
          tauto
        obtain ⟨k, s1, L1, hk, hge, hmin, hres, hl1, hsub1, he1', hX1', hmap1, hfst1, hmgr1⟩ :=
          ih (A ++ B) fuel (s.manager_erase next).1
            (freed + s._manager.calculate_weight (s.mem.first next)) (removed ++ [next])
            _ hL1 he1 hX1 hpol1 hW1 (by rw [htot1]; omega) hnext1
            (by simp at hf ⊢; omega) (by simp at hb ⊢; omega) (by rw [htot1]; omega)
        refine ⟨k + 1, s1, L1, by simpa using hk, ?_, ?_, ?_, hl1, ?_, he1', ?_, ?_, ?_, ?_⟩
        · rw [List.take_succ_cons, total_cons]
          rw [htot1] at hge
          omega
        · intro j hj
          cases j with
          | zero => simpa [total_nil] using hfw
          | succ j =>
            rw [List.take_succ_cons, total_cons]
            have := hmin j (by omega)
            rw [htot1] at this
            omega
        · unfold freeSpace_except_loop
          rw [if_pos hfw]
          have hne : ¬ next = s._manager.end_ := hxs
          simp only [hne, if_false]
          have eta : ({ s with mem := s.mem } : unordered_map Key V) = s := rfl
          simp only [eta]
          rw [next_except_hint_plain _ par hpol1 hL1 e he1 budget (by simp at hb ⊢; omega)
            _ hhmem, hfreed1]
          simp only []
          have eta1 : ({ (s.manager_erase next).1 with
              mem := (s.manager_erase next).1.mem } : unordered_map Key V)
              = (s.manager_erase next).1 := rfl
          rw [eta1, hres]
          simp
        · exact hsub1.trans (List.Sublist.append_left (List.sublist_cons_self _ _) _)
        · simpa using hX1'
        · rw [hmap1, hemap]
        · rw [hfst1, hem]; rfl
        · rw [hmgr1, htot1, hec]
          simp
      · refine ⟨0, s, L, by simp, by simp [total_nil]; omega, fun j hj => by omega, ?_,
          hL, List.Sublist.refl _, he, by simpa using hX, rfl, rfl, ?_⟩
        · unfold freeSpace_except_loop
          rw [if_neg hfw]; simp
        · rw [List.drop_zero, ← hW]

end unordered_map

end limited

end extended_containers

namespace extended_containers

namespace limited

namespace unordered_map

open cache_manager

variable {Key V : Type} [DecidableEq Key]

/-- Member `provideSpace(weight, except)` under a policy without `erase_position`, on a
valid list that holds `e`, when the weight counter is `base` plus the weight of the other
entries and `need + base` fits the capacity: it succeeds, and evicts the shortest initial
segment of the list without `e` that frees the shortfall. -/
theorem provideSpace_except_plain (fuel : Nat) (s : unordered_map Key V) (need e base : Nat)
    (L : List Ptr) (par : policy.parent_policy)
    (hL : IsList s.mem s._manager._first L) (he : e ∈ L)
    (hpol : s._manager._policy = .plain par)
    (hW : s._manager._weight = base + s._manager.total s.mem (L.erase e))
    (hWC : s._manager._weight ≤ s._manager._capacity) (hC : s._manager._capacity < SIZE)
    (hneed : need + base ≤ s._manager._capacity) (hf : L.length < fuel) :
    ∃ (k : Nat) (s1 : unordered_map Key V) (L1 : List Ptr), k ≤ (L.erase e).length ∧
      need - (s._manager._capacity - s._manager._weight)
        ≤ s._manager.total s.mem ((L.erase e).take k) ∧
      (∀ j, j < k → s._manager.total s.mem ((L.erase e).take j)
        < need - (s._manager._capacity - s._manager._weight)) ∧
      s.provideSpace_except fuel need e
        = some (true, s1.freeSpace_drop ((L.erase e).take k)) ∧
      IsList s1.mem s1._manager._first L1 ∧ L1.Sublist L ∧ e ∈ L1 ∧
      L1.erase e = (L.erase e).drop k ∧ s1._map = s._map ∧ s1.mem.first = s.mem.first ∧
      s1._manager
        = { s._manager with _weight := base + s._manager.total s.mem ((L.erase e).drop k) } := by
  have hsub : (s._manager._capacity + SIZE - s._manager._weight) % SIZE
      = s._manager._capacity - s._manager._weight := by
    have : s._manager._capacity + SIZE - s._manager._weight
        = (s._manager._capacity - s._manager._weight) + SIZE := by omega
    rw [this, Nat.add_mod_right]
    exact Nat.mod_eq_of_lt (by omega)
  unfold provideSpace_except
  rw [if_neg (by simp only [cache_manager.cache_manager.capacity]; omega)]
  simp only [cache_manager.cache_manager.capacity, cache_manager.cache_manager.weight, hsub]
  by_cases h2 : s._manager._capacity - s._manager._weight ≥ need
  · rw [if_pos h2]
    refine ⟨0, s, L, Nat.zero_le _, by simp only [List.take_zero, total_nil]; omega,
      fun j hj => by omega, by simp [freeSpace_drop], hL, List.Sublist.refl _, he, by simp,
      rfl, rfl, ?_⟩
    rw [List.drop_zero, ← hW]
  · rw [if_neg h2]
    have hneed' : (need + SIZE - (s._manager._capacity - s._manager._weight)) % SIZE
        = need - (s._manager._capacity - s._manager._weight) := by
      have : need + SIZE - (s._manager._capacity - s._manager._weight)
          = (need - (s._manager._capacity - s._manager._weight)) + SIZE := by omega
      rw [this, Nat.add_mod_right]
      exact Nat.mod_eq_of_lt (by omega)
    rw [hneed']
    unfold freeSpace_except
    simp only [cache_manager.cache_manager.weight]
    rw [if_neg (by omega)]
    obtain ⟨next, hn, hhead⟩ := next_except_plain s._manager par hpol hL e he fuel hf
    rw [hn]
    simp only []
    have eta : ({ s with mem := s.mem } : unordered_map Key V) = s := rfl
    rw [eta]
    obtain ⟨k, s1, L1, hk, hge, hmin, hres, hrest⟩ := freeSpace_except_loop_plain fuel
      (need - (s._manager._capacity - s._manager._weight)) e base par (L.erase e) L fuel s 0
      [] next hL he rfl hpol hW (by omega) hhead hf hf (by omega)
    refine ⟨k, s1, L1, hk, by simpa using hge, fun j hj => by simpa using hmin j hj, ?_,
      hrest⟩
    rw [hres]
    simp

/-- The access hook on a node of a valid map under a policy without `erase_position`: the
index, the manager and the values are untouched and the list stays valid; the order is
unchanged under FIFO and LIFO, and under LRU the node has moved to the tail. -/
theorem access_plain_order {t : unordered_map Key V} {L1 : List Ptr}
    (par : policy.parent_policy) (hv : t.Valid L1) (e : Ptr) (he : e ∈ L1)
    (hpol : t._manager._policy = .plain par) :
    (t.manager_access e)._map = t._map ∧ (t.manager_access e)._manager = t._manager ∧
      (t.manager_access e).mem.first = t.mem.first ∧
      ∃ L', (t.manager_access e).Valid L' ∧ L'.Perm L1 ∧
        (par = .lru → L' = L1.erase e ++ [e]) ∧ (par = .fifo ∨ par = .lifo → L' = L1) := by
  have hfirst := access_first t._manager t.mem e
  have hkeys : (t.manager_access e).keys = t.keys := by
    simp only [keys, manager_access, hfirst]
  have hval : ∀ L', IsList (t.manager_access e).mem t._manager._first L' → L'.Perm L1 →
      (t.manager_access e).Valid L' := fun L' hl hp =>
    ⟨hl, hp.trans hv.2.1, by rw [hkeys]; exact hv.2.2.1, hv.2.2.2⟩
  refine ⟨rfl, rfl, hfirst, ?_⟩
  have hpar : t._manager._policy.parent = par := by rw [hpol]; rfl
  by_cases hlru : par = .lru
  · obtain ⟨A, B, rfl⟩ := List.append_of_mem he
    have hnd := (List.nodup_cons.1 hv.1.2).2
    have hl := (lru_access_isList hv.1 (t._manager.begin t.mem)).1
    have hl' : IsList (t.manager_access e).mem t._manager._first (A ++ B ++ [e]) := by
      simp only [manager_access, cache_manager.cache_manager.access,
        policy.policy_extractor.access, policy.provides_access_v, hpar, hlru, if_true]
      exact hl
    refine ⟨A ++ B ++ [e], hval _ hl' ?_, ?_, fun _ => ?_, fun h => ?_⟩
    · simp only [List.append_assoc]
      exact List.Perm.append_left A (List.perm_append_singleton e B)
    · simp only [List.append_assoc]
      exact List.Perm.append_left A (List.perm_append_singleton e B)
    · rw [erase_of_split hnd]
    · rcases h with h | h <;> rw [hlru] at h <;> cases h
  · by_cases hid : par = .fifo ∨ par = .lifo
    · have e1 : t.manager_access e = t := by
        rcases hid with h | h <;>
          simp [manager_access, cache_manager.cache_manager.access,
            policy.policy_extractor.access, policy.provides_access_v, hpar, h]
      exact ⟨L1, by rw [e1]; exact hv, List.Perm.refl _, fun h => absurd h hlru, fun _ => rfl⟩
    · obtain ⟨L', hl, hp⟩ := access_isList t._manager hv.1 e he
      exact ⟨L', hval L' hl hp, hp, fun h => absurd h hlru, fun h => absurd h hid⟩

/-- The end of `assign` on a state whose list holds the node `e` and whose index does not:
the node is back in the index, the weight counter has exchanged the old weight for the new
one, and the access hook has been applied to a valid state with the same order. -/
theorem assign_finish_spec {t : unordered_map Key V} {L1 : List Ptr} (e : Ptr)
    (ht : t.Wf L1) (he : e ∈ L1) (hm : ∀ y, y ∈ t._map ↔ y ∈ L1 ∧ y ≠ e)
    (hk : (t.mem.first e).1 ∉ t.keys) (old new : Nat) :
    ∃ t' : unordered_map Key V, t.assign_finish e old new = (e, t'.manager_access e) ∧
      t'.Valid L1 ∧ t'._map = e :: t._map ∧ t'.mem.first = t.mem.first ∧
      t'._manager = { t._manager with
        _weight := ((t._manager._weight + SIZE - old % SIZE) % SIZE + new) % SIZE } := by
  obtain ⟨hins, hv⟩ := valid_reinsert_index ht e he hm hk
  have hv2 := valid_update_weight hv e old new
  refine ⟨_, ?_, hv2, rfl, rfl, rfl⟩
  unfold assign_finish
  simp only [hins]

end unordered_map

end limited

end extended_containers

namespace extended_containers

namespace limited

namespace unordered_map

open cache_manager

variable {Key V : Type} [DecidableEq Key]

/-- The end of `assign` under a policy without `erase_position`.  The state `t` is what the
eviction left of a valid and accounted map `s` whose entry `e` has been taken out of the
index and given the value `obj`: the first `k` of the other entries are gone. -/
theorem assign_tail {s t : unordered_map Key V} {L L1 : List Ptr} (e : Ptr) (obj : V)
    (k : Nat) (par : policy.parent_policy)
    (hv : s.Valid L) (ha : s.Accounted L) (hp : e ∈ s._map)
    (hpol : s._manager._policy = .plain par)
    (hl1 : IsList t.mem t._manager._first L1) (hsub : L1.Sublist L) (he1 : e ∈ L1)
    (hX1 : L1.erase e = (L.erase e).drop k)
    (hmap : t._map = (s._map.erase e).diff ((L.erase e).take k))
    (hfirst : t.mem.first = Function.update s.mem.first e ((s.mem.first e).1, obj))
    (hmgr : t._manager = { s._manager with
      _weight := s._manager.calculate_weight (s.mem.first e)
        + s._manager.total s.mem ((L.erase e).drop k) })
    (hfit : s._manager.calculate_weight ((s.mem.first e).1, obj)
      + s._manager.total s.mem ((L.erase e).drop k) ≤ s._manager._capacity) :
    ∃ (t' : unordered_map Key V) (L' : List Ptr),
      t.assign_finish e (s._manager.calculate_weight (s.mem.first e))
        (s._manager.calculate_weight ((s.mem.first e).1, obj)) = (e, t'.manager_access e) ∧
      t'.Valid L1 ∧
      (t'.manager_access e)._map = e :: (s._map.erase e).diff ((L.erase e).take k) ∧
      (t'.manager_access e).mem.first
        = Function.update s.mem.first e ((s.mem.first e).1, obj) ∧
      (t'.manager_access e)._manager = { s._manager with
        _weight := s._manager.calculate_weight ((s.mem.first e).1, obj)
          + s._manager.total s.mem ((L.erase e).drop k) } ∧
      (t'.manager_access e).Valid L' ∧ (t'.manager_access e).Accounted L' ∧ L'.Perm L1 ∧
      (par = .lru → L' = (L.erase e).drop k ++ [e]) ∧
      (par = .fifo ∨ par = .lifo → L' = L1) := by
  obtain ⟨hwf, hm⟩ := (valid_iff_wf s L).1 hv
  have hxL : e ∈ L := (hm e).2 hp
  have hLnd : L.Nodup := (List.nodup_cons.1 hv.1.2).2
  have hmnd := wf_map_nodup hwf
  have hL1nd : L1.Nodup := hLnd.sublist hsub
  have hXnd : (L.erase e).Nodup := hLnd.erase e
  have hsubmap : t._map.Sublist (s._map.erase e) := by
    rw [hmap]; exact List.diff_sublist _ _
  have hne : ∀ q ∈ t._map, q ≠ e := fun q hq hc =>
    (hmnd.mem_erase_iff.1 (hsubmap.subset hq)).1 hc
  have hag : ∀ q, q ≠ e → t.mem.first q = s.mem.first q := fun q hq => by
    rw [hfirst, Function.update_noteq hq]
  have hkeys : t.keys = t._map.map (fun q => (s.mem.first q).1) := by
    simp only [keys]
    exact List.map_congr_left (fun q hq => by rw [hag q (hne q hq)])
  have hkey := key_not_mem_erase hwf.2.1 e hp
  have hk : (t.mem.first e).1 ∉ t.keys := by
    rw [hkeys, hfirst, Function.update_same]
    exact fun hc => hkey ((hsubmap.map _).subset hc)
  have htotX : s._manager.total s.mem (L.erase e) + s._manager.calculate_weight (s.mem.first e)
      = s._manager.total s.mem L := total_erase s._manager s.mem hxL hLnd
  have htd := total_take_drop s._manager s.mem (L.erase e) k
  have hWs : s._manager._weight < SIZE := hv.2.2.2.1
  have hWeq : s._manager._weight = s._manager.total s.mem L := ha.1
  have hcw := calculate_weight_lt s._manager (s.mem.first e)
  have htwf : t.Wf L1 := by
    refine ⟨hl1, ?_, ?_, ?_, ?_⟩
    · rw [hkeys]
      exact List.Nodup.sublist ((hsubmap.trans (List.erase_sublist _ _)).map _) hwf.2.1
    · rw [hmgr]
      exact fun hc => hwf.2.2.1 (List.mem_of_mem_erase (hsubmap.subset hc))
    · rw [hmgr]
      show _ + _ < SIZE
      omega
    · rw [hmgr]
      exact hv.2.2.2.2
  have hmem : ∀ y, y ∈ t._map ↔ y ∈ L1 ∧ y ≠ e := by
    intro y
    have h1 : y ∈ L1 ∧ y ≠ e ↔ y ∈ (L.erase e).drop k := by
      rw [← hX1, hL1nd.mem_erase_iff]
      tauto
    rw [h1, hmap, (hmnd.erase e).mem_diff_iff, hmnd.mem_erase_iff, ← hm y]
    have hsplit : (L.erase e).take k ++ (L.erase e).drop k = L.erase e :=
      List.take_append_drop _ _
    have hnd2 : ((L.erase e).take k ++ (L.erase e).drop k).Nodup := by rw [hsplit]; exact hXnd
    have hdis := (List.nodup_append.1 hnd2).2.2
    constructor
    · rintro ⟨⟨hye, hyL⟩, hnt⟩
      have : y ∈ L.erase e := hLnd.mem_erase_iff.2 ⟨hye, hyL⟩
      rw [← hsplit] at this
      rcases List.mem_append.1 this with h | h
      · exact absurd h hnt
      · exact h
    · intro hy
      have hyX : y ∈ L.erase e := List.mem_of_mem_drop hy
      have := hLnd.mem_erase_iff.1 hyX
      exact ⟨⟨this.1, this.2⟩, fun hc => List.disjoint_left.1 hdis hc hy⟩
  obtain ⟨t', hfin, hvt', hmap', hfirst', hmgr'⟩ := assign_finish_spec e htwf he1 hmem hk
    (s._manager.calculate_weight (s.mem.first e))
    (s._manager.calculate_weight ((s.mem.first e).1, obj))
  have hcw' := calculate_weight_lt s._manager ((s.mem.first e).1, obj)
  have hCs : s._manager._capacity < SIZE := hv.2.2.2.2
  have hwnew : ((t._manager._weight + SIZE - s._manager.calculate_weight (s.mem.first e) % SIZE)
      % SIZE + s._manager.calculate_weight ((s.mem.first e).1, obj)) % SIZE
      = s._manager.calculate_weight ((s.mem.first e).1, obj)
        + s._manager.total s.mem ((L.erase e).drop k) := by
    rw [hmgr, Nat.mod_eq_of_lt hcw]
    simp only []
    have : s._manager.calculate_weight (s.mem.first e)
        + s._manager.total s.mem ((L.erase e).drop k) + SIZE
        - s._manager.calculate_weight (s.mem.first e)
        = s._manager.total s.mem ((L.erase e).drop k) + SIZE := by omega
    have hd : s._manager.total s.mem ((L.erase e).drop k) < SIZE := by omega
    have hs : s._manager.total s.mem ((L.erase e).drop k)
        + s._manager.calculate_weight ((s.mem.first e).1, obj) < SIZE := by omega
    rw [this, Nat.add_mod_right, Nat.mod_eq_of_lt hd, Nat.mod_eq_of_lt hs]
    omega
  have hmgr2 : t'._manager = { s._manager with
      _weight := s._manager.calculate_weight ((s.mem.first e).1, obj)
        + s._manager.total s.mem ((L.erase e).drop k) } := by
    rw [hmgr', hwnew, hmgr]
  have hpol' : t'._manager._policy = .plain par := by rw [hmgr2]; exact hpol
  obtain ⟨a1, a2, a3, L', hvL', hperm, hlru, hid⟩ := access_plain_order par hvt' e he1 hpol'
  refine ⟨t', L', hfin, hvt', ?_, ?_, ?_, hvL', ?_, hperm, ?_, hid⟩
  · rw [a1, hmap', hmap]
  · rw [a3, hfirst', hfirst]
  · rw [a2, hmgr2]
  · have hf' : (t'.manager_access e).mem.first
        = Function.update s.mem.first e ((s.mem.first e).1, obj) := by
      rw [a3, hfirst', hfirst]
    have hm' : (t'.manager_access e)._manager = { s._manager with
        _weight := s._manager.calculate_weight ((s.mem.first e).1, obj)
          + s._manager.total s.mem ((L.erase e).drop k) } := by rw [a2, hmgr2]
    have he' : e ∈ L' := hperm.symm.subset he1
    have hL'nd : L'.Nodup := hperm.nodup_iff.2 hL1nd
    have h1 := total_erase (t'.manager_access e)._manager (t'.manager_access e).mem he' hL'nd
    have h2 : (t'.manager_access e)._manager.total (t'.manager_access e).mem (L'.erase e)
        = s._manager.total s.mem ((L.erase e).drop k) := by
      rw [total_perm _ _ (hperm.erase e), hX1]
      refine total_congr_on _ _ _ _ _ (by rw [hm']) (fun q hq => ?_)
      have hq' : q ∈ L.erase e := List.mem_of_mem_drop hq
      rw [hf', Function.update_noteq (hLnd.mem_erase_iff.1 hq').1]
    have h3 : (t'.manager_access e)._manager.calculate_weight
        ((t'.manager_access e).mem.first e)
        = s._manager.calculate_weight ((s.mem.first e).1, obj) := by
      rw [hf', Function.update_same, hm']
      rfl
    refine ⟨?_, ?_⟩
    · rw [← h1, h2, h3, hm']
      simp only []
      omega
    · rw [hm']
      exact hfit
  · intro h
    rw [hlru h, hX1]

end unordered_map

end limited

end extended_containers

namespace extended_containers

namespace limited

namespace unordered_map

open cache_manager

variable {Key V : Type} [DecidableEq Key]

/-! ## The range insert that succeeds -/

/-- The first loop of the range insert when the weights it adds up stay within the
capacity: it adds to the index exactly the new entries of the specification, in range order,
and its sum is the sum of their weights. -/
theorem insert_range_index_exact :
    ∀ (range : List (Ptr × (Key × V))) (s : unordered_map Key V) (I : List Ptr) (weight : Nat),
      (range.map Prod.fst).Nodup → (∀ p ∈ range.map Prod.fst, p ∉ s._map) →
      weight + ((spec_range_new_entries s.keys range).map
        (fun x => s._manager.calculate_weight x.2)).sum ≤ s._manager._capacity →
      s._manager._capacity < SIZE →
      (s.insert_range_index range I weight).2.1
          = I ++ (spec_range_new_entries s.keys range).map Prod.fst ∧
        (s.insert_range_index range I weight).2.2
          = weight + ((spec_range_new_entries s.keys range).map
            (fun x => s._manager.calculate_weight x.2)).sum ∧
        (s.insert_range_index range I weight).1._map
          = ((spec_range_new_entries s.keys range).map Prod.fst).reverse ++ s._map ∧
        ∀ x ∈ spec_range_new_entries s.keys range,
          (s.insert_range_index range I weight).1.mem.first x.1 = x.2 := by
  intro range
  induction range with
  | nil =>
    intro s I weight _ _ _ _
    simp [insert_range_index, spec_range_new_entries]
  | cons a range ih =>
    intro s I weight hnd hfresh hsum hC
    obtain ⟨p, value⟩ := a
    simp only [List.map_cons, List.nodup_cons] at hnd
    have hp : p ∉ s._map := hfresh p (by simp)
    have hfresh' : ∀ p' ∈ range.map Prod.fst, p' ∉ s._map := fun p' hp' =>
      hfresh p' (by simp only [List.map_cons, List.mem_cons]; exact Or.inr hp')
    unfold insert_range_index
    cases hk : s._map_find value.1 with
    | some q =>
      have hin : value.1 ∈ s.keys := by
        by_contra hc
        rw [(_map_find_none s value.1).2 hc] at hk
        cases hk
      have e : s._map_insert p value = (s, q, false) := by simp [_map_insert, hk]
      have hspec : spec_range_new_entries s.keys ((p, value) :: range)
          = spec_range_new_entries s.keys range := by
        simp [spec_range_new_entries, hin]
      simp only [e]
      rw [hspec] at hsum ⊢
      exact ih s I weight hnd.2 hfresh' hsum hC
    | none =>
      have hnin : value.1 ∉ s.keys := (_map_find_none s value.1).1 hk
      have hspec : spec_range_new_entries s.keys ((p, value) :: range)
          = (p, value) :: spec_range_new_entries (value.1 :: s.keys) range := by
        simp [spec_range_new_entries, hnin]
      rw [hspec] at hsum ⊢
      rw [_map_insert_absent s p value hk]
      simp only [if_true, Function.update_same]
      have hkeys1 : ({ s with
          _map := p :: s._map
          mem := { first := Function.update s.mem.first p value
                   prev := Function.update s.mem.prev p 0
                   next := Function.update s.mem.next p 0
                   weight := Function.update s.mem.weight p 0 } } : unordered_map Key V).keys
          = value.1 :: s.keys := by
        simp only [keys, List.map_cons, Function.update_same, List.cons.injEq, true_and]
        refine List.map_congr_left (fun q hq => ?_)
        have : q ≠ p := fun hc => hp (hc ▸ hq)
        rw [Function.update_noteq this]
      have hcw := calculate_weight_lt s._manager value
      simp only [List.map_cons, List.sum_cons] at hsum
      have hw1 : (weight + s._manager.calculate_weight value) % SIZE
          = weight + s._manager.calculate_weight value := Nat.mod_eq_of_lt (by omega)
      have hnb : ¬ (weight + s._manager.calculate_weight value) % SIZE
          > s._manager.capacity := by
        rw [hw1]
        show ¬ _ > s._manager._capacity
        omega
      rw [if_neg hnb]
      obtain ⟨h1, h2, h3, h4⟩ := ih
        ({ s with
           _map := p :: s._map
           mem := { first := Function.update s.mem.first p value
                    prev := Function.update s.mem.prev p 0
                    next := Function.update s.mem.next p 0
                    weight := Function.update s.mem.weight p 0 } })
        (I ++ [p]) ((weight + s._manager.calculate_weight value) % SIZE) hnd.2
        (by
          intro p' hp'
          simp only [List.mem_cons, not_or]
          exact ⟨fun hc => hnd.1 (hc ▸ hp'), hfresh' p' hp'⟩)
        (by
          rw [hkeys1]
          show (weight + s._manager.calculate_weight value) % SIZE
            + ((spec_range_new_entries (value.1 :: s.keys) range).map
              (fun x => s._manager.calculate_weight x.2)).sum ≤ s._manager._capacity
          rw [hw1]
          omega)
        hC
      rw [hkeys1] at h1 h2 h3 h4
      refine ⟨?_, ?_, ?_, ?_⟩
      · rw [h1]; simp
      · rw [h2, hw1]
        simp only [List.map_cons, List.sum_cons]
        show weight + s._manager.calculate_weight value
            + ((spec_range_new_entries (value.1 :: s.keys) range).map
              (fun x => s._manager.calculate_weight x.2)).sum
          = weight + (s._manager.calculate_weight value
            + ((spec_range_new_entries (value.1 :: s.keys) range).map
              (fun x => s._manager.calculate_weight x.2)).sum)
        omega
      · rw [h3]; simp
      · intro x hx
        rcases List.mem_cons.1 hx with rfl | hx
        · obtain ⟨J, -, -, -, -, hfr⟩ := insert_range_index_frame range
            ({ s with
               _map := p :: s._map
               mem := { first := Function.update s.mem.first p value
                        prev := Function.update s.mem.prev p 0
                        next := Function.update s.mem.next p 0
                        weight := Function.update s.mem.weight p 0 } })
            (I ++ [p]) ((weight + s._manager.calculate_weight value) % SIZE)
          rw [(hfr p hnd.1).1]
          simp
        · exact h4 x hx

/-- Linking a list of nodes one after another under a policy that inserts at the tail: the
nodes follow the old entries in the order given, and the weight counter grows by their
weights. -/
theorem foldl_insert_tail :
    ∀ (J : List Ptr) (t : unordered_map Key V) (M : List Ptr),
      IsList t.mem t._manager._first M →
      (t._manager._policy.parent = .fifo ∨ t._manager._policy.parent = .lru) → J.Nodup →
      (∀ y ∈ J, y ∉ t._manager._first :: M) →
      t._manager._weight + t._manager.total t.mem J < SIZE →
      IsList (J.foldl (fun s it => s.safeManagerInsert it) t).mem t._manager._first (M ++ J) ∧
        (J.foldl (fun s it => s.safeManagerInsert it) t)._map = t._map ∧
        (J.foldl (fun s it => s.safeManagerInsert it) t).mem.first = t.mem.first ∧
        (J.foldl (fun s it => s.safeManagerInsert it) t)._manager
          = { t._manager with _weight := t._manager._weight + t._manager.total t.mem J } := by
  intro J
  induction J with
  | nil =>
    intro t M hM _ _ _ _
    exact ⟨by simpa using hM, rfl, rfl, rfl⟩
  | cons x J ih =>
    intro t M hM hp hnd hfresh hlt
    rw [List.nodup_cons] at hnd
    rw [total_cons] at hlt
    have hfirst : (t.safeManagerInsert x).mem.first = t.mem.first :=
      (cache_manager.insert_mem t._manager t.mem x).2.2
    have hmgr : (t.safeManagerInsert x)._manager = { t._manager with
        _weight := (t._manager._weight + t._manager.calculate_weight (t.mem.first x)) % SIZE } :=
      rfl
    have hw : (t._manager._weight + t._manager.calculate_weight (t.mem.first x)) % SIZE
        = t._manager._weight + t._manager.calculate_weight (t.mem.first x) :=
      Nat.mod_eq_of_lt (by omega)
    have hM1 : IsList (t.safeManagerInsert x).mem (t.safeManagerInsert x)._manager._first
        (M ++ [x]) := by
      rw [hmgr]
      exact insert_isList_tail t._manager t.mem M x hM (hfresh x (by simp)) hp
    have htot : (t.safeManagerInsert x)._manager.total (t.safeManagerInsert x).mem J
        = t._manager.total t.mem J :=
      total_congr _ _ _ _ J (by rw [hmgr]) hfirst
    obtain ⟨h1, h2, h3, h4⟩ := ih (t.safeManagerInsert x) (M ++ [x]) hM1
      (by rw [hmgr]; exact hp) hnd.2
      (by
        intro y hy
        have := hfresh y (List.mem_cons_of_mem _ hy)
        have hyx : y ≠ x := fun hc => hnd.1 (hc ▸ hy)
        rw [hmgr]
        simp only [List.mem_cons, List.mem_append, List.mem_singleton, not_or] at this ⊢
        exact ⟨this.1, this.2, hyx, List.not_mem_nil _⟩)
      (by rw [htot, hmgr, hw]; simp only []; omega)
    rw [List.foldl_cons]
    refine ⟨?_, ?_, ?_, ?_⟩
    · have : M ++ x :: J = M ++ [x] ++ J := by simp
      rw [this]
      rw [hmgr] at h1
      exact h1
    · rw [h2]; rfl
    · rw [h3, hfirst]
    · rw [h4, htot, hmgr, hw, total_cons]
      simp only [Nat.add_assoc]

end unordered_map

end limited

end extended_containers

namespace extended_containers

namespace limited

namespace unordered_map

open cache_manager

variable {Key V : Type} [DecidableEq Key]

/-! ## Residency after a range insert -/

/-- Linking nodes changes neither the values nor the index. -/
theorem foldl_insert_first : ∀ (I : List Ptr) (s : unordered_map Key V),
    (I.foldl (fun s it => s.safeManagerInsert it) s).mem.first = s.mem.first ∧
      (I.foldl (fun s it => s.safeManagerInsert it) s)._map = s._map := by
  intro I
  induction I with
  | nil => intro s; exact ⟨rfl, rfl⟩
  | cons x I ih =>
    intro s
    obtain ⟨h1, h2⟩ := ih (s.safeManagerInsert x)
    rw [List.foldl_cons]
    exact ⟨h1.trans (cache_manager.insert_mem s._manager s.mem x).2.2, h2.trans rfl⟩

/-- The first loop of the range insert keeps the keys the index held, when the nodes it
allocates are new. -/
theorem insert_range_index_keys_mono (range : List (Ptr × (Key × V)))
    (s : unordered_map Key V) (I : List Ptr) (weight : Nat)
    (hfresh : ∀ p ∈ range.map Prod.fst, p ∉ s._map) :
    ∀ k ∈ s.keys, k ∈ (s.insert_range_index range I weight).1.keys := by
  obtain ⟨J, -, h2, -, -, h5⟩ := insert_range_index_frame range s I weight
  intro k hk
  simp only [keys, List.mem_map] at hk ⊢
  obtain ⟨q, hq, rfl⟩ := hk
  refine ⟨q, ?_, ?_⟩
  · rw [h2]
    exact List.mem_append_right _ hq
  · rw [(h5 q (fun hc => hfresh q hc hq)).1]

/-- When the sum of the first loop of the range insert stays within the capacity, the loop
has gone through the whole range: every key of the range is a key of the index. -/
theorem insert_range_index_keys :
    ∀ (range : List (Ptr × (Key × V))) (s : unordered_map Key V) (I : List Ptr) (weight : Nat),
      (range.map Prod.fst).Nodup → (∀ p ∈ range.map Prod.fst, p ∉ s._map) →
      (s.insert_range_index range I weight).2.2 ≤ s._manager.capacity →
      ∀ x ∈ range, x.2.1 ∈ (s.insert_range_index range I weight).1.keys := by
  intro range
  induction range with
  | nil => intro s I weight _ _ _ x hx; simp at hx
  | cons a range ih =>
    intro s I weight hnd hfresh hle x hx
    obtain ⟨p, value⟩ := a
    simp only [List.map_cons, List.nodup_cons] at hnd
    have hp : p ∉ s._map := hfresh p (by simp)
    have hfresh' : ∀ p' ∈ range.map Prod.fst, p' ∉ s._map := fun p' hp' =>
      hfresh p' (by simp only [List.map_cons, List.mem_cons]; exact Or.inr hp')
    unfold insert_range_index at hle ⊢
    cases hk : s._map_find value.1 with
    | some q =>
      have hin : value.1 ∈ s.keys := by
        by_contra hc
        rw [(_map_find_none s value.1).2 hc] at hk
        cases hk
      have e : s._map_insert p value = (s, q, false) := by simp [_map_insert, hk]
      simp only [e] at hle ⊢
      rcases List.mem_cons.1 hx with rfl | hx
      · exact insert_range_index_keys_mono range s I weight hfresh' _ hin
      · exact ih s I weight hnd.2 hfresh' hle x hx
    | none =>
      rw [_map_insert_absent s p value hk] at hle ⊢
      simp only [if_true, Function.update_same] at hle ⊢
      have hfresh1 : ∀ p' ∈ range.map Prod.fst, p' ∉ p :: s._map := by
        intro p' hp'
        simp only [List.mem_cons, not_or]
        exact ⟨fun hc => hnd.1 (hc ▸ hp'), hfresh' p' hp'⟩
      split_ifs at hle ⊢ with hbreak
      · exact absurd hle (by
          simp only [] at hbreak ⊢
          exact not_le.2 hbreak)
      · rcases List.mem_cons.1 hx with rfl | hx
        · refine insert_range_index_keys_mono range _ _ _ hfresh1 _ ?_
          simp [keys]
        · exact ih _ _ _ hnd.2 hfresh1 hle x hx

end unordered_map

end limited

end extended_containers

namespace cache_manager

variable {T : Type}

/-! ## Exchange of blocks of a circular list -/

/-- In a valid circular list the links are symmetric at every node, the sentinel
included. -/
theorem isList_links_symmetric {m : Mem T} {s : Ptr} {L : List Ptr} (h : IsList m s L) :
    ∀ E ∈ s :: L, m.next (m.prev E) = E ∧ m.prev (m.next E) = E := by
  intro E hE
  rcases List.mem_cons.1 hE with rfl | hE
  · constructor
    · rcases List.eq_nil_or_concat L with rfl | ⟨L', z, rfl⟩
      · have := isList_nil h
        rw [this.2, this.1]
      · have := isList_last (show IsList m E (L' ++ [z]) by simpa using h)
        rw [this.1, this.2]
    · cases L with
      | nil =>
        have := isList_nil h
        rw [this.1, this.2]
      | cons a L =>
        have := isList_head h
        rw [this.1, this.2]
  · exact isList_symm h hE

/-- The neighbours at the boundaries of two adjacent blocks `U` and `W` of a valid list. -/
theorem isList_blocks {m : Mem T} {s : Ptr} {A U W B : List Ptr} {u w x0 x1 y0 y1 : Ptr}
    (h : IsList m s (A ++ (U ++ (W ++ B))))
    (hx0 : U.head? = some x0) (hx1 : U.getLast? = some x1)
    (hy0 : W.head? = some y0) (hy1 : W.getLast? = some y1)
    (hu : (s :: A).getLast? = some u) (hw : (B ++ [s]).head? = some w) :
    (m.next u = x0 ∧ m.prev x0 = u) ∧ (m.next x1 = y0 ∧ m.prev y0 = x1) ∧
      (m.next y1 = w ∧ m.prev w = y1) := by
  have hl := h.1
  have e : s :: (A ++ (U ++ (W ++ B))) ++ [s] = (s :: A) ++ (U ++ (W ++ (B ++ [s]))) := by simp
  rw [e, linked_append_of m _ _ u x0 hu (by simp [hx0]),
    linked_append_of m _ _ x1 y0 hx1 (by simp [hy0]),
    linked_append_of m _ _ y1 w hy1 hw] at hl
  obtain ⟨-, ⟨-, ⟨-, -, h3⟩, h2⟩, h1⟩ := hl
  exact ⟨h1, h2, h3⟩

/-- The three links that exchange two adjacent blocks `U` and `W` of a valid list, with the
distinctness of the nodes they write. -/
theorem isList_exchange {m : Mem T} {s : Ptr} {A U W B : List Ptr} {u w x0 x1 y0 y1 : Ptr}
    (h : IsList m s (A ++ (U ++ (W ++ B))))
    (hx0 : U.head? = some x0) (hx1 : U.getLast? = some x1)
    (hy0 : W.head? = some y0) (hy1 : W.getLast? = some y1)
    (hu : (s :: A).getLast? = some u) (hw : (B ++ [s]).head? = some w) :
    IsList (__link (__link (__link m u y0) y1 x0) x1 w) s (A ++ (W ++ (U ++ B))) ∧
      (u ≠ x1 ∧ u ≠ y1 ∧ x1 ≠ y1) ∧ (x0 ≠ y0 ∧ x0 ≠ w ∧ y0 ≠ w) := by
  obtain ⟨P, hP⟩ := List.getLast?_eq_some_iff.1 hu
  obtain ⟨Q, hQ⟩ : ∃ Q, B ++ [s] = w :: Q := ⟨_, eq_cons_of_head? hw⟩
  have eold : s :: (A ++ (U ++ (W ++ B))) ++ [s] = P ++ u :: (U ++ (W ++ w :: Q)) := by
    have : s :: (A ++ (U ++ (W ++ B))) ++ [s] = (s :: A) ++ (U ++ (W ++ (B ++ [s]))) := by
      simp
    rw [this, hP, hQ]; simp
  have enew : s :: (A ++ (W ++ (U ++ B))) ++ [s] = P ++ u :: (W ++ (U ++ w :: Q)) := by
    have : s :: (A ++ (W ++ (U ++ B))) ++ [s] = (s :: A) ++ (W ++ (U ++ (B ++ [s]))) := by
      simp
    rw [this, hP, hQ]; simp
  obtain ⟨hd, ht⟩ := isList_nodup_seq h
  have hl := h.1
  rw [eold] at hd ht hl
  have key := linked_swap_links m P U W Q u w x0 x1 y0 y1 hx0 hx1 hy0 hy1 hd ht hl
  have hdist := swap_distinct P U W Q u w x0 x1 y0 y1 hx0 hx1 hy0 hy1 hd ht
  refine ⟨⟨?_, ?_⟩, hdist⟩
  · rw [enew]; exact key
  · have hperm : (s :: (A ++ (W ++ (U ++ B)))).Perm (s :: (A ++ (U ++ (W ++ B)))) := by
      refine List.Perm.cons _ (List.Perm.append_left _ ?_)
      rw [← List.append_assoc, ← List.append_assoc]
      exact List.Perm.append_right _ List.perm_append_comm
    exact hperm.nodup_iff.2 h.2

end cache_manager

namespace cache_manager

variable {T : Type}

/-- Exchange of two blocks `X` and `Y` separated by a non-empty block `Z`: any memory whose
links are those of `m` but for the four junctions holds the list with `X` and `Y`
exchanged. -/
theorem isList_exchange_far {m : Mem T} {s : Ptr} {A X Z Y B : List Ptr}
    {u w x0 x1 z0 z1 y0 y1 : Ptr}
    (h : IsList m s (A ++ (X ++ (Z ++ (Y ++ B)))))
    (hx0 : X.head? = some x0) (hx1 : X.getLast? = some x1)
    (hz0 : Z.head? = some z0) (hz1 : Z.getLast? = some z1)
    (hy0 : Y.head? = some y0) (hy1 : Y.getLast? = some y1)
    (hu : (s :: A).getLast? = some u) (hw : (B ++ [s]).head? = some w) :
    (∀ m' : Mem T,
      (∀ q, m'.next q = if q = u then y0 else if q = y1 then z0 else
        if q = z1 then x0 else if q = x1 then w else m.next q) →
      (∀ q, m'.prev q = if q = y0 then u else if q = z0 then y1 else
        if q = x0 then z1 else if q = w then x1 else m.prev q) →
      IsList m' s (A ++ (Y ++ (Z ++ (X ++ B))))) ∧
      (u ≠ x1 ∧ u ≠ y1 ∧ u ≠ z1 ∧ x1 ≠ y1 ∧ x1 ≠ z1 ∧ y1 ≠ z1) ∧
      (x0 ≠ y0 ∧ x0 ≠ z0 ∧ y0 ≠ z0 ∧ x0 ≠ w ∧ y0 ≠ w ∧ z0 ≠ w) ∧
      (m.prev x0 = u ∧ m.next x1 = z0 ∧ m.prev z0 = x1 ∧ m.next z1 = y0 ∧ m.prev y0 = z1 ∧
        m.prev w = y1 ∧ m.next u = x0 ∧ m.next y1 = w) := by
  have hXne : X ≠ [] := by rintro rfl; simp at hx0
  have hYne : Y ≠ [] := by rintro rfl; simp at hy0
  have hZne : Z ≠ [] := by rintro rfl; simp at hz0
  -- first step: `X` and `Z`
  have hw1 : ((Y ++ B) ++ [s]).head? = some y0 := by
    rw [eq_cons_of_head? hy0]; rfl
  obtain ⟨h1, ⟨d1, d2, d3⟩, ⟨e1, e2, e3⟩⟩ := isList_exchange h hx0 hx1 hz0 hz1 hu hw1
  -- second step: `X` and `Y`
  have hu2 : (s :: (A ++ Z)).getLast? = some z1 := by
    rw [show s :: (A ++ Z) = (s :: A) ++ Z from rfl, List.getLast?_append_of_ne_nil _ hZne]
    exact hz1
  have h1' : IsList (__link (__link (__link m u z0) z1 x0) x1 y0) s
      ((A ++ Z) ++ (X ++ (Y ++ B))) := by
    rw [List.append_assoc]; exact h1
  obtain ⟨h2, ⟨d4, d5, d6⟩, ⟨e4, e5, e6⟩⟩ := isList_exchange h1' hx0 hx1 hy0 hy1 hu2 hw
  -- third step: `Z` and `Y`
  have hw3 : ((X ++ B) ++ [s]).head? = some x0 := by
    rw [eq_cons_of_head? hx0]; rfl
  have h2' : IsList (__link (__link (__link (__link (__link (__link m u z0) z1 x0) x1 y0)
      z1 y0) y1 x0) x1 w) s (A ++ (Z ++ (Y ++ (X ++ B)))) := by
    rw [← List.append_assoc]; exact h2
  obtain ⟨h3, ⟨d7, d8, d9⟩, ⟨e7, e8, e9⟩⟩ := isList_exchange h2' hz0 hz1 hy0 hy1 hu hw3
  -- the junctions of the original list
  have hu4 : (s :: (A ++ X)).getLast? = some x1 := by
    rw [show s :: (A ++ X) = (s :: A) ++ X from rfl, List.getLast?_append_of_ne_nil _ hXne]
    exact hx1
  have h4 : IsList m s ((A ++ X) ++ (Z ++ (Y ++ B))) := by
    rw [List.append_assoc]; exact h
  obtain ⟨-, -, ⟨-, e10, -⟩⟩ := isList_exchange h4 hz0 hz1 hy0 hy1 hu4 hw
  obtain ⟨⟨j7, j1⟩, ⟨j2, j3⟩, ⟨-, -⟩⟩ := isList_blocks h hx0 hx1 hz0 hz1 hu hw1
  obtain ⟨⟨-, -⟩, ⟨j4, j5⟩, ⟨j8, j6⟩⟩ := isList_blocks h4 hz0 hz1 hy0 hy1 hu4 hw
  refine ⟨fun m' hn hp => isList_congr ?_ ?_ h3, ⟨d1, d8, d2, d6, d3, fun c => d9 c.symm⟩,
    ⟨e2, e1, fun c => e7 c.symm, e5, e6, e10⟩, ⟨j1, j2, j3, j4, j5, j6, j7, j8⟩⟩
  · funext q
    rw [hn q]
    simp only [link_next]
    have d6' := Ne.symm d6
    have d5' := Ne.symm d5
    have d3' := Ne.symm d3
    by_cases c1 : q = u
    · rw [c1]; simp [d1, d2, d8]
    by_cases c2 : q = y1
    · rw [c2]; simp [d9, d6', d5', Ne.symm d8]
    by_cases c3 : q = z1
    · rw [c3]; simp [d4, d5, d9, Ne.symm d2]
    by_cases c4 : q = x1
    · rw [c4]; simp [d3, d6, Ne.symm d1]
    simp [c1, c2, c3, c4]
  · funext q
    rw [hp q]
    simp only [link_prev]
    by_cases c1 : q = y0
    · rw [c1]; simp [Ne.symm e4, Ne.symm e7, e6, e9]
    by_cases c2 : q = z0
    · rw [c2]; simp [Ne.symm e1, e3, e8]
    by_cases c3 : q = x0
    · rw [c3]; simp [e1, e2, e5]
    by_cases c4 : q = w
    · rw [c4]; simp [Ne.symm e5, Ne.symm e6]
    simp [c1, c2, c3, c4]

/-- The two nodes `a` and `b` of a valid list, `a` in front of `b`: `iter_swap` called with
them in either order exchanges them. -/
theorem iter_swap_isList {m : Mem T} {s : Ptr} {A M B : List Ptr} {a b : Ptr}
    (h : IsList m s (A ++ a :: (M ++ b :: B))) :
    IsList (iterator_operations.iter_swap m a b) s (A ++ b :: (M ++ a :: B)) ∧
    IsList (iterator_operations.iter_swap m b a) s (A ++ b :: (M ++ a :: B)) := by
  obtain ⟨u, hu⟩ : ∃ u, (s :: A).getLast? = some u := by
    rcases List.eq_nil_or_concat (s :: A) with e | ⟨P, u, e⟩
    · simp at e
    · exact ⟨u, by rw [e]; simp⟩
  obtain ⟨w, hw⟩ : ∃ w, (B ++ [s]).head? = some w := by
    cases B with
    | nil => exact ⟨s, rfl⟩
    | cons c B => exact ⟨c, rfl⟩
  by_cases hM : M = []
  · subst hM
    have h' : IsList m s (A ++ ([a] ++ ([b] ++ B))) := h
    obtain ⟨⟨b1, b2⟩, ⟨b3, b4⟩, ⟨b5, b6⟩⟩ :=
      isList_blocks h' (show [a].head? = some a from rfl)
        (show [a].getLast? = some a from rfl) (show [b].head? = some b from rfl)
        (show [b].getLast? = some b from rfl) hu hw
    obtain ⟨key, ⟨h1, h2, h3⟩, h4, h5, h6⟩ :=
      isList_exchange h' (show [a].head? = some a from rfl)
        (show [a].getLast? = some a from rfl) (show [b].head? = some b from rfl)
        (show [b].getLast? = some b from rfl) hu hw
    have e1 : iterator_operations.iter_swap m a b
        = __link (__link (__link m u b) b a) a w := by
      simp only [iterator_operations.iter_swap, __prev, __next, b2, b4, b5, if_true]
    have e2 : iterator_operations.iter_swap m b a
        = __link (__link (__link m u b) b a) a w := by
      simp only [iterator_operations.iter_swap, __prev, __next, b2, b3, b4, b5, if_true,
        if_neg (Ne.symm h2)]
    rw [e1, e2]
    exact ⟨key, key⟩
  · obtain ⟨z1, hz1⟩ : ∃ z1, M.getLast? = some z1 := by
      rcases List.eq_nil_or_concat M with e | ⟨P, z, e⟩
      · exact absurd e hM
      · exact ⟨z, by rw [e]; simp⟩
    obtain ⟨z0, hz0⟩ : ∃ z0, M.head? = some z0 := by
      cases M with
      | nil => exact absurd rfl hM
      | cons c M' => exact ⟨c, rfl⟩
    have h' : IsList m s (A ++ ([a] ++ (M ++ ([b] ++ B)))) := h
    obtain ⟨far, ⟨d1, d2, d3, d4, d5, d6⟩, ⟨c1, c2, c3, c4, c5, c6⟩,
        ⟨j1, j2, j3, j4, j5, j6, j7, j8⟩⟩ :=
      isList_exchange_far h' (show [a].head? = some a from rfl)
        (show [a].getLast? = some a from rfl) hz0 hz1 (show [b].head? = some b from rfl)
        (show [b].getLast? = some b from rfl)
        hu hw
    have c1' := Ne.symm c1
    have hr : IsList (iterator_operations.iter_swap m a b) s
        (A ++ ([b] ++ (M ++ ([a] ++ B)))) := by
      refine far _ ?_ ?_
      · intro q
        simp only [iterator_operations.iter_swap, __prev, __next, j1, j2, j5, j8, if_neg d5,
          if_neg c4, if_true, ne_eq, c1, not_false_eq_true, link_next]
        by_cases k1 : q = u
        · rw [k1]; simp [d1, d2, d3]
        by_cases k2 : q = b
        · rw [k2]; simp [Ne.symm d4, d6, Ne.symm d2]
        by_cases k3 : q = z1
        · rw [k3]; simp [Ne.symm d5, Ne.symm d3, Ne.symm d6]
        simp [k1, k2, k3]
      · intro q
        simp only [iterator_operations.iter_swap, __prev, __next, j1, j2, j5, j8, if_neg d5,
          if_neg c4, if_true, ne_eq, c1, not_false_eq_true, link_prev]
        by_cases k1 : q = b
        · rw [k1]; simp [c5, Ne.symm c1, c3]
        by_cases k2 : q = z0
        · rw [k2]; simp [c6, Ne.symm c2, Ne.symm c3]
        by_cases k3 : q = a
        · rw [k3]; simp [c4, c1, c2]
        simp [k1, k2, k3]
    have hr2 : IsList (iterator_operations.iter_swap m b a) s
        (A ++ ([b] ++ (M ++ ([a] ++ B)))) := by
      refine far _ ?_ ?_
      · intro q
        simp only [iterator_operations.iter_swap, __prev, __next, j1, j2, j5, j8,
          if_neg (Ne.symm d2), if_neg c3, if_true, ne_eq, c1', not_false_eq_true, link_next]
        by_cases k1 : q = u
        · rw [k1]; simp [d1, d2, d3]
        by_cases k2 : q = b
        · rw [k2]; simp [Ne.symm d4, d6, Ne.symm d2]
        by_cases k3 : q = z1
        · rw [k3]; simp [Ne.symm d5, Ne.symm d3, Ne.symm d6]
        simp [k1, k2, k3]
      · intro q
        simp only [iterator_operations.iter_swap, __prev, __next, j1, j2, j5, j8,
          if_neg (Ne.symm d2), if_neg c3, if_true, ne_eq, c1', not_false_eq_true, link_prev]
        by_cases k1 : q = b
        · rw [k1]; simp [c5, Ne.symm c1, c3]
        by_cases k2 : q = z0
        · rw [k2]; simp [c6, Ne.symm c2, Ne.symm c3]
        by_cases k3 : q = a
        · rw [k3]; simp [c4, c1, c2]
        simp [k1, k2, k3]
    exact ⟨hr, hr2⟩

end cache_manager

namespace cache_manager

variable {T : Type}

/-- The loop of `reverse` over the nodes `C` that follow the node `p`, up to `after`: it
returns, turns the links among `p :: C` around and writes no other link but the `next` of the
nodes of `C` and the `prev` of the nodes of `p :: C` but the last. -/
theorem reverse_loop_spec (after : Ptr) :
    ∀ (C : List Ptr) (p cur : Ptr) (m : Mem T) (fuel : Nat),
      Linked m (C ++ [after]) → (∀ c, C.head? = some c → m.prev c = p) →
      (p :: C ++ [after]).Nodup → (C ++ [after]).head? = some cur → C.length < fuel →
      ∃ m', iterator_operations.reverse_loop after fuel m cur = some m' ∧
        (∀ q, q ∉ C → m'.next q = m.next q) ∧
        (∀ q, q ∉ (p :: C).dropLast → m'.prev q = m.prev q) ∧
        Linked m' (p :: C).reverse ∧ m'.first = m.first ∧ m'.weight = m.weight := by
  intro C
  induction C with
  | nil =>
    intro p cur m fuel _ _ _ hcur hfuel
    obtain ⟨fuel, rfl⟩ : ∃ k, fuel = k + 1 := ⟨fuel - 1, by simp at hfuel; omega⟩
    have : cur = after := by simpa using hcur.symm
    subst this
    exact ⟨m, by simp [iterator_operations.reverse_loop], fun _ _ => rfl, fun _ _ => rfl,
      trivial, rfl, rfl⟩
  | cons c C ih =>
    intro p cur m fuel hl hp hnd hcur hfuel
    obtain ⟨fuel, rfl⟩ : ∃ k, fuel = k + 1 := ⟨fuel - 1, by simp at hfuel; omega⟩
    have hc : cur = c := by simpa using hcur.symm
    subst hc
    have hpc : m.prev cur = p := hp cur rfl
    have hnd' : (cur :: C ++ [after]).Nodup := (List.nodup_cons.1 hnd).2
    have hpn : p ∉ cur :: C ++ [after] := (List.nodup_cons.1 hnd).1
    have hcn : cur ∉ C ++ [after] := (List.nodup_cons.1 hnd').1
    have hca : cur ≠ after := fun e => hcn (by simp [e])
    obtain ⟨w, hw⟩ : ∃ w, (C ++ [after]).head? = some w := by
      cases C with
      | nil => exact ⟨after, rfl⟩
      | cons d C => exact ⟨d, rfl⟩
    have hl' : Linked m ([cur] ++ (C ++ [after])) := hl
    rw [linked_append_of m [cur] _ cur w rfl hw] at hl'
    obtain ⟨-, hl2, hn1, hp1⟩ := hl'
    -- the memory after one round
    have hl3 : Linked (__link m cur p) (C ++ [after]) := by
      refine linked_frame m _ _ (fun q hq => ?_) (fun q hq => ?_) hl2
      · rw [link_next, if_neg]
        rintro rfl
        exact hcn (List.mem_of_mem_dropLast hq)
      · rw [link_prev, if_neg]
        rintro rfl
        exact hpn (List.mem_cons_of_mem _ (List.mem_of_mem_tail hq))
    have hp3 : ∀ d, C.head? = some d → (__link m cur p).prev d = cur := by
      intro d hd
      have hdw : d = w := by
        cases C with
        | nil => simp at hd
        | cons e C =>
          simp only [List.head?_cons, Option.some.injEq] at hd
          simp only [List.cons_append, List.head?_cons, Option.some.injEq] at hw
          rw [← hd, hw]
      rw [link_prev, if_neg, hdw, hp1]
      rintro rfl
      exact hpn (List.mem_cons_of_mem _ (List.mem_append_left _ (mem_of_head? hd)))
    obtain ⟨m', hrun, hnext, hprev, hlk, hfst, hwt⟩ :=
      ih cur w (__link m cur p) fuel hl3 hp3 hnd' hw (by simp at hfuel; omega)
    refine ⟨m', ?_, ?_, ?_, ?_, hfst, hwt⟩
    · rw [iterator_operations.reverse_loop, if_pos hca]
      simp only [__next, __prev, hpc, hn1]
      exact hrun
    · intro q hq
      rw [hnext q (fun c => hq (List.mem_cons_of_mem _ c)), link_next, if_neg]
      rintro rfl
      exact hq (List.mem_cons_self _ _)
    · intro q hq
      have e : (p :: cur :: C).dropLast = p :: (cur :: C).dropLast := rfl
      rw [e] at hq
      rw [hprev q (fun c => hq (List.mem_cons_of_mem _ c)), link_prev, if_neg]
      rintro rfl
      exact hq (List.mem_cons_self _ _)
    · rw [List.reverse_cons, linked_append_of m' _ [p] cur p (by simp) rfl]
      refine ⟨hlk, trivial, ?_, ?_⟩
      · rw [hnext cur (fun c => hcn (List.mem_append_left _ c)), link_next, if_pos rfl]
      · rw [hprev p (fun c => hpn (List.mem_append_left _ (List.mem_of_mem_dropLast c))),
          link_prev, if_pos rfl]

end cache_manager

namespace cache_manager

variable {T : Type}

/-- Body of `reverse` on the non-empty range `R` of a valid list: it returns and yields the
list with `R` turned around. -/
theorem reverse_isList {m : Mem T} {s : Ptr} {A R B : List Ptr} {first last : Ptr}
    (h : IsList m s (A ++ (R ++ B))) (hf : R.head? = some first)
    (hl : (B ++ [s]).head? = some last) (fuel : Nat) (hfuel : R.length ≤ fuel) :
    ∃ m', iterator_operations.reverse fuel m first last = some m' ∧
      IsList m' s (A ++ (R.reverse ++ B)) ∧ R.getLast? = some (m.prev last) ∧
      m'.first = m.first ∧ m'.weight = m.weight := by
  obtain ⟨x1, hx1⟩ : ∃ x1, R.getLast? = some x1 := by
    rcases List.eq_nil_or_concat R with rfl | ⟨U', z, rfl⟩
    · simp at hf
    · exact ⟨z, by simp⟩
  obtain ⟨u, hu⟩ : ∃ u, (s :: A).getLast? = some u := by
    rcases List.eq_nil_or_concat (s :: A) with e | ⟨P, u, e⟩
    · simp at e
    · exact ⟨u, by rw [e]; simp⟩
  have hRne : R ≠ [] := by rintro rfl; simp at hf
  -- the links of the original list
  have hlk := h.1
  have e : s :: (A ++ (R ++ B)) ++ [s] = (s :: A) ++ (R ++ (B ++ [s])) := by simp
  rw [e, linked_append_of m _ _ u first hu (by rw [List.head?_append_of_ne_nil _ hRne]; exact hf),
    linked_append_of m _ _ x1 last hx1 hl] at hlk
  obtain ⟨hlA, ⟨hlR, hlB, hn2, hp2⟩, hn1, hp1⟩ := hlk
  -- distinctness
  have hA := h.2
  have hZ := (isList_nodup_seq h).2
  have hsL := isList_not_mem h
  have hLn : (A ++ (R ++ B)).Nodup := (List.nodup_cons.1 hA).2
  have hRn : R.Nodup := (List.nodup_append.1 (List.nodup_append.1 hLn).2.1).1
  have hfR : first ∈ R := mem_of_head? hf
  have hxR : x1 ∈ R := mem_of_getLast? hx1
  have huA : u ∈ s :: A := mem_of_getLast? hu
  have hlBm : last ∈ B ++ [s] := mem_of_head? hl
  have f1 : ∀ q ∈ s :: A, q ∉ R := by
    intro q hq hqR
    rcases List.mem_cons.1 hq with rfl | hq
    · exact hsL (by simp [hqR])
    · exact List.disjoint_left.1 (List.nodup_append.1 hLn).2.2 hq (List.mem_append_left _ hqR)
  have f2 : ∀ q ∈ B ++ [s], q ∉ R := by
    intro q hq hqR
    rcases List.mem_append.1 hq with hq | hq
    · exact List.disjoint_left.1 (List.nodup_append.1 (List.nodup_append.1 hLn).2.1).2.2 hqR hq
    · rw [List.mem_singleton] at hq
      subst hq
      exact hsL (by simp [hqR])
  have f3 : ∀ q ∈ A, q ∉ B ++ [s] := by
    intro q hq hqB
    rcases List.mem_append.1 hqB with hqB | hqB
    · exact List.disjoint_left.1 (List.nodup_append.1 hLn).2.2 hq
        (List.mem_append_right _ hqB)
    · rw [List.mem_singleton] at hqB
      subst hqB
      exact hsL (by simp [hq])
  have f4 : ∀ q ∈ B, q ∉ s :: A := by
    intro q hq hqA
    rcases List.mem_cons.1 hqA with rfl | hqA
    · exact hsL (by simp [hq])
    · exact f3 q hqA (List.mem_append_left _ hq)
  have f5 : u ∉ (s :: A).dropLast := by
    obtain ⟨P, hP⟩ := List.getLast?_eq_some_iff.1 hu
    have hn : (P ++ [u]).Nodup := by
      rw [← hP]
      exact List.nodup_cons.2 ⟨fun c => hsL (List.mem_append_left _ c),
        (List.nodup_append.1 hLn).1⟩
    rw [hP, List.dropLast_concat]
    exact fun c => List.disjoint_left.1 (List.nodup_append.1 hn).2.2 c (List.mem_singleton_self _)
  have f6 : last ∉ (B ++ [s]).tail := by
    have hn : (B ++ [s]).Nodup := by
      have e2 : A ++ (R ++ B) ++ [s] = A ++ (R ++ (B ++ [s])) := by simp
      have hZ' : (A ++ (R ++ B) ++ [s]).Nodup := hZ
      rw [e2] at hZ'
      exact (List.nodup_append.1 (List.nodup_append.1 hZ').2.1).2.1
    rw [eq_cons_of_head? hl] at hn
    exact (List.nodup_cons.1 hn).1
  have f7 : first ∉ R.tail := by
    have hn := hRn
    rw [eq_cons_of_head? hf] at hn
    exact (List.nodup_cons.1 hn).1
  have f8 : x1 ∉ R.dropLast := by
    have hn := hRn
    rw [eq_concat_of_getLast? hx1] at hn
    exact fun c => List.disjoint_left.1 (List.nodup_append.1 hn).2.2 c (List.mem_singleton_self _)
  -- the loop
  have hRl : Linked m ([first] ++ (R.tail ++ [last])) := by
    have : [first] ++ (R.tail ++ [last]) = R ++ [last] := by
      conv_rhs => rw [eq_cons_of_head? hf]
      rfl
    rw [this, linked_append_of m _ [last] x1 last hx1 rfl]
    exact ⟨hlR, trivial, hn2, hp2⟩
  obtain ⟨cur, hcur⟩ : ∃ cur, (R.tail ++ [last]).head? = some cur := by
    cases R.tail with
    | nil => exact ⟨last, rfl⟩
    | cons d C => exact ⟨d, rfl⟩
  rw [linked_append_of m [first] _ first cur rfl hcur] at hRl
  obtain ⟨-, hlC, hn3, hp3⟩ := hRl
  have hpc : ∀ c, R.tail.head? = some c → m.prev c = first := by
    intro c hc
    have : c = cur := by
      cases hC : R.tail with
      | nil => rw [hC] at hc; simp at hc
      | cons d C =>
        rw [hC] at hc hcur
        simp only [List.head?_cons, Option.some.injEq] at hc
        simp only [List.cons_append, List.head?_cons, Option.some.injEq] at hcur
        rw [← hc, hcur]
    rw [this, hp3]
  have hndl : (first :: R.tail ++ [last]).Nodup := by
    have e3 : first :: R.tail ++ [last] = R ++ [last] := by
      conv_rhs => rw [eq_cons_of_head? hf]
    rw [e3]
    refine List.nodup_append.2 ⟨hRn, List.nodup_singleton _, ?_⟩
    intro q hq hq2
    rw [List.mem_singleton] at hq2
    subst hq2
    exact f2 q hlBm hq
  have hlen : R.tail.length < fuel := by
    have : R.length = R.tail.length + 1 := by
      conv_lhs => rw [eq_cons_of_head? hf]
      rfl
    omega
  obtain ⟨m1, hrun, hnext, hprev, hrev, hfst, hwt⟩ :=
    reverse_loop_spec last R.tail first cur m fuel hlC hpc hndl hcur hlen
  have hdl : (first :: R.tail).dropLast = R.dropLast := by rw [← eq_cons_of_head? hf]
  have hrv : (first :: R.tail).reverse = R.reverse := by rw [← eq_cons_of_head? hf]
  rw [hdl] at hprev
  rw [hrv] at hrev
  refine ⟨__link (__link m1 u x1) first last, ?_, ⟨?_, ?_⟩, by rw [hp2]; exact hx1, hfst, hwt⟩
  · simp only [iterator_operations.reverse, __next, __prev, hn3, hrun, hp1, hp2]
  · have e4 : s :: (A ++ (R.reverse ++ B)) ++ [s] = (s :: A) ++ (R.reverse ++ (B ++ [s])) := by
      simp
    have hRr : R.reverse ≠ [] := by simpa using hRne
    rw [e4, linked_append_of _ _ _ u x1 hu
        (by rw [List.head?_append_of_ne_nil _ hRr, List.head?_reverse]; exact hx1),
      linked_append_of _ _ _ first last (by rw [List.getLast?_reverse]; exact hf) hl]
    have hux : u ≠ first := fun c => f1 u huA (c ▸ hfR)
    have hxl : x1 ≠ last := fun c => f2 last hlBm (c ▸ hxR)
    refine ⟨?_, ⟨?_, ?_, ?_, ?_⟩, ?_, ?_⟩
    · refine linked_frame m _ _ (fun q hq => ?_) (fun q hq => ?_) hlA
      · have hqA := List.mem_of_mem_dropLast hq
        have n1 : q ≠ first := fun c => f1 q hqA (c ▸ hfR)
        have n2 : q ≠ u := fun c => f5 (c ▸ hq)
        have n3 : q ∉ R.tail := fun c => f1 q hqA (List.mem_of_mem_tail c)
        rw [link_next, if_neg n1, link_next, if_neg n2, hnext q n3]
      · have hqA : q ∈ A := hq
        have n1 : q ≠ last := fun c => f3 q hqA (c ▸ hlBm)
        have n2 : q ≠ x1 := fun c => f1 q (List.mem_cons_of_mem _ hqA) (c ▸ hxR)
        have n3 : q ∉ R.dropLast := fun c =>
          f1 q (List.mem_cons_of_mem _ hqA) (List.mem_of_mem_dropLast c)
        rw [link_prev, if_neg n1, link_prev, if_neg n2, hprev q n3]
    · refine linked_frame m1 _ _ (fun q hq => ?_) (fun q hq => ?_) hrev
      · have hq' : q ∈ R.tail := by
          rw [List.dropLast_reverse, List.mem_reverse] at hq
          exact hq
        have n1 : q ≠ first := fun c => f7 (c ▸ hq')
        have n2 : q ≠ u := fun c => f1 u huA (c ▸ List.mem_of_mem_tail hq')
        rw [link_next, if_neg n1, link_next, if_neg n2]
      · have hq' : q ∈ R.dropLast := by
          rw [List.tail_reverse, List.mem_reverse] at hq
          exact hq
        have n1 : q ≠ last := fun c => f2 last hlBm (c ▸ List.mem_of_mem_dropLast hq')
        have n2 : q ≠ x1 := fun c => f8 (c ▸ hq')
        rw [link_prev, if_neg n1, link_prev, if_neg n2]
    · refine linked_frame m _ _ (fun q hq => ?_) (fun q hq => ?_) hlB
      · have hqB : q ∈ B := by
          rw [List.dropLast_concat] at hq
          exact hq
        have hqB' : q ∈ B ++ [s] := List.mem_append_left _ hqB
        have n1 : q ≠ first := fun c => f2 q hqB' (c ▸ hfR)
        have n2 : q ≠ u := fun c => f4 q hqB (c ▸ huA)
        have n3 : q ∉ R.tail := fun c => f2 q hqB' (List.mem_of_mem_tail c)
        rw [link_next, if_neg n1, link_next, if_neg n2, hnext q n3]
      · have hqB := List.mem_of_mem_tail hq
        have n1 : q ≠ last := fun c => f6 (c ▸ hq)
        have n2 : q ≠ x1 := fun c => f2 q hqB (c ▸ hxR)
        have n3 : q ∉ R.dropLast := fun c => f2 q hqB (List.mem_of_mem_dropLast c)
        rw [link_prev, if_neg n1, link_prev, if_neg n2, hprev q n3]
    · rw [link_next, if_pos rfl]
    · rw [link_prev, if_pos rfl]
    · rw [link_next, if_neg hux, link_next, if_pos rfl]
    · rw [link_prev, if_neg hxl, link_prev, if_pos rfl]
  · have hperm : (s :: (A ++ (R.reverse ++ B))).Perm (s :: (A ++ (R ++ B))) :=
      List.Perm.cons _ (List.Perm.append_left _ (List.Perm.append_right _ (List.reverse_perm R)))
    exact hperm.nodup_iff.2 hA

end cache_manager

namespace cache_manager

variable {T : Type}

theorem not_mem_dropLast_of_getLast? {l : List Ptr} {a : Ptr} (hn : l.Nodup)
    (h : l.getLast? = some a) : a ∉ l.dropLast := by
  rw [eq_concat_of_getLast? h] at hn
  exact fun c => List.disjoint_left.1 (List.nodup_append.1 hn).2.2 c (List.mem_singleton_self _)

theorem not_mem_tail_of_head? {l : List Ptr} {a : Ptr} (hn : l.Nodup)
    (h : l.head? = some a) : a ∉ l.tail := by
  rw [eq_cons_of_head? h] at hn
  exact (List.nodup_cons.1 hn).1

/-- A valid list around the sentinel `o` is a valid list around the node `d` in any memory
that keeps the links inside the list and ties its two ends to `d`. -/
theorem isList_resentinel {m m' : Mem T} {o d : Ptr} {L : List Ptr} (h : IsList m o L)
    (hd : d ∉ L)
    (hnext : ∀ q ∈ L.dropLast, m'.next q = m.next q)
    (hprev : ∀ q ∈ L.tail, m'.prev q = m.prev q)
    (hd1 : (L ++ [d]).head? = some (m'.next d))
    (hd2 : (d :: L).getLast? = some (m'.prev d))
    (hd3 : ∀ x, L.head? = some x → m'.prev x = d)
    (hd4 : ∀ x, L.getLast? = some x → m'.next x = d) : IsList m' d L := by
  refine ⟨?_, List.nodup_cons.2 ⟨hd, (List.nodup_cons.1 h.2).2⟩⟩
  have hL : Linked m L := by
    have h1 := h.1
    have e : o :: L ++ [o] = [o] ++ (L ++ [o]) := rfl
    rw [e] at h1
    exact ((linked_append m _ _).1 (linked_suffix _ h1)).1
  have hL' : Linked m' L := linked_frame m m' L hnext hprev hL
  by_cases hnil : L = []
  · subst hnil
    simp only [List.nil_append, List.head?_cons, Option.some.injEq] at hd1
    simp only [List.getLast?_singleton, Option.some.injEq] at hd2
    exact ⟨⟨hd1.symm, hd2.symm⟩, trivial⟩
  · obtain ⟨x1, hx1⟩ : ∃ x1, L.getLast? = some x1 := by
      rcases List.eq_nil_or_concat L with e | ⟨P, z, e⟩
      · exact absurd e hnil
      · exact ⟨z, by rw [e]; simp⟩
    obtain ⟨x0, hx0⟩ : ∃ x0, L.head? = some x0 := by
      cases L with
      | nil => exact absurd rfl hnil
      | cons c M' => exact ⟨c, rfl⟩
    have e1 : (L ++ [d]).head? = some x0 := by
      rw [List.head?_append_of_ne_nil _ hnil]; exact hx0
    have e2 : (d :: L).getLast? = some x1 := by
      rw [show d :: L = [d] ++ L from rfl, List.getLast?_append_of_ne_nil _ hnil]; exact hx1
    rw [e1] at hd1
    rw [e2] at hd2
    have e : d :: L ++ [d] = [d] ++ (L ++ [d]) := rfl
    rw [e, linked_append_of m' [d] _ d x0 rfl e1, linked_append_of m' L [d] x1 d hx1 rfl]
    refine ⟨trivial, ⟨hL', trivial, hd4 x1 hx1, ?_⟩, ?_, hd3 x0 hx0⟩
    · exact (Option.some.inj hd2).symm
    · exact (Option.some.inj hd1).symm

/-- Member `_fix_first` after the sentinel of the manager `c` received the links of the
sentinel `o` of a valid list `L`: the list is then a valid list around the sentinel of `c`,
and no link is written but those of that sentinel and of the entries of `L`. -/
theorem fix_first_isList {z m : Mem T} {o : Ptr} {L : List Ptr} (c : cache_manager T)
    (h : IsList z o L) (hdL : c._first ∉ L)
    (hn : m.next c._first = z.next o) (hp : m.prev c._first = z.prev o)
    (hL : ∀ q ∈ L, m.next q = z.next q ∧ m.prev q = z.prev q) :
    IsList (c._fix_first m o) c._first L ∧
      (∀ q, q ≠ c._first → q ∉ L →
        (c._fix_first m o).next q = m.next q ∧ (c._fix_first m o).prev q = m.prev q) ∧
      (c._fix_first m o).first = m.first ∧ (c._fix_first m o).weight = m.weight := by
  have hoL := isList_not_mem h
  have hnd : L.Nodup := (List.nodup_cons.1 h.2).2
  obtain ⟨hs1, hs2⟩ := isList_sentinel h
  by_cases hnil : L = []
  · subst hnil
    have e0 : z.next o = o := (isList_nil h).1
    have e : c._fix_first m o = __link m c._first c._first := by
      simp only [cache_manager._fix_first, __next, hn, e0, if_true]
    rw [e]
    refine ⟨⟨⟨⟨?_, ?_⟩, trivial⟩, by simp⟩, fun q hq _ => ⟨?_, ?_⟩, rfl, rfl⟩
    · rw [link_next, if_pos rfl]
    · rw [link_prev, if_pos rfl]
    · rw [link_next, if_neg hq]
    · rw [link_prev, if_neg hq]
  · have e1 : (L ++ [o]).head? = L.head? := List.head?_append_of_ne_nil _ hnil
    have e2 : (o :: L).getLast? = L.getLast? := by
      rw [show o :: L = [o] ++ L from rfl, List.getLast?_append_of_ne_nil _ hnil]
    rw [e1] at hs1
    rw [e2] at hs2
    have hh : z.next o ∈ L := mem_of_head? hs1
    have hl : z.prev o ∈ L := mem_of_getLast? hs2
    have n1 : z.next o ≠ o := fun c => hoL (c ▸ hh)
    have n2 : c._first ≠ z.next o := fun c => hdL (c ▸ hh)
    have n3 : c._first ≠ z.prev o := fun c => hdL (c ▸ hl)
    have e : c._fix_first m o
        = __link (__link m c._first (z.next o)) (z.prev o) c._first := by
      simp only [cache_manager._fix_first, __next, __prev, hn, if_neg n1, link_prev, if_neg n2, hp]
    rw [e]
    refine ⟨isList_resentinel h hdL (fun q hq => ?_) (fun q hq => ?_) ?_ ?_ (fun x hx => ?_)
      (fun x hx => ?_), fun q hq hqL => ⟨?_, ?_⟩, rfl, rfl⟩
    · have k1 : q ≠ z.prev o := fun c => not_mem_dropLast_of_getLast? hnd hs2 (c ▸ hq)
      have k2 : q ≠ c._first := fun c => hdL (c ▸ List.mem_of_mem_dropLast hq)
      rw [link_next, if_neg k1, link_next, if_neg k2]
      exact (hL q (List.mem_of_mem_dropLast hq)).1
    · have k1 : q ≠ z.next o := fun c => not_mem_tail_of_head? hnd hs1 (c ▸ hq)
      have k2 : q ≠ c._first := fun c => hdL (c ▸ List.mem_of_mem_tail hq)
      rw [link_prev, if_neg k2, link_prev, if_neg k1]
      exact (hL q (List.mem_of_mem_tail hq)).2
    · rw [List.head?_append_of_ne_nil _ hnil, link_next, if_neg n3, link_next, if_pos rfl]
      exact hs1
    · rw [show c._first :: L = [c._first] ++ L from rfl,
        List.getLast?_append_of_ne_nil _ hnil, link_prev, if_pos rfl]
      exact hs2
    · have hx' : x = z.next o := by
        rw [hs1] at hx
        exact (Option.some.inj hx).symm
      rw [hx', link_prev, if_neg (Ne.symm n2), link_prev, if_pos rfl]
    · have hx' : x = z.prev o := by
        rw [hs2] at hx
        exact (Option.some.inj hx).symm
      rw [hx', link_next, if_pos rfl]
    · have k1 : q ≠ z.prev o := fun c => hqL (c ▸ hl)
      rw [link_next, if_neg k1, link_next, if_neg hq]
    · have k1 : q ≠ z.next o := fun c => hqL (c ▸ hh)
      rw [link_prev, if_neg hq, link_prev, if_neg k1]

end cache_manager

namespace cache_manager

variable {T : Type}

/-- A walk that starts inside a set of nodes closed under `next` never meets a node outside
of the set: it does not return, whatever the fuel. -/
theorem walk_none_of_closed (m : Mem T) (last : Ptr) (S : List Ptr) (hS : last ∉ S)
    (hc : ∀ q ∈ S, m.next q ∈ S) :
    ∀ (fuel : Nat) (it : Ptr), it ∈ S → walk m last fuel it = none := by
  intro fuel
  induction fuel with
  | zero => intro it _; rfl
  | succ fuel ih =>
    intro it hit
    have hne : it ≠ last := fun e => hS (e ▸ hit)
    rw [walk, if_neg hne, ih (m.next it) (hc it hit)]
    rfl

end cache_manager


/-! ## The claims -/

namespace cache_manager

variable {T : Type}

/-- C7. LRU access: on a valid replacement list, `lru::access` on one of its entries moves
that entry to the tail (it becomes the node before `end`), keeps the other entries in their
relative order, and changes nothing when the entry is already the last one. -/
theorem C7_lru_access (m : Mem T) (s : Ptr) (L : List Ptr) (x first : Ptr)
    (h : IsList m s L) (hx : x ∈ L) :
    IsList (policy.lru.access m first s x) s (L.erase x ++ [x]) ∧
      (policy.lru.access m first s x).prev s = x ∧
      (L.getLast? = some x → policy.lru.access m first s x = m) := by
  obtain ⟨A, B, rfl⟩ := List.append_of_mem hx
  have hnd : (A ++ x :: B).Nodup := (List.nodup_cons.1 h.2).2
  rw [erase_of_split hnd]
  obtain ⟨h1, h2⟩ := lru_access_isList h first
  refine ⟨h1, ?_, ?_⟩
  · have h1' : IsList (policy.lru.access m first s x) s ((A ++ B) ++ [x]) := h1
    exact (isList_last h1').1
  · intro hlast
    apply h2
    cases B with
    | nil => rfl
    | cons b B =>
      exfalso
      have e : (A ++ x :: b :: B).getLast? = (b :: B).getLast? := by
        rw [show A ++ x :: b :: B = (A ++ [x]) ++ (b :: B) by simp, List.getLast?_append]
        rcases List.eq_nil_or_concat (b :: B) with e | ⟨R, t, e⟩
        · simp at e
        · rw [e]; simp
      rw [e] at hlast
      have hmem := List.mem_of_getLast?_eq_some hlast
      have := List.nodup_append.1 hnd
      have hd := (List.nodup_cons.1 this.2.1).1
      exact hd hmem

/-- Witness of C7: the list `[1, 2, 3]` around the sentinel `9`, accessing `1`. -/
theorem C7_lru_access_witness :
    IsList mem123 9 [1, 2, 3] ∧ 1 ∈ [1, 2, 3] ∧
      IsList (policy.lru.access mem123 1 9 1) 9 [2, 3, 1] :=
  ⟨by decide, by decide, (C7_lru_access mem123 9 [1, 2, 3] 1 1 (by decide) (by decide)).1⟩

/-- C8. MRU access: on a valid replacement list, `mru::access` on one of its entries moves
that entry to the head (it becomes `begin`), keeps the other entries in their relative
order, and changes nothing when the entry is already the first one. -/
theorem C8_mru_access (m : Mem T) (s : Ptr) (L : List Ptr) (x last : Ptr)
    (h : IsList m s L) (hx : x ∈ L) :
    IsList (policy.mru.access m (m.next s) last x) s (x :: L.erase x) ∧
      (policy.mru.access m (m.next s) last x).next s = x ∧
      (L.head? = some x → policy.mru.access m (m.next s) last x = m) := by
  obtain ⟨A, B, rfl⟩ := List.append_of_mem hx
  have hnd : (A ++ x :: B).Nodup := (List.nodup_cons.1 h.2).2
  rw [erase_of_split hnd]
  obtain ⟨h1, h2⟩ := mru_access_isList h last
  refine ⟨h1, (isList_head h1).1, ?_⟩
  intro hhead
  apply h2
  cases A with
  | nil => rfl
  | cons a A =>
    exfalso
    simp at hhead
    subst hhead
    have := List.nodup_cons.1 hnd
    exact this.1 (by simp)

/-- Witness of C8: the list `[1, 2, 3]` around the sentinel `9`, accessing `3`. -/
theorem C8_mru_access_witness :
    IsList mem123 9 [1, 2, 3] ∧ 3 ∈ [1, 2, 3] ∧
      IsList (policy.mru.access mem123 (mem123.next 9) 9 3) 9 [3, 1, 2] :=
  ⟨by decide, by decide, (C8_mru_access mem123 9 [1, 2, 3] 3 9 (by decide) (by decide)).1⟩

/-- C9. Swapping access: on a valid replacement list, `swapping::access` on an entry that
has a successor exchanges the two (the entry moves one place toward the tail, its successor
one place toward the head, every other entry keeps its position); on the last entry it
changes nothing. -/
theorem C9_swapping_access (m : Mem T) (s : Ptr) (L : List Ptr) (x first : Ptr)
    (h : IsList m s L) :
    (∀ A B y, L = A ++ x :: y :: B →
        IsList (policy.swapping.access m first s x) s (A ++ y :: x :: B)) ∧
      (L.getLast? = some x → policy.swapping.access m first s x = m) := by
  constructor
  · intro A B y e
    subst e
    exact swapping_access_isList h first
  · intro hlast
    obtain ⟨A, rfl⟩ := List.getLast?_eq_some_iff.1 hlast
    exact swapping_access_last h first

/-- Witness of C9: the list `[1, 2, 3]` around the sentinel `9`, accessing `2`. -/
theorem C9_swapping_access_witness :
    IsList mem123 9 [1, 2, 3] ∧
      IsList (policy.swapping.access mem123 1 9 2) 9 [1, 3, 2] :=
  ⟨by decide, (C9_swapping_access mem123 9 [1, 2, 3] 2 1 (by decide)).1 [1] [] 3 rfl⟩

/-- C10. Manager insert: for a manager with replacement order `L`, weight `W` and capacity
`C`, and a node `x` outside the list with `W + weigher(x) <= C`, `insert(x)` returns an
iterator to `x`, the new order is `L ++ [x]` under FIFO and LRU and `x :: L` under LIFO, MRU
and Swapping, and the weight becomes `W + weigher(x)`. -/
theorem C10_manager_insert (c : cache_manager T) (m : Mem T) (L : List Ptr) (x : Ptr)
    (hL : IsList m c._first L) (hx : x ∉ c._first :: L) (hC : c._capacity < SIZE)
    (hfit : c._weight + c.calculate_weight (m.first x) ≤ c._capacity) :
    (c.insert m x).2.2 = x ∧
      (c._policy.parent = .fifo ∨ c._policy.parent = .lru →
        IsList (c.insert m x).2.1 c._first (L ++ [x])) ∧
      (c._policy.parent = .lifo ∨ c._policy.parent = .mru ∨ c._policy.parent = .swapping →
        IsList (c.insert m x).2.1 c._first (x :: L)) ∧
      (c.insert m x).1.weight = c._weight + c.calculate_weight (m.first x) := by
  refine ⟨rfl, insert_isList_tail c m L x hL hx, insert_isList_head c m L x hL hx, ?_⟩
  show (c._weight + c.calculate_weight (m.first x)) % SIZE = _
  exact Nat.mod_eq_of_lt (lt_of_le_of_lt hfit hC)

/-- Witness of C10: inserting the node `4` into the FIFO manager holding `[1, 2, 3]`. -/
theorem C10_manager_insert_witness :
    IsList mem123 9 [1, 2, 3] ∧
      IsList ((mgr123 .fifo).insert mem123 4).2.1 9 [1, 2, 3, 4] ∧
      ((mgr123 .fifo).insert mem123 4).1.weight = 4 :=
  have h := C10_manager_insert (mgr123 .fifo) mem123 [1, 2, 3] 4 (by decide) (by decide)
    (by decide) (by decide)
  ⟨by decide, h.2.1 (Or.inl rfl), h.2.2.2⟩

end cache_manager

namespace extended_containers

namespace limited

namespace unordered_map

open cache_manager

variable {Key V : Type} [DecidableEq Key]

/-- C3. Atomic failure of a single insert: in a valid map, for every policy (the Locked and
Priority wrappers included) and every absent key, `insert`, `emplace` and `try_emplace`
return or throw, and when they throw `no_space_error` the size, the weight, the index, the
manager, the stored entries and the replacement order are those of before the call, every
node but the transient new one having its former links. -/
theorem C3_insert_atomic_failure (fuel : Nat) (s : unordered_map Key V) (L : List Ptr)
    (p : Ptr) (key : Key) (value : V) (hv : s.Valid L) (hk : s._map_find key = none)
    (hp : p ∉ s._manager._first :: s._map) (hf : L.length < fuel) :
    ∃ r s', s.insert fuel p (key, value) = some (r, s') ∧
      s.emplace fuel p key value = some (r, s') ∧
      s.try_emplace fuel p key value = some (r, s') ∧
      (r = .error .no_space_error →
        s'.size = s.size ∧ s'.weight = s.weight ∧ s'._map = s._map ∧
        s'._manager = s._manager ∧ s'.entries s._map = s.entries s._map ∧ s'.Valid L ∧
        s'.replacement_order fuel = some L ∧ s.replacement_order fuel = some L ∧
        ∀ q, q ≠ p → s'.mem.prev q = s.mem.prev q ∧ s'.mem.next q = s.mem.next q) := by
  obtain ⟨r, s', hres, hcase⟩ := insert_absent_spec fuel s L p (key, value) hv hk hp hf
  refine ⟨r, s', hres, hres, hres, ?_⟩
  intro hr
  rcases hcase with ⟨-, hmap, hmgr, hmem⟩ | ⟨hok, -⟩
  · obtain ⟨hv', hent⟩ := valid_of_agree p hv hp hmap hmgr hmem
    refine ⟨by simp [size, hmap], by simp [weight, hmgr], hmap, hmgr, hent, hv',
      replacement_order_valid hv' fuel hf, replacement_order_valid hv fuel hf, ?_⟩
    intro q hq
    exact ⟨(hmem q hq).2.1, (hmem q hq).2.2.1⟩
  · rw [hok] at hr
    cases hr

/-- Witness of C3: capacity 2, Locked over FIFO with every entry locked, entries `1, 2`;
inserting the key `3` throws and the order is still `[1, 2]`. -/
theorem C3_insert_atomic_failure_witness :
    throws_no_space ((map12 (.locked_policy .fifo (fun _ => true))).insert 3 3 (3, 0)) = true ∧
      ∃ r s', (map12 (.locked_policy .fifo (fun _ => true))).insert 3 3 (3, 0) = some (r, s') ∧
        (r = .error .no_space_error →
          s'.replacement_order 3 = some [1, 2] ∧ s'.weight = 2 ∧ s'._map = [2, 1]) :=
  ⟨by decide,
    let ⟨r, s', h1, _, _, h2⟩ := C3_insert_atomic_failure 3
      (map12 (.locked_policy .fifo (fun _ => true))) [1, 2] 3 3 0 (by decide) (by decide)
      (by decide) (by decide)
    ⟨r, s', h1, fun hr => ⟨(h2 hr).2.2.2.2.2.2.1, (h2 hr).2.1, (h2 hr).2.2.1⟩⟩⟩

/-- C6. Insert of a key that is already present: `insert`, `emplace` and `try_emplace`, for
every value offered, return the iterator to the existing entry with `false` and leave the
whole state as it was (stored value, size, weight, replacement order; no access). -/
theorem C6_insert_present (fuel : Nat) (s : unordered_map Key V) (p : Ptr) (key : Key)
    (value : V) (q : Ptr) (h : s._map_find key = some q) :
    s.insert fuel p (key, value) = some (.ok (q, false), s) ∧
      s.emplace fuel p key value = some (.ok (q, false), s) ∧
      s.try_emplace fuel p key value = some (.ok (q, false), s) ∧
      q ∈ s._map ∧ (s.mem.first q).1 = key := by
  have h1 := insert_present fuel s p (key, value) q h
  exact ⟨h1, h1, h1, _map_find_some s key q h⟩

/-- Witness of C6: inserting the present key `3` with another value into the LRU map of
order `[2, 3, 1]`. -/
theorem C6_insert_present_witness :
    (map231 (.plain .lru))._map_find 3 = some 3 ∧
      (map231 (.plain .lru)).insert 4 4 (3, 7) = some (.ok (3, false), map231 (.plain .lru)) :=
  ⟨by decide, (C6_insert_present 4 (map231 (.plain .lru)) 4 3 7 3 (by decide)).1⟩

/-- C4. Under a policy that defines no erase hook (FIFO, LIFO, LRU, MRU, Swapping), in a
valid map whose weight is accounted, insert of an absent key returns or throws; it throws
`no_space_error` if and only if the weight of the new entry is greater than the capacity;
for every entry weight that does not exceed the capacity the insert succeeds: it returns
the new node with `true`, and afterwards the map is valid and accounted for a replacement
order that holds the new node, the new node is in the index and holds the entry, the key is
found at the new node, and the weight does not exceed the capacity. -/
theorem C4_insert_no_space_iff (fuel : Nat) (s : unordered_map Key V) (L : List Ptr) (p : Ptr)
    (key : Key) (value : V) (par : policy.parent_policy)
    (hv : s.Valid L) (ha : s.Accounted L) (hpol : s._manager._policy = .plain par)
    (hk : s._map_find key = none) (hp : p ∉ s._manager._first :: s._map)
    (hf : L.length < fuel) :
    ∃ r s', s.insert fuel p (key, value) = some (r, s') ∧
      (r = .error .no_space_error ↔ s._manager.calculate_weight (key, value) > s.capacity) ∧
      (s._manager.calculate_weight (key, value) ≤ s.capacity →
        r = .ok (p, true) ∧
        ∃ L', s'.Valid L' ∧ s'.Accounted L' ∧ p ∈ L' ∧ p ∈ s'._map ∧
          s'.mem.first p = (key, value) ∧ s'._map_find key = some p ∧
          s'.replacement_order (s'.size + 1) = some L' ∧ s'.weight ≤ s'.capacity) := by
  obtain ⟨hbig, hsmall⟩ := insert_plain_spec fuel s L p (key, value) par hv ha hpol hk hp hf
  by_cases h : s._manager.calculate_weight (key, value) > s._manager._capacity
  · obtain ⟨s', hs'⟩ := hbig h
    refine ⟨.error .no_space_error, s', hs', Iff.intro (fun _ => h) (fun _ => rfl), ?_⟩
    intro hle
    exact absurd hle (by simpa [capacity, cache_manager.cache_manager.capacity] using h)
  · obtain ⟨k, s', L', -, -, -, hs', hv', ha', hsh1, hsh2, hmap, hfp, -, -⟩ := hsmall (by omega)
    refine ⟨.ok (p, true), s', hs', Iff.intro (fun hr => by cases hr) (fun hgt => ?_),
      fun _ => ⟨rfl, L', hv', ha', ?_, ?_, hfp, ?_, ?_, ha'.2⟩⟩
    · exact absurd hgt h
    · have hcases : par = .fifo ∨ par = .lru ∨ par = .lifo ∨ par = .mru ∨ par = .swapping := by
        cases par <;> simp
      rcases hcases with e | e | e | e | e
      · rw [hsh1 (Or.inl e)]; simp
      · rw [hsh1 (Or.inr e)]; simp
      · rw [hsh2 (Or.inl e)]; simp
      · rw [hsh2 (Or.inr (Or.inl e))]; simp
      · rw [hsh2 (Or.inr (Or.inr e))]; simp
    · rw [hmap]; exact List.mem_cons_self _ _
    · unfold _map_find
      rw [hmap, List.find?_cons, hfp]
      simp
    · exact replacement_order_valid hv' _ (by
        have := hv'.2.1.length_eq
        simp only [size]
        omega)

/-- Witness of C4: inserting the absent key `4` of weight `1` into the full LRU map of
capacity `3` succeeds, and the key is then found at the new node `4`. -/
theorem C4_insert_no_space_iff_witness :
    throws_no_space ((map231 (.plain .lru)).insert 4 4 (4, 0)) = false ∧
      ∃ r s', (map231 (.plain .lru)).insert 4 4 (4, 0) = some (r, s') ∧ r = .ok (4, true) ∧
        s'._map_find 4 = some 4 ∧ 4 ∈ s'._map :=
  ⟨by decide,
    let ⟨r, s', h1, _, h3⟩ := C4_insert_no_space_iff 4 (map231 (.plain .lru)) [2, 3, 1] 4 4 0
      .lru (by decide) (by decide) rfl (by decide) (by decide) (by decide)
    let ⟨h4, _, _, _, _, h5, _, h6, _, _⟩ := h3 (by decide)
    ⟨r, s', h1, h4, h6, h5⟩⟩

/-- C5. Insert with eviction under FIFO and LRU: in a valid, accounted map with replacement
order `L`, insert of an absent key whose entry has a weight `w <= C` evicts exactly the
shortest initial segment of `L` whose total weight is at least `w - (C - W)` (nothing when
`w <= C - W`), removes those nodes from the index, and leaves the replacement order
`L.drop k ++ [new]`; the new weight is `W` less the evicted weight plus `w`.  With unit
weights and a full map exactly the head is evicted. -/
theorem C5_insert_evicts_shortest_initial_segment (fuel : Nat) (s : unordered_map Key V)
    (L : List Ptr) (p : Ptr) (key : Key) (value : V)
    (hv : s.Valid L) (ha : s.Accounted L)
    (hpol : s._manager._policy = .plain .fifo ∨ s._manager._policy = .plain .lru)
    (hk : s._map_find key = none) (hp : p ∉ s._manager._first :: s._map)
    (hf : L.length + 1 < fuel)
    (hw : s._manager.calculate_weight (key, value) ≤ s.capacity) :
    ∃ (k : Nat) (s' : unordered_map Key V), k ≤ L.length ∧
      s._manager.calculate_weight (key, value) - (s.capacity - s.weight)
        ≤ s._manager.total s.mem (L.take k) ∧
      (∀ j, j < k → s._manager.total s.mem (L.take j)
        < s._manager.calculate_weight (key, value) - (s.capacity - s.weight)) ∧
      (s._manager.calculate_weight (key, value) ≤ s.capacity - s.weight → k = 0) ∧
      s.insert fuel p (key, value) = some (.ok (p, true), s') ∧
      s'.Valid (L.drop k ++ [p]) ∧ s'.Accounted (L.drop k ++ [p]) ∧
      s'.replacement_order fuel = some (L.drop k ++ [p]) ∧
      s'._map = p :: s._map.diff (L.take k) ∧ s'.mem.first p = (key, value) ∧
      (∀ q, q ≠ p → s'.mem.first q = s.mem.first q) ∧
      s'.weight = s.weight - s._manager.total s.mem (L.take k)
        + s._manager.calculate_weight (key, value) ∧
      ((∀ q ∈ L, s._manager.calculate_weight (s.mem.first q) = 1) →
        s.weight = s.capacity → s._manager.calculate_weight (key, value) = 1 → k = 1) := by
  obtain ⟨par, hpar, hpol'⟩ : ∃ par, (par = .fifo ∨ par = .lru) ∧
      s._manager._policy = .plain par := by
    rcases hpol with h | h
    · exact ⟨.fifo, Or.inl rfl, h⟩
    · exact ⟨.lru, Or.inr rfl, h⟩
  obtain ⟨-, hsmall⟩ := insert_plain_spec fuel s L p (key, value) par hv ha hpol' hk hp
    (by omega)
  obtain ⟨k, s', L', hk', hge, hmin, hres, hv', ha', hshape, -, hmap, hfp, hfq, hmgr⟩ :=
    hsmall hw
  have hL' : L' = L.drop k ++ [p] := hshape hpar
  subst hL'
  refine ⟨k, s', hk', hge, hmin, ?_, hres, hv', ha', ?_, hmap, hfp, hfq, ?_, ?_⟩
  · intro hle
    by_contra hne
    have := hmin 0 (by omega)
    simp only [capacity, weight, cache_manager.cache_manager.capacity,
      cache_manager.cache_manager.weight] at hle
    omega
  · refine replacement_order_valid hv' fuel ?_
    simp only [List.length_append, List.length_drop, List.length_singleton]
    omega
  · simp only [weight, cache_manager.cache_manager.weight, hmgr]
  · intro hunit hfull hone
    simp only [capacity, weight, cache_manager.cache_manager.capacity,
      cache_manager.cache_manager.weight] at hfull
    rw [hone, hfull] at hge hmin
    simp only [Nat.sub_self, Nat.sub_zero] at hge hmin
    cases L with
    | nil =>
      exfalso
      simp [total_nil] at hge
    | cons x L =>
      have h1 : s._manager.total s.mem (List.take 1 (x :: L)) = 1 := by
        simp [total_cons, total_nil, hunit x (by simp)]
      rcases Nat.lt_trichotomy k 1 with hlt | heq | hgt
      · have : k = 0 := by omega
        subst this
        simp [total_nil] at hge
      · exact heq
      · have := hmin 1 hgt
        omega

/-- Witness of C5: capacity 3, unit weights, LRU order `[2, 3, 1]`; inserting the key `4`
evicts the head `2` and leaves the order `[3, 1, 4]`. -/
theorem C5_insert_evicts_shortest_initial_segment_witness :
    ((state_after ((map231 (.plain .lru)).insert 5 4 (4, 0))).map
        (fun s => (s.replacement_order 5, s._map))) = some (some [3, 1, 4], [4, 1, 3]) ∧
      ∃ (k : Nat) (s' : unordered_map Nat Nat),
        (map231 (.plain .lru)).insert 5 4 (4, 0) = some (.ok (4, true), s') ∧
        s'.replacement_order 5 = some (List.drop k [2, 3, 1] ++ [4]) ∧ k = 1 :=
  ⟨by decide,
    let ⟨k, s', _, _, _, _, h5, _, _, h8, _, _, _, _, h13⟩ :=
      C5_insert_evicts_shortest_initial_segment 5 (map231 (.plain .lru)) [2, 3, 1] 4 4 0
        (by decide) (by decide) (Or.inr rfl) (by decide) (by decide) (by decide) (by decide)
    ⟨k, s', h5, h8, h13 (by decide) (by decide) (by decide)⟩⟩

/-- C1 (range insert). On the empty LRU map of capacity `10` whose weigher returns the value
of the entry, `insert(first, last)` over the two entries `(1, 5)` and `(2, 2^64 - 3)` returns
normally: the running sum of the first loop wraps to `2`, `provideSpace(2)` succeeds, and
both nodes are linked (the assertion `can_fit` of `cache_manager::insert` holds for each,
its sum wrapping as well).  Afterwards both entries are resident, `weight()` is `2` and
`capacity()` is `10`, while the weights of the resident entries add up to `2^64 + 2`. -/
theorem C1_range_insert_weight_wraps :
    empty10.Valid [] ∧ empty10.Accounted [] ∧
    ∃ s', empty10.insert_range 3 [(1, (1, 5)), (2, (2, SIZE - 3))] = some (.ok (), s') ∧
      s'._map = [2, 1] ∧ s'.replacement_order 3 = some [1, 2] ∧
      s'.entries [1, 2] = [(1, 5), (2, SIZE - 3)] ∧
      s'.weight = 2 ∧ s'.capacity = 10 ∧
      ((s'.entries [1, 2]).map s'._manager._weigher).sum = SIZE + 2 ∧
      s'.Valid [1, 2] ∧ ¬ s'.Accounted [1, 2] ∧
      (empty10.insert_range_index [(1, (1, 5)), (2, (2, SIZE - 3))] [] 0).1._manager.can_fit 5
        = true ∧
      ((empty10.insert_range_index [(1, (1, 5)), (2, (2, SIZE - 3))] [] 0).1.safeManagerInsert
        1)._manager.can_fit (SIZE - 3) = true := by
  refine ⟨by decide, by decide, _, rfl, ?_⟩
  decide

end unordered_map

end limited

end extended_containers

namespace extended_containers

namespace limited

open cache_manager

variable {Key V : Type} [DecidableEq Key]

/-- Membership agreement is an invariant of the operations of `Op`: on a map in which the
replacement list is a valid circular list over exactly the nodes of the index (as it is in
the map the constructor builds, `valid_mk_empty`), every such operation called with
admissible arguments returns or throws, and afterwards the walk from `replacement_begin()`
to `replacement_end()` ends and visits a list `L'` of nodes without repetition that is a
permutation of the nodes of the index; its length is `size()`, and a key is in the index if
and only if an entry on the replacement list has that key. -/
theorem membership_agreement_step [Inhabited V] (fuel : Nat) (s : unordered_map Key V)
    (L : List Ptr) (op : Op Key V) (hv : s.Valid L) (ha : op.admissible s L)
    (hf : L.length < fuel) :
    ∃ r s' L', step fuel s op = some (r, s') ∧ s'.Valid L' ∧
      s'.replacement_order (s'.size + 1) = some L' ∧ L'.Perm s'._map ∧ L'.Nodup ∧
      s'._map.Nodup ∧ L'.length = s'.size ∧
      ∀ key, (s'._map_find key).isSome ↔ ∃ q ∈ L', (s'.mem.first q).1 = key := by
  obtain ⟨r, s', L', hr, hv'⟩ := step_valid fuel s L op hv ha hf
  have hlen : L'.length = s'.size := hv'.2.1.length_eq
  refine ⟨r, s', L', hr, hv', ?_, hv'.2.1, (List.nodup_cons.1 hv'.1.2).2,
    (unordered_map.valid_nodup_map hv').1, hlen, fun key => ?_⟩
  · exact unordered_map.replacement_order_valid hv' _ (by omega)
  · rw [← Option.ne_none_iff_isSome, Ne, unordered_map._map_find_none, not_not]
    simp only [unordered_map.keys, List.mem_map]
    constructor
    · rintro ⟨q, hq, e⟩
      exact ⟨q, hv'.2.1.symm.subset hq, e⟩
    · rintro ⟨q, hq, e⟩
      exact ⟨q, hv'.2.1.subset hq, e⟩

end limited

end extended_containers

namespace cache_manager

variable {T : Type}

/-- C11. Victim of the Locked policy: on every valid replacement list `L` and for every
lock predicate, `next()` under `locked_policy` returns; when `L = A ++ x :: B` with every
entry of `A` locked and `x` not locked it returns `x`, the first entry from the head that
is not locked; and it returns `end()` if and only if every entry is locked. -/
theorem C11_locked_victim (c : cache_manager T) (par : policy.parent_policy)
    (locker : T → Bool) (m : Mem T) (L : List Ptr) (fuel : Nat)
    (hpol : c._policy = .locked_policy par locker) (h : IsList m c._first L)
    (hne : L ≠ []) (hf : L.length < fuel) :
    (∃ r, c.next m fuel = some r) ∧
    (∀ A x B, L = A ++ x :: B → (∀ q ∈ A, locker (m.first q) = true) →
      locker (m.first x) = false → c.next m fuel = some x) ∧
    (c.next m fuel = some c.end_ ↔ ∀ q ∈ L, locker (m.first q) = true) := by
  have hnext := next_locked c par locker hpol h fuel hf
  refine ⟨⟨_, hnext⟩, ?_, ?_⟩
  · rintro A x B rfl hA hx
    rw [hnext]
    have : (A ++ x :: B).find? (fun q => !locker (m.first q)) = some x := by
      rw [List.find?_eq_some]
      exact ⟨by simp [hx], A, B, rfl, fun a ha => by simp [hA a ha]⟩
    rw [this]
    rfl
  · rw [hnext]
    constructor
    · intro he q hq
      cases hfind : L.find? (fun q => !locker (m.first q)) with
      | none =>
        have := List.find?_eq_none.1 hfind q hq
        simpa using this
      | some x =>
        exfalso
        rw [hfind] at he
        have hx : x ∈ L := List.mem_of_find?_eq_some hfind
        have e : x = c._first := by simpa using he
        exact isList_not_mem h (e ▸ hx)
    · intro hall
      have : L.find? (fun q => !locker (m.first q)) = none := by
        rw [List.find?_eq_none]
        intro q hq
        simp [hall q hq]
      rw [this]
      rfl

/-- Witness of C11: in the list `1, 2, 3` whose node `1` is locked, `next()` is the
node `2`. -/
theorem C11_locked_victim_witness :
    (mgr123_with (.locked_policy .fifo (fun v => decide (v = 1)))).next mem123 4 = some 2 ∧
    ((mgr123_with (.locked_policy .fifo (fun v => decide (v = 1)))).next mem123 4
        = some (mgr123_with (.locked_policy .fifo (fun v => decide (v = 1)))).end_ ↔
      ∀ q ∈ [1, 2, 3], (fun v => decide (v = 1)) (mem123.first q) = true) :=
  ⟨by decide,
    (C11_locked_victim (mgr123_with (.locked_policy .fifo (fun v => decide (v = 1)))) .fifo
      (fun v => decide (v = 1)) mem123 [1, 2, 3] 4 rfl (by decide) (by decide)
      (by decide)).2.2⟩

end cache_manager

namespace cache_manager

variable {T : Type}

/-- C12. The Priority policy never selects an entry of priority `MAX`: on every valid
non-empty replacement list and for every priority function, `next()` under
`priority_policy` returns; a result other than `end()` is an entry of the list whose
priority is not `MAX`; and the result is `end()` if and only if every entry has priority
`MAX`. -/
theorem C12_priority_never_max (c : cache_manager T) (par : policy.parent_policy)
    (locker : T → Nat) (m : Mem T) (L : List Ptr) (fuel : Nat)
    (hpol : c._policy = .priority_policy par locker) (h : IsList m c._first L)
    (hne : L ≠ []) (hf : L.length < fuel) :
    ∃ r, c.next m fuel = some r ∧
      (r ≠ c.end_ → r ∈ L ∧ locker (m.first r) % SIZE ≠ policy.priority_max) ∧
      (r = c.end_ ↔ ∀ q ∈ L, locker (m.first q) % SIZE = policy.priority_max) := by
  obtain ⟨a, R, rfl⟩ := List.exists_cons_of_ne_nil hne
  obtain ⟨hna, -⟩ := isList_head h
  have has : a ≠ c._first := fun hc => isList_not_mem h (by rw [hc]; simp)
  have hsR : c._first ∉ R := fun hc => isList_not_mem h (List.mem_cons_of_mem _ hc)
  have hb : ¬ c.cbegin m = c.cend := by
    show ¬ m.next c._first = c._first
    rw [hna]
    exact has
  have hl : Linked m (a :: R ++ [c._first]) := linked_tail h.1
  unfold cache_manager.next
  rw [if_neg hb]
  simp only [policy.policy_extractor.erase_position, policy.provides_erase_v, hpol, if_true,
    policy.priority_policy.erase_position]
  have hcb : c.cbegin m = a := hna
  rw [hcb]
  by_cases hall : ∀ q ∈ a :: R, locker (m.first q) % SIZE = policy.priority_max
  · have hskip := priority_skip_all locker m c._first R fuel a hl hsR
      (by simp at hf; omega) hall
    show ∃ r, (match policy.priority_policy.skip_max locker m c._first fuel a with
      | none => none
      | some (Sum.inl r) => some r
      | some (Sum.inr lowestPriorityIter) =>
        policy.priority_policy.scan locker m c._first fuel lowestPriorityIter
          lowestPriorityIter (locker (m.first lowestPriorityIter) % SIZE)) = some r ∧ _
    rw [hskip]
    exact ⟨c._first, rfl, fun hc => absurd rfl hc, ⟨fun _ => hall, fun _ => rfl⟩⟩
  · have hex : ∃ x, (a :: R).find? (fun q =>
        decide (locker (m.first q) % SIZE ≠ policy.priority_max)) = some x := by
      cases hfind : (a :: R).find? (fun q =>
          decide (locker (m.first q) % SIZE ≠ policy.priority_max)) with
      | some x => exact ⟨x, rfl⟩
      | none =>
        exfalso
        apply hall
        intro q hq
        have := List.find?_eq_none.1 hfind q hq
        simpa using this
    obtain ⟨x, hx⟩ := hex
    obtain ⟨hpx, A, B, hAB, hA⟩ := List.find?_eq_some.1 hx
    have hpx' : locker (m.first x) % SIZE ≠ policy.priority_max := by simpa using hpx
    have hA' : ∀ q ∈ A, locker (m.first q) % SIZE = policy.priority_max := by
      intro q hq
      simpa using hA q hq
    have hhead : (A ++ x :: B).head? = some a := by rw [← hAB]; rfl
    have hlAB : Linked m (A ++ x :: B ++ [c._first]) := by rw [← hAB]; exact hl
    have hsAB : c._first ∉ A ++ x :: B := by rw [← hAB]; exact isList_not_mem h
    have hskip := priority_skip_first locker m c._first A x B fuel a hhead hlAB hsAB
      (by rw [← hAB]; omega) hA' hpx'
    have hlx : Linked m ((x :: B) ++ [c._first]) := by
      have : Linked m (A ++ ((x :: B) ++ [c._first])) := by simpa using hlAB
      exact linked_suffix A this
    have hsx : c._first ∉ x :: B := fun hc => hsAB (List.mem_append_right _ hc)
    obtain ⟨r, hr, hmem⟩ := priority_scan_lower locker m c._first (x :: B) fuel x x
      (locker (m.first x) % SIZE) (by simp) hlx hsx (by
        have : (x :: B).length ≤ (a :: R).length := by rw [hAB]; simp
        omega)
    show ∃ r, (match policy.priority_policy.skip_max locker m c._first fuel a with
      | none => none
      | some (Sum.inl r) => some r
      | some (Sum.inr lowestPriorityIter) =>
        policy.priority_policy.scan locker m c._first fuel lowestPriorityIter
          lowestPriorityIter (locker (m.first lowestPriorityIter) % SIZE)) = some r ∧ _
    rw [hskip]
    have hxL : x ∈ a :: R := by rw [hAB]; simp
    have hrL : r ∈ a :: R ∧ locker (m.first r) % SIZE ≠ policy.priority_max := by
      rcases hmem with e | ⟨hrB, hlt⟩
      · rw [e]; exact ⟨hxL, hpx'⟩
      · refine ⟨by rw [hAB]; exact List.mem_append_right _ hrB, ?_⟩
        have : locker (m.first x) % SIZE < SIZE := Nat.mod_lt _ (by decide)
        simp only [policy.priority_max]
        omega
    refine ⟨r, hr, fun _ => hrL, ?_⟩
    constructor
    · intro e
      have e' : r = c._first := e
      exact absurd (e' ▸ hrL.1) (isList_not_mem h)
    · intro hc
      exact absurd hc hall

/-- Witness of C12: in the list `1, 2, 3` whose node `1` has priority `MAX` and whose
other nodes have priority `0`, `next()` is the node `2`. -/
theorem C12_priority_never_max_witness :
    (mgr123_with (.priority_policy .fifo (fun v => if v = 1 then SIZE - 1 else 0))).next
      mem123 4 = some 2 ∧
    ∃ r, (mgr123_with (.priority_policy .fifo (fun v => if v = 1 then SIZE - 1 else 0))).next
        mem123 4 = some r ∧
      (r ≠ 9 → r ∈ [1, 2, 3] ∧
        (fun v => if v = 1 then SIZE - 1 else 0) (mem123.first r) % SIZE
          ≠ policy.priority_max) :=
  ⟨by decide,
    let ⟨r, h1, h2, _⟩ := C12_priority_never_max
      (mgr123_with (.priority_policy .fifo (fun v => if v = 1 then SIZE - 1 else 0))) .fifo
      (fun v => if v = 1 then SIZE - 1 else 0) mem123 [1, 2, 3] 4 rfl (by decide) (by decide)
      (by decide)
    ⟨r, h1, h2⟩⟩

end cache_manager

namespace cache_manager

variable {T : Type}

/-- C13 (search window of the documentation comment). In the list `1, 2, 3` with the
priorities `2, 1, 1` the first entry is at position `N = 0` with priority `P = 2`, and the
entry at position `N + 1` is the first later entry whose priority `A = 1` satisfies
`A <= P - 1`; `erase_position` returns the entry at position `N` all the same.  With the
priorities `1, 0, 0` the entry at position `N + P` has priority `MIN`, and
`erase_position` returns the entry at position `N` as well. -/
theorem C13_priority_window_one_short :
    (mgr123_with (.priority_policy .fifo (fun v => if v = 1 then 2 else 1))).next mem123 4
      = some 1 ∧
    (fun v => if v = 1 then 2 else 1) (mem123.first 1) = 2 ∧
    (fun v => if v = 1 then 2 else 1) (mem123.first 2) = 1 ∧
    (mgr123_with (.priority_policy .fifo (fun v => if v = 1 then 1 else 0))).next mem123 4
      = some 1 ∧
    (fun v => if v = 1 then 1 else 0) (mem123.first 1) = 1 ∧
    (fun v => if v = 1 then 1 else 0) (mem123.first 2) = policy.priority_min := by
  decide

/-- C14 (the algorithm of the specification). On the priorities `5, 5, 1, 5, 5` both
`priority_policy::erase_position` and the algorithm of the specification select the entry
at position `2`.  On the priorities `2, 1, 1` the algorithm of the specification, which
examines the entries that follow the candidate, selects position `1`, while
`erase_position`, whose loop examines the candidate itself first, selects position `0`. -/
theorem C14_priority_differs_from_spec :
    ((mgr5_with (.priority_policy .fifo (fun v => if v = 3 then 1 else 5))).next mem5 6).map
      (fun r => [1, 2, 3, 4, 5].indexOf r) = some 2 ∧
    spec_priority_victim [5, 5, 1, 5, 5] = some 2 ∧
    ((mgr123_with (.priority_policy .fifo (fun v => if v = 1 then 2 else 1))).next
      mem123 4).map (fun r => [1, 2, 3].indexOf r) = some 0 ∧
    spec_priority_victim [2, 1, 1] = some 1 ∧
    [1, 2, 3].map (fun q => (fun v => if v = 1 then 2 else 1) (mem123.first q)) = [2, 1, 1] ∧
    IsList mem123 9 [1, 2, 3] := by
  decide

/-- C15. The Priority policy finds a cheaper entry inside the window: on a valid list whose
first entries `Mx` have priority `MAX` and whose other entries have the priority `P < MAX`,
except the entry `x` that stands `M >= 1` places after the first entry of priority `P` and
has priority `1`, where `1 < P - M`, `next()` returns `x`. -/
theorem C15_priority_finds_cheaper (c : cache_manager T) (par : policy.parent_policy)
    (locker : T → Nat) (m : Mem T) (Mx Ps Rest : List Ptr) (x : Ptr) (P : Nat) (fuel : Nat)
    (hpol : c._policy = .priority_policy par locker)
    (h : IsList m c._first (Mx ++ Ps ++ x :: Rest))
    (hf : (Mx ++ Ps ++ x :: Rest).length < fuel)
    (hMx : ∀ q ∈ Mx, locker (m.first q) % SIZE = policy.priority_max)
    (hPs : ∀ q ∈ Ps, locker (m.first q) % SIZE = P)
    (hRest : ∀ q ∈ Rest, locker (m.first q) % SIZE = P)
    (hP : P < policy.priority_max) (hx : locker (m.first x) % SIZE = 1)
    (hM : 1 ≤ Ps.length) (hwin : 1 < P - Ps.length) :
    c.next m fuel = some x := by
  obtain ⟨p0, Ps', rfl⟩ : ∃ p0 Ps', Ps = p0 :: Ps' := by
    cases Ps with
    | nil => simp at hM
    | cons p0 Ps' => exact ⟨p0, Ps', rfl⟩
  have hsL := isList_not_mem h
  have hl : Linked m (Mx ++ p0 :: (Ps' ++ x :: Rest) ++ [c._first]) := by
    have := linked_tail h.1
    simpa using this
  have hhead := (isList_sentinel h).1
  have hb : ¬ c.cbegin m = c.cend := by
    intro hc
    have hc' : m.next c._first = c._first := hc
    rw [hc'] at hhead
    cases Mx with
    | nil =>
      have e : p0 = c._first := by simpa using hhead
      exact hsL (by simp [e])
    | cons y Y =>
      have e : y = c._first := by simpa using hhead
      exact hsL (by simp [e])
  have hcb : (Mx ++ p0 :: (Ps' ++ x :: Rest)).head? = some (c.cbegin m) := by
    have e : Mx ++ (p0 :: Ps') ++ x :: Rest = Mx ++ p0 :: (Ps' ++ x :: Rest) := by simp
    rw [e] at hhead
    cases hMxe : Mx with
    | nil => rw [hMxe] at hhead; simpa using hhead
    | cons y Y => rw [hMxe] at hhead; simpa using hhead
  have hsL' : c._first ∉ Mx ++ p0 :: (Ps' ++ x :: Rest) := by
    intro hc
    exact hsL (by simpa using hc)
  have hp0 : locker (m.first p0) % SIZE = P := hPs p0 (by simp)
  have hskip := priority_skip_first locker m c._first Mx p0 (Ps' ++ x :: Rest) fuel
    (c.cbegin m) hcb hl hsL' (by simp at hf ⊢; omega) hMx (by rw [hp0]; omega)
  unfold cache_manager.next
  rw [if_neg hb]
  simp only [policy.policy_extractor.erase_position, policy.provides_erase_v, hpol, if_true,
    policy.priority_policy.erase_position]
  show (match policy.priority_policy.skip_max locker m c._first fuel (c.cbegin m) with
    | none => none
    | some (Sum.inl r) => some r
    | some (Sum.inr lowestPriorityIter) =>
      policy.priority_policy.scan locker m c._first fuel lowestPriorityIter
        lowestPriorityIter (locker (m.first lowestPriorityIter) % SIZE)) = some x
  rw [hskip]
  simp only [hp0]
  have hlrun : Linked m ((p0 :: Ps') ++ (x :: Rest ++ [c._first])) := by
    have : Linked m (Mx ++ ((p0 :: Ps') ++ (x :: Rest ++ [c._first]))) := by simpa using hl
    exact linked_suffix Mx this
  have hsPs : c._first ∉ p0 :: Ps' := by
    intro hc
    exact hsL (by simp only [List.mem_append]; exact Or.inl (Or.inr hc))
  simp only [List.length_cons] at hwin hM
  rw [priority_scan_block locker m c._first (p0 :: Ps') (x :: Rest ++ [c._first]) fuel p0 x
    p0 P (by simp) (by simp) hlrun hsPs (by simp at hf ⊢; omega) (by simp; omega)
    (fun q hq => by rw [hPs q hq])]
  have hxs : x ≠ c._first := by
    intro hc
    exact hsL (by simp [hc])
  have hlx : Linked m (x :: Rest ++ [c._first]) := linked_suffix (p0 :: Ps') hlrun
  cases Rest with
  | nil =>
    have hn : m.next x = c._first := hlx.1.1
    obtain ⟨f1, hf1⟩ : ∃ f1, fuel - (p0 :: Ps').length = f1 + 2 := by
      refine ⟨fuel - (p0 :: Ps').length - 2, ?_⟩
      simp at hf ⊢
      omega
    rw [hf1]
    simp only [List.length_cons]
    rw [show f1 + 2 = (f1 + 1) + 1 from rfl, priority_scan_succ,
      if_pos ⟨by simp [policy.priority_min]; omega, hxs⟩, hx, if_pos (by omega), hn,
      priority_scan_succ, if_neg (by simp)]
  | cons y Rest =>
    have hn : m.next x = y := hlx.1.1
    have hys : y ≠ c._first := by
      intro hc
      exact hsL (by simp [hc])
    have hy : locker (m.first y) % SIZE = P := hRest y (by simp)
    obtain ⟨f1, hf1⟩ : ∃ f1, fuel - (p0 :: Ps').length = f1 + 3 := by
      refine ⟨fuel - (p0 :: Ps').length - 3, ?_⟩
      simp at hf ⊢
      omega
    rw [hf1]
    simp only [List.length_cons]
    rw [show f1 + 3 = (f1 + 2) + 1 from rfl, priority_scan_succ,
      if_pos ⟨by simp [policy.priority_min]; omega, hxs⟩, hx, if_pos (by omega), hn,
      show f1 + 2 = (f1 + 1) + 1 from rfl, priority_scan_succ,
      if_pos ⟨by simp [policy.priority_min], hys⟩, hy, if_neg (by omega),
      priority_scan_succ, if_neg (by simp [policy.priority_min])]

/-- Witness of C15: in the list `1, 2, 3, 4, 5` whose node `1` has priority `MAX`, whose
node `3` has priority `1` and whose other nodes have priority `5`, `next()` is the
node `3`. -/
theorem C15_priority_finds_cheaper_witness :
    (mgr5_with (.priority_policy .fifo
      (fun v => if v = 1 then SIZE - 1 else if v = 3 then 1 else 5))).next mem5 6 = some 3 :=
  C15_priority_finds_cheaper
    (mgr5_with (.priority_policy .fifo
      (fun v => if v = 1 then SIZE - 1 else if v = 3 then 1 else 5))) .fifo
    (fun v => if v = 1 then SIZE - 1 else if v = 3 then 1 else 5) mem5 [1] [2] [4, 5] 3 5 6
    rfl (by decide) (by decide) (by decide) (by decide) (by decide) (by decide) (by decide)
    (by decide) (by decide)

end cache_manager

namespace extended_containers

namespace limited

open cache_manager

variable {Key V : Type} [DecidableEq Key]

/-- C16. Quiet lookups are pure: any sequence of `quiet_find`, `quiet_replacement_find`,
`quiet_count`, `quiet_contains`, `quiet_equal_range` and `quiet_at` calls leaves the state
of the map (replacement order, weight, contents) as it was, and each quiet lookup gives the
answer of its counterpart that calls the access hook. -/
theorem C16_quiet_lookups_pure [Inhabited V] (fuel : Nat) (s : unordered_map Key V)
    (ops : List (Op Key V)) (key : Key) (hq : ∀ op ∈ ops, op.quiet = true) :
    run fuel s ops = some s ∧
      s.quiet_find key = (s.find key).1 ∧
      s.quiet_replacement_find key = (s.replacement_find key).1 ∧
      s.quiet_count key = (s.count key).1 ∧
      s.quiet_contains key = (s.contains key).1 ∧
      s.quiet_equal_range key = (s.equal_range key).1 ∧
      s.quiet_at key = (s.at_ key).1 := by
  refine ⟨?_, ?_, ?_, ?_, ?_, ?_, ?_⟩
  · induction ops with
    | nil => rfl
    | cons op ops ih =>
      have hop := hq op (List.mem_cons_self _ _)
      have hrest := ih (fun o ho => hq o (List.mem_cons_of_mem _ ho))
      cases op <;> simp [Op.quiet] at hop
      · simpa [run, step] using hrest
      · simpa [run, step] using hrest
      · simpa [run, step] using hrest
      · simpa [run, step] using hrest
      · simpa [run, step] using hrest
      · simp only [run, step]
        cases hk : s.quiet_at _ with
        | error e => simpa [outcome] using hrest
        | ok v => simpa [outcome] using hrest
  · simp only [unordered_map.quiet_find, unordered_map.find]
    cases s._map_find key <;> rfl
  · simp only [unordered_map.quiet_replacement_find, unordered_map.replacement_find]
    cases s._map_find key <;> rfl
  · simp only [unordered_map.quiet_count, unordered_map.count]
    cases s._map_find key <;> rfl
  · rcases hk : s._map_find key with _ | it <;>
      simp [unordered_map.quiet_contains, unordered_map.quiet_count, unordered_map.contains, hk]
  · rfl
  · simp only [unordered_map.quiet_at, unordered_map.at_]
    cases s._map_find key with
    | none => rfl
    | some it =>
      simp only [unordered_map.manager_access]
      rw [unordered_map.access_first]

/-- Witness of C16: three quiet lookups on the example map leave it as it is. -/
theorem C16_quiet_lookups_pure_witness :
    run 0 (map231 (.plain .lru)) [.quiet_find 1, .quiet_at 7, .quiet_count 2]
      = some (map231 (.plain .lru)) ∧
    (map231 (.plain .lru)).quiet_find 1 = some 1 :=
  ⟨(C16_quiet_lookups_pure 0 (map231 (.plain .lru))
      [.quiet_find 1, .quiet_at 7, .quiet_count 2] 1 (by decide)).1, by decide⟩

/-- C17. Lookups that are not quiet are a lookup followed by the access hook: `find`,
`replacement_find`, `count`, `contains` and `at` leave the map in the state `access(key)`
leaves; so does the key subscript on a present key.  On a present key that state differs
from the old one in the links only, and under a policy whose access hook is that of LRU the
entry is moved to the tail of the replacement order while the other entries keep their
order; on an absent key `find`, `count` and `contains` change nothing. -/
theorem C17_lookup_is_access [Inhabited V] (fuel : Nat) (s : unordered_map Key V)
    (L : List Ptr) (key : Key) (p : Ptr) (hv : s.Valid L) :
    (s.find key).2 = s.access_key key ∧
      (s.replacement_find key).2 = s.access_key key ∧
      (s.count key).2 = s.access_key key ∧
      (s.contains key).2 = s.access_key key ∧
      (s.at_ key).2 = s.access_key key ∧
      (∀ x, s._map_find key = some x →
        (∃ v, s.subscript fuel p key = some (.ok v, s.access_key key)) ∧
        (s.find key).1 = some x ∧ (s.count key).1 = 1 ∧ (s.contains key).1 = true ∧
        (s.access_key key)._map = s._map ∧ (s.access_key key)._manager = s._manager ∧
        (s.access_key key).mem.first = s.mem.first ∧
        (s._manager._policy.parent = .lru →
          (s.access_key key).Valid (L.erase x ++ [x]) ∧
          (s.access_key key).replacement_order (L.length + 1) = some (L.erase x ++ [x]))) ∧
      (s._map_find key = none →
        s.find key = (none, s) ∧ s.count key = (0, s) ∧ s.contains key = (false, s) ∧
        s.access_key key = s) := by
  refine ⟨?_, ?_, ?_, ?_, ?_, ?_, ?_⟩
  · simp only [unordered_map.find, unordered_map.access_key]
    cases s._map_find key <;> rfl
  · simp only [unordered_map.replacement_find, unordered_map.access_key]
    cases s._map_find key <;> rfl
  · simp only [unordered_map.count, unordered_map.access_key]
    cases s._map_find key <;> rfl
  · simp only [unordered_map.contains, unordered_map.access_key]
    cases s._map_find key <;> rfl
  · simp only [unordered_map.at_, unordered_map.access_key]
    cases s._map_find key <;> rfl
  · intro x hx
    have hxm := (s._map_find_some key x hx).1
    have hxL : x ∈ L := hv.2.1.symm.subset hxm
    have hacc : s.access_key key = s.manager_access x := by
      simp [unordered_map.access_key, hx]
    refine ⟨?_, by simp [unordered_map.find, hx], by simp [unordered_map.count, hx],
      by simp [unordered_map.contains, hx], by rw [hacc]; rfl, by rw [hacc]; rfl,
      by rw [hacc]; exact unordered_map.access_first _ _ _, ?_⟩
    · simp [unordered_map.subscript, unordered_map.subscript_value, hx, hacc]
    · intro hlru
      obtain ⟨A, B, rfl⟩ := List.append_of_mem hxL
      have hnd := (List.nodup_cons.1 hv.1.2).2
      rw [erase_of_split hnd, hacc]
      have hl : IsList (s.manager_access x).mem s._manager._first (A ++ B ++ [x]) := by
        have := (lru_access_isList hv.1 (s._manager.begin s.mem)).1
        simp only [unordered_map.manager_access, cache_manager.cache_manager.access,
          policy.policy_extractor.access, policy.provides_access_v, hlru, if_true]
        exact this
      have hvalid : (s.manager_access x).Valid (A ++ B ++ [x]) := by
        refine ⟨hl, ?_, ?_, hv.2.2.2⟩
        · have h1 : (A ++ B ++ [x]).Perm (A ++ x :: B) := by
            simp only [List.append_assoc]
            exact List.Perm.append_left A (List.perm_append_singleton x B)
          exact h1.trans hv.2.1
        · have : (s.manager_access x).keys = s.keys := by
            simp only [unordered_map.keys, unordered_map.manager_access,
              unordered_map.access_first]
          rw [this]
          exact hv.2.2.1
      refine ⟨hvalid, unordered_map.replacement_order_valid hvalid _ ?_⟩
      simp
  · intro hk
    simp [unordered_map.find, unordered_map.count, unordered_map.contains,
      unordered_map.access_key, hk]

/-- Witness of C17: `find(2)` on the LRU map with replacement order `[2, 3, 1]` moves the
entry to the tail. -/
theorem C17_lookup_is_access_witness :
    (map231 (.plain .lru)).Valid [2, 3, 1] ∧
    ((map231 (.plain .lru)).find 2).2 = (map231 (.plain .lru)).access_key 2 ∧
    ((map231 (.plain .lru)).access_key 2).replacement_order 4 = some [3, 1, 2] :=
  ⟨by decide,
    (C17_lookup_is_access 4 (map231 (.plain .lru)) [2, 3, 1] 2 4 (by decide)).1,
    ((C17_lookup_is_access 4 (map231 (.plain .lru)) [2, 3, 1] 2 4
      (by decide)).2.2.2.2.2.1 2 (by decide)).2.2.2.2.2.2.2 rfl |>.2⟩

/-- C18. The members `at` and `quiet_at` throw `out_of_range` if and only if the key is
absent; when `at` throws, the state of the map is the one before the call (`quiet_at` has
no effect on the state at all); when they return, they return the value stored under the
key. -/
theorem C18_at_out_of_range (s : unordered_map Key V) (key : Key) :
    ((s.at_ key).1 = .error .out_of_range ↔ s._map_find key = none) ∧
      (s.quiet_at key = .error .out_of_range ↔ s._map_find key = none) ∧
      ((∃ e, (s.at_ key).1 = .error e) → (s.at_ key).2 = s) ∧
      (∀ v, (s.at_ key).1 = .ok v ∨ s.quiet_at key = .ok v →
        ∃ x, x ∈ s._map ∧ s.mem.first x = (key, v) ∧ (s.at_ key).1 = .ok v ∧
          s.quiet_at key = .ok v) := by
  cases hk : s._map_find key with
  | none =>
    simp [unordered_map.at_, unordered_map.quiet_at, hk]
  | some x =>
    obtain ⟨hxm, hxk⟩ := s._map_find_some key x hk
    have hf : (s.manager_access x).mem.first = s.mem.first :=
      unordered_map.access_first _ _ _
    refine ⟨by simp [unordered_map.at_, hk], by simp [unordered_map.quiet_at, hk],
      by simp [unordered_map.at_, hk], ?_⟩
    intro v hv
    have hval : v = (s.mem.first x).2 := by
      rcases hv with hv | hv
      · simp only [unordered_map.at_, hk, hf] at hv
        exact (Except.ok.inj hv).symm
      · simp only [unordered_map.quiet_at, hk] at hv
        exact (Except.ok.inj hv).symm
    refine ⟨x, hxm, ?_, ?_, ?_⟩
    · rw [hval, ← hxk]
    · simp [unordered_map.at_, hk, hf, hval]
    · simp [unordered_map.quiet_at, hk, hval]

/-- Witness of C18: on the example map `at(7)` throws and leaves the map as it is, and
`at(2)` returns the stored value `0`. -/
theorem C18_at_out_of_range_witness :
    ((map231 (.plain .lru)).at_ 7).1 = .error .out_of_range ∧
    ((map231 (.plain .lru)).at_ 7).2 = map231 (.plain .lru) ∧
    ((map231 (.plain .lru)).at_ 2).1 = .ok 0 :=
  ⟨(C18_at_out_of_range (map231 (.plain .lru)) 7).1.2 (by decide),
    (C18_at_out_of_range (map231 (.plain .lru)) 7).2.2.1 ⟨.out_of_range, rfl⟩,
    rfl⟩

end limited

end extended_containers

namespace extended_containers

namespace limited

namespace unordered_map

open cache_manager

variable {Key V : Type} [DecidableEq Key]

/-- C19. Member `free_space(n)` under a Locked policy, on a valid and accounted map: it
throws `no_space_error` if and only if the entries that are not locked weigh less than `n`
together; so it throws whenever `n > weight()`, and for `n = 1` when every entry is
locked.  When it throws, the state of the map is exactly the one before the call. -/
theorem C19_free_space_locked_no_space (fuel n : Nat) (s : unordered_map Key V)
    (L : List Ptr) (par : policy.parent_policy) (locker : Key × V → Bool)
    (hv : s.Valid L) (ha : s.Accounted L)
    (hpol : s._manager._policy = .locked_policy par locker) (hf : L.length < fuel) :
    ∃ r s', s.free_space fuel n = some (r, s') ∧
      (r = .error .no_space_error ↔
        s._manager.total s.mem (L.filter (fun q => !locker (s.mem.first q))) < n) ∧
      (r = .error .no_space_error → s' = s) ∧
      (n > s.weight → r = .error .no_space_error) ∧
      ((∀ q ∈ L, locker (s.mem.first q) = true) → n = 1 → r = .error .no_space_error) := by
  obtain ⟨hsucc, hfail⟩ := freeSpace_locked fuel s n L par locker hv.1 hpol ha.1 hv.2.2.2.1 hf
  have hle := total_filter_le s._manager s.mem (fun q => !locker (s.mem.first q)) L
  by_cases h : s._manager.total s.mem (L.filter (fun q => !locker (s.mem.first q))) < n
  · have hres := hfail h
    refine ⟨.error .no_space_error, s, by simp [free_space, hres], ?_, fun _ => rfl,
      fun _ => rfl, fun _ _ => rfl⟩
    exact ⟨fun _ => h, fun _ => rfl⟩
  · obtain ⟨k, s1, -, -, -, hres, -⟩ := hsucc (by omega)
    refine ⟨.ok (), s1.freeSpace_drop ((L.filter (fun q => !locker (s.mem.first q))).take k),
      by simp [free_space, hres], ?_, ?_, ?_, ?_⟩
    · exact ⟨fun hc => (by cases hc), fun hc => absurd hc h⟩
    · intro hc
      cases hc
    · intro hn
      exfalso
      have : s.weight = s._manager.total s.mem L := ha.1
      omega
    · intro hall hn
      exfalso
      have : L.filter (fun q => !locker (s.mem.first q)) = [] := by
        rw [List.filter_eq_nil_iff]
        intro q hq
        simp [hall q hq]
      rw [this, total_nil] at h
      omega

/-- Witness of C19: with every entry locked, `free_space(1)` on the full map throws and
leaves the map as it is. -/
theorem C19_free_space_locked_no_space_witness :
    ∃ r s', (map231 (.locked_policy .lru (fun _ => true))).free_space 4 1 = some (r, s') ∧
      r = .error .no_space_error ∧ s' = map231 (.locked_policy .lru (fun _ => true)) :=
  let ⟨r, s', h1, _, h3, _, h5⟩ := C19_free_space_locked_no_space 4 1
    (map231 (.locked_policy .lru (fun _ => true))) [2, 3, 1] .lru (fun _ => true)
    (by decide) (by decide) rfl (by decide)
  ⟨r, s', h1, h5 (fun _ _ => rfl) rfl, h3 (h5 (fun _ _ => rfl) rfl)⟩

/-- C20. Member `free_space(n)` under a Locked policy evicts no more than needed: on a
valid and accounted map with replacement order `L`, when the call returns normally the
evicted entries are the first `k` of the entries that are not locked, in replacement order,
where `k` is the least number for which they weigh at least `n`; the other entries stay in
the index and keep their relative order in the replacement list; the values are untouched
and `weight()` has decreased by the evicted weight.  With unit weights `k = n`, and
`free_space(0)` returns normally and leaves the map as it is. -/
theorem C20_free_space_minimal (fuel n : Nat) (s : unordered_map Key V)
    (L : List Ptr) (par : policy.parent_policy) (locker : Key × V → Bool)
    (hv : s.Valid L) (ha : s.Accounted L)
    (hpol : s._manager._policy = .locked_policy par locker) (hf : L.length < fuel) :
    ∃ r s', s.free_space fuel n = some (r, s') ∧
      (n = 0 → r = .ok () ∧ s' = s) ∧
      (r = .ok () → ∃ k, k ≤ (L.filter (fun q => !locker (s.mem.first q))).length ∧
        n ≤ s._manager.total s.mem ((L.filter (fun q => !locker (s.mem.first q))).take k) ∧
        (∀ j, j < k →
          s._manager.total s.mem ((L.filter (fun q => !locker (s.mem.first q))).take j)
            < n) ∧
        s'.Valid (L.filter (fun q =>
          decide (q ∉ (L.filter (fun q => !locker (s.mem.first q))).take k))) ∧
        s'.replacement_order fuel = some (L.filter (fun q =>
          decide (q ∉ (L.filter (fun q => !locker (s.mem.first q))).take k))) ∧
        s'._map = s._map.diff ((L.filter (fun q => !locker (s.mem.first q))).take k) ∧
        s'.mem.first = s.mem.first ∧
        s'.weight +
          s._manager.total s.mem ((L.filter (fun q => !locker (s.mem.first q))).take k)
            = s.weight ∧
        ((∀ q ∈ L, s._manager.calculate_weight (s.mem.first q) = 1) → k = n)) := by
  obtain ⟨hsucc, hfail⟩ := freeSpace_locked fuel s n L par locker hv.1 hpol ha.1 hv.2.2.2.1 hf
  have hzero : n = 0 → s.free_space fuel n = some (.ok (), s) := by
    intro hn
    subst hn
    obtain ⟨fuel, rfl⟩ : ∃ k, fuel = k + 1 := ⟨fuel - 1, by omega⟩
    simp [free_space, freeSpace, next_locked s._manager par locker hpol hv.1 (fuel + 1) hf,
      freeSpace_loop, freeSpace_drop]
  by_cases h : s._manager.total s.mem (L.filter (fun q => !locker (s.mem.first q))) < n
  · have hres := hfail h
    refine ⟨.error .no_space_error, s, by simp [free_space, hres], ?_, ?_⟩
    · intro hn
      omega
    · intro hc
      cases hc
  · obtain ⟨k, s1, hk, hge, hmin, hres, hl1, hmap1, hfst1, hmgr1⟩ := hsucc (by omega)
    have hLnd : L.Nodup := (List.nodup_cons.1 hv.1.2).2
    have hUsub : ((L.filter (fun q => !locker (s.mem.first q))).take k).Sublist L :=
      (List.take_sublist _ _).trans (List.filter_sublist _)
    have hsplit := perm_filter_not_mem hLnd (hLnd.sublist hUsub) (fun x hx => hUsub.subset hx)
    have htot := total_perm s._manager s.mem hsplit
    rw [total_append] at htot
    have hWL : s._manager._weight = s._manager.total s.mem L := ha.1
    have hlt : s._manager._weight < SIZE := hv.2.2.2.1
    have hd := wf_drop (wf_of_valid hv)
      (fun x hx => hv.2.1.subset (hUsub.subset hx)) hl1 hsplit hmap1 hfst1 _
      (by omega) hmgr1
    have hvalid := valid_of_evicted hv hd.1 hsplit hd.2.1
    refine ⟨.ok (), s1.freeSpace_drop ((L.filter (fun q => !locker (s.mem.first q))).take k),
      by simp [free_space, hres], ?_, fun _ => ⟨k, hk, hge, hmin, hvalid,
      ?_, hd.2.1, ?_, ?_, ?_⟩⟩
    · intro hn
      have := hzero hn
      simp only [free_space, hres] at this
      simp only [Option.some.injEq, Prod.mk.injEq, true_and] at this
      exact ⟨rfl, this⟩
    · refine replacement_order_valid hvalid fuel ?_
      have := List.length_filter_le (fun q =>
        decide (q ∉ (L.filter (fun q => !locker (s.mem.first q))).take k)) L
      omega
    · rw [hd.2.2.1, hfst1]
    · show (s1.freeSpace_drop _)._manager._weight + _ = s._manager._weight
      rw [hd.2.2.2, hmgr1, hWL]
      simp only []
      omega
    · intro hunit
      have hlen : ∀ j, j ≤ (L.filter (fun q => !locker (s.mem.first q))).length →
          s._manager.total s.mem ((L.filter (fun q => !locker (s.mem.first q))).take j)
            = j := by
        intro j hj
        rw [total_unit s._manager s.mem _ (fun q hq =>
          hunit q ((List.filter_sublist _).subset ((List.take_sublist _ _).subset hq)))]
        simp
        exact hj
      rw [hlen k hk] at hge
      rcases Nat.eq_zero_or_pos k with h0 | hpos
      · omega
      · have := hmin (k - 1) (by omega)
        rw [hlen (k - 1) (by omega)] at this
        omega

/-- Witness of C20: with the entry `2` locked, `free_space(1)` on the map with replacement
order `[2, 3, 1]` evicts the entry `3`, the first one that is not locked. -/
theorem C20_free_space_minimal_witness :
    (state_after ((map231 (.locked_policy .lru (fun v => decide (v.1 = 2)))).free_space 4
      1)).map (fun s' => (s'.replacement_order 4, s'._map, s'.weight))
        = some (some [2, 1], [1, 2], 2) ∧
    ∃ r s', (map231 (.locked_policy .lru (fun v => decide (v.1 = 2)))).free_space 4 0
        = some (r, s') ∧ r = .ok () ∧
      s' = map231 (.locked_policy .lru (fun v => decide (v.1 = 2))) :=
  ⟨by decide,
    let ⟨r, s', h1, h2, _⟩ := C20_free_space_minimal 4 0
      (map231 (.locked_policy .lru (fun v => decide (v.1 = 2)))) [2, 3, 1] .lru
      (fun v => decide (v.1 = 2)) (by decide) (by decide) rfl (by decide)
    ⟨r, s', h1, (h2 rfl).1, (h2 rfl).2⟩⟩

end unordered_map

end limited

end extended_containers

namespace extended_containers

namespace limited

namespace unordered_map

open cache_manager

variable {Key V : Type} [DecidableEq Key]

/-- C27. Extract then re-insert, on a valid and accounted map with replacement order `L`
that holds the key `K` in the node `x`: `extract(K)` returns the node `x`, which carries
`K` and its value; the entry has left the index and the replacement list, the size is one
less, the weight is less by the weight of the entry and the other entries keep their
order.  `insert(node)` on that state then returns `inserted = true` without evicting
anything, and the entry stands at the position the policy chooses: at the tail under FIFO
and LRU, at the head under LIFO, MRU and Swapping; size, weight and values are those before
the extraction. -/
theorem C27_extract_then_insert (fuel : Nat) (s : unordered_map Key V) (L : List Ptr)
    (key : Key) (x : Ptr) (hv : s.Valid L) (ha : s.Accounted L)
    (hk : s._map_find key = some x) :
    (s.extract_key key).1 = some x ∧ (s.mem.first x).1 = key ∧
      (s.extract_key key).2.mem.first = s.mem.first ∧
      (s.extract_key key).2.Valid (L.erase x) ∧
      (s.extract_key key).2.replacement_order (L.length + 1) = some (L.erase x) ∧
      (s.extract_key key).2._map = s._map.erase x ∧
      (s.extract_key key).2.size + 1 = s.size ∧
      (s.extract_key key).2.weight + s._manager.calculate_weight (s.mem.first x)
        = s.weight ∧
      ∃ s2, (s.extract_key key).2.insert_node fuel (some x)
          = some (.ok (some x, true, none), s2) ∧
        (s._manager._policy.parent = .fifo ∨ s._manager._policy.parent = .lru →
          s2.Valid (L.erase x ++ [x]) ∧
          s2.replacement_order (L.length + 1) = some (L.erase x ++ [x])) ∧
        (s._manager._policy.parent = .lifo ∨ s._manager._policy.parent = .mru ∨
          s._manager._policy.parent = .swapping →
          s2.Valid (x :: L.erase x) ∧
          s2.replacement_order (L.length + 1) = some (x :: L.erase x)) ∧
        s2._map = x :: s._map.erase x ∧ s2.size = s.size ∧ s2.weight = s.weight ∧
        s2.mem.first = s.mem.first := by
  obtain ⟨hxm, hxk⟩ := s._map_find_some key x hk
  have hxL : x ∈ L := hv.2.1.symm.subset hxm
  have hLnd : L.Nodup := (List.nodup_cons.1 hv.1.2).2
  have hmnd := (valid_nodup_map hv).1
  have hext : s.extract_key key = (some x, (s.manager_erase x).1._map_erase x) := by
    simp [extract_key, hk]
  obtain ⟨hv1, ha1, hmap1, hfirst1, hmgr1, hle⟩ := erase_node_accounted hv ha x hxm
  have hlen : (L.erase x).length + 1 = L.length := by
    rw [List.length_erase_of_mem hxL]
    have : 0 < L.length := List.length_pos_of_mem hxL
    omega
  have hsize : (s._map.erase x).length + 1 = s._map.length := by
    rw [List.length_erase_of_mem hxm]
    have : 0 < s._map.length := List.length_pos_of_mem hxm
    omega
  have hx1 : x ∉ ((s.manager_erase x).1._map_erase x)._manager._first ::
      ((s.manager_erase x).1._map_erase x)._map := by
    rw [hmgr1, hmap1]
    simp only [List.mem_cons, not_or]
    exact ⟨fun hc => (valid_nodup_map hv).2 (hc ▸ hxm),
      fun hc => (hmnd.mem_erase_iff.1 hc).1 rfl⟩
  have hk1 : ((s.manager_erase x).1._map_erase x)._map_find
      (((s.manager_erase x).1._map_erase x).mem.first x).1 = none := by
    rw [_map_find_none]
    simp only [keys, hfirst1, hmap1]
    exact key_not_mem_erase hv.2.2.1 x hxm
  have hfit : ((s.manager_erase x).1._map_erase x)._manager.calculate_weight
      (((s.manager_erase x).1._map_erase x).mem.first x)
      ≤ ((s.manager_erase x).1._map_erase x)._manager._capacity
        - ((s.manager_erase x).1._map_erase x)._manager._weight := by
    rw [hmgr1, hfirst1]
    show s._manager.calculate_weight (s.mem.first x) ≤ s._manager._capacity
      - (s._manager._weight - s._manager.calculate_weight (s.mem.first x))
    have := ha.2
    omega
  obtain ⟨s2, hres, htail, hhead, hmap2, hfirst2, hmgr2⟩ :=
    insert_node_fits fuel _ (L.erase x) x hv1 ha1 hx1 hk1 hfit
  have hpar : ((s.manager_erase x).1._map_erase x)._manager._policy.parent
      = s._manager._policy.parent := by rw [hmgr1]
  rw [hpar] at htail hhead
  have hw2 : s2._manager._weight = s._manager._weight := by
    rw [hmgr2, hmgr1, hfirst1]
    show s._manager._weight - s._manager.calculate_weight (s.mem.first x)
      + s._manager.calculate_weight (s.mem.first x) = s._manager._weight
    omega
  rw [hext]
  refine ⟨rfl, hxk, hfirst1, hv1, replacement_order_valid hv1 _ (by omega), hmap1, ?_, ?_,
    s2, hres, ?_, ?_, by rw [hmap2, hmap1], ?_, hw2, by rw [hfirst2, hfirst1]⟩
  · show ((s.manager_erase x).1._map_erase x)._map.length + 1 = s._map.length
    rw [hmap1]
    exact hsize
  · show ((s.manager_erase x).1._map_erase x)._manager._weight + _ = s._manager._weight
    rw [hmgr1]
    show s._manager._weight - s._manager.calculate_weight (s.mem.first x)
      + s._manager.calculate_weight (s.mem.first x) = s._manager._weight
    omega
  · intro hp
    have := (htail hp).1
    exact ⟨this, replacement_order_valid this _ (by simp; omega)⟩
  · intro hp
    have := (hhead hp).1
    exact ⟨this, replacement_order_valid this _ (by simp; omega)⟩
  · show s2._map.length = s._map.length
    rw [hmap2, hmap1, List.length_cons]
    exact hsize

/-- Witness of C27: under LRU with the replacement order `[1, 2, 3]`, `extract(2)` leaves
`[1, 3]` and `insert(node)` gives `[1, 3, 2]`. -/
theorem C27_extract_then_insert_witness :
    ((map123 (.plain .lru)).extract_key 2).2.replacement_order 4 = some [1, 3] ∧
    ∃ s2, ((map123 (.plain .lru)).extract_key 2).2.insert_node 4 (some 2)
        = some (.ok (some 2, true, none), s2) ∧
      s2.replacement_order 4 = some [1, 3, 2] :=
  let h := C27_extract_then_insert 4 (map123 (.plain .lru)) [1, 2, 3] 2 2 (by decide)
    (by decide) (by decide)
  ⟨h.2.2.2.2.1,
    let ⟨s2, h1, h2, _⟩ := h.2.2.2.2.2.2.2.2
    ⟨s2, h1, (h2 (Or.inr rfl)).2⟩⟩

/-- C28. Member `erase(key)` on a valid and accounted map with replacement order `L`: when
the key is present in the node `x`, it returns `1`, the entry leaves the index and the
replacement list, the key is absent afterwards, the weight has decreased by the weight of
the entry, and every other entry stays in the index with its value and keeps its place in
the replacement order; when the key is absent it returns `0` and changes nothing. -/
theorem C28_erase_key (s : unordered_map Key V) (L : List Ptr) (key : Key)
    (hv : s.Valid L) (ha : s.Accounted L) :
    (∀ x, s._map_find key = some x →
      (s.erase_key key).1 = 1 ∧ (s.erase_key key).2.Valid (L.erase x) ∧
      (s.erase_key key).2.replacement_order (L.length + 1) = some (L.erase x) ∧
      (s.erase_key key).2._map = s._map.erase x ∧
      (s.erase_key key).2._map_find key = none ∧
      (s.erase_key key).2.mem.first = s.mem.first ∧
      (s.erase_key key).2.weight + s._manager.calculate_weight (s.mem.first x) = s.weight ∧
      (s.erase_key key).2.capacity = s.capacity) ∧
    (s._map_find key = none → s.erase_key key = (0, s)) := by
  constructor
  · intro x hk
    obtain ⟨hxm, hxk⟩ := s._map_find_some key x hk
    have hxL : x ∈ L := hv.2.1.symm.subset hxm
    have her : s.erase_key key = (1, (s.manager_erase x).1._map_erase x) := by
      simp [erase_key, hk]
    obtain ⟨hv1, ha1, hmap1, hfirst1, hmgr1, hle⟩ := erase_node_accounted hv ha x hxm
    have hlen : (L.erase x).length < L.length + 1 := by
      have := List.length_erase_of_mem hxL
      omega
    rw [her]
    refine ⟨rfl, hv1, replacement_order_valid hv1 _ hlen, hmap1, ?_, hfirst1, ?_, ?_⟩
    · rw [_map_find_none]
      simp only [keys, hfirst1, hmap1]
      rw [← hxk]
      exact key_not_mem_erase hv.2.2.1 x hxm
    · show ((s.manager_erase x).1._map_erase x)._manager._weight + _ = s._manager._weight
      rw [hmgr1]
      show s._manager._weight - s._manager.calculate_weight (s.mem.first x)
        + s._manager.calculate_weight (s.mem.first x) = s._manager._weight
      omega
    · show ((s.manager_erase x).1._map_erase x)._manager._capacity = s._manager._capacity
      rw [hmgr1]
  · intro hk
    simp [erase_key, hk]

/-- Witness of C28: `erase(2)` on the map with replacement order `[1, 2, 3]` returns `1`
and leaves the order `[1, 3]`; `erase(7)` returns `0` and changes nothing. -/
theorem C28_erase_key_witness :
    ((map123 (.plain .lru)).erase_key 2).1 = 1 ∧
    ((map123 (.plain .lru)).erase_key 2).2.replacement_order 4 = some [1, 3] ∧
    (map123 (.plain .lru)).erase_key 7 = (0, map123 (.plain .lru)) :=
  let h := C28_erase_key (map123 (.plain .lru)) [1, 2, 3] 2 (by decide) (by decide)
  ⟨(h.1 2 (by decide)).1, (h.1 2 (by decide)).2.2.1,
    (C28_erase_key (map123 (.plain .lru)) [1, 2, 3] 7 (by decide) (by decide)).2
      (by decide)⟩

end unordered_map

end limited

end extended_containers

namespace cache_manager

variable {T : Type}

/-- C29. Erase and reinsert round trip: on a valid replacement list, erasing any number of
distinct entries one after another with `erase(it)` leaves the list of the other entries
in their order, and calling `reinsert` on the erased entries in the opposite order, with
nothing in between, gives back the manager (its weight included) and every link of the
memory exactly as they were. -/
theorem C29_erase_reinsert_round_trip (c : cache_manager T) (m : Mem T) (L E : List Ptr)
    (h : IsList m c._first L) (hW : c._weight < SIZE) (hnd : E.Nodup)
    (hsub : ∀ x ∈ E, x ∈ L) :
    IsList (erase_each c m E).2 c._first (L.diff E) ∧
      reinsert_each (erase_each c m E).1 (erase_each c m E).2 E.reverse = (c, m) ∧
      walk (reinsert_each (erase_each c m E).1 (erase_each c m E).2 E.reverse).2 c._first
        (L.length + 1)
        ((reinsert_each (erase_each c m E).1 (erase_each c m E).2 E.reverse).2.next c._first)
        = some L ∧
      (reinsert_each (erase_each c m E).1 (erase_each c m E).2 E.reverse).1._weight
        = c._weight := by
  obtain ⟨h1, -, h3⟩ := erase_each_reinsert_each E c m L h hW hnd hsub
  refine ⟨h1, h3, ?_, by rw [h3]⟩
  rw [h3]
  exact walk_isList h _ (by omega)

/-- Witness of C29: erasing the nodes `2` and `1` of the list `1, 2, 3` and re-inserting
`1`, then `2`, restores the manager and the memory. -/
theorem C29_erase_reinsert_round_trip_witness :
    reinsert_each (erase_each (mgr123 .lru) mem123 [2, 1]).1
      (erase_each (mgr123 .lru) mem123 [2, 1]).2 [2, 1].reverse = (mgr123 .lru, mem123) :=
  (C29_erase_reinsert_round_trip (mgr123 .lru) mem123 [1, 2, 3] [2, 1] (by decide)
    (by decide) (by decide) (by decide)).2.1

/-- With the assertions of the policies compiled out, the member `next_except` hides the
excluded entry and restores it: on a valid list that holds `x`, under every built-in
policy, `next_except(x)` returns; its result is the result of `next()` on the memory in
which `x` is unlinked, whose list is the list without `x`; the result is an entry of that
list or `end()`, never `x`; and the memory after the call, with every `prev` and `next`
link and weight, is the memory before it. -/
theorem next_except_restores (c : cache_manager T) (m : Mem T) (L : List Ptr) (x : Ptr)
    (fuel : Nat) (h : IsList m c._first L) (hx : x ∈ L) (hf : L.length < fuel) :
    ∃ r, c.next_except m fuel x = some (r, m) ∧
      c.next (__link m (m.prev x) (m.next x)) fuel = some r ∧
      IsList (__link m (m.prev x) (m.next x)) c._first (L.erase x) ∧
      r ≠ x ∧ (r ∈ L.erase x ∨ r = c.end_) ∧ (L.erase x = [] → r = c.end_) := by
  obtain ⟨r, hr, hmem⟩ := next_except_good c h x hx fuel hf
  have hLnd : L.Nodup := (List.nodup_cons.1 h.2).2
  obtain ⟨A, B, rfl⟩ := List.append_of_mem hx
  have hm1 : IsList (__link m (m.prev x) (m.next x)) c._first (A ++ B) := isList_unlink h
  have hne : ¬ c.cbegin m = c.cend := by
    intro hc
    have hhead := (isList_sentinel h).1
    have hc' : m.next c._first = c._first := hc
    rw [hc'] at hhead
    cases A with
    | nil =>
      have e : x = c._first := by simpa using hhead
      exact isList_not_mem h (by simp [e])
    | cons y Y =>
      have e : y = c._first := by simpa using hhead
      exact isList_not_mem h (by simp [e])
  have hcore : policy.policy_extractor.erase_position c._policy
      (__link m (m.prev x) (m.next x)) fuel (c.cbegin (__link m (m.prev x) (m.next x))) c.cend
        = some r := by
    have := hr
    unfold cache_manager.next_except at this
    rw [if_neg hne] at this
    simp only [] at this
    cases he : policy.policy_extractor.erase_position c._policy
        (__link m (__prev m x) (__next m x)) fuel
        (c.cbegin (__link m (__prev m x) (__next m x))) c.cend with
    | none => rw [he] at this; simp at this
    | some r' =>
      rw [he] at this
      simp only [Option.some.injEq, Prod.mk.injEq] at this
      rw [this.1]
  have hnext : c.next (__link m (m.prev x) (m.next x)) fuel = some r := by
    unfold cache_manager.next
    by_cases hb : c.cbegin (__link m (m.prev x) (m.next x)) = c.cend
    · rw [if_pos hb]
      rw [hb] at hcore
      have hs : (__link m (m.prev x) (m.next x)).next c._first = c._first := hb
      have he := erase_position_empty c._policy _ c._first fuel hs (by omega)
      exact he.symm.trans hcore
    · rw [if_neg hb]
      exact hcore
  rw [erase_of_split hLnd]
  refine ⟨r, hr, hnext, hm1, ?_, ?_, ?_⟩
  · rcases hmem with hmem | hmem
    · exact hmem.2
    · rw [hmem]
      exact fun hc => isList_not_mem h (hc ▸ hx)
  · rcases hmem with hmem | hmem
    · left
      have := hmem.1
      simp only [List.mem_append, List.mem_cons] at this ⊢
      rcases this with h1 | h1 | h1
      · exact Or.inl h1
      · exact absurd h1 hmem.2
      · exact Or.inr h1
    · exact Or.inr hmem
  · intro hAB
    rcases hmem with hmem | hmem
    · exfalso
      have := hmem.1
      have hA : A = [] := (List.append_eq_nil.1 hAB).1
      have hB : B = [] := (List.append_eq_nil.1 hAB).2
      rw [hA, hB] at this
      simp only [List.nil_append, List.mem_singleton] at this
      exact hmem.2 this
    · exact hmem

end cache_manager

namespace extended_containers

namespace limited

namespace unordered_map

open cache_manager

variable {Key V : Type} [DecidableEq Key]

/-- C22. Atomic failure of `assign`: on a valid map with replacement order `L`, `assign` on
a resident entry returns or throws, and when it throws `no_space_error` the memory (the
value and the cached weight of every entry, and every link) and the manager (the weight
included) are exactly those before the call, the index holds the same nodes, and the
replacement order is `L`: nothing was evicted and every entry is at its former place. -/
theorem C22_assign_atomic_failure (fuel : Nat) (s : unordered_map Key V) (L : List Ptr)
    (position : Ptr) (obj : V) (hv : s.Valid L) (hp : position ∈ s._map)
    (hf : L.length < fuel) :
    ∃ r s', s.assign fuel position obj = some (r, s') ∧
      (r = .error .no_space_error →
        s'.mem = s.mem ∧ s'._manager = s._manager ∧
        s'._map = position :: s._map.erase position ∧ s'._map.Perm s._map ∧
        s'.Valid L ∧ s'.replacement_order fuel = some L ∧ s'.size = s.size ∧
        s'.weight = s.weight) := by
  obtain ⟨hwf, hm⟩ := (valid_iff_wf s L).1 hv
  have hxL : position ∈ L := (hm position).2 hp
  have hmnd := wf_map_nodup hwf
  have hwf1 : (s._map_erase position).Wf L := wf_map_erase hwf position
  have hnot : position ∉ (s._map_erase position)._map := by
    simp only [_map_erase]
    exact fun hc => (hmnd.mem_erase_iff.1 hc).1 rfl
  have hwf2 := wf_set_value hwf1 position (((s._map_erase position).mem.first position).1, obj)
    hnot
  have hkey := key_not_mem_erase hwf.2.1 position hp
  have hperm : (position :: s._map.erase position).Perm s._map :=
    (List.perm_cons_erase hp).symm
  unfold assign
  simp only []
  split_ifs with hgrow
  · obtain ⟨b, s3, hr, hfalse, htrue⟩ := provideSpace_except_spec fuel _
      ((cache_manager.cache_manager.calculate_weight (s._map_erase position)._manager
          (((s._map_erase position).mem.first position).1, obj) + SIZE -
        s._manager.calculate_weight_it s.mem position) % SIZE) position L hwf2.1
      hwf2.2.2.2.1 hxL hf
    simp only [Function.update_same] at hr ⊢
    rw [hr]
    cases b with
    | false =>
      have e3 := hfalse rfl
      subst e3
      simp only [Function.update_same, Function.update_idem]
      have hfind : (s._map_erase position)._map_find
          ((s._map_erase position).mem.first position).1 = none := by
        rw [_map_find_none]
        exact hkey
      have hstate : ({ s._map_erase position with mem := { (s._map_erase position).mem with
          first := Function.update (s._map_erase position).mem.first position
            (((s._map_erase position).mem.first position).1,
              ((s._map_erase position).mem.first position).2) } } :
          unordered_map Key V) = s._map_erase position := by
        simp only [Prod.mk.eta, Function.update_eq_self]
      refine ⟨_, _, rfl, fun _ => ?_⟩
      rw [hstate]
      simp only [_map_insert_node, hfind]
      have hvalid : ({ s._map_erase position with
          _map := position :: (s._map_erase position)._map } : unordered_map Key V).Valid L :=
        ⟨hv.1, hv.2.1.trans hperm.symm, by
          simp only [keys, _map_erase, List.map_cons, List.nodup_cons]
          exact ⟨hkey, List.Nodup.sublist ((List.erase_sublist _ _).map _) hv.2.2.1⟩,
          hv.2.2.2⟩
      refine ⟨rfl, rfl, rfl, hperm, hvalid, replacement_order_valid hvalid fuel hf, ?_, rfl⟩
      exact hperm.length_eq
    | true =>
      exact ⟨_, _, rfl, fun hc => (by cases hc)⟩
  · exact ⟨_, _, rfl, fun hc => (by cases hc)⟩

/-- Witness of C22: with capacity `10` and the entries `(1, 4)`, `(2, 4)`, `assign(1, 11)`
throws and leaves the memory, the manager and the replacement order as they were. -/
theorem C22_assign_atomic_failure_witness :
    throws_no_space ((map44 (.plain .lru)).assign 3 1 11) = true ∧
    ∃ r s', (map44 (.plain .lru)).assign 3 1 11 = some (r, s') ∧
      (r = .error .no_space_error →
        s'.mem = (map44 (.plain .lru)).mem ∧ s'.replacement_order 3 = some [1, 2]) :=
  ⟨by decide,
    let ⟨r, s', h1, h2⟩ := C22_assign_atomic_failure 3 (map44 (.plain .lru)) [1, 2] 1 11
      (by decide) (by decide) (by decide)
    ⟨r, s', h1, fun hr => ⟨(h2 hr).1, (h2 hr).2.2.2.2.2.1⟩⟩⟩

end unordered_map

end limited

end extended_containers

namespace extended_containers

namespace limited

namespace unordered_map

open cache_manager

variable {Key V : Type} [DecidableEq Key]

/-- C24, as stated, fails: on the LRU map with replacement order `[2, 3, 1]`, whose entry
of key `2` holds the value `0`, `assign` of the value `0` to that entry returns normally
and leaves the replacement order `[3, 1, 2]`. -/
theorem C24_assign_same_value_counterexample :
    (map231 (.plain .lru)).Valid [2, 3, 1] ∧
    (map231 (.plain .lru)).mem.first 2 = (2, 0) ∧
    (map231 (.plain .lru)).replacement_order 4 = some [2, 3, 1] ∧
    throws_no_space ((map231 (.plain .lru)).assign 4 2 0) = false ∧
    (state_after ((map231 (.plain .lru)).assign 4 2 0)).map
      (fun s' => s'.replacement_order 4) = some (some [3, 1, 2]) := by
  decide

/-- The access hook on a resident entry `x` of a state `s0` that has the links, the values,
the manager and, up to order, the index nodes of a valid state `s`. -/
theorem assign_same_access {s s0 : unordered_map Key V} {L : List Ptr} (x : Ptr)
    (hv : s.Valid L) (hx : x ∈ s._map) (hmap : s0._map = x :: s._map.erase x)
    (hmgr : s0._manager = s._manager) (hfirst : s0.mem.first = s.mem.first)
    (hprev : s0.mem.prev = s.mem.prev) (hnext : s0.mem.next = s.mem.next) :
    (s0.manager_access x).mem.first = s.mem.first ∧
      (s0.manager_access x)._manager = s._manager ∧
      (s0.manager_access x)._map.Perm s._map ∧
      (∃ L', (s0.manager_access x).Valid L' ∧ L'.Perm L) ∧
      (s._manager._policy.parent = .fifo ∨ s._manager._policy.parent = .lifo →
        (s0.manager_access x).mem.next = s.mem.next ∧
        (s0.manager_access x).mem.prev = s.mem.prev ∧
        (s0.manager_access x).replacement_order (L.length + 1) = some L) ∧
      (s._manager._policy.parent = .lru →
        (s0.manager_access x).replacement_order (L.length + 1) = some (L.erase x ++ [x])) := by
  have hxL : x ∈ L := hv.2.1.symm.subset hx
  have hkey := key_not_mem_erase hv.2.2.1 x hx
  have hperm : (x :: s._map.erase x).Perm s._map := (List.perm_cons_erase hx).symm
  have hv0 : s0.Valid L := by
    refine ⟨?_, ?_, ?_, ?_⟩
    · rw [hmgr]
      exact isList_congr hnext hprev hv.1
    · rw [hmap]
      exact hv.2.1.trans hperm.symm
    · simp only [keys, hmap, hfirst, List.map_cons, List.nodup_cons]
      exact ⟨hkey, List.Nodup.sublist ((List.erase_sublist _ _).map _) hv.2.2.1⟩
    · rw [hmgr]
      exact hv.2.2.2
  have hx0 : x ∈ s0._map := by rw [hmap]; exact List.mem_cons_self _ _
  refine ⟨by
    show (s0._manager.access s0.mem x).first = s.mem.first
    rw [access_first]
    exact hfirst, hmgr, by
    show s0._map.Perm s._map
    rw [hmap]
    exact hperm, ?_, ?_, ?_⟩
  · obtain ⟨L', hv'⟩ := valid_manager_access hv0 x hx0
    refine ⟨L', hv', ?_⟩
    have h1 : L'.Perm s0._map := hv'.2.1
    rw [hmap] at h1
    exact h1.trans (hperm.trans hv.2.1.symm)
  · intro hp
    have hid : s0.manager_access x = s0 := by
      rw [← hmgr] at hp
      rcases hp with hp | hp <;>
        simp [manager_access, cache_manager.cache_manager.access,
          policy.policy_extractor.access, policy.provides_access_v, hp]
    rw [hid]
    exact ⟨hnext, hprev, replacement_order_valid hv0 _ (by omega)⟩
  · intro hlru
    obtain ⟨A, B, rfl⟩ := List.append_of_mem hxL
    have hnd := (List.nodup_cons.1 hv.1.2).2
    rw [erase_of_split hnd]
    have hl := (lru_access_isList hv0.1 (s0._manager.begin s0.mem)).1
    have hl' : IsList (s0.manager_access x).mem s0._manager._first (A ++ B ++ [x]) := by
      simp only [manager_access, cache_manager.cache_manager.access,
        policy.policy_extractor.access, policy.provides_access_v, hmgr, hlru, if_true]
      rw [hmgr] at hl
      exact hl
    exact walk_isList hl' _ (by simp)

/-- C24, amended. Assigning to a resident entry `x` of a valid map the value it already
holds returns normally and leaves the state that the access hook on `x` leaves (with the
cached weight of `x` rewritten and `x` put back into the index): the values, the manager
with its weight, the size and the set of resident nodes are as before; the replacement
order is unchanged under the policies without an access hook (FIFO, LIFO), and under LRU
the entry has moved to the tail. -/
theorem C24_assign_same_value (fuel : Nat) (s : unordered_map Key V) (L : List Ptr)
    (x : Ptr) (hv : s.Valid L) (hx : x ∈ s._map) :
    ∃ s0 s' : unordered_map Key V, s.assign fuel x (s.mem.first x).2 = some (.ok x, s') ∧
      s' = s0.manager_access x ∧ s0._map = x :: s._map.erase x ∧
      s0._manager = s._manager ∧ s0.mem.first = s.mem.first ∧ s0.mem.prev = s.mem.prev ∧
      s0.mem.next = s.mem.next ∧
      s'.mem.first = s.mem.first ∧ s'._manager = s._manager ∧ s'._map.Perm s._map ∧
      s'.size = s.size ∧ s'.weight = s.weight ∧
      (∃ L', s'.Valid L' ∧ L'.Perm L) ∧
      (s._manager._policy.parent = .fifo ∨ s._manager._policy.parent = .lifo →
        s'.mem.next = s.mem.next ∧ s'.mem.prev = s.mem.prev ∧
        s'.replacement_order (L.length + 1) = some L) ∧
      (s._manager._policy.parent = .lru →
        s'.replacement_order (L.length + 1) = some (L.erase x ++ [x])) := by
  have hkey := key_not_mem_erase hv.2.2.1 x hx
  have hfind : (s._map_erase x)._map_find ((s._map_erase x).mem.first x).1 = none := by
    rw [_map_find_none]
    exact hkey
  have hstate : ({ s._map_erase x with mem := { (s._map_erase x).mem with
      first := Function.update (s._map_erase x).mem.first x
        (((s._map_erase x).mem.first x).1, (s.mem.first x).2) } } :
      unordered_map Key V) = s._map_erase x := by
    have e : (((s._map_erase x).mem.first x).1, (s.mem.first x).2)
        = (s._map_erase x).mem.first x := rfl
    rw [e, Function.update_eq_self]
  have hw : ((s._manager._weight + SIZE - s._manager.calculate_weight (s.mem.first x) % SIZE)
      % SIZE + s._manager.calculate_weight (s.mem.first x)) % SIZE = s._manager._weight := by
    have hlt := calculate_weight_lt s._manager (s.mem.first x)
    rw [Nat.mod_eq_of_lt hlt]
    exact sub_add_mod _ _ hv.2.2.2.1 hlt
  have hmgr : ({ (s._map_erase x)._manager with
      _weight := ((s._manager._weight + SIZE
        - s._manager.calculate_weight (s.mem.first x) % SIZE) % SIZE
        + s._manager.calculate_weight (s.mem.first x)) % SIZE } :
      cache_manager.cache_manager (Key × V)) = s._manager := by
    rw [hw]
    rfl
  obtain ⟨s0, hs0, hres⟩ : ∃ s0 : unordered_map Key V,
      (s0._map = x :: s._map.erase x ∧ s0._manager = s._manager ∧
        s0.mem.first = s.mem.first ∧ s0.mem.prev = s.mem.prev ∧ s0.mem.next = s.mem.next) ∧
      s.assign fuel x (s.mem.first x).2 = some (.ok x, s0.manager_access x) := by
    refine ⟨⟨x :: s._map.erase x, s._manager, ⟨s.mem.first, s.mem.prev, s.mem.next,
      Function.update s.mem.weight x (s._manager.calculate_weight (s.mem.first x))⟩⟩,
      ⟨rfl, rfl, rfl, rfl, rfl⟩, ?_⟩
    have hupd : Function.update (s._map_erase x).mem.first x
        (((s._map_erase x).mem.first x).1, (s.mem.first x).2) = s.mem.first := by
      have e : (((s._map_erase x).mem.first x).1, (s.mem.first x).2)
          = (s._map_erase x).mem.first x := rfl
      rw [e, Function.update_eq_self]
      rfl
    unfold assign
    simp only []
    rw [hstate]
    simp only [hupd]
    have hnw : cache_manager.cache_manager.calculate_weight (s._map_erase x)._manager
        (s.mem.first x) = s._manager.calculate_weight (s.mem.first x) := rfl
    have how : s._manager.calculate_weight_it s.mem x
        = s._manager.calculate_weight (s.mem.first x) := rfl
    rw [hnw, how, if_neg (lt_irrefl _)]
    simp only [assign_finish, _map_insert_node, hfind,
      cache_manager.cache_manager.update_weight]
    exact congrArg (fun c : cache_manager.cache_manager (Key × V) => some (Except.ok x,
      (unordered_map.mk (x :: s._map.erase x) c ⟨s.mem.first, s.mem.prev, s.mem.next,
        Function.update s.mem.weight x
          (s._manager.calculate_weight (s.mem.first x))⟩).manager_access x)) hmgr
  obtain ⟨h1, h2, h3, h4, h5, h6⟩ := assign_same_access x hv hx hs0.1 hs0.2.1 hs0.2.2.1
    hs0.2.2.2.1 hs0.2.2.2.2
  exact ⟨s0, _, hres, rfl, hs0.1, hs0.2.1, hs0.2.2.1, hs0.2.2.2.1, hs0.2.2.2.2, h1, h2, h3,
    h3.length_eq, congrArg (fun c => c._weight) h2, h4, h5, h6⟩

/-- Witness of the amended C24: under FIFO the same assignment leaves the replacement order
`[2, 3, 1]`. -/
theorem C24_assign_same_value_witness :
    ∃ s', (map231 (.plain .fifo)).assign 4 2 ((map231 (.plain .fifo)).mem.first 2).2
        = some (.ok 2, s') ∧
      s'.replacement_order 4 = some [2, 3, 1] :=
  let ⟨_, s', h1, _, _, _, _, _, _, _, _, _, _, _, _, h9, _⟩ :=
    C24_assign_same_value 4 (map231 (.plain .fifo)) [2, 3, 1] 2 (by decide) (by decide)
  ⟨s', h1, (h9 (Or.inl rfl)).2.2⟩

end unordered_map

end limited

end extended_containers

namespace extended_containers

namespace limited

namespace unordered_map

open cache_manager

variable {Key V : Type} [DecidableEq Key]

/-- C25. Atomic failure of the range insert: on a valid map with replacement order `L`, for
a range whose new nodes are allocated at fresh, distinct addresses, `insert(first, last)`
returns or throws; it throws `no_space_error` when the weight summed by its first loop
exceeds the capacity; and whenever it throws `no_space_error` the index holds exactly the
nodes it held before (no key of the range was added, nothing was evicted), the manager with
its weight is unchanged, the memory is unchanged outside the freed nodes of the range, so
the entries and keys are those before, and the replacement order is `L`. -/
theorem C25_range_insert_atomic_failure (fuel : Nat) (s : unordered_map Key V) (L : List Ptr)
    (range : List (Ptr × (Key × V))) (hv : s.Valid L) (hnd : (range.map Prod.fst).Nodup)
    (hfresh : ∀ p ∈ range.map Prod.fst, p ∉ s._manager._first :: s._map)
    (hf : L.length < fuel) :
    ∃ r s', s.insert_range fuel range = some (r, s') ∧
      ((s.insert_range_index range [] 0).2.2 > s._manager.capacity →
        r = .error .no_space_error) ∧
      (r = .error .no_space_error →
        s'._map = s._map ∧ s'._manager = s._manager ∧
        (∀ q, q ∉ range.map Prod.fst →
          s'.mem.first q = s.mem.first q ∧ s'.mem.prev q = s.mem.prev q ∧
          s'.mem.next q = s.mem.next q ∧ s'.mem.weight q = s.mem.weight q) ∧
        s'.entries s'._map = s.entries s._map ∧ s'.keys = s.keys ∧
        s'.Valid L ∧ s'.replacement_order fuel = some L ∧ s'.size = s.size ∧
        s'.weight = s.weight) := by
  obtain ⟨hwf, hm⟩ := (valid_iff_wf s L).1 hv
  obtain ⟨J, hJ1, hJ2, hJ3, hJ4, hJ5⟩ := insert_range_index_frame range s [] 0
  obtain ⟨hwf0, hm0, hI, hdis⟩ := insert_range_index_spec L range s [] 0 hwf
    (fun y => by simp [hm y]) List.nodup_nil (by simp) hnd hfresh
  obtain ⟨b, s1, hr, hfalse, htrue⟩ := wf_provideSpace fuel _
    (s.insert_range_index range [] 0).2.2 L hwf0 (fun y hy => (hm0 y).2 (Or.inr hy)) hf
  have hb : (s.insert_range_index range [] 0).2.2 > s._manager.capacity → b = false := by
    intro hgt
    unfold provideSpace at hr
    rw [hJ3, if_pos hgt] at hr
    simp only [Option.some.injEq, Prod.mk.injEq] at hr
    exact hr.1.symm
  have hfr : ∀ x ∈ s._map, x ∉ range.map Prod.fst := fun x hx hc =>
    hfresh x hc (List.mem_cons_of_mem _ hx)
  unfold insert_range
  simp only [hr]
  cases b with
  | true =>
    refine ⟨_, _, rfl, fun hgt => ?_, fun hc => ?_⟩
    · exact absurd (hb hgt) (by simp)
    · cases hc
  | false =>
    refine ⟨_, _, rfl, fun _ => rfl, fun _ => ?_⟩
    rw [hfalse rfl]
    have heq := freeSpace_drop_eq (s.insert_range_index range [] 0).2.1
      (s.insert_range_index range [] 0).1 hwf0.2.1 (fun x hx => (hm0 x).2 (Or.inl hx)) hI
    unfold freeSpace_drop at heq
    rw [heq]
    have hJ : (s.insert_range_index range [] 0).2.1 = J := by rw [hJ1]; simp
    have hmap : (s.insert_range_index range [] 0).1._map.diff
        (s.insert_range_index range [] 0).2.1 = s._map := by
      rw [hJ, hJ2]
      exact diff_reverse_append J s._map (hJ4.nodup hnd)
    have hent : ∀ x ∈ s._map,
        (s.insert_range_index range [] 0).1.mem.first x = s.mem.first x :=
      fun x hx => (hJ5 x (hfr x hx)).1
    have hv' : ({ (s.insert_range_index range [] 0).1 with
        _map := (s.insert_range_index range [] 0).1._map.diff
          (s.insert_range_index range [] 0).2.1 } : unordered_map Key V).Valid L := by
      refine ⟨hwf0.1, ?_, ?_, hwf0.2.2.2⟩
      · show L.Perm ((s.insert_range_index range [] 0).1._map.diff _)
        rw [hmap]
        exact hv.2.1
      · exact List.Nodup.sublist ((List.diff_sublist _ _).map _) hwf0.2.1
    refine ⟨hmap, hJ3, hJ5, ?_, ?_, hv', replacement_order_valid hv' fuel hf, ?_, ?_⟩
    · simp only [entries]
      rw [hmap]
      exact List.map_congr_left hent
    · simp only [keys]
      rw [hmap]
      exact List.map_congr_left (fun x hx => by rw [hent x hx])
    · simp only [size]
      rw [hmap]
    · simp only [weight, cache_manager.cache_manager.weight]
      rw [hJ3]

/-- Witness of C25: on the full map of capacity `3` with replacement order `[1, 2, 3]` the
range insert of the four new keys `4, 5, 6, 7` throws, and leaves the index, the weight and
the replacement order as they were. -/
theorem C25_range_insert_atomic_failure_witness :
    throws_no_space ((map123 (.plain .fifo)).insert_range 4
      [(4, (4, 0)), (5, (5, 0)), (6, (6, 0)), (7, (7, 0))]) = true ∧
    ∃ s', (map123 (.plain .fifo)).insert_range 4
        [(4, (4, 0)), (5, (5, 0)), (6, (6, 0)), (7, (7, 0))]
        = some (.error .no_space_error, s') ∧
      s'._map = [3, 2, 1] ∧ s'.weight = 3 ∧ s'.replacement_order 4 = some [1, 2, 3] :=
  ⟨by decide,
    let ⟨_, s', h1, h2, h3⟩ := C25_range_insert_atomic_failure 4 (map123 (.plain .fifo))
      [1, 2, 3] [(4, (4, 0)), (5, (5, 0)), (6, (6, 0)), (7, (7, 0))] (by decide) (by decide)
      (by decide) (by decide)
    ⟨s', (h2 (by decide)) ▸ h1, (h3 (h2 (by decide))).1, (h3 (h2 (by decide))).2.2.2.2.2.2.2.2,
      (h3 (h2 (by decide))).2.2.2.2.2.2.1⟩⟩

end unordered_map

end limited

end extended_containers

namespace extended_containers

namespace limited

namespace unordered_map

open cache_manager

variable {Key V : Type} [DecidableEq Key]

end unordered_map

end limited

end extended_containers

namespace extended_containers

namespace limited

namespace unordered_map

open cache_manager

variable {Key V : Type} [DecidableEq Key]

/-- C23. Member `assign` under a policy without an erase hook, on a valid and accounted map
with replacement order `L`, for a resident entry `e` and a new value whose weight `w'` is at
most the capacity: the call returns normally with the position of `e`; `e` is resident with
the new value and the other values are untouched; the evicted entries are the first `k` of
`L` with `e` left out, where `k` is the least number for which they free the shortfall
`(w' - weight(e)) - (capacity() - weight())`; `weight()` is the old weight minus the weight
of `e` and of the evicted entries plus `w'`, and does not exceed the capacity; and the
access hook has been applied to `e` on a valid state whose order `L1` is `L` without the
evicted entries: under LRU `e` is at the tail, under FIFO and LIFO the order is `L1`. -/
theorem C23_assign_growing_weight (fuel : Nat) (s : unordered_map Key V) (L : List Ptr)
    (e : Ptr) (obj : V) (par : policy.parent_policy) (hv : s.Valid L) (ha : s.Accounted L)
    (hp : e ∈ s._map) (hpol : s._manager._policy = .plain par)
    (hw : s._manager.calculate_weight ((s.mem.first e).1, obj) ≤ s.capacity)
    (hf : L.length < fuel) :
    ∃ (k : Nat) (s' : unordered_map Key V) (L' : List Ptr),
      s.assign fuel e obj = some (.ok e, s') ∧
      k ≤ (L.erase e).length ∧
      (s._manager.calculate_weight ((s.mem.first e).1, obj)
          - s._manager.calculate_weight (s.mem.first e)) - (s.capacity - s.weight)
        ≤ s._manager.total s.mem ((L.erase e).take k) ∧
      (∀ j, j < k → s._manager.total s.mem ((L.erase e).take j)
        < (s._manager.calculate_weight ((s.mem.first e).1, obj)
          - s._manager.calculate_weight (s.mem.first e)) - (s.capacity - s.weight)) ∧
      s'._map = e :: (s._map.erase e).diff ((L.erase e).take k) ∧
      s'.mem.first = Function.update s.mem.first e ((s.mem.first e).1, obj) ∧
      s'.weight + s._manager.calculate_weight (s.mem.first e)
          + s._manager.total s.mem ((L.erase e).take k)
        = s.weight + s._manager.calculate_weight ((s.mem.first e).1, obj) ∧
      s'.weight ≤ s.capacity ∧ s'.capacity = s.capacity ∧
      s'.Valid L' ∧ s'.Accounted L' ∧ s'.replacement_order fuel = some L' ∧
      L'.Perm (e :: (L.erase e).drop k) ∧
      (par = .lru → L' = (L.erase e).drop k ++ [e]) ∧
      (par = .fifo ∨ par = .lifo → L'.Sublist L) ∧
      ∃ (t : unordered_map Key V) (L1 : List Ptr), t.Valid L1 ∧ L1.Sublist L ∧
        L1.erase e = (L.erase e).drop k ∧ s' = t.manager_access e := by
  obtain ⟨hwf, hm⟩ := (valid_iff_wf s L).1 hv
  have hxL : e ∈ L := (hm e).2 hp
  have hLnd : L.Nodup := (List.nodup_cons.1 hv.1.2).2
  have hmnd := wf_map_nodup hwf
  have hwf1 : (s._map_erase e).Wf L := wf_map_erase hwf e
  have hnot : e ∉ (s._map_erase e)._map := by
    simp only [_map_erase]
    exact fun hc => (hmnd.mem_erase_iff.1 hc).1 rfl
  have hwf2 := wf_set_value hwf1 e (((s._map_erase e).mem.first e).1, obj) hnot
  have htotX : s._manager.total s.mem (L.erase e) + s._manager.calculate_weight (s.mem.first e)
      = s._manager.total s.mem L := total_erase s._manager s.mem hxL hLnd
  have hWeq : s._manager._weight = s._manager.total s.mem L := ha.1
  have hWC : s._manager._weight ≤ s._manager._capacity := ha.2
  have hWs : s._manager._weight < SIZE := hv.2.2.2.1
  have hCs : s._manager._capacity < SIZE := hv.2.2.2.2
  have hw0 : s._manager.calculate_weight ((s.mem.first e).1, obj) ≤ s._manager._capacity := hw
  have htot2 : ∀ M : List Ptr, M.Sublist (L.erase e) →
      cache_manager.cache_manager.total (s._map_erase e)._manager
        ({ (s._map_erase e).mem with
          first := Function.update (s._map_erase e).mem.first e
            (((s._map_erase e).mem.first e).1, obj) } : Mem (Key × V)) M
        = s._manager.total s.mem M := by
    intro M hM
    refine total_congr_on _ _ _ _ _ rfl (fun q hq => ?_)
    have hq' : q ≠ e := (hLnd.mem_erase_iff.1 (hM.subset hq)).1
    exact Function.update_noteq hq' _ _
  have key : ∀ (t : unordered_map Key V) (L1 : List Ptr) (k : Nat),
      k ≤ (L.erase e).length →
      ((s._manager.calculate_weight ((s.mem.first e).1, obj)
          - s._manager.calculate_weight (s.mem.first e)) - (s.capacity - s.weight)
        ≤ s._manager.total s.mem ((L.erase e).take k)) →
      (∀ j, j < k → s._manager.total s.mem ((L.erase e).take j)
        < (s._manager.calculate_weight ((s.mem.first e).1, obj)
          - s._manager.calculate_weight (s.mem.first e)) - (s.capacity - s.weight)) →
      IsList t.mem t._manager._first L1 → L1.Sublist L → e ∈ L1 →
      L1.erase e = (L.erase e).drop k →
      t._map = (s._map.erase e).diff ((L.erase e).take k) →
      t.mem.first = Function.update s.mem.first e ((s.mem.first e).1, obj) →
      t._manager = { s._manager with
        _weight := s._manager.calculate_weight (s.mem.first e)
          + s._manager.total s.mem ((L.erase e).drop k) } →
      s._manager.calculate_weight ((s.mem.first e).1, obj)
        + s._manager.total s.mem ((L.erase e).drop k) ≤ s._manager._capacity →
      ∃ (k : Nat) (s' : unordered_map Key V) (L' : List Ptr),
        some (Except.ok (t.assign_finish e (s._manager.calculate_weight (s.mem.first e))
            (s._manager.calculate_weight ((s.mem.first e).1, obj))).1,
          (t.assign_finish e (s._manager.calculate_weight (s.mem.first e))
            (s._manager.calculate_weight ((s.mem.first e).1, obj))).2)
          = some ((Except.ok e : Except error Ptr), s') ∧
        k ≤ (L.erase e).length ∧
        (s._manager.calculate_weight ((s.mem.first e).1, obj)
            - s._manager.calculate_weight (s.mem.first e)) - (s.capacity - s.weight)
          ≤ s._manager.total s.mem ((L.erase e).take k) ∧
        (∀ j, j < k → s._manager.total s.mem ((L.erase e).take j)
          < (s._manager.calculate_weight ((s.mem.first e).1, obj)
            - s._manager.calculate_weight (s.mem.first e)) - (s.capacity - s.weight)) ∧
        s'._map = e :: (s._map.erase e).diff ((L.erase e).take k) ∧
        s'.mem.first = Function.update s.mem.first e ((s.mem.first e).1, obj) ∧
        s'.weight + s._manager.calculate_weight (s.mem.first e)
            + s._manager.total s.mem ((L.erase e).take k)
          = s.weight + s._manager.calculate_weight ((s.mem.first e).1, obj) ∧
        s'.weight ≤ s.capacity ∧ s'.capacity = s.capacity ∧
        s'.Valid L' ∧ s'.Accounted L' ∧ s'.replacement_order fuel = some L' ∧
        L'.Perm (e :: (L.erase e).drop k) ∧
        (par = .lru → L' = (L.erase e).drop k ++ [e]) ∧
        (par = .fifo ∨ par = .lifo → L'.Sublist L) ∧
        ∃ (t : unordered_map Key V) (L1 : List Ptr), t.Valid L1 ∧ L1.Sublist L ∧
          L1.erase e = (L.erase e).drop k ∧ s' = t.manager_access e := by
    intro t L1 k hk hge hmin hl1 hsub he1 hX1 hmap hfirst hmgr hfit
    obtain ⟨t', L', hfin, hvt', b1, b2, b3, hvL', haL', hperm, hlru, hid⟩ :=
      assign_tail e obj k par hv ha hp hpol hl1 hsub he1 hX1 hmap hfirst hmgr hfit
    have htd := total_take_drop s._manager s.mem (L.erase e) k
    have hlen : L'.length < fuel := by
      rw [hperm.length_eq]
      exact lt_of_le_of_lt hsub.length_le hf
    refine ⟨k, t'.manager_access e, L', by rw [hfin], hk, hge, hmin, b1, b2, ?_, ?_, ?_, hvL',
      haL', replacement_order_valid hvL' fuel hlen, ?_, hlru, fun h => ?_,
      ⟨t', L1, hvt', hsub, hX1, rfl⟩⟩
    · show (t'.manager_access e)._manager._weight + _ + _ = s._manager._weight + _
      rw [b3]
      simp only []
      omega
    · show (t'.manager_access e)._manager._weight ≤ s._manager._capacity
      rw [b3]
      exact hfit
    · show (t'.manager_access e)._manager._capacity = s._manager._capacity
      rw [b3]
    · rw [← hX1]
      exact hperm.trans (List.perm_cons_erase he1)
    · rw [hid h]
      exact hsub
  unfold assign
  simp only []
  split_ifs with hgrow
  · have hgrow' : s._manager.calculate_weight ((s.mem.first e).1, obj)
        > s._manager.calculate_weight (s.mem.first e) := by
      simpa using hgrow
    have hcw' := calculate_weight_lt s._manager ((s.mem.first e).1, obj)
    have hneedeq : (cache_manager.cache_manager.calculate_weight (s._map_erase e)._manager
          (((s._map_erase e).mem.first e).1, obj) + SIZE -
        s._manager.calculate_weight_it s.mem e) % SIZE
        = s._manager.calculate_weight ((s.mem.first e).1, obj)
          - s._manager.calculate_weight (s.mem.first e) := by
      show (s._manager.calculate_weight ((s.mem.first e).1, obj) + SIZE
        - s._manager.calculate_weight (s.mem.first e)) % SIZE = _
      have : s._manager.calculate_weight ((s.mem.first e).1, obj) + SIZE
          - s._manager.calculate_weight (s.mem.first e)
          = (s._manager.calculate_weight ((s.mem.first e).1, obj)
            - s._manager.calculate_weight (s.mem.first e)) + SIZE := by omega
      rw [this, Nat.add_mod_right]
      exact Nat.mod_eq_of_lt (by omega)
    obtain ⟨k, s1, L1, hk, hge, hmin, hr, hl1, hsub, he1, hX1, hmap1, hfirst1, hmgr1⟩ :=
      provideSpace_except_plain fuel _
        ((cache_manager.cache_manager.calculate_weight (s._map_erase e)._manager
            (((s._map_erase e).mem.first e).1, obj) + SIZE -
          s._manager.calculate_weight_it s.mem e) % SIZE) e
        (s._manager.calculate_weight (s.mem.first e)) L par hwf2.1 hxL hpol
        (by
          rw [htot2 _ (List.Sublist.refl _)]
          show s._manager._weight = _
          omega)
        hWC hCs
        (by
          rw [hneedeq]
          show _ ≤ s._manager._capacity
          omega) hf
    simp only [Function.update_same] at hr ⊢
    rw [hr]
    simp only []
    rw [hneedeq] at hge hmin
    rw [htot2 _ (List.take_sublist _ _)] at hge
    have hmin' : ∀ j, j < k → s._manager.total s.mem ((L.erase e).take j)
        < (s._manager.calculate_weight ((s.mem.first e).1, obj)
          - s._manager.calculate_weight (s.mem.first e)) - (s.capacity - s.weight) := by
      intro j hj
      have := hmin j hj
      rw [htot2 _ (List.take_sublist _ _)] at this
      exact this
    rw [htot2 _ (List.drop_sublist _ _)] at hmgr1
    have hk1 : s1.keys.Nodup := by
      have : s1.keys = ({ s._map_erase e with mem := { (s._map_erase e).mem with
          first := Function.update (s._map_erase e).mem.first e
            (((s._map_erase e).mem.first e).1, obj) } } : unordered_map Key V).keys := by
        simp only [keys, hmap1, hfirst1]
      rw [this]
      exact hwf2.2.1
    have hsubm : ∀ x ∈ (L.erase e).take k, x ∈ s1._map := by
      intro x hx
      rw [hmap1]
      show x ∈ s._map.erase e
      exact (hv.2.1.erase e).subset (List.mem_of_mem_take hx)
    have heq := freeSpace_drop_eq ((L.erase e).take k) s1 hk1 hsubm
      ((hLnd.erase e).sublist (List.take_sublist _ _))
    have htd := total_take_drop s._manager s.mem (L.erase e) k
    have hge' : (s._manager.calculate_weight ((s.mem.first e).1, obj)
          - s._manager.calculate_weight (s.mem.first e)) - (s._manager._capacity
            - s._manager._weight)
        ≤ s._manager.total s.mem ((L.erase e).take k) := hge
    exact key (s1.freeSpace_drop ((L.erase e).take k)) L1 k hk hge hmin'
      (by rw [heq]; exact hl1) hsub he1 hX1 (by rw [heq]; show s1._map.diff _ = _; rw [hmap1]; rfl)
      (by rw [heq]; exact hfirst1)
      (by rw [heq]; exact hmgr1) (by omega)
  · have hng : s._manager.calculate_weight ((s.mem.first e).1, obj)
        ≤ s._manager.calculate_weight (s.mem.first e) := by
      simpa using hgrow
    simp only [Function.update_same]
    refine key _ L 0 (Nat.zero_le _) ?_ (fun j hj => by omega) hwf2.1 (List.Sublist.refl _)
      hxL (by simp) (by simp [_map_erase]) rfl ?_ ?_
    · simp only [List.take_zero, total_nil]
      omega
    · show (s._map_erase e)._manager = _
      rw [List.drop_zero]
      have : s._manager.calculate_weight (s.mem.first e)
          + s._manager.total s.mem (L.erase e) = s._manager._weight := by omega
      rw [this]
      rfl
    · rw [List.drop_zero]
      omega

/-- Witness of C23: with capacity `10`, a weigher that returns the value and the entries
`(1, 4)`, `(2, 4)`, `assign(1, 7)` evicts the entry `2` and leaves `(1, 7)` alone, with
weight `7`. -/
theorem C23_assign_growing_weight_witness :
    (state_after ((map44 (.plain .lru)).assign 3 1 7)).map
      (fun s' => (s'._map, s'.mem.first 1, s'.weight, s'.replacement_order 3))
        = some ([1], (1, 7), 7, some [1]) ∧
    ∃ k s' L', (map44 (.plain .lru)).assign 3 1 7 = some (.ok 1, s') ∧
      s'.weight ≤ (map44 (.plain .lru)).capacity ∧ s'.Valid L' ∧
      L'.Perm (1 :: ([1, 2].erase 1).drop k) :=
  ⟨by decide,
    let ⟨k, s', L', h1, _, _, _, _, _, _, h8, _, h10, _, _, h13, _⟩ :=
      C23_assign_growing_weight 3 (map44 (.plain .lru)) [1, 2] 1 7 .lru (by decide)
        (by decide) (by decide) rfl (by decide) (by decide)
    ⟨k, s', L', h1, h8, h10, h13⟩⟩

end unordered_map

end limited

end extended_containers

namespace extended_containers

namespace limited

namespace unordered_map

open cache_manager

variable {Key V : Type} [DecidableEq Key]

/-- C26. The range insert that succeeds, under FIFO (and LRU, which inserts at the tail as
well), on a valid and accounted map with replacement order `L`.  The new entries of the
range are those whose key was absent, each with the first value the range gives for it; the
index allocates their nodes at fresh, distinct addresses.  When their weights add up to
`need <= capacity()`, the call returns normally; the evicted entries are the first `k` of
`L`, where `k` is the least number for which they free `need - (capacity() - weight())`;
the replacement order afterwards is the rest of `L` followed by the new entries in range
order; every new entry is resident with its value, the old values are untouched, and
`weight()` is the old weight minus the evicted weight plus `need`, within the capacity. -/
theorem C26_range_insert_fifo (fuel : Nat) (s : unordered_map Key V) (L : List Ptr)
    (range : List (Ptr × (Key × V))) (par : policy.parent_policy)
    (hv : s.Valid L) (ha : s.Accounted L) (hpol : s._manager._policy = .plain par)
    (hpar : par = .fifo ∨ par = .lru) (hnd : (range.map Prod.fst).Nodup)
    (hfresh : ∀ p ∈ range.map Prod.fst, p ∉ s._manager._first :: s._map)
    (hneed : ((spec_range_new_entries s.keys range).map
      (fun x => s._manager.calculate_weight x.2)).sum ≤ s.capacity)
    (hf : L.length < fuel) :
    ∃ (k : Nat) (s' : unordered_map Key V),
      s.insert_range fuel range = some (.ok (), s') ∧ k ≤ L.length ∧
      ((spec_range_new_entries s.keys range).map
          (fun x => s._manager.calculate_weight x.2)).sum - (s.capacity - s.weight)
        ≤ s._manager.total s.mem (L.take k) ∧
      (∀ j, j < k → s._manager.total s.mem (L.take j)
        < ((spec_range_new_entries s.keys range).map
          (fun x => s._manager.calculate_weight x.2)).sum - (s.capacity - s.weight)) ∧
      s'.Valid (L.drop k ++ (spec_range_new_entries s.keys range).map Prod.fst) ∧
      s'.Accounted (L.drop k ++ (spec_range_new_entries s.keys range).map Prod.fst) ∧
      s'.replacement_order
          ((L.drop k ++ (spec_range_new_entries s.keys range).map Prod.fst).length + 1)
        = some (L.drop k ++ (spec_range_new_entries s.keys range).map Prod.fst) ∧
      s'._map = (((spec_range_new_entries s.keys range).map Prod.fst).reverse
        ++ s._map).diff (L.take k) ∧
      (∀ x ∈ spec_range_new_entries s.keys range, x.1 ∈ s'._map ∧ s'.mem.first x.1 = x.2) ∧
      (∀ q ∈ L, s'.mem.first q = s.mem.first q) ∧
      s'.weight + s._manager.total s.mem (L.take k)
        = s.weight + ((spec_range_new_entries s.keys range).map
          (fun x => s._manager.calculate_weight x.2)).sum ∧
      s'.weight ≤ s.capacity := by
  obtain ⟨hwf, hm⟩ := (valid_iff_wf s L).1 hv
  have hLnd : L.Nodup := (List.nodup_cons.1 hv.1.2).2
  have hWeq : s._manager._weight = s._manager.total s.mem L := ha.1
  have hWC : s._manager._weight ≤ s._manager._capacity := ha.2
  have hCs : s._manager._capacity < SIZE := hv.2.2.2.2
  have hneed0 : ((spec_range_new_entries s.keys range).map
      (fun x => s._manager.calculate_weight x.2)).sum ≤ s._manager._capacity := hneed
  have hfreshM : ∀ p ∈ range.map Prod.fst, p ∉ s._map := fun p hp hc =>
    hfresh p hp (List.mem_cons_of_mem _ hc)
  obtain ⟨e1, e2, e3, e4⟩ := insert_range_index_exact range s [] 0 hnd hfreshM
    (by rw [Nat.zero_add]; exact hneed0) hCs
  rw [List.nil_append] at e1
  rw [Nat.zero_add] at e2
  obtain ⟨J', -, -, f3, -, f5⟩ := insert_range_index_frame range s [] 0
  obtain ⟨hwf0, hm0, hI, hdis⟩ := insert_range_index_spec L range s [] 0 hwf
    (fun y => by simp [hm y]) List.nodup_nil (by simp) hnd hfresh
  have hold : ∀ q ∈ L, (s.insert_range_index range [] 0).1.mem.first q = s.mem.first q :=
    fun q hq => (f5 q (fun hc => hfreshM q hc ((hm q).1 hq))).1
  have htot0 : ∀ M : List Ptr, (∀ q ∈ M, q ∈ L) →
      (s.insert_range_index range [] 0).1._manager.total
        (s.insert_range_index range [] 0).1.mem M = s._manager.total s.mem M :=
    fun M hM => total_congr_on _ _ _ _ _ (by rw [f3]) (fun q hq => hold q (hM q hq))
  have htotJ : (s.insert_range_index range [] 0).1._manager.total
      (s.insert_range_index range [] 0).1.mem (s.insert_range_index range [] 0).2.1
      = ((spec_range_new_entries s.keys range).map
        (fun x => s._manager.calculate_weight x.2)).sum := by
    rw [e1]
    simp only [cache_manager.total, List.map_map, f3]
    congr 1
    refine List.map_congr_left (fun x hx => ?_)
    simp only [Function.comp]
    rw [e4 x hx]
  obtain ⟨k, s1, hk, hge, hmin, hres, hl1, hmap1, hfirst1, hmgr1⟩ := provideSpace_plain fuel
    (s.insert_range_index range [] 0).1 (s.insert_range_index range [] 0).2.2 L par hwf0.1
    (by rw [f3]; exact hpol) (by rw [htot0 L (fun q hq => hq), f3]; exact hWeq)
    (by rw [f3]; exact hWC) (by rw [f3]; exact hCs) (by rw [f3, e2]; exact hneed0) hf
  have htot1 : ∀ M : List Ptr, (∀ q ∈ M, q ∈ L) →
      s._manager.total (s.insert_range_index range [] 0).1.mem M = s._manager.total s.mem M :=
    fun M hM => total_congr_on _ _ _ _ _ rfl (fun q hq => hold q (hM q hq))
  rw [f3] at hge hmin hmgr1
  rw [e2, htot1 _ (fun q hq => List.mem_of_mem_take hq)] at hge
  rw [htot1 _ (fun q hq => List.mem_of_mem_drop hq)] at hmgr1
  have hmin' : ∀ j, j < k → s._manager.total s.mem (L.take j)
      < ((spec_range_new_entries s.keys range).map
        (fun x => s._manager.calculate_weight x.2)).sum - (s.capacity - s.weight) := by
    intro j hj
    have := hmin j hj
    rw [e2, htot1 _ (fun q hq => List.mem_of_mem_take hq)] at this
    exact this
  have hk1 : s1.keys.Nodup := by
    have : s1.keys = (s.insert_range_index range [] 0).1.keys := by
      simp only [keys, hmap1, hfirst1]
    rw [this]
    exact hwf0.2.1
  have heq := freeSpace_drop_eq (L.take k) s1 hk1
    (fun x hx => by rw [hmap1]; exact (hm0 x).2 (Or.inr (List.mem_of_mem_take hx)))
    (hLnd.sublist (List.take_sublist _ _))
  have htd := total_take_drop s._manager s.mem L k
  have hge' : ((spec_range_new_entries s.keys range).map
        (fun x => s._manager.calculate_weight x.2)).sum
        - (s._manager._capacity - s._manager._weight)
      ≤ s._manager.total s.mem (L.take k) := hge
  have hfirst3 : (s1.freeSpace_drop (L.take k)).mem.first
      = (s.insert_range_index range [] 0).1.mem.first := by rw [heq]; exact hfirst1
  have hmgr3 : (s1.freeSpace_drop (L.take k))._manager
      = { s._manager with _weight := s._manager.total s.mem (L.drop k) } := by
    rw [heq]; exact hmgr1
  have htotJ3 : (s1.freeSpace_drop (L.take k))._manager.total
      (s1.freeSpace_drop (L.take k)).mem (s.insert_range_index range [] 0).2.1
      = ((spec_range_new_entries s.keys range).map
        (fun x => s._manager.calculate_weight x.2)).sum := by
    rw [← htotJ]
    exact total_congr _ _ _ _ _ (by rw [hmgr3, f3]) hfirst3
  have hsent : s._manager._first ∉ (s.insert_range_index range [] 0).1._map := by
    have := hwf0.2.2.1
    rw [f3] at this
    exact this
  obtain ⟨g1, g2, g3, g4⟩ := foldl_insert_tail (s.insert_range_index range [] 0).2.1
    (s1.freeSpace_drop (L.take k)) (L.drop k)
    (by
      rw [heq]
      have : s1._manager._first = s._manager._first := by rw [hmgr1]
      show IsList s1.mem s1._manager._first (L.drop k)
      exact hl1)
    (by rw [hmgr3]; show s._manager._policy.parent = _ ∨ _; rw [hpol]; exact hpar)
    hI
    (by
      intro y hy
      rw [hmgr3]
      simp only [List.mem_cons, not_or]
      refine ⟨fun hc => hsent (hc ▸ (hm0 y).2 (Or.inl hy)), fun hc => ?_⟩
      exact hdis y hy (List.mem_of_mem_drop hc))
    (by
      rw [htotJ3, hmgr3]
      show s._manager.total s.mem (L.drop k) + _ < SIZE
      omega)
  rw [htotJ3] at g4
  rw [hmgr3] at g1 g4
  have hmapf : (List.foldl (fun s it => s.safeManagerInsert it) (s1.freeSpace_drop (L.take k))
      (s.insert_range_index range [] 0).2.1)._map
      = (((spec_range_new_entries s.keys range).map Prod.fst).reverse ++ s._map).diff
        (L.take k) := by
    rw [g2, heq]
    show s1._map.diff _ = _
    rw [hmap1, e3]
  have hfirstf : (List.foldl (fun s it => s.safeManagerInsert it)
      (s1.freeSpace_drop (L.take k)) (s.insert_range_index range [] 0).2.1).mem.first
      = (s.insert_range_index range [] 0).1.mem.first := by rw [g3, hfirst3]
  have hmemf : ∀ y, y ∈ (((spec_range_new_entries s.keys range).map Prod.fst).reverse
      ++ s._map).diff (L.take k) ↔
      y ∈ L.drop k ∨ y ∈ (spec_range_new_entries s.keys range).map Prod.fst := by
    intro y
    have hnd0 := wf_map_nodup hwf0
    rw [e3] at hnd0
    rw [hnd0.mem_diff_iff]
    have h0 := hm0 y
    rw [e3, e1] at h0
    rw [h0]
    have hsplit : L.take k ++ L.drop k = L := List.take_append_drop _ _
    have hnd2 : (L.take k ++ L.drop k).Nodup := by rw [hsplit]; exact hLnd
    have hdj := (List.nodup_append.1 hnd2).2.2
    constructor
    · rintro ⟨hy | hy, hnt⟩
      · exact Or.inr hy
      · rw [← hsplit] at hy
        rcases List.mem_append.1 hy with h | h
        · exact absurd h hnt
        · exact Or.inl h
    · rintro (hy | hy)
      · exact ⟨Or.inr (List.mem_of_mem_drop hy), fun hc => List.disjoint_left.1 hdj hc hy⟩
      · refine ⟨Or.inl hy, fun hc => ?_⟩
        exact hdis y (by rw [e1]; exact hy) (List.mem_of_mem_take hc)
  have g1' : IsList (List.foldl (fun s it => s.safeManagerInsert it)
      (s1.freeSpace_drop (L.take k)) (s.insert_range_index range [] 0).2.1).mem
      s._manager._first
      (L.drop k ++ (spec_range_new_entries s.keys range).map Prod.fst) := by
    have h := g1
    rw [show L.drop k ++ (s.insert_range_index range [] 0).2.1
      = L.drop k ++ (spec_range_new_entries s.keys range).map Prod.fst from by rw [e1]] at h
    exact h
  have hvalid : (List.foldl (fun s it => s.safeManagerInsert it)
      (s1.freeSpace_drop (L.take k)) (s.insert_range_index range [] 0).2.1).Valid
      (L.drop k ++ (spec_range_new_entries s.keys range).map Prod.fst) := by
    refine ⟨by rw [g4]; exact g1', ?_, ?_, ?_, ?_⟩
    · rw [hmapf]
      rw [List.perm_ext_iff_of_nodup (List.nodup_cons.1 g1'.2).2]
      · intro y
        rw [hmemf y, List.mem_append]
      · have hnd0 := wf_map_nodup hwf0
        rw [e3] at hnd0
        exact hnd0.diff
    · have hk0 := hwf0.2.1
      simp only [keys] at hk0 ⊢
      rw [hfirstf, hmapf, ← e3]
      exact List.Nodup.sublist ((List.diff_sublist _ _).map _) hk0
    · rw [g4]
      show s._manager.total s.mem (L.drop k) + _ < SIZE
      omega
    · rw [g4]
      exact hCs
  have hacc : (List.foldl (fun s it => s.safeManagerInsert it)
      (s1.freeSpace_drop (L.take k)) (s.insert_range_index range [] 0).2.1).Accounted
      (L.drop k ++ (spec_range_new_entries s.keys range).map Prod.fst) := by
    have hwg : (List.foldl (fun s it => s.safeManagerInsert it)
        (s1.freeSpace_drop (L.take k)) (s.insert_range_index range [] 0).2.1)._manager._weigher
        = (s.insert_range_index range [] 0).1._manager._weigher := by rw [g4, f3]
    have hT := total_congr _ _ _ _
      (L.drop k ++ (spec_range_new_entries s.keys range).map Prod.fst) hwg hfirstf
    refine ⟨?_, ?_⟩
    · rw [hT, total_append, htot0 _ (fun q hq => List.mem_of_mem_drop hq), ← e1, htotJ, g4]
    · rw [g4]
      show s._manager.total s.mem (L.drop k) + _ ≤ s._manager._capacity
      omega
  unfold insert_range
  simp only []
  rw [hres]
  simp only []
  refine ⟨k, _, rfl, hk, hge, hmin', hvalid, hacc,
    replacement_order_valid hvalid _ (Nat.lt_succ_self _), hmapf, fun x hx => ⟨?_, ?_⟩,
    fun q hq => ?_, ?_, ?_⟩
  · rw [hmapf, hmemf]
    exact Or.inr (List.mem_map_of_mem _ hx)
  · rw [hfirstf]
    exact e4 x hx
  · rw [hfirstf]
    exact hold q hq
  · show (List.foldl (fun s it => s.safeManagerInsert it)
      (s1.freeSpace_drop (L.take k)) (s.insert_range_index range [] 0).2.1)._manager._weight
        + _ = s._manager._weight + _
    rw [g4]
    simp only []
    omega
  · show (List.foldl (fun s it => s.safeManagerInsert it)
      (s1.freeSpace_drop (L.take k)) (s.insert_range_index range [] 0).2.1)._manager._weight
        ≤ s._manager._capacity
    rw [g4]
    simp only []
    omega

/-- Witness of C26: with capacity `3` under FIFO and the replacement order `[1, 2]`, the range
insert of the new keys `3, 4` evicts the entry `1` and leaves the order `[2, 3, 4]` and the
weight `3`. -/
theorem C26_range_insert_fifo_witness :
    (state_after ((map12_cap3 (.plain .fifo)).insert_range 3 [(3, (3, 0)), (4, (4, 0))])).map
      (fun s' => (s'.replacement_order 4, s'.weight)) = some (some [2, 3, 4], 3) ∧
    ∃ k s', (map12_cap3 (.plain .fifo)).insert_range 3 [(3, (3, 0)), (4, (4, 0))]
        = some (.ok (), s') ∧ k ≤ 2 ∧ s'.weight ≤ 3 :=
  ⟨by decide,
    let ⟨k, s', h1, h2, _, _, _, _, _, _, _, _, _, h12⟩ := C26_range_insert_fifo 3
      (map12_cap3 (.plain .fifo)) [1, 2] [(3, (3, 0)), (4, (4, 0))] .fifo (by decide)
      (by decide) rfl (Or.inl rfl) (by decide) (by decide) (by decide) (by decide)
    ⟨k, s', h1, h2, h12⟩⟩

end unordered_map

end limited

end extended_containers

namespace cache_manager

variable {T : Type}

/-- C37 (exact capacity test). The manager of capacity `5` and weight `3` answers
`can_fit(2^64 - 3)` with `true`: the weight `2^64 - 3` is a machine word, the sum
`_weight + weight` wraps to `0`, and `3 + (2^64 - 3)` exceeds the capacity. -/
theorem C37_can_fit_wraps :
    (mgr123 .lru)._weight ≤ (mgr123 .lru)._capacity ∧ SIZE - 3 < SIZE ∧
    (mgr123 .lru).can_fit (SIZE - 3) = true ∧
    ¬ ((mgr123 .lru)._weight + (SIZE - 3) ≤ (mgr123 .lru)._capacity) ∧
    (mgr123 .lru).can_fit 2 = true ∧ (mgr123 .lru).can_fit 3 = false := by
  decide

/-- C38 (reverse on an empty range). On the valid list `1, 2, 3` around the sentinel `9`,
`reverse(2, 2)` returns with the nodes `1` and `2` linked to themselves and the sentinel
linked to `3`: the list is no longer the list `1, 2, 3`, and the walk from `begin()` never
reaches `end()`. -/
theorem C38_reverse_empty_range_corrupts :
    IsList mem123 9 [1, 2, 3] ∧
    (iterator_operations.reverse 5 mem123 2 2).map
      (fun m' => ((m'.next 9, m'.next 1, m'.next 2, m'.next 3),
        (m'.prev 9, m'.prev 1, m'.prev 2, m'.prev 3)))
      = some ((3, 1, 2, 2), (1, 1, 2, 9)) ∧
    (iterator_operations.reverse 5 mem123 2 2).map
      (fun m' => (decide (IsList m' 9 [1, 2, 3]), walk m' 9 10 (m'.next 9)))
      = some (false, none) := by
  decide

end cache_manager

namespace extended_containers

namespace limited

namespace unordered_map

open cache_manager

/-- C39 (assertion of the priority policy). Under `priority_policy` with every priority `1`:
on the map of capacity `10` with the entries `(1, 4)`, `(2, 4)`, `assign(1, 7)` evicts the
entry `2`, the last of the list, and then calls `next_except(end, 1)`, which hands
`erase_position` the empty range `[end, end)`; on the map with the single entry `(1, 4)`,
`assign(1, 12)` calls `next_except(1)`, which unlinks the only entry and hands
`erase_position` the empty range as well.  In both the assertion `first != last` fails. -/
theorem C39_priority_assertion_fails :
    (map44 (.priority_policy .lru (fun _ => 1))).Valid [1, 2] ∧
    (map44 (.priority_policy .lru (fun _ => 1))).assign_asserts 3 1 7 = some false ∧
    ((map44 (.priority_policy .lru (fun _ => 1))).manager_erase 2).2 = 9 ∧
    ((map44 (.priority_policy .lru (fun _ => 1))).manager_erase 2).1._manager.next_except_hint_asserts
      ((map44 (.priority_policy .lru (fun _ => 1))).manager_erase 2).1.mem 9 1 = false ∧
    (map4 (.priority_policy .lru (fun _ => 1))).Valid [1] ∧
    (map4 (.priority_policy .lru (fun _ => 1))).assign_asserts 3 1 12 = some false ∧
    (map4 (.priority_policy .lru (fun _ => 1)))._manager.next_except_asserts
      (map4 (.priority_policy .lru (fun _ => 1))).mem 1 = false ∧
    (state_after ((map44 (.priority_policy .lru (fun _ => 1))).assign 3 1 7)).map
      (fun s' => (s'._map, s'.weight)) = some ([1], 7) ∧
    throws_no_space ((map4 (.priority_policy .lru (fun _ => 1))).assign 3 1 12) = true := by
  decide

end unordered_map

end limited

end extended_containers

namespace extended_containers

namespace limited

namespace unordered_map

open cache_manager

variable {Key V : Type} [DecidableEq Key]

/-- C40, as stated, fails: on the full FIFO map of capacity `2` with replacement order
`[1, 2]`, the range insert of the keys `1` (resident) and `3` (new) returns normally and
evicts the entry of key `1` to make room for the key `3`. -/
theorem C40_range_insert_residency_counterexample :
    (map12 (.plain .fifo)).Valid [1, 2] ∧ (map12 (.plain .fifo)).keys = [2, 1] ∧
    ((map12 (.plain .fifo)).insert_range 3 [(3, (1, 5)), (4, (3, 0))]).map
      (fun r => r.1.toBool) = some true ∧
    (state_after ((map12 (.plain .fifo)).insert_range 3 [(3, (1, 5)), (4, (3, 0))])).map
      (fun s' => (s'.keys, s'.replacement_order 3)) = some ([3, 2], some [2, 4]) := by
  decide

/-- C40, amended. On a valid map, for a range whose new nodes are allocated at fresh,
distinct addresses, `insert(first, last)` returns or throws, and when it returns normally
every key of the range that was not resident before the call is resident afterwards.  (A
key of the range that was resident before is not protected from the eviction.) -/
theorem C40_range_insert_new_keys_resident (fuel : Nat) (s : unordered_map Key V)
    (L : List Ptr) (range : List (Ptr × (Key × V))) (hv : s.Valid L)
    (hnd : (range.map Prod.fst).Nodup)
    (hfresh : ∀ p ∈ range.map Prod.fst, p ∉ s._manager._first :: s._map)
    (hf : L.length < fuel) :
    ∃ r s', s.insert_range fuel range = some (r, s') ∧
      (r = .ok () → ∀ x ∈ range, x.2.1 ∉ s.keys → x.2.1 ∈ s'.keys) := by
  obtain ⟨hwf, hm⟩ := (valid_iff_wf s L).1 hv
  have hfreshM : ∀ p ∈ range.map Prod.fst, p ∉ s._map := fun p hp hc =>
    hfresh p hp (List.mem_cons_of_mem _ hc)
  obtain ⟨J, -, -, f3, -, f5⟩ := insert_range_index_frame range s [] 0
  obtain ⟨hwf0, hm0, hI, hdis⟩ := insert_range_index_spec L range s [] 0 hwf
    (fun y => by simp [hm y]) List.nodup_nil (by simp) hnd hfresh
  obtain ⟨b, s1, hr, hfalse, htrue⟩ := wf_provideSpace fuel _
    (s.insert_range_index range [] 0).2.2 L hwf0 (fun y hy => (hm0 y).2 (Or.inr hy)) hf
  unfold insert_range
  simp only [hr]
  cases b with
  | false => exact ⟨_, _, rfl, fun hc => (by cases hc)⟩
  | true =>
    refine ⟨_, _, rfl, fun _ x hx hnew => ?_⟩
    have hle : (s.insert_range_index range [] 0).2.2 ≤ s._manager.capacity := by
      by_contra hgt
      unfold provideSpace at hr
      rw [f3, if_pos (not_le.1 hgt)] at hr
      cases hr
    obtain ⟨E, L1, w, hwf1, hsplit, hmap1, hfirst1, -⟩ := htrue rfl
    obtain ⟨g1, g2⟩ := foldl_insert_first (s.insert_range_index range [] 0).2.1 s1
    have hkey := insert_range_index_keys range s [] 0 hnd hfreshM hle x hx
    simp only [keys, List.mem_map] at hkey hnew ⊢
    obtain ⟨q, hq, hqk⟩ := hkey
    have hqL : q ∉ L := by
      intro hc
      have hqs : q ∈ s._map := (hm q).1 hc
      refine hnew ⟨q, hqs, ?_⟩
      rw [← hqk, (f5 q (fun hc' => hfreshM q hc' hqs)).1]
    have hqE : q ∉ E := fun hc => hqL (hsplit.subset (List.mem_append_left _ hc))
    refine ⟨q, ?_, ?_⟩
    · rw [g2, hmap1, (wf_map_nodup hwf0).mem_diff_iff]
      exact ⟨hq, hqE⟩
    · rw [g1, hfirst1]
      exact hqk

/-- Witness of the amended C40: on the full FIFO map of capacity `2` the range insert of the
keys `1` and `3` returns normally, and the new key `3` is resident afterwards. -/
theorem C40_range_insert_new_keys_resident_witness :
    ((map12 (.plain .fifo)).insert_range 3 [(3, (1, 5)), (4, (3, 0))]).map
      (fun r => r.1.toBool) = some true ∧
    ∃ r s', (map12 (.plain .fifo)).insert_range 3 [(3, (1, 5)), (4, (3, 0))] = some (r, s') ∧
      (r = .ok () → 3 ∈ s'.keys) :=
  ⟨by decide,
    let ⟨r, s', h1, h2⟩ := C40_range_insert_new_keys_resident 3 (map12 (.plain .fifo)) [1, 2]
      [(3, (1, 5)), (4, (3, 0))] (by decide) (by decide) (by decide) (by decide)
    ⟨r, s', h1, fun hr => h2 hr (4, (3, 0)) (by decide) (by decide)⟩⟩

end unordered_map

end limited

end extended_containers

namespace cache_manager

variable {T : Type}

/-- C31. List move on a valid circular list `A ++ U ++ W ++ B` closed by the sentinel `s`,
with `U` and `W` non-empty and `d` the node that follows `W` (the sentinel when `B` is
empty).  Moving the range `U` (from its first node to the first node of `W`) before `d`, a
destination behind the range, and moving the range `W` (from its first node to `d`) before
the first node of `U`, a destination in front of the range, both yield the valid list
`A ++ W ++ U ++ B`: the range stands immediately before the destination in its internal
order, the other entries keep their relative order, and the links are symmetric at every
node, the sentinel included. -/
theorem C31_move_splices {m : Mem T} {s : Ptr} (A U W B : List Ptr) (x0 y0 d : Ptr)
    (h : IsList m s (A ++ (U ++ (W ++ B)))) (hx0 : U.head? = some x0)
    (hy0 : W.head? = some y0) (hd : (B ++ [s]).head? = some d) :
    IsList (iterator_operations.move m x0 y0 d) s (A ++ (W ++ (U ++ B))) ∧
    IsList (iterator_operations.move m y0 d x0) s (A ++ (W ++ (U ++ B))) ∧
    (∀ E ∈ s :: (A ++ (W ++ (U ++ B))),
      (iterator_operations.move m x0 y0 d).next ((iterator_operations.move m x0 y0 d).prev E)
        = E ∧
      (iterator_operations.move m x0 y0 d).prev ((iterator_operations.move m x0 y0 d).next E)
        = E) ∧
    (∀ E ∈ s :: (A ++ (W ++ (U ++ B))),
      (iterator_operations.move m y0 d x0).next ((iterator_operations.move m y0 d x0).prev E)
        = E ∧
      (iterator_operations.move m y0 d x0).prev ((iterator_operations.move m y0 d x0).next E)
        = E) := by
  obtain ⟨x1, hx1⟩ : ∃ x1, U.getLast? = some x1 := by
    rcases List.eq_nil_or_concat U with rfl | ⟨U', z, rfl⟩
    · simp at hx0
    · exact ⟨z, by simp⟩
  obtain ⟨y1, hy1⟩ : ∃ y1, W.getLast? = some y1 := by
    rcases List.eq_nil_or_concat W with rfl | ⟨W', z, rfl⟩
    · simp at hy0
    · exact ⟨z, by simp⟩
  obtain ⟨u, hu⟩ : ∃ u, (s :: A).getLast? = some u := by
    rcases List.eq_nil_or_concat (s :: A) with e | ⟨P, u, e⟩
    · simp at e
    · exact ⟨u, by rw [e]; simp⟩
  obtain ⟨⟨-, b1⟩, ⟨-, b2⟩, ⟨-, b3⟩⟩ := isList_blocks h hx0 hx1 hy0 hy1 hu hd
  obtain ⟨key, ⟨h1, h2, h3⟩, h4, h5, h6⟩ := isList_exchange h hx0 hx1 hy0 hy1 hu hd
  have e1 : iterator_operations.move m x0 y0 d
      = __link (__link (__link m u y0) y1 x0) x1 d := by
    simp only [iterator_operations.move, __prev, b1, b2, b3]
  have e2 : iterator_operations.move m y0 d x0
      = __link (__link (__link m u y0) y1 x0) x1 d := by
    simp only [iterator_operations.move, __prev, b1, b2, b3]
    rw [link_comm m x1 d u y0 h1.symm h6.symm,
      link_comm (__link m u y0) x1 d y1 x0 h3 h5.symm]
  rw [e1, e2]
  exact ⟨key, key, isList_links_symmetric key, isList_links_symmetric key⟩

/-- Witness of C31: in the list `1, 2, 3, 4, 5`, moving the range `[2, 3)` before `5` and
moving the range `[3, 5)` before `2` both give `1, 3, 4, 2, 5`. -/
theorem C31_move_splices_witness :
    IsList (iterator_operations.move mem5 2 3 5) 9 [1, 3, 4, 2, 5] ∧
    IsList (iterator_operations.move mem5 3 5 2) 9 [1, 3, 4, 2, 5] :=
  let h := C31_move_splices (m := mem5) (s := 9) [1] [2] [3, 4] [5] 2 3 5 (by decide) rfl rfl
    rfl
  ⟨h.1, h.2.1⟩

end cache_manager

namespace cache_manager

variable {T : Type}

/-- C32, as stated, fails: in the valid list `1, 2, 3` around the sentinel `9`,
`move(2, 3, 3)` and `rotate(2, 3, 3)` do not leave the list `1, 2, 3`: afterwards
`next(1) = 3` and `prev(2) = 2`, the walk from `begin()` meets `1, 3` only, and the links
are not symmetric at the node `2`. -/
theorem C32_move_to_last_counterexample :
    IsList mem123 9 [1, 2, 3] ∧
    ¬ IsList (iterator_operations.move mem123 2 3 3) 9 [1, 2, 3] ∧
    ¬ IsList (iterator_operations.rotate mem123 2 3 3) 9 [1, 2, 3] ∧
    (iterator_operations.move mem123 2 3 3).next 1 = 3 ∧
    (iterator_operations.move mem123 2 3 3).prev 2 = 2 ∧
    walk (iterator_operations.move mem123 2 3 3) 9 5
      ((iterator_operations.move mem123 2 3 3).next 9) = some [1, 3] ∧
    (iterator_operations.move mem123 2 3 3).next
      ((iterator_operations.move mem123 2 3 3).prev 2) ≠ 2 := by
  decide

/-- C32, amended. On a valid circular list `A ++ R ++ B` with `R` non-empty, `first` the
first node of `R` and `last` the node that follows `R`, `move(first, last, last)`, which is
also what `rotate(first, last, last)` does, writes two links and no other: `next(prev(first))`
becomes `last` and `prev(first)` becomes the last node of `R`.  The links are then not
symmetric at `first`, and the result is not a valid list that holds `first`. -/
theorem C32_move_to_last {m : Mem T} {s : Ptr} (A R B : List Ptr) (first last : Ptr)
    (h : IsList m s (A ++ (R ++ B))) (hf : R.head? = some first)
    (hl : (B ++ [s]).head? = some last) :
    iterator_operations.rotate m first last last
      = iterator_operations.move m first last last ∧
    (∀ q, (iterator_operations.move m first last last).next q
      = if q = m.prev first then last else m.next q) ∧
    (∀ q, (iterator_operations.move m first last last).prev q
      = if q = first then m.prev last else m.prev q) ∧
    R.getLast? = some (m.prev last) ∧
    (iterator_operations.move m first last last).next
      ((iterator_operations.move m first last last).prev first) = last ∧
    last ≠ first ∧
    (∀ L', first ∈ L' → ¬ IsList (iterator_operations.move m first last last) s L') := by
  obtain ⟨x1, hx1⟩ : ∃ x1, R.getLast? = some x1 := by
    rcases List.eq_nil_or_concat R with rfl | ⟨R', z, rfl⟩
    · simp at hf
    · exact ⟨z, by simp⟩
  have hl' := h.1
  have e : s :: (A ++ (R ++ B)) ++ [s] = (s :: A) ++ (R ++ (B ++ [s])) := by simp
  rw [e, linked_append, linked_append_of m _ _ x1 last hx1 hl] at hl'
  obtain ⟨-, ⟨-, -, hn1, hp1⟩, -⟩ := hl'
  have hfR : first ∈ R := mem_of_head? hf
  have hne : last ≠ first := by
    intro hc
    have hmem : last ∈ B ++ [s] := mem_of_head? hl
    have hnd := h.2
    rw [hc] at hmem
    rcases List.mem_append.1 hmem with hb | hb
    · have := (List.nodup_cons.1 hnd).2
      have h2 := (List.nodup_append.1 (List.nodup_append.1 this).2.1).2.2
      exact List.disjoint_left.1 h2 hfR hb
    · have hs : first = s := List.mem_singleton.1 hb
      exact isList_not_mem h (hs ▸ (by simp [hfR]))
  have hnext : ∀ q, (iterator_operations.move m first last last).next q
      = if q = m.prev first then last else m.next q := by
    intro q
    simp only [iterator_operations.move, __prev, link_next, hp1, link_prev]
    by_cases e1 : q = x1
    · subst e1
      simp [hn1]
    · simp [e1]
  have hprev : ∀ q, (iterator_operations.move m first last last).prev q
      = if q = first then m.prev last else m.prev q := by
    intro q
    simp only [iterator_operations.move, __prev, link_prev, hp1]
    by_cases e1 : q = last
    · subst e1
      simp [hne, hp1]
    · simp [e1]
  have hasym : (iterator_operations.move m first last last).next
      ((iterator_operations.move m first last last).prev first) = last := by
    rw [hprev first, if_pos rfl, hnext, hp1]
    split_ifs
    · rfl
    · exact hn1
  refine ⟨rfl, hnext, hprev, by rw [hp1]; exact hx1, hasym, hne, fun L' hL' hc => ?_⟩
  have := (isList_symm hc hL').1
  rw [hasym] at this
  exact hne this

/-- Witness of the amended C32: in the list `1, 2, 3`, after `move(2, 3, 3)` the node
before the range points at `3` and the links are not symmetric at `2`. -/
theorem C32_move_to_last_witness :
    (iterator_operations.move mem123 2 3 3).next (mem123.prev 2) = 3 ∧
    (iterator_operations.move mem123 2 3 3).next
      ((iterator_operations.move mem123 2 3 3).prev 2) = 3 :=
  let h := C32_move_to_last (m := mem123) (s := 9) [1] [2] [3] 2 3 (by decide) rfl rfl
  ⟨(h.2.1 (mem123.prev 2)).trans (if_pos rfl), h.2.2.2.2.1⟩

end cache_manager

namespace cache_manager

variable {T : Type}

/-- C33. `iter_swap(a, b)` on a valid circular list `L` closed by the sentinel `s`, for any
two entries `a` and `b` of it (adjacent in either order, not adjacent, or the same entry):
the result is the valid list in which `a` stands where `b` stood and `b` where `a` stood,
every other entry keeps its position, and the links are symmetric at every node, the
sentinel included. -/
theorem C33_iter_swap {m : Mem T} {s : Ptr} {L : List Ptr} (a b : Ptr)
    (h : IsList m s L) (ha : a ∈ L) (hb : b ∈ L) :
    IsList (iterator_operations.iter_swap m a b) s
      (L.map (fun x => if x = a then b else if x = b then a else x)) ∧
    (∀ E ∈ s :: L,
      (iterator_operations.iter_swap m a b).next
        ((iterator_operations.iter_swap m a b).prev E) = E ∧
      (iterator_operations.iter_swap m a b).prev
        ((iterator_operations.iter_swap m a b).next E) = E) := by
  have hid : ∀ l : List Ptr, a ∉ l → b ∉ l →
      l.map (fun x => if x = a then b else if x = b then a else x) = l := by
    intro l h1 h2
    conv_rhs => rw [← List.map_id l]
    refine List.map_congr_left fun x hx => ?_
    have e1 : x ≠ a := fun c => h1 (c ▸ hx)
    have e2 : x ≠ b := fun c => h2 (c ▸ hx)
    simp [e1, e2]
  suffices key : IsList (iterator_operations.iter_swap m a b) s
      (L.map (fun x => if x = a then b else if x = b then a else x)) by
    refine ⟨key, fun E hE => isList_links_symmetric key E ?_⟩
    rcases List.mem_cons.1 hE with e | hE
    · exact e ▸ List.mem_cons_self _ _
    · refine List.mem_cons_of_mem _ (List.mem_map.2 ?_)
      by_cases e1 : E = a
      · exact ⟨b, hb, by simp [e1]⟩
      by_cases e2 : E = b
      · refine ⟨a, ha, ?_⟩
        simp [e2]
      · exact ⟨E, hE, by simp [e1, e2]⟩
  have hnd := (List.nodup_cons.1 h.2).2
  by_cases hab : a = b
  · subst hab
    have hmap : L.map (fun x => if x = a then a else if x = a then a else x) = L := by
      conv_rhs => rw [← List.map_id L]
      refine List.map_congr_left fun x _ => ?_
      by_cases e : x = a <;> simp [e]
    rw [hmap]
    obtain ⟨A, B, rfl⟩ := List.append_of_mem ha
    obtain ⟨hu, hw⟩ := isList_mid h
    have h1 : a ≠ m.prev a := by
      intro c
      rw [← c] at hu
      have hmem := mem_of_getLast? hu
      rcases List.mem_cons.1 hmem with e | e
      · exact isList_not_mem h (e ▸ ha)
      · exact (List.disjoint_left.1 (List.nodup_append.1 hnd).2.2 e) (List.mem_cons_self _ _)
    have h2 : a ≠ m.next a := by
      intro c
      rw [← c] at hw
      have hmem := mem_of_head? hw
      rcases List.mem_append.1 hmem with e | e
      · exact (List.nodup_cons.1 (List.nodup_append.1 hnd).2.1).1 e
      · exact isList_not_mem h ((List.mem_singleton.1 e) ▸ ha)
    have e : iterator_operations.iter_swap m a a = m := by
      simp only [iterator_operations.iter_swap, __prev, __next, if_neg h1, if_neg h2, ne_eq,
        not_true_eq_false, if_false]
    rw [e]
    exact h
  · obtain ⟨A, B, rfl⟩ := List.append_of_mem ha
    have haA : a ∉ A := fun c =>
      (List.disjoint_left.1 (List.nodup_append.1 hnd).2.2 c) (List.mem_cons_self _ _)
    have haB : a ∉ B := (List.nodup_cons.1 (List.nodup_append.1 hnd).2.1).1
    rcases List.mem_append.1 hb with hbA | hbB
    · -- `b` stands in front of `a`
      obtain ⟨A1, A2, rfl⟩ := List.append_of_mem hbA
      have h' : IsList m s (A1 ++ b :: (A2 ++ a :: B)) := by
        simpa using h
      have hnd' : (A1 ++ b :: (A2 ++ a :: B)).Nodup := by simpa using hnd
      have hbA1 : b ∉ A1 := fun c =>
        (List.disjoint_left.1 (List.nodup_append.1 hnd').2.2 c) (List.mem_cons_self _ _)
      have hb2 : b ∉ A2 ++ a :: B := (List.nodup_cons.1 (List.nodup_append.1 hnd').2.1).1
      have hmap : (A1 ++ b :: A2 ++ a :: B).map
          (fun x => if x = a then b else if x = b then a else x)
          = A1 ++ a :: (A2 ++ b :: B) := by
        simp only [List.map_append, List.map_cons, if_true, if_neg (Ne.symm hab)]
        rw [hid A1 (fun c => haA (by simp [c])) hbA1,
          hid A2 (fun c => haA (by simp [c])) (fun c => hb2 (by simp [c])),
          hid B haB (fun c => hb2 (by simp [c]))]
        simp
      rw [hmap]
      exact (iter_swap_isList h').2
    · rcases List.mem_cons.1 hbB with e | hbB
      · exact absurd e.symm hab
      obtain ⟨B1, B2, rfl⟩ := List.append_of_mem hbB
      have hb1 : b ∉ B1 := by
        have := (List.nodup_cons.1 (List.nodup_append.1 hnd).2.1).2
        exact fun c =>
          (List.disjoint_left.1 (List.nodup_append.1 this).2.2 c) (List.mem_cons_self _ _)
      have hb2 : b ∉ B2 := by
        have := (List.nodup_cons.1 (List.nodup_append.1 hnd).2.1).2
        exact (List.nodup_cons.1 (List.nodup_append.1 this).2.1).1
      have hbA : b ∉ A := fun c =>
        (List.disjoint_left.1 (List.nodup_append.1 hnd).2.2 c) (by simp)
      have hmap : (A ++ a :: (B1 ++ b :: B2)).map
          (fun x => if x = a then b else if x = b then a else x)
          = A ++ b :: (B1 ++ a :: B2) := by
        simp only [List.map_append, List.map_cons, if_true, if_neg (Ne.symm hab)]
        rw [hid A haA hbA, hid B1 (fun c => haB (by simp [c])) hb1,
          hid B2 (fun c => haB (by simp [c])) hb2]
      rw [hmap]
      exact (iter_swap_isList h).1

/-- Witness of C33: in the list `1, 2, 3, 4, 5`, `iter_swap(2, 3)` and `iter_swap(3, 2)`
give `1, 3, 2, 4, 5`, `iter_swap(2, 4)` gives `1, 4, 3, 2, 5`, and `iter_swap(2, 2)`
leaves the list as it is. -/
theorem C33_iter_swap_witness :
    IsList (iterator_operations.iter_swap mem5 2 3) 9 [1, 3, 2, 4, 5] ∧
    IsList (iterator_operations.iter_swap mem5 3 2) 9 [1, 3, 2, 4, 5] ∧
    IsList (iterator_operations.iter_swap mem5 2 4) 9 [1, 4, 3, 2, 5] ∧
    IsList (iterator_operations.iter_swap mem5 2 2) 9 [1, 2, 3, 4, 5] :=
  have h : IsList mem5 9 [1, 2, 3, 4, 5] := by decide
  ⟨(C33_iter_swap 2 3 h (by decide) (by decide)).1,
    (C33_iter_swap 3 2 h (by decide) (by decide)).1,
    (C33_iter_swap 2 4 h (by decide) (by decide)).1,
    (C33_iter_swap 2 2 h (by decide) (by decide)).1⟩

end cache_manager

namespace cache_manager

variable {T : Type}

/-- C34. `swap_ranges` on a valid circular list `A ++ R1 ++ M ++ R2 ++ B` closed by the
sentinel `s`, with `R1` and `R2` non-empty, `f1`, `f2` their first nodes and `l1`, `l2` the
nodes that follow them; `M` is empty when the ranges are adjacent.  Called with the two
ranges in either order, it yields the valid list `A ++ R2 ++ M ++ R1 ++ B`: each range
stands where the other stood in its internal order, the entries outside the ranges keep
their positions, and the links are symmetric at every node, the sentinel included. -/
theorem C34_swap_ranges {m : Mem T} {s : Ptr} (A R1 M R2 B : List Ptr) (f1 l1 f2 l2 : Ptr)
    (h : IsList m s (A ++ (R1 ++ (M ++ (R2 ++ B)))))
    (hf1 : R1.head? = some f1) (hl1 : (M ++ R2).head? = some l1)
    (hf2 : R2.head? = some f2) (hl2 : (B ++ [s]).head? = some l2) :
    IsList (iterator_operations.swap_ranges m f1 l1 f2 l2) s (A ++ (R2 ++ (M ++ (R1 ++ B)))) ∧
    IsList (iterator_operations.swap_ranges m f2 l2 f1 l1) s (A ++ (R2 ++ (M ++ (R1 ++ B)))) ∧
    (∀ E ∈ s :: (A ++ (R2 ++ (M ++ (R1 ++ B)))),
      (iterator_operations.swap_ranges m f1 l1 f2 l2).next
        ((iterator_operations.swap_ranges m f1 l1 f2 l2).prev E) = E ∧
      (iterator_operations.swap_ranges m f1 l1 f2 l2).prev
        ((iterator_operations.swap_ranges m f1 l1 f2 l2).next E) = E) ∧
    (∀ E ∈ s :: (A ++ (R2 ++ (M ++ (R1 ++ B)))),
      (iterator_operations.swap_ranges m f2 l2 f1 l1).next
        ((iterator_operations.swap_ranges m f2 l2 f1 l1).prev E) = E ∧
      (iterator_operations.swap_ranges m f2 l2 f1 l1).prev
        ((iterator_operations.swap_ranges m f2 l2 f1 l1).next E) = E) := by
  obtain ⟨x1, hx1⟩ : ∃ x1, R1.getLast? = some x1 := by
    rcases List.eq_nil_or_concat R1 with rfl | ⟨U', z, rfl⟩
    · simp at hf1
    · exact ⟨z, by simp⟩
  obtain ⟨y1, hy1⟩ : ∃ y1, R2.getLast? = some y1 := by
    rcases List.eq_nil_or_concat R2 with rfl | ⟨W', z, rfl⟩
    · simp at hf2
    · exact ⟨z, by simp⟩
  obtain ⟨u, hu⟩ : ∃ u, (s :: A).getLast? = some u := by
    rcases List.eq_nil_or_concat (s :: A) with e | ⟨P, u, e⟩
    · simp at e
    · exact ⟨u, by rw [e]; simp⟩
  suffices key : IsList (iterator_operations.swap_ranges m f1 l1 f2 l2) s
      (A ++ (R2 ++ (M ++ (R1 ++ B)))) ∧
      IsList (iterator_operations.swap_ranges m f2 l2 f1 l1) s
      (A ++ (R2 ++ (M ++ (R1 ++ B)))) from
    ⟨key.1, key.2, isList_links_symmetric key.1, isList_links_symmetric key.2⟩
  by_cases hM : M = []
  · -- adjacent ranges
    subst hM
    have hl1' : l1 = f2 := by
      simp only [List.nil_append, hf2] at hl1
      exact (Option.some.inj hl1).symm
    subst hl1'
    simp only [List.nil_append] at h ⊢
    obtain ⟨⟨-, b1⟩, ⟨-, b2⟩, ⟨-, b3⟩⟩ := isList_blocks h hf1 hx1 hf2 hy1 hu hl2
    obtain ⟨key, ⟨h1, h2, h3⟩, h4, h5, h6⟩ := isList_exchange h hf1 hx1 hf2 hy1 hu hl2
    have e1 : iterator_operations.swap_ranges m f1 l1 l1 l2
        = __link (__link (__link m u l1) y1 f1) x1 l2 := by
      simp only [iterator_operations.swap_ranges, __prev, b1, b2, b3, if_true]
    have e2 : iterator_operations.swap_ranges m l1 l2 f1 l1
        = __link (__link (__link m u l1) y1 f1) x1 l2 := by
      simp only [iterator_operations.swap_ranges, __prev, b1, b2, b3, if_true, if_neg h5]
    rw [e1, e2]
    exact ⟨key, key⟩
  · -- separated ranges
    obtain ⟨z1, hz1⟩ : ∃ z1, M.getLast? = some z1 := by
      rcases List.eq_nil_or_concat M with e | ⟨P, z, e⟩
      · exact absurd e hM
      · exact ⟨z, by rw [e]; simp⟩
    have hz0 : M.head? = some l1 := by
      cases M with
      | nil => exact absurd rfl hM
      | cons a M' => exact hl1
    obtain ⟨far, ⟨d1, d2, d3, d4, d5, d6⟩, ⟨c1, c2, c3, c4, c5, c6⟩, ⟨j1, j2, j3, j4, j5, j6, -, -⟩⟩ :=
      isList_exchange_far h hf1 hx1 hz0 hz1 hf2 hy1 hu hl2
    have c3' := Ne.symm c3
    have c4' := Ne.symm c4
    have c1' := Ne.symm c1
    refine ⟨far _ ?_ ?_, far _ ?_ ?_⟩
    · intro q
      simp only [iterator_operations.swap_ranges, __prev, j1, j3, j5, j6, if_neg c3,
        if_neg c4, if_true, ne_eq, c1, not_false_eq_true, true_or, link_next]
      by_cases k1 : q = u
      · rw [k1]; simp [d1, d2, d3]
      by_cases k2 : q = y1
      · rw [k2]; simp [Ne.symm d4, d6, Ne.symm d2]
      by_cases k3 : q = z1
      · rw [k3]; simp [Ne.symm d5, Ne.symm d3, Ne.symm d6]
      simp [k1, k2, k3]
    · intro q
      simp only [iterator_operations.swap_ranges, __prev, j1, j3, j5, j6, if_neg c3,
        if_neg c4, if_true, ne_eq, c1, not_false_eq_true, true_or, link_prev]
      by_cases k1 : q = f2
      · rw [k1]; simp [c5, Ne.symm c1, c3]
      by_cases k2 : q = l1
      · rw [k2]; simp [c6, Ne.symm c2, Ne.symm c3]
      by_cases k3 : q = f1
      · rw [k3]; simp [c4, c1, c2]
      simp [k1, k2, k3]
    · intro q
      simp only [iterator_operations.swap_ranges, __prev, j1, j3, j5, j6, if_neg c4,
        if_neg c3, if_true, ne_eq, c1', not_false_eq_true, true_or, link_next]
      by_cases k1 : q = u
      · rw [k1]; simp [d1, d2, d3]
      by_cases k2 : q = y1
      · rw [k2]; simp [Ne.symm d4, d6, Ne.symm d2]
      by_cases k3 : q = z1
      · rw [k3]; simp [Ne.symm d5, Ne.symm d3, Ne.symm d6]
      simp [k1, k2, k3]
    · intro q
      simp only [iterator_operations.swap_ranges, __prev, j1, j3, j5, j6, if_neg c4,
        if_neg c3, if_true, ne_eq, c1', not_false_eq_true, true_or, link_prev]
      by_cases k1 : q = f2
      · rw [k1]; simp [c5, Ne.symm c1, c3]
      by_cases k2 : q = l1
      · rw [k2]; simp [c6, Ne.symm c2, Ne.symm c3]
      by_cases k3 : q = f1
      · rw [k3]; simp [c4, c1, c2]
      simp [k1, k2, k3]

/-- Witness of C34: in the list `1, 2, 3, 4, 5`, exchanging the separated ranges `[1, 3)`
and `[4, 5)` gives `4, 3, 1, 2, 5` with the arguments in either order, and exchanging the
adjacent ranges `[2, 3)` and `[3, 5)` gives `1, 3, 4, 2, 5`. -/
theorem C34_swap_ranges_witness :
    (IsList (iterator_operations.swap_ranges mem5 1 3 4 5) 9 [4, 3, 1, 2, 5] ∧
      IsList (iterator_operations.swap_ranges mem5 4 5 1 3) 9 [4, 3, 1, 2, 5]) ∧
    (IsList (iterator_operations.swap_ranges mem5 2 3 3 5) 9 [1, 3, 4, 2, 5] ∧
      IsList (iterator_operations.swap_ranges mem5 3 5 2 3) 9 [1, 3, 4, 2, 5]) :=
  let h := C34_swap_ranges (m := mem5) (s := 9) [] [1, 2] [3] [4] [5] 1 3 4 5 (by decide)
    rfl rfl rfl rfl
  let k := C34_swap_ranges (m := mem5) (s := 9) [1] [2] [] [3, 4] [5] 2 3 3 5 (by decide)
    rfl rfl rfl rfl
  ⟨⟨h.1, h.2.1⟩, ⟨k.1, k.2.1⟩⟩

end cache_manager

namespace cache_manager

variable {T : Type}

/-- C35. `reverse(first, last)` on a valid circular list `A ++ R ++ B` closed by the
sentinel `s`, with `R` non-empty, `first` its first node and `last` the node that follows it:
with fuel for the nodes of `R` the call returns, and the result is the valid list
`A ++ R.reverse ++ B`: the entries of the range stand in the opposite order between the same
two neighbours, the entries outside the range keep their positions, and the links are
symmetric at every node, the sentinel included.  A second `reverse` over the same entries,
which now start at the former last node `prev(last)` of the range, returns and restores the
list `A ++ R ++ B`. -/
theorem C35_reverse {m : Mem T} {s : Ptr} (A R B : List Ptr) (first last : Ptr) (fuel : Nat)
    (h : IsList m s (A ++ (R ++ B))) (hf : R.head? = some first)
    (hl : (B ++ [s]).head? = some last) (hfuel : R.length ≤ fuel) :
    ∃ m' m'', iterator_operations.reverse fuel m first last = some m' ∧
      IsList m' s (A ++ (R.reverse ++ B)) ∧
      (∀ E ∈ s :: (A ++ (R ++ B)), m'.next (m'.prev E) = E ∧ m'.prev (m'.next E) = E) ∧
      R.getLast? = some (m.prev last) ∧
      iterator_operations.reverse fuel m' (m.prev last) last = some m'' ∧
      IsList m'' s (A ++ (R ++ B)) := by
  obtain ⟨m', hrun, hlist, hlast, -, -⟩ := reverse_isList h hf hl fuel hfuel
  have hf2 : R.reverse.head? = some (m.prev last) := by
    rw [List.head?_reverse]; exact hlast
  obtain ⟨m'', hrun2, hlist2, -, -, -⟩ :=
    reverse_isList hlist hf2 hl fuel (by rw [List.length_reverse]; exact hfuel)
  rw [List.reverse_reverse] at hlist2
  refine ⟨m', m'', hrun, hlist, fun E hE => isList_links_symmetric hlist E ?_, hlast, hrun2,
    hlist2⟩
  simpa using hE

/-- Witness of C35: in the list `1, 2, 3, 4, 5`, reversing the range `[2, 5)` gives
`1, 4, 3, 2, 5`, and reversing the range `[4, 5)` of the result gives `1, 2, 3, 4, 5`
again. -/
theorem C35_reverse_witness :
    ∃ m' m'', iterator_operations.reverse 3 mem5 2 5 = some m' ∧
      IsList m' 9 [1, 4, 3, 2, 5] ∧
      iterator_operations.reverse 3 m' 4 5 = some m'' ∧ IsList m'' 9 [1, 2, 3, 4, 5] :=
  let ⟨m', m'', h1, h2, _, _, h5, h6⟩ :=
    C35_reverse (m := mem5) (s := 9) [1] [2, 3, 4] [5] 2 5 3 (by decide) rfl rfl (by decide)
  ⟨m', m'', h1, h2, h5, h6⟩

end cache_manager

namespace cache_manager

variable {T : Type}

/-- C36. Sentinel fix-up on ownership transfer. The manager `other` holds the replacement
order `L` (empty or not) around its sentinel, the manager `c` holds the order `L2` around
its own, the two managers are different objects with separate entries, and `self` is a
fresh address.  Move construction at `self` and move assignment to `c` yield a manager
whose sentinel is `self`, respectively the sentinel of `c`, whose list around that sentinel
is the valid list `L` (so its first and last entries link to the new sentinel, and the
sentinel is its own successor and predecessor when `L` is empty), whose order from
`begin()` to `end()` is `L`, and whose weight and capacity are those of `other`; move
assignment leaves `other` empty with weight and capacity zero.  `swap` exchanges the
orders, the weights and the capacities of the two managers. -/
theorem C36_ownership_transfer {m : Mem T} (c other : cache_manager T) (L L2 : List Ptr)
    (self : Ptr) (h : IsList m other._first L) (h2 : IsList m c._first L2)
    (hself : self ∉ other._first :: L) (hne : c._first ≠ other._first)
    (hcL : c._first ∉ L) (hoL2 : other._first ∉ L2) (hdisj : ∀ q ∈ L, q ∉ L2) :
    ((other.move_construct m self).1._first = self ∧
      IsList (other.move_construct m self).2 self L ∧
      (∀ fuel, L.length < fuel →
        (other.move_construct m self).1.order (other.move_construct m self).2 fuel = some L) ∧
      (other.move_construct m self).1.weight = other.weight ∧
      (other.move_construct m self).1.capacity = other.capacity) ∧
    ((c.move_assign other m).1._first = c._first ∧
      IsList (c.move_assign other m).2.2 c._first L ∧
      (∀ fuel, L.length < fuel →
        (c.move_assign other m).1.order (c.move_assign other m).2.2 fuel = some L) ∧
      (c.move_assign other m).1.weight = other.weight ∧
      (c.move_assign other m).1.capacity = other.capacity ∧
      (c.move_assign other m).2.1._first = other._first ∧
      IsList (c.move_assign other m).2.2 other._first [] ∧
      (c.move_assign other m).2.1.weight = 0 ∧
      (c.move_assign other m).2.1.capacity = 0) ∧
    ((c.swap other m).1._first = c._first ∧
      (c.swap other m).2.1._first = other._first ∧
      IsList (c.swap other m).2.2 c._first L ∧
      IsList (c.swap other m).2.2 other._first L2 ∧
      (∀ fuel, L.length < fuel →
        (c.swap other m).1.order (c.swap other m).2.2 fuel = some L) ∧
      (∀ fuel, L2.length < fuel →
        (c.swap other m).2.1.order (c.swap other m).2.2 fuel = some L2) ∧
      (c.swap other m).1.weight = other.weight ∧
      (c.swap other m).1.capacity = other.capacity ∧
      (c.swap other m).2.1.weight = c.weight ∧
      (c.swap other m).2.1.capacity = c.capacity) := by
  have hso : self ≠ other._first := fun e => hself (e ▸ List.mem_cons_self _ _)
  have hsL : self ∉ L := fun e => hself (List.mem_cons_of_mem _ e)
  have hoL := isList_not_mem h
  have hcL2 := isList_not_mem h2
  refine ⟨?_, ?_, ?_⟩
  · -- move construction
    obtain ⟨k1, -, -, -⟩ := fix_first_isList (z := m) (o := other._first) (L := L)
      (m := { first := Function.update m.first self (m.first other._first)
              prev := Function.update m.prev self (m.prev other._first)
              next := Function.update m.next self (m.next other._first)
              weight := Function.update m.weight self (m.weight other._first) })
      { _capacity := other._capacity, _first := self, _weight := other._weight,
        _weigher := other._weigher, _policy := other._policy }
      h hsL (by simp) (by simp)
      (fun q hq => by
        have : q ≠ self := fun e => hsL (e ▸ hq)
        simp [Function.update_apply, this])
    exact ⟨rfl, k1, fun fuel hf => walk_isList k1 fuel hf, rfl, rfl⟩
  · -- move assignment
    obtain ⟨k1, k2, -, -⟩ := fix_first_isList (z := m) (o := other._first) (L := L)
      (m := __link { m with
              prev := Function.update m.prev c._first (m.prev other._first)
              next := Function.update m.next c._first (m.next other._first)
              weight := Function.update m.weight c._first (m.weight other._first) }
            other._first other._first)
      { _capacity := other._capacity, _first := c._first, _weight := other._weight,
        _weigher := other._weigher, _policy := other._policy }
      h hcL (by simp [link_next, hne]) (by simp [link_prev, hne])
      (fun q hq => by
        have e1 : q ≠ c._first := fun e => hcL (e ▸ hq)
        have e2 : q ≠ other._first := fun e => hoL (e ▸ hq)
        simp [link_next, link_prev, Function.update_apply, e1, e2])
    refine ⟨rfl, k1, fun fuel hf => walk_isList k1 fuel hf, rfl, rfl, rfl, ?_, rfl, rfl⟩
    obtain ⟨k3, k4⟩ := k2 other._first (Ne.symm hne) hoL
    refine ⟨⟨⟨?_, ?_⟩, trivial⟩, by simp⟩
    · exact k3.trans (by rw [link_next, if_pos rfl])
    · exact k4.trans (by rw [link_prev, if_pos rfl])
  · -- swap
    obtain ⟨k1, k2, -, -⟩ := fix_first_isList (z := m) (o := other._first) (L := L)
      (m := { m with
          prev := Function.update (Function.update m.prev c._first (m.prev other._first))
            other._first (m.prev c._first)
          next := Function.update (Function.update m.next c._first (m.next other._first))
            other._first (m.next c._first)
          weight := Function.update (Function.update m.weight c._first (m.weight other._first))
            other._first (m.weight c._first) })
      c h hcL (by simp [Function.update_apply, hne]) (by simp [Function.update_apply, hne])
      (fun q hq => by
        have e1 : q ≠ c._first := fun e => hcL (e ▸ hq)
        have e2 : q ≠ other._first := fun e => hoL (e ▸ hq)
        simp [Function.update_apply, e1, e2])
    obtain ⟨k3, k4⟩ := k2 other._first (Ne.symm hne) hoL
    obtain ⟨k5, k6, -, -⟩ := fix_first_isList (z := m) (o := c._first) (L := L2)
      (m := c._fix_first { m with
          prev := Function.update (Function.update m.prev c._first (m.prev other._first))
            other._first (m.prev c._first)
          next := Function.update (Function.update m.next c._first (m.next other._first))
            other._first (m.next c._first)
          weight := Function.update (Function.update m.weight c._first (m.weight other._first))
            other._first (m.weight c._first) } other._first)
      other h2 hoL2 (by rw [k3]; simp) (by rw [k4]; simp)
      (fun q hq => by
        have e1 : q ≠ c._first := fun e => hcL2 (e ▸ hq)
        have e2 : q ≠ other._first := fun e => hoL2 (e ▸ hq)
        have e3 : q ∉ L := fun e => hdisj q e hq
        obtain ⟨k7, k8⟩ := k2 q e1 e3
        rw [k7, k8]
        simp [Function.update_apply, e1, e2])
    have k9 : IsList (c.swap other m).2.2 c._first L := by
      refine extended_containers.limited.unordered_map.isList_frame k1 (fun q hq => ?_)
        (fun q hq => ?_)
      · have e1 : q ≠ other._first := by
          rcases List.mem_cons.1 hq with e | e
          · exact e ▸ hne
          · exact fun e' => hoL (e' ▸ e)
        have e2 : q ∉ L2 := by
          rcases List.mem_cons.1 hq with e | e
          · exact e ▸ hcL2
          · exact hdisj q e
        exact (k6 q e1 e2).1
      · have e1 : q ≠ other._first := by
          rcases List.mem_cons.1 hq with e | e
          · exact e ▸ hne
          · exact fun e' => hoL (e' ▸ e)
        have e2 : q ∉ L2 := by
          rcases List.mem_cons.1 hq with e | e
          · exact e ▸ hcL2
          · exact hdisj q e
        exact (k6 q e1 e2).2
    exact ⟨rfl, rfl, k9, k5, fun fuel hf => walk_isList k9 fuel hf,
      fun fuel hf => walk_isList k5 fuel hf, rfl, rfl, rfl, rfl⟩

/-- Witness of C36: with the order `1, 2, 3` around the sentinel `9` of a manager of weight
`3` and capacity `5`, and the order `4, 5` around the sentinel `8` of a manager of weight
`2` and capacity `7`: move construction at the address `7` and move assignment to the
second manager give the order `1, 2, 3` around `7`, respectively `8`, and `swap` gives the
order `1, 2, 3` around `8` and the order `4, 5` around `9`. -/
theorem C36_ownership_transfer_witness :
    IsList ((mgr123 .lru).move_construct mem123_45 7).2 7 [1, 2, 3] ∧
    IsList ((mgr45 .lru).move_assign (mgr123 .lru) mem123_45).2.2 8 [1, 2, 3] ∧
    IsList ((mgr45 .lru).swap (mgr123 .lru) mem123_45).2.2 8 [1, 2, 3] ∧
    IsList ((mgr45 .lru).swap (mgr123 .lru) mem123_45).2.2 9 [4, 5] ∧
    ((mgr45 .lru).swap (mgr123 .lru) mem123_45).1.weight = 3 ∧
    ((mgr45 .lru).swap (mgr123 .lru) mem123_45).2.1.capacity = 7 :=
  let h := C36_ownership_transfer (m := mem123_45) (mgr45 .lru) (mgr123 .lru) [1, 2, 3]
    [4, 5] 7 (by decide) (by decide) (by decide) (by decide) (by decide) (by decide)
    (by decide)
  ⟨h.1.2.1, h.2.1.2.1, h.2.2.2.2.1, h.2.2.2.2.2.1, h.2.2.2.2.2.2.2.2.1,
    h.2.2.2.2.2.2.2.2.2.2.2⟩

end cache_manager

namespace extended_containers

namespace limited

namespace unordered_map

open cache_manager

/-- C2 fails after move construction. The full LRU map `a` with the entries `1, 2, 3` in the
replacement order `2, 3, 1` is valid; `unordered_map b(std::move(a))`, with the manager of
`b` at the address `7`, gives a valid map `b` with that order, but leaves `a` with an empty
index, `size() = 0` and `weight() = 3`, and with a sentinel that still points to the entry
`2` while the ring through the entries closes on the sentinel of `b`: `replacement_begin()`
is not `replacement_end()`, the walk from `replacement_begin()` never reaches
`replacement_end()` whatever the fuel, and `a` is valid for no replacement order.  The
sibling path resets the source: after the move assignment of `cache_manager` the source
manager holds the empty list and has weight zero. -/
theorem C2_moved_from_map_breaks_membership :
    (map231 (.plain .lru)).Valid [2, 3, 1] ∧
    ((map231 (.plain .lru)).move_construct 7).1.Valid [2, 3, 1] ∧
    ((map231 (.plain .lru)).move_construct 7).2.size = 0 ∧
    ((map231 (.plain .lru)).move_construct 7).2.weight = 3 ∧
    ((map231 (.plain .lru)).move_construct 7).2.replacement_begin = 2 ∧
    ((map231 (.plain .lru)).move_construct 7).2.replacement_end = 9 ∧
    ((map231 (.plain .lru)).move_construct 7).2.mem.next 1 = 7 ∧
    (∀ fuel, ((map231 (.plain .lru)).move_construct 7).2.replacement_order fuel = none) ∧
    (∀ L, ¬ ((map231 (.plain .lru)).move_construct 7).2.Valid L) ∧
    IsList ((mgr45 .lru).move_assign (mgr123 .lru) mem123_45).2.2 9 [] ∧
    ((mgr45 .lru).move_assign (mgr123 .lru) mem123_45).2.1.weight = 0 := by
  refine ⟨by decide, by decide, by decide, by decide, by decide, by decide, by decide, ?_, ?_,
    by decide, by decide⟩
  · intro fuel
    exact walk_none_of_closed _ 9 [2, 3, 1, 7] (by decide) (by decide) fuel 2 (by decide)
  · intro L hv
    have hL : L = [] := List.Perm.eq_nil hv.2.1
    subst hL
    exact absurd hv.1 (by decide)

end unordered_map

end limited

end extended_containers

namespace cache_manager

variable {T : Type}

/-- C30 fails on the list whose only entry is the excluded one, under the Priority policy.
On a valid list `L` that holds `x`, `next_except(x)` unlinks `x` and calls the policy on the
remaining list without testing whether it is empty; the assertion `first != last` of
`priority_policy::erase_position` fails, and the call aborts instead of returning `end()`,
exactly when the policy is a `priority_policy` and `x` is the only entry of `L`. -/
theorem C30_next_except_assertion (c : cache_manager T) (m : Mem T) (L : List Ptr) (x : Ptr)
    (h : IsList m c._first L) (hx : x ∈ L) :
    c.next_except_asserts m x = false ↔
      (∃ par prio, c._policy = .priority_policy par prio) ∧ L = [x] := by
  obtain ⟨A, B, rfl⟩ := List.append_of_mem hx
  have hm1 : IsList (__link m (m.prev x) (m.next x)) c._first (A ++ B) := isList_unlink h
  have hne : ¬ c.cbegin m = c.cend := by
    intro hc
    have hhead := (isList_sentinel h).1
    have hc' : m.next c._first = c._first := hc
    rw [hc'] at hhead
    cases A with
    | nil =>
      have e : x = c._first := by simpa using hhead
      exact isList_not_mem h (by simp [e])
    | cons y Y =>
      have e : y = c._first := by simpa using hhead
      exact isList_not_mem h (by simp [e])
  have hempty : (__link m (m.prev x) (m.next x)).next c._first = c._first ↔ A ++ B = [] := by
    have hhead := (isList_sentinel hm1).1
    constructor
    · intro e
      rw [e] at hhead
      by_contra hnil
      rw [List.head?_append_of_ne_nil _ hnil] at hhead
      exact isList_not_mem hm1 (mem_of_head? hhead)
    · intro e
      rw [e] at hhead
      simpa using hhead.symm
  have hshape : A ++ B = [] ↔ A ++ x :: B = [x] := by
    constructor
    · intro e
      rw [(List.append_eq_nil.1 e).1, (List.append_eq_nil.1 e).2]
      rfl
    · intro e
      cases A with
      | nil =>
        simp only [List.nil_append, List.cons.injEq, true_and] at e
        rw [e]; rfl
      | cons y Y =>
        simp only [List.cons_append, List.cons.injEq] at e
        exact absurd e.2 (by simp)
  unfold cache_manager.next_except_asserts
  rw [if_neg hne]
  cases hpol : c._policy with
  | plain p =>
    simp [policy.policy_extractor.erase_position_asserts, policy.provides_erase_v]
  | locked_policy p locker =>
    simp [policy.policy_extractor.erase_position_asserts, policy.provides_erase_v]
  | priority_policy p prio =>
    simp only [policy.policy_extractor.erase_position_asserts, policy.provides_erase_v,
      if_true, policy.priority_policy.erase_position_assert, cache_manager.cbegin,
      cache_manager.cend, __next, __prev, decide_eq_false_iff_not, ne_eq, not_not, hempty,
      hshape]
    constructor
    · intro e
      exact ⟨⟨p, prio, rfl⟩, e⟩
    · intro e
      exact e.2

/-- Witness of C30: on the list whose only entry is `1`, under the Priority policy,
`next_except(1)` fails the assertion of the policy; with the assertions compiled out it
returns `end()`, the sentinel `9`. -/
theorem C30_next_except_assertion_witness :
    IsList (extended_containers.limited.map4 (.priority_policy .fifo (fun _ => 1))).mem 9 [1] ∧
    (extended_containers.limited.map4 (.priority_policy .fifo (fun _ => 1)))._manager.next_except_asserts
      (extended_containers.limited.map4 (.priority_policy .fifo (fun _ => 1))).mem 1 = false ∧
    ((extended_containers.limited.map4 (.priority_policy .fifo (fun _ => 1)))._manager.next_except
      (extended_containers.limited.map4 (.priority_policy .fifo (fun _ => 1))).mem 2 1).map
        Prod.fst = some 9 :=
  ⟨by decide,
    (C30_next_except_assertion
      (extended_containers.limited.map4 (.priority_policy .fifo (fun _ => 1)))._manager
      (extended_containers.limited.map4 (.priority_policy .fifo (fun _ => 1))).mem [1] 1
      (by decide) (by decide)).2 ⟨⟨.fifo, fun _ => 1, rfl⟩, rfl⟩,
    by decide⟩

end cache_manager
